import Mathlib

/-!
# Emojicode compiler core and runtime: verification development

A shallow embedding of the reference-counting runtime (`runtime/main.cpp`) and of the
analysis passes of the compiler (`Compiler/...`), followed by theorems about them.

Conventions of the embedding:
* a C++ object whose fields are mutated becomes a structure that is passed and returned;
* `throw CompilerError(...)` becomes the `Except.error` outcome, while an error handed to
  `analyser->error(...)` / `compiler->error(...)` is appended to a list of recorded errors;
* the counters of the runtime are integers (`Int`); the count that `ejcRetain` and
  `ejcRelease` update is the 64-bit two's-complement word of the source, whose arithmetic
  wraps around (`wrap64`), and theorems that depend on the range of a counter bound the
  number of calls;
* code of the repository that is not part of the sources at hand (the `Type` class, the
  expression analysis, ...) is taken as a parameter of the definitions that call it; the
  few definitions that stand for such code themselves say so in their comment.
-/

namespace Runtime

/-! ## Reference counting (`runtime/main.cpp`) -/

/-- The value of `object->controlBlock()`: `nullptr` (the object carries an embedded local
count), `&ejcIgnoreBlock` (the object is exempt from counting) or a real control block. -/
inductive BlockPtr where
  | null
  | ignoreBlock
  | real
  deriving DecidableEq, Repr

/-- The counters of `runtime::internal::ControlBlock`. -/
structure ControlBlock where
  strongCount : Int
  weakCount : Int
  deriving DecidableEq, Repr

/-- One object as the runtime sees it, together with the observable effects of the calls
made on it.  `localCount` is the `int64_t` word eight bytes before the object, `block` is
the control block `controlBlock` points to (`ejcIgnoreBlock` itself when the pointer is the
sentinel).  `destructorCalls`, `blockDeletes` and `frees` count the executions of
`object->classInfo()->destructor(object)`, `delete block` and `free(object)`. -/
structure Object where
  controlBlock : BlockPtr
  localCount : Int
  block : ControlBlock
  destructorCalls : Nat
  blockDeletes : Nat
  frees : Nat
  deriving DecidableEq, Repr

/-- The call `object->classInfo()->destructor(object)`. -/
def Object.destructor (o : Object) : Object :=
  { o with destructorCalls := o.destructorCalls + 1 }

/-- The call `free(object)`. -/
def Object.free (o : Object) : Object :=
  { o with frees := o.frees + 1 }

/-- The value that a 64-bit two's-complement word (`int64_t`, `std::atomic<int64_t>`) holds
after an operation whose result on the integers is `x`: the integer of
`[-2^63, 2^63)` that is congruent to `x` modulo `2^64`.  So `INT64_MAX + 1` is
`INT64_MIN`. -/
def wrap64 (x : Int) : Int :=
  (x + 2 ^ 63) % 2 ^ 64 - 2 ^ 63

/-- Function `ejcRetain`: `(*ptr)++` on the embedded `int64_t`, `fetch_add(1)` on the strong
count of a real control block. -/
def ejcRetain (o : Object) : Object :=
  match o.controlBlock with
  | .null => { o with localCount := wrap64 (o.localCount + 1) }
  | .ignoreBlock => o
  | .real =>
    { o with block := { o.block with strongCount := wrap64 (o.block.strongCount + 1) } }

/-- Function `releaseLocal`: decrements the embedded count and tells whether it is now zero. -/
def releaseLocal (o : Object) : Bool × Object :=
  let ptr := wrap64 (o.localCount - 1)
  (ptr == 0, { o with localCount := ptr })

/-- Function `deleteControlBlock`: the block is deleted only when no weak reference is left. -/
def deleteControlBlock (o : Object) : Object :=
  if o.block.weakCount == 0 then { o with blockDeletes := o.blockDeletes + 1 } else o

/-- Function `ejcRelease`.  `fetch_sub(1) - 1` is the new value of the strong count. -/
def ejcRelease (o : Object) : Object :=
  match o.controlBlock with
  | .null =>
    let r := releaseLocal o
    if r.1 then r.2.destructor else r.2
  | .ignoreBlock => o
  | .real =>
    let o1 :=
      { o with block := { o.block with strongCount := wrap64 (o.block.strongCount - 1) } }
    if wrap64 (o.block.strongCount - 1) != 0 then o1
    else (deleteControlBlock o1.destructor).free

/-- The strong count of an object: the embedded word for a local object, the control
block's `strongCount` otherwise. -/
def Object.strong (o : Object) : Int :=
  match o.controlBlock with
  | .null => o.localCount
  | _ => o.block.strongCount

/-- A call of the strong reference-counting interface. -/
inductive RcCall where
  | retain
  | release
  deriving DecidableEq, Repr

/-- Performs one call on the object. -/
def RcCall.apply : RcCall → Object → Object
  | .retain, o => ejcRetain o
  | .release, o => ejcRelease o

/-- Performs a sequence of calls on the object, first call first. -/
def runCalls (o : Object) (calls : List RcCall) : Object :=
  calls.foldl (fun acc c => c.apply acc) o

/-- A sequence is matched when none of its initial segments releases more often than it
has retained plus the one initial reference. -/
def Matched (calls : List RcCall) : Prop :=
  ∀ k : Nat, k ≤ calls.length →
    (calls.take k).count RcCall.release ≤ (calls.take k).count RcCall.retain + 1

instance (calls : List RcCall) : Decidable (Matched calls) := by
  unfold Matched; infer_instance

/-- No initial segment of the sequence retains so often that the count of an object that
starts with one reference would pass `INT64_MAX = 2^63 - 1`. -/
def WithinInt64 (calls : List RcCall) : Prop :=
  ∀ k : Nat, k ≤ calls.length →
    (calls.take k).count RcCall.retain + 1 < (calls.take k).count RcCall.release + 2 ^ 63

instance (calls : List RcCall) : Decidable (WithinInt64 calls) := by
  unfold WithinInt64; infer_instance

/-! ## Weak references (`runtime/main.cpp`) -/

/-- The `struct WeakReference`.  `block` is `nullptr` or the control block pointer of the
object the reference was created for, `object` is the address stored as `void *object`. -/
structure WeakReference where
  block : BlockPtr
  object : Nat
  deriving DecidableEq, Repr

/-- Function `releaseWeakReference`, called with `ref->block` pointing to the block of `o`. -/
def releaseWeakReference (ref : WeakReference) (o : Object) : WeakReference × Object :=
  let o1 := { o with block := { o.block with weakCount := o.block.weakCount - 1 } }
  let o2 := if o1.block.strongCount == 0 then deleteControlBlock o1 else o1
  ({ ref with block := .null }, o2)

/-- Function `ejcCreateWeak` for the object `o` stored at `address`.  The function
dereferences `object->controlBlock()`: for an object without control block there is no
defined result (`none`). -/
def ejcCreateWeak (ref : WeakReference) (address : Nat) (o : Object) :
    Option (WeakReference × Object) :=
  match o.controlBlock with
  | .null => none
  | ptr =>
    let ref1 := { ref with object := address }
    let o1 := { o with block := { o.block with weakCount := o.block.weakCount + 1 } }
    some ({ ref1 with block := ptr }, o1)

/-- Function `ejcRetainWeak`, the non-null `ref->block` pointing to the block of `o`. -/
def ejcRetainWeak (ref : WeakReference) (o : Object) : Object :=
  if ref.block != .null then
    { o with block := { o.block with weakCount := o.block.weakCount + 1 } }
  else o

/-- Function `ejcReleaseWeak`, the non-null `ref->block` pointing to the block of `o`. -/
def ejcReleaseWeak (ref : WeakReference) (o : Object) : WeakReference × Object :=
  if ref.block != .null then releaseWeakReference ref o else (ref, o)

/-- Function `ejcAcquireStrong`, the non-null `ref->block` pointing to the block of `o`.
The first component is the returned `SimpleOptional<void*>` (`none` for `NoValue`). -/
def ejcAcquireStrong (ref : WeakReference) (o : Object) : Option Nat × WeakReference × Object :=
  if ref.block == .null then (none, ref, o)
  else if o.block.strongCount == 0 then
    let r := releaseWeakReference ref o
    (none, r.1, r.2)
  else
    (some ref.object,
      ref, { o with block := { o.block with strongCount := o.block.strongCount + 1 } })

/-- One object at `address` together with the weak reference slots of the program. -/
structure Heap where
  object : Object
  address : Nat
  refs : List WeakReference
  deriving DecidableEq, Repr

/-- A call of the reference-counting interface on the object of a heap; the weak calls name
the slot holding the `WeakReference` they are given. -/
inductive HeapCall where
  | retain
  | release
  | createWeak (ref : Nat)
  | retainWeak (ref : Nat)
  | releaseWeak (ref : Nat)
  | acquireStrong (ref : Nat)
  deriving DecidableEq, Repr

/-- Tells whether a call may read through the reference: a null reference is not
dereferenced, any other points to the control block, which must not have been deleted. -/
def Heap.readable (h : Heap) (ref : WeakReference) : Bool :=
  ref.block == .null || h.object.blockDeletes == 0

/-- Performs one call.  The result is `none` where the call has no defined behaviour: it
names a slot that does not exist, passes an object that `free` has already returned to the
allocator (`ejcRetain`, `ejcRelease` and `ejcCreateWeak` read the object), or reads a
deleted control block through a weak reference. -/
def Heap.step (h : Heap) : HeapCall → Option Heap
  | .retain => if h.object.frees = 0 then some { h with object := ejcRetain h.object } else none
  | .release => if h.object.frees = 0 then some { h with object := ejcRelease h.object } else none
  | .createWeak i =>
    match h.refs[i]? with
    | none => none
    | some ref =>
      if h.object.frees = 0 then
        match ejcCreateWeak ref h.address h.object with
        | none => none
        | some r => some { h with object := r.2, refs := h.refs.set i r.1 }
      else none
  | .retainWeak i =>
    match h.refs[i]? with
    | none => none
    | some ref =>
      if h.readable ref then some { h with object := ejcRetainWeak ref h.object } else none
  | .releaseWeak i =>
    match h.refs[i]? with
    | none => none
    | some ref =>
      if h.readable ref then
        let r := ejcReleaseWeak ref h.object
        some { h with object := r.2, refs := h.refs.set i r.1 }
      else none
  | .acquireStrong i =>
    match h.refs[i]? with
    | none => none
    | some ref =>
      if h.readable ref then
        let r := ejcAcquireStrong ref h.object
        some { h with object := r.2.2, refs := h.refs.set i r.2.1 }
      else none

/-- Performs a sequence of calls, first call first. -/
def Heap.run : Heap → List HeapCall → Option Heap
  | h, [] => some h
  | h, c :: cs =>
    match h.step c with
    | none => none
    | some h1 => h1.run cs

/-- The number of slots that hold a live (non-null) weak reference. -/
def Heap.liveRefs (h : Heap) : Nat :=
  h.refs.countP (fun ref => ref.block != .null)

/-- A heap right after the allocation of its object: the object has a control block of
its own with a positive strong count and no weak references, nothing has been deleted or
freed, and every weak reference slot is null. -/
def Heap.Fresh (h : Heap) : Prop :=
  h.object.controlBlock = .real ∧ 0 < h.object.block.strongCount ∧
    h.object.block.weakCount = 0 ∧ h.object.blockDeletes = 0 ∧ h.object.frees = 0 ∧
    ∀ ref ∈ h.refs, ref.block = .null

instance (h : Heap) : Decidable h.Fresh := by
  unfold Heap.Fresh; infer_instance

/-- Both counters of the control block are zero. -/
def Heap.bothZero (h : Heap) : Prop :=
  h.object.block.strongCount = 0 ∧ h.object.block.weakCount = 0

instance (h : Heap) : Decidable h.bothZero := by
  unfold Heap.bothZero; infer_instance

/-- The invariant of the heaps reached from a fresh one by fewer calls than would take
the strong count past `INT64_MAX`: the object has a control block, the strong count is
not negative and a value of `int64_t`, there are at least as many counted weak references
as live slots, the object has been freed exactly when its strong count is zero, and the
control block has been deleted (once) exactly when both counters are zero. -/
def Heap.Inv (h : Heap) : Prop :=
  h.object.controlBlock = .real ∧ 0 ≤ h.object.block.strongCount ∧
    h.object.block.strongCount < 2 ^ 63 ∧
    (h.liveRefs : Int) ≤ h.object.block.weakCount ∧
    (h.object.frees = 0 ↔ 0 < h.object.block.strongCount) ∧
    h.object.blockDeletes = if h.bothZero then 1 else 0

/-! ## Protocol conformance tables and generic arguments (`runtime/main.cpp`) -/

/-- The `struct ProtocolConformanceEntry`; both fields are addresses, `0` being `nullptr`. -/
structure ProtocolConformanceEntry where
  protocolId : Nat
  protocolConformance : Nat
  deriving DecidableEq, Repr

/-- Function `ejcFindProtocolConformance`.  The list holds the entries from `info` to the
end of the array; the result is the returned address (`0` for `nullptr`), or `none` when
the scan runs past the end of the array, where the behaviour is undefined. -/
def ejcFindProtocolConformance : List ProtocolConformanceEntry → Nat → Option Nat
  | [], _ => none
  | infoNew :: rest, protocolId =>
    if infoNew.protocolId = 0 then some 0
    else if infoNew.protocolId = protocolId then some infoNew.protocolConformance
    else ejcFindProtocolConformance rest protocolId

/-- The entries in front of the terminator: those before the first null protocol id. -/
def entriesBeforeTerminator (info : List ProtocolConformanceEntry) :
    List ProtocolConformanceEntry :=
  info.takeWhile (fun e => e.protocolId != 0)

/-- The array is null-terminated: one of its entries has a null protocol id. -/
def NullTerminated (info : List ProtocolConformanceEntry) : Prop :=
  ∃ e ∈ info, e.protocolId = 0

instance (info : List ProtocolConformanceEntry) : Decidable (NullTerminated info) := by
  unfold NullTerminated; infer_instance

/-- The `struct RunTimeTypeInfo`, both fields `int16_t`. -/
structure RunTimeTypeInfo where
  paramCount : Int
  paramOffset : Int
  deriving DecidableEq, Repr

/-- The `struct TypeDescription`; `rtti` is the address of a `RunTimeTypeInfo`. -/
structure TypeDescription where
  rtti : Nat
  optional : Bool
  deriving DecidableEq, Repr

/-- Pointer arithmetic on an index into an array: `p + offset`, undefined in front of the
array. -/
def advance (p : Nat) (offset : Int) : Option Nat :=
  if 0 ≤ (p : Int) + offset then some ((p : Int) + offset).toNat else none

/-- The loop of `checkGenericArgs` with `i` iterations still to run, `*argsl` and `*argsr`
being the indices `pl` and `pr` into the arrays `l` and `r`; the recursive call (the
advance by `paramOffset` followed by the loop over `paramCount` entries) is unfolded in
place.  `rttiAt` reads the `RunTimeTypeInfo` at an address.  The result holds the returned
flag and the two pointers; it is `none` when an entry is read outside its array or the
budget of entries to read is used up. -/
def checkGenericArgsLoop (rttiAt : Nat → RunTimeTypeInfo) (l r : List TypeDescription) :
    Nat → Nat → Nat → Nat → Option (Bool × Nat × Nat)
  | _, 0, pl, pr => some (true, pl, pr)
  | 0, _ + 1, _, _ => none
  | fuel + 1, i + 1, pl, pr =>
    match l[pl]?, r[pr]? with
    | some a, some b =>
      if a.rtti ≠ b.rtti ∨ a.optional ≠ b.optional then some (false, pl + 1, pr + 1)
      else
        match advance (pl + 1) (rttiAt a.rtti).paramOffset,
            advance (pr + 1) (rttiAt a.rtti).paramOffset with
        | some ql, some qr =>
          match checkGenericArgsLoop rttiAt l r fuel (rttiAt a.rtti).paramCount.toNat ql qr with
          | some (true, pl1, pr1) => checkGenericArgsLoop rttiAt l r fuel i pl1 pr1
          | other => other
        | _, _ => none
    | _, _ => none

/-- Function `checkGenericArgs`: both pointers are advanced by `argsOffset`, then the loop
runs `argsCount` times (not at all for a negative count). -/
def checkGenericArgs (rttiAt : Nat → RunTimeTypeInfo) (l r : List TypeDescription)
    (fuel : Nat) (pl pr : Nat) (argsCount argsOffset : Int) : Option (Bool × Nat × Nat) :=
  match advance pl argsOffset, advance pr argsOffset with
  | some ql, some qr => checkGenericArgsLoop rttiAt l r fuel argsCount.toNat ql qr
  | _, _ => none

/-- Function `ejcCheckGenericArgs` on the arrays `l` and `r`. -/
def ejcCheckGenericArgs (rttiAt : Nat → RunTimeTypeInfo) (l r : List TypeDescription)
    (fuel : Nat) (argsCount argsOffset : Int) : Option Bool :=
  (checkGenericArgs rttiAt l r fuel 0 0 argsCount argsOffset).map (fun g => g.1)

/-- The depth-first walk `checkGenericArgs` makes over one description for `i` remaining
arguments from index `p`: the indices of the entries it reads, in order, and the index
behind the last subtree.  It is `none` when the walk leaves the array or needs to read more
than `fuel` entries. -/
def visitedLoop (rttiAt : Nat → RunTimeTypeInfo) (d : List TypeDescription) :
    Nat → Nat → Nat → Option (List Nat × Nat)
  | _, 0, p => some ([], p)
  | 0, _ + 1, _ => none
  | fuel + 1, i + 1, p =>
    match d[p]? with
    | none => none
    | some a =>
      match advance (p + 1) (rttiAt a.rtti).paramOffset with
      | none => none
      | some q =>
        match visitedLoop rttiAt d fuel (rttiAt a.rtti).paramCount.toNat q with
        | none => none
        | some sub =>
          match visitedLoop rttiAt d fuel i sub.2 with
          | none => none
          | some rest => some (p :: sub.1 ++ rest.1, rest.2)

/-- The walk of `ejcCheckGenericArgs` over one description. -/
def visited (rttiAt : Nat → RunTimeTypeInfo) (d : List TypeDescription) (fuel : Nat)
    (argsCount argsOffset : Int) : Option (List Nat × Nat) :=
  match advance 0 argsOffset with
  | none => none
  | some q => visitedLoop rttiAt d fuel argsCount.toNat q

/-- Sample run-time type information: address 1 is a type without parameters, address 2 a
type with two generic parameters, address 3 a type with one generic parameter stored behind
one inherited argument. -/
def sampleRtti : Nat → RunTimeTypeInfo
  | 2 => ⟨2, 0⟩
  | 3 => ⟨1, 1⟩
  | _ => ⟨0, 0⟩

/-! ## The other retain and release entry points, and `ejcInheritsFrom` -/

/-- Function `ejcRetainMemory`.  The function dereferences `object->controlBlock()` unless
it is the sentinel: for an object without control block there is no defined result
(`none`). -/
def ejcRetainMemory (o : Object) : Option Object :=
  match o.controlBlock with
  | .ignoreBlock => some o
  | .null => none
  | .real => some { o with block := { o.block with strongCount := o.block.strongCount + 1 } }

/-- Function `ejcReleaseLocal`. -/
def ejcReleaseLocal (o : Object) : Object :=
  let r := releaseLocal o
  if r.1 then r.2.destructor else r.2

/-- Function `ejcReleaseMemory`: the block is deleted by `delete controlBlock` whatever its
weak count, and the destructor is not called.  No defined result for an object without
control block. -/
def ejcReleaseMemory (o : Object) : Option Object :=
  match o.controlBlock with
  | .ignoreBlock => some o
  | .null => none
  | .real =>
    let o1 := { o with block := { o.block with strongCount := o.block.strongCount - 1 } }
    if o.block.strongCount - 1 != 0 then some o1
    else some ({ o1 with blockDeletes := o1.blockDeletes + 1 }).free

/-- Function `ejcReleaseWithoutDeinit`: the pointer is only compared with `nullptr`, so
the sentinel block is treated like a real control block. -/
def ejcReleaseWithoutDeinit (o : Object) : Object :=
  match o.controlBlock with
  | .null => (releaseLocal o).2
  | _ =>
    let o1 := { o with block := { o.block with strongCount := o.block.strongCount - 1 } }
    if o.block.strongCount - 1 != 0 then o1
    else (deleteControlBlock o1).free

/-- Function `ejcInheritsFrom`.  Class infos are addresses (`0` for `nullptr`) and
`superclass` reads the field `superclass` of the class info at an address.  Each iteration
of the loop takes one unit of `fuel`; the result is `none` when the loop has not ended
within the fuel. -/
def ejcInheritsFrom (superclass : Nat → Nat) : Nat → Nat → Nat → Option Bool
  | 0, _, _ => none
  | fuel + 1, classInfoNew, «from» =>
    if classInfoNew = 0 then some false
    else if classInfoNew = «from» then some true
    else ejcInheritsFrom superclass fuel (superclass classInfoNew) «from»

/-- A sample class hierarchy: class 3 extends class 2, which extends the root class 1. -/
def sampleSuperclass : Nat → Nat
  | 3 => 2
  | 2 => 1
  | _ => 0

/-! ## Lengths and indices of type descriptions (`runtime/main.cpp`) -/

/-- The loop of `ejcTypeDescriptionLength`, with the array from `arg` on, the counter `i`
and `count` (both `runtime::Integer`, 64 bits wide; the counts stay far below that range
for every array that fits into memory).  Reading past the end of the array has no
result. -/
def typeDescriptionLengthLoop (rttiAt : Nat → RunTimeTypeInfo) :
    List TypeDescription → Int → Int → Option Int
  | [], i, count => if i < count then none else some count
  | e :: rest, i, count =>
    if i < count then
      typeDescriptionLengthLoop rttiAt rest (i + 1) (count + (rttiAt e.rtti).paramCount)
    else some count

/-- Function `ejcTypeDescriptionLength`. -/
def ejcTypeDescriptionLength (rttiAt : Nat → RunTimeTypeInfo) (arg : List TypeDescription) :
    Option Int :=
  typeDescriptionLengthLoop rttiAt arg 0 1

/-- The loop of `ejcIndexTypeDescription`; `advanced` counts the entries by which `arg` was
advanced. -/
def indexTypeDescriptionLoop (rttiAt : Nat → RunTimeTypeInfo) :
    List TypeDescription → Nat → Int → Int → Option Nat
  | [], advanced, i, index => if i < index then none else some advanced
  | e :: rest, advanced, i, index =>
    if i < index then
      indexTypeDescriptionLoop rttiAt rest (advanced + 1) (i + 1)
        (index + (rttiAt e.rtti).paramCount)
    else some advanced

/-- Function `ejcIndexTypeDescription`: the number of entries by which the returned pointer
is ahead of `arg`. -/
def ejcIndexTypeDescription (rttiAt : Nat → RunTimeTypeInfo) (arg : List TypeDescription)
    (index : Int) : Option Nat :=
  indexTypeDescriptionLoop rttiAt arg 0 0 index

/-- The reading of a flattened type description that the length and index functions are
held against: a type with its generic arguments is a tree, each node being one entry. -/
inductive TypeTree where
  | node (rtti : Nat) (optional : Bool) (args : List TypeTree)

mutual
/-- The flattened description of a type: its entry, followed by the flattened descriptions
of its generic arguments, in order. -/
def TypeTree.flatten : TypeTree → List TypeDescription
  | .node rtti optional args => ⟨rtti, optional⟩ :: TypeTree.flattenAll args
/-- The flattened descriptions of sibling types, one after the other. -/
def TypeTree.flattenAll : List TypeTree → List TypeDescription
  | [] => []
  | t :: ts => t.flatten ++ TypeTree.flattenAll ts
end

mutual
/-- The number of entries of the subtree rooted at a type. -/
def TypeTree.size : TypeTree → Nat
  | .node _ _ args => 1 + TypeTree.sizeAll args
/-- The total number of entries of sibling subtrees. -/
def TypeTree.sizeAll : List TypeTree → Nat
  | [] => 0
  | t :: ts => t.size + TypeTree.sizeAll ts
end

mutual
/-- A tree is well-formed for the run-time type information when every entry has as many
generic arguments as its `paramCount` says. -/
def TypeTree.wellFormed (rttiAt : Nat → RunTimeTypeInfo) : TypeTree → Bool
  | .node rtti _ args =>
    decide ((rttiAt rtti).paramCount = args.length) && TypeTree.allWellFormed rttiAt args
/-- All sibling trees are well-formed. -/
def TypeTree.allWellFormed (rttiAt : Nat → RunTimeTypeInfo) : List TypeTree → Bool
  | [] => true
  | t :: ts => t.wellFormed rttiAt && TypeTree.allWellFormed rttiAt ts
end

end Runtime

namespace EmojicodeCompiler

/-! ## Types, source positions and compiler errors -/

/-- A position in the source text (`SourcePosition`). -/
structure SourcePosition where
  line : Nat
  character : Nat
  deriving DecidableEq, Repr

/-- A `CompilerError`: the position it is raised at, the pieces of text its constructor
was given (the compiler concatenates them), and the notes added with `addNotes`. -/
structure CompilerError where
  position : SourcePosition
  message : List String
  notes : List (SourcePosition × String)
  deriving DecidableEq, Repr

/-- Modelled from the spec: the enumeration `TypeType` (declared in `Types/Type.hpp`, which
is not among the sources), with the kinds the data model lists. -/
inductive TypeType where
  | Class
  | ValueType
  | Enum
  | Protocol
  | MultiProtocol
  | Callable
  | GenericVariable
  | Optional
  | Box
  | Someobject
  | Something
  | NoReturn
  deriving DecidableEq, Repr

/-- The member functions of `Type` (and of the `TypeDefinition` behind a type) that the
analysed code calls.  The class `Type` is not among the sources, so its values are an
arbitrary type `τ` and its member functions are parameters; `κ` stands for `TypeContext`.
`isGenericDynamismDisabled t` is `t.typeDefinition()->isGenericDynamismDisabled()` and
`protocols t` is the list of `conf.type->type()` over `t.typeDefinition()->protocols()`. -/
structure TypeOps (τ κ : Type) where
  type : τ → TypeType
  unboxed : τ → τ
  compatibleTo : τ → τ → κ → Bool
  identicalTo : τ → τ → κ → Bool
  optionalized : τ → τ
  boxedFor : τ → τ → τ
  boxedForType : τ → τ
  genericArguments : τ → List τ
  typeString : τ → κ → String
  inexacted : τ → τ
  setReference : τ → Bool → τ
  canHaveProtocol : τ → Bool
  protocols : τ → List τ
  isGenericDynamismDisabled : τ → Bool
  isManaged : τ → Bool
  unoptionalized : τ → τ
  someobject : τ
  something : τ
  multiProtocol : List τ → τ
  calleeType : κ → τ

/-- Modelled from the spec: `Type::unboxedType` (defined in `Types/Type.cpp`, which is not
among the sources), the "unboxed kind" of a type: the kind of the boxed type for a `Box`,
the type's own kind otherwise. -/
def TypeOps.unboxedType {τ κ : Type} (ops : TypeOps τ κ) (t : τ) : TypeType :=
  if ops.type t = TypeType.Box then ops.type (ops.unboxed t) else ops.type t

/-- A `TypeExpectation` built from two flags, as in `TypeExpectation(false, false)`. -/
structure TypeExpectation where
  first : Bool
  second : Bool
  deriving DecidableEq, Repr

/-- The part of `ExpressionAnalyser` that the analysed code changes: the errors handed to
`analyser->error` or `analyser->compiler()->error` (oldest first; they are recorded and the
analysis goes on), and the expectations `analyser->comply` was called with to box the
operand expression. -/
structure ExpressionAnalyser where
  errors : List CompilerError
  complied : List TypeExpectation
  deriving DecidableEq, Repr

/-- The call `analyser->error(ce)`: the error is recorded, nothing is thrown. -/
def ExpressionAnalyser.error (a : ExpressionAnalyser) (ce : CompilerError) : ExpressionAnalyser :=
  { a with errors := a.errors ++ [ce] }

/-- The call `analyser->comply(expectation, &expr_)`, kept as the fact that it happened. -/
def ExpressionAnalyser.comply (a : ExpressionAnalyser) (e : TypeExpectation) : ExpressionAnalyser :=
  { a with complied := a.complied ++ [e] }

/-! ## Casts (`AST/ASTCast.cpp`) -/

/-- The fields of an `ASTCast` node that `analyse` reads or writes. -/
structure ASTCast where
  position : SourcePosition
  isDowncast : Bool
  deriving DecidableEq, Repr

/-- What a call of `ASTCast::analyse` leaves behind: the node, the analyser, and either the
returned type or the thrown `CompilerError`. -/
structure CastAnalysis (τ : Type) where
  node : ASTCast
  analyser : ExpressionAnalyser
  result : Except CompilerError τ

/-- The error "Cannot cast optional." -/
def ASTCast.cannotCastOptional (self : ASTCast) : CompilerError :=
  ⟨self.position, ["Cannot cast optional."], []⟩

/-- The error "Unnecessary cast." -/
def ASTCast.unnecessaryCast (self : ASTCast) : CompilerError :=
  ⟨self.position, ["Unnecessary cast."], []⟩

/-- The error "Cast to unrelated type T will always fail." -/
def ASTCast.alwaysFails (self : ASTCast) (typeString : String) : CompilerError :=
  ⟨self.position, ["Cast to unrelated type ", typeString, " will always fail."], []⟩

/-- The error "Cannot cast to generic protocols." -/
def ASTCast.genericProtocol (self : ASTCast) : CompilerError :=
  ⟨self.position, ["Cannot cast to generic protocols."], []⟩

/-- The error "You cannot cast to T." -/
def ASTCast.cannotCastTo (self : ASTCast) (typeString : String) : CompilerError :=
  ⟨self.position, ["You cannot cast to ", typeString, "."], []⟩

/-- The error "You cannot cast to T because generic type dynamism was disabled for this
type." -/
def ASTCast.dynamismDisabled (self : ASTCast) (typeString : String) : CompilerError :=
  ⟨self.position, ["You cannot cast to ", typeString,
    " because generic type dynamism was disabled for this type."], []⟩

/-- Method `ASTCast::analyse`.  `type` is the destination type that
`analyser->analyseTypeExpr(typeExpr_, ...)` returned and `originalType` the operand type that
`analyser->expect(TypeExpectation(), &expr_)` returned (both sub-analyses have completed).
The `assert` on the storage type of a protocol destination is not part of the model. -/
def ASTCast.analyse {τ κ : Type} (ops : TypeOps τ κ) (tc : κ) (self : ASTCast)
    (type originalType : τ) (analyser : ExpressionAnalyser) : CastAnalysis τ :=
  if ops.type originalType = TypeType.Optional then
    ⟨self, analyser.error self.cannotCastOptional, .ok (ops.optionalized type)⟩
  else
    let a1 :=
      if ops.compatibleTo originalType type tc then
        analyser.error self.unnecessaryCast
      else if !ops.compatibleTo type originalType tc
          && !(ops.unboxedType originalType == TypeType.Protocol
                && ops.unboxedType type == TypeType.Protocol) then
        analyser.error (self.alwaysFails (ops.typeString type tc))
      else analyser
    if ops.type type = TypeType.Class ∧ (ops.type originalType = TypeType.Someobject
        ∨ ops.type originalType = TypeType.Class) then
      ⟨{ self with isDowncast := true }, a1.comply ⟨false, false⟩, .ok (ops.optionalized type)⟩
    else
      let a2 := a1.comply ⟨true, false⟩
      if ops.unboxedType type = TypeType.Protocol then
        let a3 := if !(ops.genericArguments type).isEmpty then a2.error self.genericProtocol else a2
        ⟨self, a3, .ok (ops.optionalized (ops.boxedFor (ops.unboxed type) type))⟩
      else if ops.type type ≠ TypeType.Class ∧ ops.type type ≠ TypeType.ValueType
          ∧ ops.type type ≠ TypeType.Enum then
        ⟨self, a2, .error (self.cannotCastTo (ops.typeString type tc))⟩
      else if ops.isGenericDynamismDisabled type then
        ⟨self, a2, .error (self.dynamismDisabled (ops.typeString type tc))⟩
      else
        ⟨self, a2, .ok (ops.boxedFor (ops.optionalized type) (ops.boxedForType originalType))⟩

/-! ## Duplicate declarations (`Types/TypeDefinition.hpp`) -/

/-- What `duplicateDeclarationCheck` reads of a `Function` or `Initializer`; `μ` stands for
the enumeration `Mood`, which is only forward-declared in the sources. -/
structure Declaration (μ : Type) where
  name : String
  mood : μ
  position : SourcePosition

/-- Method `TypeDefinition::duplicateDeclarationCheck`.  The table
`std::map<std::u32string, std::unique_ptr<T>>` is a list of key-value pairs searched by key,
and `methodTableName` (defined outside the sources) is a parameter. -/
def duplicateDeclarationCheck {μ : Type} (methodTableName : String → μ → String)
    (function : Declaration μ) (dict : List (String × Declaration μ)) : Except CompilerError Unit :=
  match dict.lookup (methodTableName function.name function.mood) with
  | some prev =>
    .error ⟨function.position, [function.name, " is declared twice."],
      [(prev.position, "Previous declaration is here")]⟩
  | none => .ok ()

/-! ## Closures (`AST/ASTClosure.cpp`) -/

/-- What `ASTClosure::comply` reads from the nested `FunctionAnalyser` once
`closureAnaly.analyse()` has returned: the captures collected by the capturing scoper,
whether the path analyser has `UsedSelf` potentially, and the enclosing analyser with the
errors the body analysis recorded. -/
structure ClosureBodyAnalysis where
  captures : List Nat
  usedSelfPotentially : Bool
  analyser : ExpressionAnalyser

/-- The fields of an `ASTClosure` node that `comply` reads or writes; `captureSelf` is
`capture_.self` (a type once the closure captures the context). -/
structure ASTClosure (τ : Type) where
  position : SourcePosition
  isEscaping : Bool
  captures : List Nat
  captureSelf : Option τ

/-- The error of `ASTClosure::comply`. -/
def ASTClosure.valueTypeContextError {τ : Type} (self : ASTClosure τ) : CompilerError :=
  ⟨self.position, ["Escaping closure cannot capture Value Type context in closure. "
    ++ "Create an explicit variable to copy a value."], []⟩

/-- Method `ASTClosure::comply`, up to the type it returns.  `body` is the outcome of
`closureAnaly.analyse()` and `checkThisUse` the call `analyser->checkThisUse(position())`;
both belong to classes outside the sources, may throw, and are parameters.
`applyBoxingFromExpectation`, which only rewrites the declared types of the closure, is not
part of the model.  The result is the node and the analyser, or the thrown error. -/
def ASTClosure.comply {τ κ : Type} (ops : TypeOps τ κ) (tc : κ) (self : ASTClosure τ)
    (body : Except CompilerError ClosureBodyAnalysis)
    (checkThisUse : SourcePosition → ExpressionAnalyser → Except CompilerError ExpressionAnalyser) :
    Except CompilerError (ASTClosure τ × ExpressionAnalyser) :=
  match body with
  | .error e => .error e
  | .ok b =>
    let self1 := { self with captures := b.captures }
    if b.usedSelfPotentially then
      match checkThisUse self.position b.analyser with
      | .error e => .error e
      | .ok a1 =>
        let a2 :=
          if self.isEscaping ∧ (ops.type (ops.calleeType tc) = TypeType.ValueType
              ∨ ops.type (ops.calleeType tc) = TypeType.Enum) then
            a1.error self.valueTypeContextError
          else a1
        .ok ({ self1 with captureSelf := some (ops.calleeType tc) }, a2)
    else .ok (self1, b.analyser)

/-! ## Common-type finder (`Types/CommonTypeFinder.cpp`) -/

/-- What the finder uses of `SemanticAnalyser`: `defaultLiteralType`, which is declared in
`Analysis/SemanticAnalyser.hpp` and defined outside the sources. -/
structure SemanticAnalyser (τ : Type) where
  defaultLiteralType : τ → τ

/-- The fields of `CommonTypeFinder`. -/
structure CommonTypeFinder (τ : Type) where
  firstTypeFound : Bool
  commonType : τ
  commonProtocols : List τ

/-- A finder as its constructor leaves it: no type found, common type `Type::something()`,
no protocols. -/
def CommonTypeFinder.init {τ κ : Type} (ops : TypeOps τ κ) : CommonTypeFinder τ :=
  ⟨false, ops.something, []⟩

/-- Method `CommonTypeFinder::setCommonType`. -/
def CommonTypeFinder.setCommonType {τ κ : Type} (ops : TypeOps τ κ) (f : CommonTypeFinder τ)
    (type : τ) : CommonTypeFinder τ :=
  { f with commonType := ops.setReference (ops.inexacted type) false }

/-- Method `CommonTypeFinder::updateCommonType`. -/
def CommonTypeFinder.updateCommonType {τ κ : Type} (ops : TypeOps τ κ) (f : CommonTypeFinder τ)
    (type : τ) (typeContext : κ) : CommonTypeFinder τ :=
  if !ops.compatibleTo type f.commonType typeContext then
    if ops.compatibleTo f.commonType type typeContext then
      f.setCommonType ops type
    else if ops.type type = TypeType.Class ∧ ops.type f.commonType = TypeType.Class then
      { f with commonType := ops.someobject }
    else
      { f with commonType := ops.something }
  else f

/-- Method `CommonTypeFinder::updateCommonProtocols`: the protocols of the new type that are
identical to one of the common protocols, in the order the type declares them. -/
def CommonTypeFinder.updateCommonProtocols {τ κ : Type} (ops : TypeOps τ κ)
    (f : CommonTypeFinder τ) (type : τ) (typeContext : κ) : CommonTypeFinder τ :=
  if !f.commonProtocols.isEmpty then
    if !ops.canHaveProtocol type then
      { f with commonProtocols := [] }
    else
      { f with commonProtocols := (ops.protocols type).filter (fun protocol =>
          f.commonProtocols.any (fun p => ops.identicalTo protocol p typeContext)) }
  else f

/-- Method `CommonTypeFinder::addType`. -/
def CommonTypeFinder.addType {τ κ : Type} (ops : TypeOps τ κ) (analyser : SemanticAnalyser τ)
    (f : CommonTypeFinder τ) (type : τ) (typeContext : κ) : CommonTypeFinder τ :=
  let aType := analyser.defaultLiteralType type
  if !f.firstTypeFound then
    let f1 := f.setCommonType ops aType
    { f1 with
      firstTypeFound := true
      commonProtocols :=
        if ops.canHaveProtocol aType then f1.commonProtocols ++ ops.protocols aType
        else f1.commonProtocols }
  else
    (f.updateCommonType ops aType typeContext).updateCommonProtocols ops aType typeContext

/-- Method `CommonTypeFinder::getCommonType`: the returned type and the warnings handed to
`compiler->warn`.  `commonProtocols_.front()` is the head of the list, which is there when
the size is 1. -/
def CommonTypeFinder.getCommonType {τ κ : Type} (ops : TypeOps τ κ) (emptyContext : κ)
    (f : CommonTypeFinder τ) (p : SourcePosition) : τ × List CompilerError :=
  if !f.firstTypeFound then
    (f.commonType, [⟨p, ["Type is ambiguous without more context."], []⟩])
  else if ops.unboxedType f.commonType = TypeType.Something
      ∨ ops.unboxedType f.commonType = TypeType.Someobject then
    if f.commonProtocols.length > 1 then
      (ops.multiProtocol f.commonProtocols, [])
    else if f.commonProtocols.length = 1 then
      (f.commonProtocols.headD f.commonType, [])
    else
      (f.commonType, [⟨p, ["Common type was inferred to be ",
        ops.typeString f.commonType emptyContext, "."], []⟩])
  else (f.commonType, [])

/-- Feeds the element types of a collection to a fresh finder, first element first, all
under the same type context. -/
def CommonTypeFinder.feed {τ κ : Type} (ops : TypeOps τ κ) (analyser : SemanticAnalyser τ)
    (typeContext : κ) (types : List τ) : CommonTypeFinder τ :=
  types.foldl (fun f t => f.addType ops analyser t typeContext) (CommonTypeFinder.init ops)

/-- What the upper-bound property of the finder assumes of the member functions of `Type`,
which are defined outside the sources, under the type context `tc`: compatibility is
transitive; every type is compatible to `something` and every type of kind Class to
`someobject` (the two top types); a type is compatible to, or is, its inexact non-reference
form; a type is compatible to the protocols its definition declares; a type compatible to
a protocol is compatible to every protocol identical to it; and a type compatible to each
of several protocols is compatible to the multi-protocol type built from them. -/
structure CompatibilityLaws {τ κ : Type} (ops : TypeOps τ κ) (tc : κ) : Prop where
  trans : ∀ a b c, ops.compatibleTo a b tc = true → ops.compatibleTo b c tc = true →
    ops.compatibleTo a c tc = true
  something_top : ∀ a, ops.compatibleTo a ops.something tc = true
  someobject_top : ∀ a, ops.type a = TypeType.Class → ops.compatibleTo a ops.someobject tc = true
  inexact : ∀ a, ops.compatibleTo a (ops.setReference (ops.inexacted a) false) tc = true
    ∨ a = ops.setReference (ops.inexacted a) false
  conforms : ∀ a p, ops.canHaveProtocol a = true → p ∈ ops.protocols a →
    ops.compatibleTo a p tc = true
  identical : ∀ a p q, ops.identicalTo q p tc = true → ops.compatibleTo a p tc = true →
    ops.compatibleTo a q tc = true
  multi : ∀ a ps, 1 < ps.length → (∀ p ∈ ps, ops.compatibleTo a p tc = true) →
    ops.compatibleTo a (ops.multiProtocol ps) tc = true

/-! ## Memory-flow analysis (`MemoryFlowAnalysis/MFFunctionAnalyser.cpp`)

Functions live in an arena (`MFProgram.functions`) and are named by their index, which
stands for the `Function *` of the source.  An access outside a vector, which the source
does not guard against, ends the analysis without a result (`none`), as does running out
of the recursion budget of `analyse`. -/

/-- Modelled from the spec: the class `MFFlowCategory` (declared outside the sources), a
flow category that is unknown, borrowing, escaping or return. -/
inductive MFFlowCategory where
  | Unknown
  | Borrowing
  | Escaping
  | Return
  deriving DecidableEq, Repr

/-- Modelled from the spec: `MFFlowCategory::isUnknown`, the sentinel of a function that was
not analysed yet. -/
def MFFlowCategory.isUnknown : MFFlowCategory → Bool
  | .Unknown => true
  | _ => false

/-- Modelled from the spec: `MFFlowCategory::isReturn`. -/
def MFFlowCategory.isReturn : MFFlowCategory → Bool
  | .Return => true
  | _ => false

/-- Modelled from the spec: `MFFlowCategory::isEscaping`; a value that is returned escapes
as well (the "Escaping"/"Return" consuming contexts). -/
def MFFlowCategory.isEscaping : MFFlowCategory → Bool
  | .Escaping => true
  | .Return => true
  | _ => false

/-- Modelled from the spec: `MFFlowCategory::fulfillsPromise`; a category breaks the promise
of another one when it is escaping and the promise is not ("no more escaping"). -/
def MFFlowCategory.fulfillsPromise (self promise : MFFlowCategory) : Bool :=
  !(self.isEscaping && !promise.isEscaping)

/-- The enumeration `FunctionType` (`Functions/FunctionType.hpp`). -/
inductive FunctionType where
  | ObjectMethod
  | ObjectInitializer
  | ValueTypeMethod
  | ValueTypeInitializer
  | ClassMethod
  | Function
  | Deinitializer
  | CopyRetainer
  deriving DecidableEq, Repr

/-- The fields of `SemanticScopeStats` (`{from, variables, allVariablesCount}`). -/
structure SemanticScopeStats where
  «from» : Nat
  «variables» : Nat
  allVariablesCount : Nat
  deriving DecidableEq, Repr

/-- An `ASTRelease` node as built by `ASTRelease(false, variableId, var.type, position)`. -/
structure ASTRelease (τ : Type) where
  isSelf : Bool
  variableId : Nat
  type : τ
  position : SourcePosition
  deriving DecidableEq, Repr

/-- The fields of `MFLocalVariable` that the analyser uses; `inits` lists the pending
heap-allocating nodes (`MFHeapAllocates *`) by their node number. -/
structure MFLocalVariable (τ : Type) where
  isParam : Bool
  param : Nat
  isReturned : Bool
  flowCategory : MFFlowCategory
  type : τ
  inits : List Nat
  deriving DecidableEq, Repr

/-- The fields of an `ASTBlock` that the memory-flow analysis reads, over statements `σ`. -/
structure ASTBlock (σ : Type) where
  stmts : List σ
  returnedCertainly : Bool
  stop : Nat
  scopeStats : SemanticScopeStats
  position : SourcePosition
  deriving DecidableEq, Repr

/-- Expressions, as far as `analyseMemoryFlow(analyser, type)` tells them apart.  The first
five are the nodes whose method is in the sources (`ASTGetVariable`, `ASTIsOnlyReference`,
`ASTTypeExpr`, `ASTClosure`, `ASTCallableBox`).  Modelled from the spec: `this`, which
records the use of the context through `recordThis`, and `call`, a call of `function` that
goes through `analyseFunctionCall` with its callee expression (if any) and arguments; the
classes of these two nodes are outside the sources. -/
inductive MFExpr where
  | getVariable (id : Nat) (inInstanceScope : Bool)
  | isOnlyReference
  | typeExpr
  | closure (node : Nat) (closure : Nat) (captures : List Nat) (capturesSelf : Bool)
  | callableBox (node : Nat) (expr : MFExpr) (thunk : Nat)
  | this
  | call (function : Nat) (callee : Option MFExpr) (args : List MFExpr)
  deriving Repr

/-- Statements, as far as `analyseMemoryFlow(analyser)` tells them apart: `ASTExprStatement`,
`ASTReturn` (with `value_` and `initReturn_`), `ASTVariableAssignment`,
`ASTVariableDeclareAndAssign`, `ASTConstantVariable`, and `other` for a statement whose
method does nothing.  Modelled from the spec: `nested`, a control-flow statement (outside
the sources) that walks its block and pops its scope at block exit, inside a loop when
`isLoop` is set. -/
inductive MFStmt (τ : Type) where
  | exprStatement (expr : MFExpr)
  | «return» (value : Option MFExpr) (initReturn : Bool)
  | variableAssignment (id : Nat) (inInstanceScope : Bool) (expr : MFExpr) (variableType : τ)
  | variableDeclareAndAssign (id : Nat) (expr : MFExpr) (variableType : τ)
  | constantVariable (id : Nat) (expr : MFExpr) (expressionType : τ)
  | other
  | nested (isLoop : Bool) (block : ASTBlock (MFStmt τ))

/-- A parameter of a function (`Parameter`): its name, its type, the position of its type
in the source and its memory-flow category. -/
structure Parameter (τ : Type) where
  name : String
  type : τ
  typePosition : SourcePosition
  memoryFlowType : MFFlowCategory
  deriving DecidableEq, Repr

/-- The fields of `Function` that the memory-flow analysis reads or writes.  `ownerIsClass`
is `dynamic_cast<Class *>(owner()) != nullptr` and `superFunction` the overridden function,
if any. -/
structure Function (τ : Type) where
  position : SourcePosition
  functionType : FunctionType
  ownerIsClass : Bool
  superFunction : Option Nat
  parameters : List (Parameter τ)
  variableCount : Nat
  ast : ASTBlock (MFStmt τ)
  memoryFlowTypeForThis : MFFlowCategory

/-- Where `releaseVariables` put the releases of a block: appended to the block
(`block->appendNode`), added to the return statement at index `statement` of the block
(`returnStmt->addRelease`), or nowhere. -/
inductive ReleaseInsertion (τ : Type) where
  | appended (releases : List (ASTRelease τ))
  | onReturn (statement : Nat) (releases : List (ASTRelease τ))
  | nothing
  deriving DecidableEq, Repr

/-- What the analysis writes into the syntax tree: the releases inserted for a block of a
function, a heap-allocating node committed to the stack (`init->allocateOnStack()`), and
the call `analyseAllocation(type)` of a heap-allocating node. -/
inductive MFEffect (τ : Type) where
  | released (function : Nat) (block : SourcePosition) (insertion : ReleaseInsertion τ)
  | allocateOnStack (node : Nat)
  | analyseAllocation (node : Nat) (category : MFFlowCategory)
  deriving DecidableEq, Repr

/-- The state shared by all analysers of a compilation: the functions, the errors handed
to `compiler->error`, and the effects on the syntax tree, oldest first. -/
structure MFProgram (τ : Type) where
  functions : List (Function τ)
  errors : List CompilerError
  effects : List (MFEffect τ)

/-- The fields of one `MFFunctionAnalyser`: the function it analyses, its scope (one
`MFLocalVariable` per variable id), `thisEscapes_` and `inLoop_`. -/
structure MFFunctionAnalyser (τ : Type) where
  function : Nat
  scope : List (MFLocalVariable τ)
  thisEscapes : Bool
  inLoop : Nat
  deriving DecidableEq, Repr

/-- The call `function->setMemoryFlowTypeForThis(category)`. -/
def MFProgram.setMemoryFlowTypeForThis {τ : Type} (p : MFProgram τ) (function : Nat)
    (category : MFFlowCategory) : Option (MFProgram τ) :=
  match p.functions[function]? with
  | none => none
  | some fn =>
    some { p with functions := p.functions.set function { fn with memoryFlowTypeForThis := category } }

/-- The call `function->setParameterMFType(index, category)`. -/
def MFProgram.setParameterMFType {τ : Type} (p : MFProgram τ) (function index : Nat)
    (category : MFFlowCategory) : Option (MFProgram τ) :=
  match p.functions[function]? with
  | none => none
  | some fn =>
    match fn.parameters[index]? with
    | none => none
    | some param =>
      let param1 : Parameter τ := { param with memoryFlowType := category }
      let fn1 : Function τ := { fn with parameters := fn.parameters.set index param1 }
      some { p with functions := p.functions.set function fn1 }

/-- The call `compiler->error(ce)`. -/
def MFProgram.error {τ : Type} (p : MFProgram τ) (ce : CompilerError) : MFProgram τ :=
  { p with errors := p.errors ++ [ce] }

/-- Records an effect on the syntax tree. -/
def MFProgram.effect {τ : Type} (p : MFProgram τ) (e : MFEffect τ) : MFProgram τ :=
  { p with effects := p.effects ++ [e] }

/-- Method `MFFunctionAnalyser::shouldReleaseVariable`. -/
def MFFunctionAnalyser.shouldReleaseVariable {τ κ : Type} (ops : TypeOps τ κ)
    (var : MFLocalVariable τ) : Bool :=
  !var.isParam && !var.isReturned && ops.isManaged var.type

/-- The body shared by the loops of `releaseVariables` and `releaseAllVariables`: for each
id in turn, the variable is fetched from the scope and, if it should be released, an
`ASTRelease(false, variableId, var.type, p)` is produced. -/
def MFFunctionAnalyser.releasesOf {τ κ : Type} (ops : TypeOps τ κ)
    (scope : List (MFLocalVariable τ)) (p : SourcePosition) : List Nat → Option (List (ASTRelease τ))
  | [] => some []
  | variableId :: ids =>
    match scope[variableId]? with
    | none => none
    | some var =>
      match MFFunctionAnalyser.releasesOf ops scope p ids with
      | none => none
      | some rest =>
        some (if MFFunctionAnalyser.shouldReleaseVariable ops var
          then ⟨false, variableId, var.type, p⟩ :: rest else rest)

/-- Method `MFFunctionAnalyser::releaseAllVariables`: the loop runs over the variable ids
`0 .. stats.allVariablesCount - 1`. -/
def MFFunctionAnalyser.releaseAllVariables {τ κ : Type} (ops : TypeOps τ κ)
    (self : MFFunctionAnalyser τ) (stats : SemanticScopeStats) (p : SourcePosition) :
    Option (List (ASTRelease τ)) :=
  MFFunctionAnalyser.releasesOf ops self.scope p (List.range stats.allVariablesCount)

/-- Method `ASTBlock::getReturn` (`AST/ASTStatements.cpp`): the index of the statement
`stmts_[stop_ - 1]` when the block returned certainly and that statement is an `ASTReturn`,
no statement (`nullptr`) otherwise; no result when `stop_ - 1` is not an index of the
block. -/
def ASTBlock.getReturn {τ : Type} (block : ASTBlock (MFStmt τ)) : Option (Option Nat) :=
  if block.returnedCertainly then
    if block.stop = 0 then none
    else
      match block.stmts[block.stop - 1]? with
      | none => none
      | some (.return _ _) => some (some (block.stop - 1))
      | some _ => some none
  else some none

/-- Method `MFFunctionAnalyser::releaseVariables`: the loop of the first branch runs over
the variable ids `from .. from + variables - 1` of the block. -/
def MFFunctionAnalyser.releaseVariables {τ κ : Type} (ops : TypeOps τ κ)
    (self : MFFunctionAnalyser τ) (block : ASTBlock (MFStmt τ)) : Option (ReleaseInsertion τ) :=
  if !block.returnedCertainly then
    (MFFunctionAnalyser.releasesOf ops self.scope block.position
      ((List.range block.scopeStats.variables).map (fun i => i + block.scopeStats.from))).map
      ReleaseInsertion.appended
  else
    match block.getReturn with
    | none => none
    | some (some returnStmt) =>
      (self.releaseAllVariables ops block.scopeStats block.position).map
        (ReleaseInsertion.onReturn returnStmt)
    | some none => some ReleaseInsertion.nothing

/-- Method `MFFunctionAnalyser::recordVariableGet`. -/
def MFFunctionAnalyser.recordVariableGet {τ κ : Type} (ops : TypeOps τ κ)
    (self : MFFunctionAnalyser τ) (id : Nat) (category : MFFlowCategory) :
    Option (MFFunctionAnalyser τ) :=
  let afterReturn : Option (Bool × MFFunctionAnalyser τ) :=
    if category.isReturn then
      match self.scope[id]? with
      | none => none
      | some var =>
        if var.isParam then some (true, self)
        else some (false, { self with scope := self.scope.set id { var with isReturned := true } })
    else some (false, self)
  match afterReturn with
  | none => none
  | some (true, a) => some a
  | some (false, a) =>
    if category.isEscaping then
      match a.scope[id]? with
      | none => none
      | some var =>
        let type := ops.unoptionalized var.type
        if ops.type type = TypeType.ValueType ∨ ops.type type = TypeType.Enum then some a
        else some { a with scope := a.scope.set id { var with flowCategory := category } }
    else some a

/-- Method `MFFunctionAnalyser::recordThis`. -/
def MFFunctionAnalyser.recordThis {τ : Type} (self : MFFunctionAnalyser τ)
    (category : MFFlowCategory) : MFFunctionAnalyser τ :=
  if category.isEscaping && !category.isReturn then { self with thisEscapes := true } else self

/-- The loop `for (auto &capture : capture_.captures)` of `ASTClosure::analyseMemoryFlow`:
`recordVariableGet(capture.sourceId, MFFlowCategory::Escaping)` for each capture. -/
def MFFunctionAnalyser.recordCaptures {τ κ : Type} (ops : TypeOps τ κ) :
    List Nat → MFFunctionAnalyser τ → Option (MFFunctionAnalyser τ)
  | [], a => some a
  | sourceId :: rest, a =>
    (a.recordVariableGet ops sourceId MFFlowCategory.Escaping).bind
      (MFFunctionAnalyser.recordCaptures ops rest)

/-- Method `MFFunctionAnalyser::analyseIfNecessary`; `analyse p f` stands for
`MFFunctionAnalyser(f).analyse()` in the state `p`. -/
def MFFunctionAnalyser.analyseIfNecessary {τ : Type}
    (analyse : MFProgram τ → Nat → Option (MFProgram τ)) (p : MFProgram τ) (function : Nat) :
    Option (MFProgram τ) :=
  match p.functions[function]? with
  | none => none
  | some fn => if fn.memoryFlowTypeForThis.isUnknown then analyse p function else some p

mutual
/-- The methods `analyseMemoryFlow(analyser, type)` of the expression nodes.  The case of
`call` is the body of `MFFunctionAnalyser::analyseFunctionCall(node, callee, function)`.
The flag `returned_` of `ASTGetVariable` and the calls of `take`, which only clears the
temporary flag of an expression, are not part of the model. -/
def MFExpr.analyseMemoryFlow {τ κ : Type} (ops : TypeOps τ κ)
    (analyse : MFProgram τ → Nat → Option (MFProgram τ)) :
    MFExpr → MFFlowCategory → MFProgram τ × MFFunctionAnalyser τ →
      Option (MFProgram τ × MFFunctionAnalyser τ)
  | .getVariable id inInstanceScope, type, s =>
    if !inInstanceScope then (s.2.recordVariableGet ops id type).map (fun a => (s.1, a))
    else some s
  | .isOnlyReference, _, s => some s
  | .typeExpr, _, s => some s
  | .closure node closureFunction captures capturesSelf, type, s =>
    (analyse (s.1.effect (.analyseAllocation node type)) closureFunction).bind fun p1 =>
    (MFFunctionAnalyser.recordCaptures ops captures s.2).bind fun a1 =>
    some (p1, if capturesSelf then a1.recordThis MFFlowCategory.Escaping else a1)
  | .callableBox node expr thunk, type, s =>
    (MFExpr.analyseMemoryFlow ops analyse expr type
      (s.1.effect (.analyseAllocation node type), s.2)).bind fun s1 =>
    (analyse s1.1 thunk).map (fun p2 => (p2, s1.2))
  | .this, type, s => some (s.1, s.2.recordThis type)
  | .call function callee args, _, s =>
    (MFFunctionAnalyser.analyseIfNecessary analyse s.1 function).bind fun p1 =>
    (match callee with
      | none => some (p1, s.2)
      | some calleeExpr =>
        match p1.functions[function]? with
        | none => none
        | some fn =>
          MFExpr.analyseMemoryFlow ops analyse calleeExpr fn.memoryFlowTypeForThis (p1, s.2)).bind
      fun s2 => MFExpr.analyseArguments ops analyse function args 0 s2
/-- The loop over the arguments in `MFFunctionAnalyser::analyseFunctionCall`: argument `i`
is analysed under `function->parameters()[i].memoryFlowType`. -/
def MFExpr.analyseArguments {τ κ : Type} (ops : TypeOps τ κ)
    (analyse : MFProgram τ → Nat → Option (MFProgram τ)) (function : Nat) :
    List MFExpr → Nat → MFProgram τ × MFFunctionAnalyser τ →
      Option (MFProgram τ × MFFunctionAnalyser τ)
  | [], _, s => some s
  | arg :: rest, i, s =>
    match s.1.functions[function]? with
    | none => none
    | some fn =>
      match fn.parameters[i]? with
      | none => none
      | some param =>
        (MFExpr.analyseMemoryFlow ops analyse arg param.memoryFlowType s).bind fun s1 =>
        MFExpr.analyseArguments ops analyse function rest (i + 1) s1
end

/-- The heap-allocating node behind an expression (`dynamic_cast<MFHeapAllocates *>(expr)`):
closures and callable boxes, the nodes that call `analyseAllocation`. -/
def MFExpr.heapAllocates : MFExpr → Option Nat
  | .closure node _ _ _ => some node
  | .callableBox node _ _ => some node
  | _ => none

/-- Method `MFFunctionAnalyser::recordVariableSet`, for an expression that is there. -/
def MFFunctionAnalyser.recordVariableSet {τ κ : Type} (ops : TypeOps τ κ)
    (analyse : MFProgram τ → Nat → Option (MFProgram τ))
    (s : MFProgram τ × MFFunctionAnalyser τ) (id : Nat) (expr : MFExpr) (type : τ) :
    Option (MFProgram τ × MFFunctionAnalyser τ) :=
  match s.2.scope[id]? with
  | none => none
  | some var =>
    let a1 := { s.2 with scope := s.2.scope.set id { var with type := type } }
    (expr.analyseMemoryFlow ops analyse MFFlowCategory.Escaping (s.1, a1)).bind fun s2 =>
    match expr.heapAllocates with
    | some node =>
      if s2.2.inLoop = 0 then
        match s2.2.scope[id]? with
        | none => none
        | some var2 =>
          some (s2.1, { s2.2 with scope := s2.2.scope.set id { var2 with inits := var2.inits ++ [node] } })
      else some s2
    | none => some s2

/-- The body of the loop of `MFFunctionAnalyser::popScope` for one variable id. -/
def MFFunctionAnalyser.popVariable {τ : Type} (s : MFProgram τ × MFFunctionAnalyser τ)
    (variableId : Nat) : Option (MFProgram τ × MFFunctionAnalyser τ) :=
  match s.2.scope[variableId]? with
  | none => none
  | some var =>
    let committed : Option (MFProgram τ) :=
      if var.isParam then s.1.setParameterMFType s.2.function var.param var.flowCategory
      else if !var.flowCategory.isEscaping then
        some (var.inits.foldl (fun q init => q.effect (.allocateOnStack init)) s.1)
      else some s.1
    committed.map fun p1 =>
      (p1, { s.2 with scope := s.2.scope.set variableId { var with inits := [] } })

/-- The loop of `MFFunctionAnalyser::popScope` over the given variable ids. -/
def MFFunctionAnalyser.popVariables {τ : Type} :
    List Nat → MFProgram τ × MFFunctionAnalyser τ → Option (MFProgram τ × MFFunctionAnalyser τ)
  | [], s => some s
  | variableId :: ids, s =>
    (MFFunctionAnalyser.popVariable s variableId).bind (MFFunctionAnalyser.popVariables ids)

/-- Method `MFFunctionAnalyser::popScope`: the releases of the block are inserted, then
the variables `from .. from + variables - 1` of the block are committed. -/
def MFFunctionAnalyser.popScope {τ κ : Type} (ops : TypeOps τ κ) (block : ASTBlock (MFStmt τ))
    (s : MFProgram τ × MFFunctionAnalyser τ) : Option (MFProgram τ × MFFunctionAnalyser τ) :=
  match s.2.releaseVariables ops block with
  | none => none
  | some insertion =>
    MFFunctionAnalyser.popVariables
      ((List.range block.scopeStats.variables).map (fun i => i + block.scopeStats.from))
      (s.1.effect (.released s.2.function block.position insertion), s.2)

mutual
/-- The methods `analyseMemoryFlow(analyser)` of the statement nodes. -/
def MFStmt.analyseMemoryFlow {τ κ : Type} (ops : TypeOps τ κ)
    (analyse : MFProgram τ → Nat → Option (MFProgram τ)) :
    MFStmt τ → MFProgram τ × MFFunctionAnalyser τ → Option (MFProgram τ × MFFunctionAnalyser τ)
  | .exprStatement expr, s => expr.analyseMemoryFlow ops analyse MFFlowCategory.Borrowing s
  | .return value initReturn, s =>
    match value with
    | some v =>
      if !initReturn then v.analyseMemoryFlow ops analyse MFFlowCategory.Return s else some s
    | none => some s
  | .variableAssignment id inInstanceScope expr variableType, s =>
    if !inInstanceScope then
      MFFunctionAnalyser.recordVariableSet ops analyse s id expr variableType
    else expr.analyseMemoryFlow ops analyse MFFlowCategory.Escaping s
  | .variableDeclareAndAssign id expr variableType, s =>
    MFFunctionAnalyser.recordVariableSet ops analyse s id expr variableType
  | .constantVariable id expr expressionType, s =>
    MFFunctionAnalyser.recordVariableSet ops analyse s id expr expressionType
  | .other, s => some s
  | .nested isLoop block, s =>
    (ASTBlock.analyseMemoryFlow ops analyse block
      (s.1, if isLoop then { s.2 with inLoop := s.2.inLoop + 1 } else s.2)).bind fun s1 =>
    (MFFunctionAnalyser.popScope ops block s1).map fun s2 =>
      (s2.1, if isLoop then { s2.2 with inLoop := s2.2.inLoop - 1 } else s2.2)
/-- Method `ASTBlock::analyseMemoryFlow` (`AST/ASTStatements.cpp`): the statements before
`stop` are analysed, all of them when the block does not return certainly. -/
def ASTBlock.analyseMemoryFlow {τ κ : Type} (ops : TypeOps τ κ)
    (analyse : MFProgram τ → Nat → Option (MFProgram τ)) :
    ASTBlock (MFStmt τ) → MFProgram τ × MFFunctionAnalyser τ →
      Option (MFProgram τ × MFFunctionAnalyser τ)
  | ⟨stmts, returnedCertainly, stop, _, _⟩, s =>
    MFStmt.analyseStatements ops analyse stmts (if !returnedCertainly then stmts.length else stop) s
/-- The loop `for (size_t i = 0; i < stop; i++) stmts_[i]->analyseMemoryFlow(analyser)`. -/
def MFStmt.analyseStatements {τ κ : Type} (ops : TypeOps τ κ)
    (analyse : MFProgram τ → Nat → Option (MFProgram τ)) :
    List (MFStmt τ) → Nat → MFProgram τ × MFFunctionAnalyser τ →
      Option (MFProgram τ × MFFunctionAnalyser τ)
  | _, 0, s => some s
  | [], _ + 1, _ => none
  | stmt :: rest, stop + 1, s =>
    (MFStmt.analyseMemoryFlow ops analyse stmt s).bind fun s1 =>
    MFStmt.analyseStatements ops analyse rest stop s1
end

/-- The loop of `MFFunctionAnalyser::checkMFPromises` over the parameters of the super
function: parameter `i` of the function is held against parameter `i` of the super
function. -/
def MFFunctionAnalyser.checkParameterPromises {τ : Type} :
    List (Parameter τ) → List (Parameter τ) → MFProgram τ → Option (MFProgram τ)
  | _, [], p => some p
  | [], _ :: _, _ => none
  | param :: params, superParam :: superParams, p =>
    MFFunctionAnalyser.checkParameterPromises params superParams
      (if !param.memoryFlowType.fulfillsPromise superParam.memoryFlowType then
        p.error ⟨param.typePosition, ["Function lets parameter \"", param.name,
          "\" escape, which violates the overridden function’s promise."], []⟩
      else p)

/-- Method `MFFunctionAnalyser::checkMFPromises`. -/
def MFFunctionAnalyser.checkMFPromises {τ : Type}
    (analyse : MFProgram τ → Nat → Option (MFProgram τ))
    (s : MFProgram τ × MFFunctionAnalyser τ) : Option (MFProgram τ) :=
  match s.1.functions[s.2.function]? with
  | none => none
  | some fn =>
    if fn.functionType = FunctionType.Deinitializer then
      some (if s.2.thisEscapes then
        s.1.error ⟨fn.position, ["👇 must not escape from ♻️."], []⟩ else s.1)
    else if fn.ownerIsClass then
      match fn.superFunction with
      | none => some s.1
      | some super =>
        (MFFunctionAnalyser.analyseIfNecessary analyse s.1 super).bind fun p1 =>
        match p1.functions[s.2.function]?, p1.functions[super]? with
        | some fn1, some superFn =>
          MFFunctionAnalyser.checkParameterPromises fn1.parameters superFn.parameters
            (if !fn1.memoryFlowTypeForThis.fulfillsPromise superFn.memoryFlowTypeForThis then
              p1.error ⟨fn1.position, ["Function lets this context escape, which "
                ++ "violates the overridden function’s promise."], []⟩
            else p1)
        | _, _ => none
    else some s.1

/-- The loop at the start of `MFFunctionAnalyser::analyse` that marks the variables
`0 .. parameters.size() - 1` as parameters; `i` is the index of the first parameter of the
list. -/
def MFFunctionAnalyser.declareParameters {τ : Type} :
    List (Parameter τ) → Nat → MFFunctionAnalyser τ → Option (MFFunctionAnalyser τ)
  | [], _, a => some a
  | param :: rest, i, a =>
    match a.scope[i]? with
    | none => none
    | some var =>
      MFFunctionAnalyser.declareParameters rest (i + 1)
        { a with scope := a.scope.set i { var with isParam := true, param := i, type := param.type } }

/-- Method `MFFunctionAnalyser::analyse` for the analyser of `function`, built by the
constructor with a scope of `variableCount` default variables (`defaultVariable`, whose
class is outside the sources).  `analyse` stands for the analyses the body starts,
`MFFunctionAnalyser(f).analyse()`. -/
def MFFunctionAnalyser.analyseWith {τ κ : Type} (ops : TypeOps τ κ)
    (defaultVariable : MFLocalVariable τ)
    (analyse : MFProgram τ → Nat → Option (MFProgram τ)) (p : MFProgram τ) (function : Nat) :
    Option (MFProgram τ) :=
  match p.functions[function]? with
  | none => none
  | some fn =>
    if !fn.memoryFlowTypeForThis.isUnknown then some p
    else
      (p.setMemoryFlowTypeForThis function MFFlowCategory.Escaping).bind fun p1 =>
      (MFFunctionAnalyser.declareParameters fn.parameters 0
        ⟨function, List.replicate fn.variableCount defaultVariable, false, 0⟩).bind fun a1 =>
      (fn.ast.analyseMemoryFlow ops analyse (p1, a1)).bind fun s2 =>
      (s2.1.setMemoryFlowTypeForThis function
        (if s2.2.thisEscapes then MFFlowCategory.Escaping else MFFlowCategory.Borrowing)).bind
        fun p3 =>
      (MFFunctionAnalyser.popScope ops fn.ast (p3, s2.2)).bind fun s4 =>
      MFFunctionAnalyser.checkMFPromises analyse s4

/-- Method `MFFunctionAnalyser::analyse` with a budget for the depth to which analyses
may start further analyses: with budget 0 every analysis started by the body is without
result. -/
def MFFunctionAnalyser.analyse {τ κ : Type} (ops : TypeOps τ κ)
    (defaultVariable : MFLocalVariable τ) : Nat → MFProgram τ → Nat → Option (MFProgram τ)
  | 0 => MFFunctionAnalyser.analyseWith ops defaultVariable (fun _ _ => none)
  | fuel + 1 =>
    MFFunctionAnalyser.analyseWith ops defaultVariable
      (MFFunctionAnalyser.analyse ops defaultVariable fuel)

/-- A sequence of analyses, each with its own budget, performed one after the other. -/
def MFFunctionAnalyser.analyseAll {τ κ : Type} (ops : TypeOps τ κ)
    (defaultVariable : MFLocalVariable τ) :
    List (Nat × Nat) → MFProgram τ → Option (MFProgram τ)
  | [], p => some p
  | (fuel, function) :: rest, p =>
    (MFFunctionAnalyser.analyse ops defaultVariable fuel p function).bind
      (MFFunctionAnalyser.analyseAll ops defaultVariable rest)

/-- The function `f` has been analysed in the state `p`: its category for this is no
longer the unknown sentinel. -/
def MFProgram.analysed {τ : Type} (p : MFProgram τ) (f : Nat) : Prop :=
  ∃ fn, p.functions[f]? = some fn ∧ fn.memoryFlowTypeForThis.isUnknown = false

/-- Going from `p` to `q` keeps every function that was analysed in `p`, other than
`current`, exactly as it was. -/
def MFProgram.Keeps {τ : Type} (current : Nat) (p q : MFProgram τ) : Prop :=
  ∀ h, h ≠ current → p.analysed h → q.functions[h]? = p.functions[h]?

/-- Going from `p` to `q` leaves the category for this of every function as it was. -/
def MFProgram.SameThis {τ : Type} (p q : MFProgram τ) : Prop :=
  ∀ h : Nat, (q.functions[h]?).map (fun (fn : Function τ) => fn.memoryFlowTypeForThis)
    = (p.functions[h]?).map (fun (fn : Function τ) => fn.memoryFlowTypeForThis)

/-- What the intersection property of the finder assumes of `Type::identicalTo`, which is
defined outside the sources, under the type context `tc`: identity of types is reflexive,
symmetric and transitive. -/
structure IdentityLaws {τ κ : Type} (ops : TypeOps τ κ) (tc : κ) : Prop where
  refl : ∀ a, ops.identicalTo a a tc = true
  symm : ∀ a b, ops.identicalTo a b tc = true → ops.identicalTo b a tc = true
  trans : ∀ a b c, ops.identicalTo a b tc = true → ops.identicalTo b c tc = true →
    ops.identicalTo a c tc = true

/-! ## Return and raise statements (`AST/ASTStatements.cpp`) -/

/-- Modelled from the spec: the class `PathAnalyserIncident` (declared outside the sources),
one of `Returned`, `UsedSelf` or an initialization fact of a variable keyed by
`(isInstanceScope, variableId)`. -/
inductive PathAnalyserIncident where
  | Returned
  | UsedSelf
  | variable (isInstanceScope : Bool) (variableId : Nat)
  deriving DecidableEq, Repr

/-- Modelled from the spec: the state of the class `PathAnalyser` (declared outside the
sources) on the current path, as the list of incidents recorded on it so far. -/
structure PathAnalyser where
  incidents : List PathAnalyserIncident
  deriving DecidableEq, Repr

/-- Modelled from the spec: `PathAnalyser::record`, which adds an incident to the current
path. -/
def PathAnalyser.record (pa : PathAnalyser) (incident : PathAnalyserIncident) : PathAnalyser :=
  { pa with incidents := pa.incidents ++ [incident] }

/-- Modelled from the spec: `PathAnalyser::hasCertainly` on a path without open branches,
where an incident holds on every path exactly when it was recorded. -/
def PathAnalyser.hasCertainly (pa : PathAnalyser) (incident : PathAnalyserIncident) : Bool :=
  decide (incident ∈ pa.incidents)

/-- The part of `FunctionAnalyser` that the analysis of a return or raise statement changes
or reads: the path analyser, the errors handed to `analyser->error` (recorded, the
analysis goes on), and whether the statement is in an unsafe block. -/
structure FunctionAnalyser where
  pathAnalyser : PathAnalyser
  errors : List CompilerError
  isInUnsafeBlock : Bool
  deriving DecidableEq, Repr

/-- The call `analyser->error(ce)` on a function analyser. -/
def FunctionAnalyser.error (a : FunctionAnalyser) (ce : CompilerError) : FunctionAnalyser :=
  { a with errors := a.errors ++ [ce] }

/-- What the statements read of `analyser->function()`: the declared return type, the
function type, whether the function is error-prone, and its error type. -/
structure AnalysedFunction (τ : Type) where
  returnType : τ
  functionType : FunctionType
  errorProne : Bool
  errorType : τ

/-- The effect of a call into the expression analysis, which is outside the sources
(`ExpressionAnalyser::analyse`, `comply`, `expectType`): the incidents it records on the
current path, the errors it hands to `analyser->error`, and the value it returns or the
`CompilerError` it throws. -/
structure Analysed (α : Type) where
  incidents : List PathAnalyserIncident
  errors : List CompilerError
  result : Except CompilerError α

/-- Performs a call into the expression analysis on the analyser: its incidents and errors
are recorded whether it returns or throws. -/
def FunctionAnalyser.perform {α : Type} (a : FunctionAnalyser) (call : Analysed α) :
    FunctionAnalyser × Except CompilerError α :=
  ({ a with
      pathAnalyser := { a.pathAnalyser with
        incidents := a.pathAnalyser.incidents ++ call.incidents }
      errors := a.errors ++ call.errors }, call.result)

/-- The member functions `Type::isReference` and `Type::isMutable`, which are defined
outside the sources. -/
structure ReferenceOps (τ : Type) where
  isReference : τ → Bool
  isMutable : τ → Bool

/-- The expression `value_` of a return statement: the effect of
`analyser->ExpressionAnalyser::analyse(value_)`, the effect of
`analyser->comply(TypeExpectation(rtType), &value_)`, and, when the node is an
`ASTGetVariable`, its `inInstanceScope()`. -/
structure ReturnValue (τ : Type) where
  analysis : Analysed τ
  complied : Analysed Unit
  getVariable : Option Bool

/-- The node `ASTReturn`; `value` is `none` when `value_` is `nullptr` (the statement
`↩️↩️`). -/
structure ASTReturn (τ : Type) where
  position : SourcePosition
  value : Option (ReturnValue τ)

/-- Method `ASTReturn::returnReference`; the changes it makes to the variable node are not
kept. -/
def ASTReturn.returnReference {τ : Type} (rops : ReferenceOps τ) (self : ASTReturn τ)
    (value : ReturnValue τ) (type : τ) (analyser : FunctionAnalyser) : FunctionAnalyser :=
  match value.getVariable with
  | some inInstanceScope =>
    if !inInstanceScope then
      analyser.error ⟨self.position, ["Only instance variables can be referenced."], []⟩
    else analyser
  | none =>
    if rops.isReference type then
      let a1 :=
        if !analyser.isInUnsafeBlock then
          analyser.error ⟨self.position, ["Forwarding reference is an unsafe operation."], []⟩
        else analyser
      if !rops.isMutable type then
        a1.error ⟨self.position, ["Cannot forward immutable reference."], []⟩
      else a1
    else
      analyser.error
        ⟨self.position, ["The provided expression cannot produce a reference."], []⟩

/-- Method `ASTReturn::analyse`.  The result is the analyser as the call leaves it and
the outcome: `.ok ()` when the call returns, `.error e` when it throws `e`.
`isReturnForbidden` is declared in `Functions/FunctionType.hpp` and defined outside the
sources. -/
def ASTReturn.analyse {τ κ : Type} (ops : TypeOps τ κ) (rops : ReferenceOps τ)
    (isReturnForbidden : FunctionType → Bool) (tc : κ) (function : AnalysedFunction τ)
    (self : ASTReturn τ) (analyser : FunctionAnalyser) :
    FunctionAnalyser × Except CompilerError Unit :=
  let a0 := { analyser with
    pathAnalyser := analyser.pathAnalyser.record PathAnalyserIncident.Returned }
  if ops.type function.returnType = TypeType.NoReturn then
    match self.value with
    | some _ => (a0, .error ⟨self.position, ["No return type declared. Use ↩️↩️."], []⟩)
    | none => (a0, .ok ())
  else
    match self.value with
    | none =>
      (a0, .error ⟨self.position,
        ["↩️↩️ can only be used in functions without a return value."], []⟩)
    | some value =>
      if isReturnForbidden function.functionType then
        (a0, .error ⟨self.position, ["↩️ cannot be used inside an initializer."], []⟩)
      else
        let r := a0.perform value.analysis
        match r.2 with
        | .error e => (r.1, .error e)
        | .ok type =>
          let a2 :=
            if !ops.compatibleTo type function.returnType tc then
              r.1.error ⟨self.position,
                ["Declared return type is ", ops.typeString function.returnType tc], []⟩
            else r.1
          if rops.isReference function.returnType then
            (self.returnReference rops value type a2, .ok ())
          else a2.perform value.complied

/-- What `ErrorSelfDestructing::analyseInstanceVariables` reads of a `Variable` of the
instance scope. -/
structure Variable (τ : Type) where
  id : Nat
  type : τ
  isInitialized : Bool

/-- The node `ASTRaise`: its position, its expression `value_`, given by the effect of
`analyser->expectType(type, &value_)` for each type the value may be expected to have
(`expectType` is defined outside the sources), and the list `release_` of its base
`ErrorSelfDestructing`. -/
structure ASTRaise (τ : Type) where
  position : SourcePosition
  expectType : τ → Analysed Unit
  release : List (Nat × τ)

/-- Method `ErrorSelfDestructing::analyseInstanceVariables` over the variables of the
instance scope, in the order of its map. -/
def ASTRaise.analyseInstanceVariables {τ κ : Type} (ops : TypeOps τ κ) (self : ASTRaise τ)
    (instanceScope : List (Variable τ)) : ASTRaise τ :=
  let released := instanceScope.filter (fun cv => cv.isInitialized && ops.isManaged cv.type)
  { self with release := self.release ++ released.map (fun cv => (cv.id, cv.type)) }

/-- Method `ASTRaise::analyse`: the node and the analyser as the call leaves them, and the
outcome as for `ASTReturn.analyse`.  The raised value is checked by
`analyser->expectType(analyser->function()->errorType()->type(), &value_)`. -/
def ASTRaise.analyse {τ κ : Type} (ops : TypeOps τ κ) (isReturnForbidden : FunctionType → Bool)
    (function : AnalysedFunction τ) (instanceScope : List (Variable τ)) (self : ASTRaise τ)
    (analyser : FunctionAnalyser) : ASTRaise τ × FunctionAnalyser × Except CompilerError Unit :=
  let a0 := { analyser with
    pathAnalyser := analyser.pathAnalyser.record PathAnalyserIncident.Returned }
  if !function.errorProne then
    (self, a0, .error ⟨self.position, ["Function is not declared error-prone."], []⟩)
  else
    let r := a0.perform (self.expectType function.errorType)
    match r.2 with
    | .error e => (self, r.1, .error e)
    | .ok _ =>
      if isReturnForbidden function.functionType then
        (self.analyseInstanceVariables ops instanceScope, r.1, .ok ())
      else (self, r.1, .ok ())

/-! ## Variable declarations and assignments (`AST/ASTVariables.cpp`) -/

/-- A `ResolvedVariable`, the result of `analyser->scoper().getVariable(name, position)`:
the variable and whether it was found in the instance scope. -/
structure ResolvedVariable (τ : Type) where
  «variable» : Variable τ
  inInstanceScope : Bool

/-- The fields `id_`, `inInstanceScope_` and `variableType_` of `AccessesAnyVariable`. -/
structure AccessesAnyVariable (τ : Type) where
  id : Nat
  inInstanceScope : Bool
  variableType : τ

/-- Method `AccessesAnyVariable::setVariableAccess`: the fields it sets and the analyser
as it leaves it. -/
def AccessesAnyVariable.setVariableAccess {τ : Type} (var : ResolvedVariable τ)
    (analyser : FunctionAnalyser) : AccessesAnyVariable τ × FunctionAnalyser :=
  (⟨var.variable.id, var.inInstanceScope, var.variable.type⟩,
    if var.inInstanceScope then
      { analyser with pathAnalyser := analyser.pathAnalyser.record PathAnalyserIncident.UsedSelf }
    else analyser)

/-- The node `ASTVariableDeclaration`: its position, the effects of the three calls it
makes into code outside the sources (`type_->analyseType(typeContext)`,
`scoper().checkForShadowing(...)` and `currentScope().declareVariable(...)`, which yields
the new variable), and the field `id_`. -/
structure ASTVariableDeclaration (τ : Type) where
  position : SourcePosition
  analysedType : Analysed τ
  shadowing : Analysed Unit
  declared : Analysed (Variable τ)
  id : Nat

/-- Method `ASTVariableDeclaration::analyse`: the node and the analyser as the call
leaves them, and the outcome (`.ok ()` when it returns, `.error e` when it throws `e`). -/
def ASTVariableDeclaration.analyse {τ κ : Type} (ops : TypeOps τ κ)
    (self : ASTVariableDeclaration τ) (analyser : FunctionAnalyser) :
    ASTVariableDeclaration τ × FunctionAnalyser × Except CompilerError Unit :=
  let r1 := analyser.perform self.analysedType
  match r1.2 with
  | .error e => (self, r1.1, .error e)
  | .ok type =>
    let r2 := r1.1.perform self.shadowing
    match r2.2 with
    | .error e => (self, r2.1, .error e)
    | .ok _ =>
      let r3 := r2.1.perform self.declared
      match r3.2 with
      | .error e => (self, r3.1, .error e)
      | .ok var =>
        let a4 :=
          if ops.type type = TypeType.Optional then
            { r3.1 with pathAnalyser :=
                r3.1.pathAnalyser.record (PathAnalyserIncident.variable false var.id) }
          else r3.1
        ({ self with id := var.id }, a4, .ok ())

/-- What `ASTVariableAssignment::analyse` reads of `analyser->function()`: `position()`,
`mutating()` and `functionType()`. -/
structure FunctionAttributes where
  position : SourcePosition
  mutating : Bool
  functionType : FunctionType
  deriving DecidableEq, Repr

/-- The node `ASTVariableAssignment`: its position, the effects of the calls it makes into
code outside the sources (`scoper().getVariable(name(), position())`,
`expectType(rvar.variable.type(), &expr_)` and `rvar.variable.mutate(position())`), the
fields set by `setVariableAccess` and the field `wasInitialized_`. -/
structure ASTVariableAssignment (τ : Type) where
  position : SourcePosition
  resolved : Except CompilerError (ResolvedVariable τ)
  expected : Analysed Unit
  mutated : Except CompilerError Unit
  access : Option (AccessesAnyVariable τ)
  wasInitialized : Bool

/-- The error `ASTVariableAssignment::analyse` builds for the mutation of an instance
variable, with its note at the position of the function. -/
def ASTVariableAssignment.cannotMutate {τ : Type} (self : ASTVariableAssignment τ)
    (function : FunctionAttributes) : CompilerError :=
  ⟨self.position, ["Can’t mutate instance variable as method is not marked with 🖍."],
    [(function.position, "Add 🖍 to method attributes to allow mutation.")]⟩

/-- Method `ASTVariableAssignment::analyse`.  `isFullyInitializedCheckRequired` is declared
in `Functions/FunctionType.hpp` and defined outside the sources. -/
def ASTVariableAssignment.analyse {τ : Type} (isFullyInitializedCheckRequired : FunctionType → Bool)
    (function : FunctionAttributes) (self : ASTVariableAssignment τ)
    (analyser : FunctionAnalyser) :
    ASTVariableAssignment τ × FunctionAnalyser × Except CompilerError Unit :=
  match self.resolved with
  | .error e => (self, analyser, .error e)
  | .ok rvar =>
    let a1 :=
      if rvar.inInstanceScope && !function.mutating
          && !isFullyInitializedCheckRequired function.functionType then
        analyser.error (self.cannotMutate function)
      else analyser
    let r := AccessesAnyVariable.setVariableAccess rvar a1
    let self1 := { self with access := some r.1 }
    let r2 := r.2.perform self.expected
    match r2.2 with
    | .error e => (self1, r2.1, .error e)
    | .ok _ =>
      let incident := PathAnalyserIncident.variable rvar.inInstanceScope rvar.variable.id
      let self2 := { self1 with wasInitialized := r2.1.pathAnalyser.hasCertainly incident }
      let a3 := { r2.1 with pathAnalyser := r2.1.pathAnalyser.record incident }
      match self.mutated with
      | .error e => (self2, a3, .error e)
      | .ok _ => (self2, a3, .ok ())

/-! ## Blocks (`AST/ASTStatements.cpp`) -/

/-- What `ASTBlock::analyse` uses of code outside the sources, for statements `σ`: the
virtual method `analyse` of a statement (the analyser as the call leaves it, and whether
it returned or threw), its `position()`, and `createStats i`, the stats that
`analyser->scoper().createStats()` yields before statement `i` is analysed. -/
structure StatementOps (σ : Type) where
  analyse : σ → FunctionAnalyser → FunctionAnalyser × Except CompilerError Unit
  position : σ → SourcePosition
  createStats : Nat → SemanticScopeStats

/-- The state of `ASTBlock::analyse`: the block with its flag `hasStats_`, the analyser,
and the warnings the method has handed to `compiler->warn`, oldest first. -/
structure BlockAnalysis (σ : Type) where
  block : ASTBlock σ
  hasStats : Bool
  analyser : FunctionAnalyser
  warnings : List CompilerError

/-- The loop of `ASTBlock::analyse` over the statements from index `i` on. -/
def ASTBlock.analyseLoop {σ : Type} (sops : StatementOps σ) :
    List σ → Nat → BlockAnalysis σ → BlockAnalysis σ × Except CompilerError Unit
  | [], _, st => (st, .ok ())
  | stmt :: rest, i, st =>
    let st1 : BlockAnalysis σ :=
      if !st.block.returnedCertainly
          && st.analyser.pathAnalyser.hasCertainly PathAnalyserIncident.Returned then
        { st with
          block := { st.block with
            returnedCertainly := true, stop := i, scopeStats := sops.createStats i }
          hasStats := true
          warnings := st.warnings ++
            [⟨sops.position stmt, ["Code will never be executed."], []⟩] }
      else st
    let r := sops.analyse stmt st1.analyser
    match r.2 with
    | .error e => ({ st1 with analyser := r.1 }, .error e)
    | .ok _ => ASTBlock.analyseLoop sops rest (i + 1) { st1 with analyser := r.1 }

/-- Method `ASTBlock::analyse`: the state the call leaves, and whether it returned or a
statement threw. -/
def ASTBlock.analyse {σ : Type} (sops : StatementOps σ) (block : ASTBlock σ) (hasStats : Bool)
    (analyser : FunctionAnalyser) : BlockAnalysis σ × Except CompilerError Unit :=
  let r := ASTBlock.analyseLoop sops block.stmts 0 ⟨block, hasStats, analyser, []⟩
  match r.2 with
  | .error e => (r.1, .error e)
  | .ok _ =>
    if !r.1.block.returnedCertainly
        && r.1.analyser.pathAnalyser.hasCertainly PathAnalyserIncident.Returned then
      ({ r.1 with block := { r.1.block with
          returnedCertainly := true, stop := r.1.block.stmts.length } }, .ok ())
    else (r.1, .ok ())

/-- The analyser as it is when the first `j` statements of a list have been analysed, that
is before statement `j` is analysed, or after the last statement when `j` is the number
of statements. -/
def ASTBlock.analyserBefore {σ : Type} (sops : StatementOps σ) :
    List σ → FunctionAnalyser → Nat → FunctionAnalyser
  | _, a, 0 => a
  | [], a, _ + 1 => a
  | stmt :: rest, a, j + 1 => ASTBlock.analyserBefore sops rest (sops.analyse stmt a).1 j

/-! ## Memory-flow analysis: measures of progress -/

/-- Going from `p` to `q` leaves the number of functions as it was, and every function
that was analysed in `p` has the same category for this in `q`. -/
def MFProgram.Stays {τ : Type} (p q : MFProgram τ) : Prop :=
  q.functions.length = p.functions.length ∧
  ∀ (h : Nat) (fn : Function τ), p.functions[h]? = some fn →
    fn.memoryFlowTypeForThis.isUnknown = false →
    ∃ fn1, q.functions[h]? = some fn1 ∧ fn1.memoryFlowTypeForThis = fn.memoryFlowTypeForThis

/-- The number of functions of a compilation that are not analysed yet: their category for
this is the unknown sentinel. -/
def MFProgram.pending {τ : Type} (p : MFProgram τ) : Nat :=
  p.functions.countP (fun fn => fn.memoryFlowTypeForThis.isUnknown)

/-! ## Memory-flow analysis: well-formed compilations -/

/-- The number of parameters of every function of the compilation, in the order of the
arena. -/
def MFProgram.arities {τ : Type} (p : MFProgram τ) : List Nat :=
  p.functions.map (fun fn => fn.parameters.length)

mutual
/-- The expression stays within the vectors the analysis indexes: every variable whose get
is recorded is one of the `variableCount` variables of the scope, every function named is
one of the arena, and a call passes no more arguments than the function called has
parameters (`arities`). -/
def MFExpr.wellFormed (arities : List Nat) (variableCount : Nat) : MFExpr → Bool
  | .getVariable id inInstanceScope => inInstanceScope || decide (id < variableCount)
  | .isOnlyReference => true
  | .typeExpr => true
  | .closure _ closureFunction captures _ =>
    decide (closureFunction < arities.length)
    && captures.all (fun id => decide (id < variableCount))
  | .callableBox _ expr thunk =>
    MFExpr.wellFormed arities variableCount expr && decide (thunk < arities.length)
  | .this => true
  | .call function callee args =>
    (match callee with
      | none => true
      | some calleeExpr => MFExpr.wellFormed arities variableCount calleeExpr)
    && MFExpr.allWellFormed arities variableCount args
    && (arities[function]?).any (fun arity => decide (args.length ≤ arity))
/-- Every expression of the list is well-formed. -/
def MFExpr.allWellFormed (arities : List Nat) (variableCount : Nat) : List MFExpr → Bool
  | [] => true
  | arg :: rest =>
    MFExpr.wellFormed arities variableCount arg && MFExpr.allWellFormed arities variableCount rest
end

mutual
/-- The statement stays within the vectors the analysis indexes: its expressions are
well-formed, and a variable it sets is one of the `variableCount` variables of the
scope. -/
def MFStmt.wellFormed {τ : Type} (arities : List Nat) (variableCount : Nat) : MFStmt τ → Bool
  | .exprStatement expr => expr.wellFormed arities variableCount
  | .return value _ =>
    match value with
    | some v => v.wellFormed arities variableCount
    | none => true
  | .variableAssignment id inInstanceScope expr _ =>
    (inInstanceScope || decide (id < variableCount)) && expr.wellFormed arities variableCount
  | .variableDeclareAndAssign id expr _ =>
    decide (id < variableCount) && expr.wellFormed arities variableCount
  | .constantVariable id expr _ =>
    decide (id < variableCount) && expr.wellFormed arities variableCount
  | .other => true
  | .nested _ block => ASTBlock.wellFormed arities variableCount block
/-- The block stays within the vectors the analysis indexes: its statements are
well-formed, the variables `from .. from + variables - 1` and `0 .. allVariablesCount - 1`
of its scope statistics are variables of the scope, and `stop`, when the block returns
certainly, is the index behind one of its statements. -/
def ASTBlock.wellFormed {τ : Type} (arities : List Nat) (variableCount : Nat) :
    ASTBlock (MFStmt τ) → Bool
  | ⟨stmts, returnedCertainly, stop, scopeStats, _⟩ =>
    MFStmt.allWellFormed arities variableCount stmts
    && decide (scopeStats.from + scopeStats.variables ≤ variableCount)
    && decide (scopeStats.allVariablesCount ≤ variableCount)
    && (!returnedCertainly || (decide (1 ≤ stop) && decide (stop ≤ stmts.length)))
/-- Every statement of the list is well-formed. -/
def MFStmt.allWellFormed {τ : Type} (arities : List Nat) (variableCount : Nat) :
    List (MFStmt τ) → Bool
  | [] => true
  | stmt :: rest =>
    MFStmt.wellFormed arities variableCount stmt
    && MFStmt.allWellFormed arities variableCount rest
end

/-- The function stays within the vectors the analysis indexes: its parameters are among
its variables, its body is well-formed, and the function it overrides, if any, is one of
the arena and has no more parameters than the function itself. -/
def Function.wellFormed {τ : Type} (arities : List Nat) (fn : Function τ) : Bool :=
  decide (fn.parameters.length ≤ fn.variableCount)
  && fn.ast.wellFormed arities fn.variableCount
  && (match fn.superFunction with
      | none => true
      | some super =>
        match arities[super]? with
        | none => false
        | some arity => decide (arity ≤ fn.parameters.length))

/-- Every function of the compilation is well-formed: the analysis of the compilation
makes no access outside a vector. -/
def MFProgram.wellFormed {τ : Type} (p : MFProgram τ) : Bool :=
  p.functions.all (fun fn => fn.wellFormed p.arities)

/-- The compilation has the given arities and each of its functions is well-formed for
them. -/
def MFProgram.WellFormedFor {τ : Type} (arities : List Nat) (p : MFProgram τ) : Prop :=
  p.arities = arities ∧ ∀ fn ∈ p.functions, fn.wellFormed arities = true

/-- Every variable of the scope that is marked as a parameter names one of the first
`arity` parameters. -/
def MFFunctionAnalyser.ParametersBelow {τ : Type} (arity : Nat)
    (scope : List (MFLocalVariable τ)) : Prop :=
  ∀ (j : Nat) (v : MFLocalVariable τ), scope[j]? = some v → v.isParam = true → v.param < arity

/-- The state of the walk of the body of `function` fits a well-formed compilation with at
most `budget` functions not analysed yet: the analyser is that of `function`, its scope
has `variableCount` variables, and those marked as parameters name parameters of
`function`. -/
def MFFunctionAnalyser.Ready {τ : Type} (arities : List Nat) (function variableCount budget : Nat)
    (s : MFProgram τ × MFFunctionAnalyser τ) : Prop :=
  s.1.WellFormedFor arities ∧ s.1.pending ≤ budget ∧ s.2.function = function ∧
  s.2.scope.length = variableCount ∧
  ∃ arity, arities[function]? = some arity ∧
    MFFunctionAnalyser.ParametersBelow arity s.2.scope

/-! ## Protocol conformance tables (`Generation/ProtocolsTableGenerator.cpp`) -/

/-- Function `ProtocolsTableGenerator::createProtocolTable`.  `protocolTables` lists, in
the iteration order of `typeDef->protocolTables()`, the constants
`entry.first.protocol()->rtti()` and `entry.second` of every entry as addresses; the
result is the emitted array, whose last element is the null value of the entry type. -/
def createProtocolTable (protocolTables : List (Nat × Nat)) :
    List Runtime.ProtocolConformanceEntry :=
  protocolTables.map (fun entry => ⟨entry.1, entry.2⟩) ++ [⟨0, 0⟩]

/-- The `llvm::Module` of the generator, as far as addresses go: the number of global
variables created in it so far. -/
structure LLVMModule where
  globals : Nat
  deriving DecidableEq, Repr

/-- The expression `new llvm::GlobalVariable(*generator_->module(), ...)`: a global
variable is added to the module and its address is the value of the expression.  A
new-expression never yields `nullptr`; the address of the `n`-th global variable of the
module stands as `n`, counted from 1. -/
def LLVMModule.newGlobalVariable (m : LLVMModule) : Nat × LLVMModule :=
  (m.globals + 1, ⟨m.globals + 1⟩)

/-- Method `ProtocolsTableGenerator::getConformanceVariable`: the address of a new global
variable, whatever its initializer `conformance` is (`nullptr` for an imported type). -/
def getConformanceVariable (m : LLVMModule) : Nat × LLVMModule :=
  m.newGlobalVariable

/-- Method `ProtocolsTableGenerator::createDispatchTable`, as far as addresses go: a global
variable is created for the virtual table, then the conformance variable, whose address is
returned. -/
def createDispatchTable (m : LLVMModule) : Nat × LLVMModule :=
  let arrayVar := m.newGlobalVariable
  getConformanceVariable arrayVar.2

/-- The call `tables.emplace(key, conformance)` on a `std::map<Type, llvm::Constant *>`,
whose entries are kept in ascending order of their keys under `lt` (the `operator<` of
`Type`, which is defined outside the sources): the entry is inserted at its place, unless
an entry with an equivalent key is there already. -/
def emplace {κ : Type} (lt : κ → κ → Bool) : List (κ × Nat) → κ → Nat → List (κ × Nat)
  | [], key, conformance => [(key, conformance)]
  | entry :: rest, key, conformance =>
    if lt key entry.1 then (key, conformance) :: entry :: rest
    else if lt entry.1 key then entry :: emplace lt rest key conformance
    else entry :: rest

/-- The loop of `ProtocolsTableGenerator::generate` over `type.typeDefinition()->protocols()`,
each protocol given by its key `protocol.type->type().unboxed()`: the dispatch table of the
protocol is created and its conformance variable entered into `tables`. -/
def generateLoop {κ : Type} (lt : κ → κ → Bool) :
    List κ → List (κ × Nat) × LLVMModule → List (κ × Nat) × LLVMModule
  | [], s => s
  | protocol :: rest, s =>
    let conformance := createDispatchTable s.2
    generateLoop lt rest (emplace lt s.1 protocol conformance.1, conformance.2)

/-- Method `ProtocolsTableGenerator::generate`: the map handed to `setProtocolTables` and
the module as it is left. -/
def generate {κ : Type} (lt : κ → κ → Bool) (protocols : List κ) (m : LLVMModule) :
    List (κ × Nat) × LLVMModule :=
  generateLoop lt protocols ([], m)

/-- The loop of `ProtocolsTableGenerator::declareImported` over the protocols of the type:
the conformance variable of each protocol is declared (`getConformanceVariable` with a
null initializer) and entered into `tables`. -/
def declareImportedLoop {κ : Type} (lt : κ → κ → Bool) :
    List κ → List (κ × Nat) × LLVMModule → List (κ × Nat) × LLVMModule
  | [], s => s
  | protocol :: rest, s =>
    let conformance := getConformanceVariable s.2
    declareImportedLoop lt rest (emplace lt s.1 protocol conformance.1, conformance.2)

/-- Method `ProtocolsTableGenerator::declareImported`, as far as the protocol tables go:
the map handed to `setProtocolTables` and the module as it is left. -/
def declareImported {κ : Type} (lt : κ → κ → Bool) (protocols : List κ) (m : LLVMModule) :
    List (κ × Nat) × LLVMModule :=
  declareImportedLoop lt protocols ([], m)

/-- What `createProtocolTable` reads of `typeDef->protocolTables()`: for every entry of
the map, in the order of iteration, the address `entry.first.protocol()->rtti()` of the
run-time type information of the protocol, given by `rtti`, and the conformance
`entry.second`. -/
def protocolTableEntries {κ : Type} (rtti : κ → Nat) (tables : List (κ × Nat)) :
    List (Nat × Nat) :=
  tables.map (fun entry => (rtti entry.1, entry.2))

/-! ## A small universe of types for concrete instances -/

/-- The nominal types of the sample universe: the classes `animal`, `dog` and `cat` (the
last two extend `animal`, and the definition of `cat` has generic dynamism disabled), the
value type `point` (dynamism disabled as well), the enum `color`, the protocol `printable`
(declared by `dog` and `point`), a callable type and the two top types. -/
inductive SampleBase where
  | animal
  | dog
  | cat
  | point
  | color
  | printable
  | callable
  | someobject
  | something
  deriving DecidableEq, Repr

/-- A type of the sample universe: a nominal type, possibly made optional. -/
structure SampleType where
  base : SampleBase
  optional : Bool
  deriving DecidableEq, Repr

/-- The kind of a nominal sample type. -/
def SampleBase.kind : SampleBase → TypeType
  | .animal => .Class
  | .dog => .Class
  | .cat => .Class
  | .point => .ValueType
  | .color => .Enum
  | .printable => .Protocol
  | .callable => .Callable
  | .someobject => .Someobject
  | .something => .Something

/-- Compatibility of nominal sample types: reflexive, subclasses to `animal`, classes to
`someobject`, conforming types to `printable`, everything to `something`. -/
def SampleBase.compatibleTo : SampleBase → SampleBase → Bool
  | _, .something => true
  | .dog, .animal => true
  | .cat, .animal => true
  | .animal, .someobject => true
  | .dog, .someobject => true
  | .cat, .someobject => true
  | .dog, .printable => true
  | .point, .printable => true
  | a, b => a == b

/-- The name of a nominal sample type. -/
def SampleBase.name : SampleBase → String
  | .animal => "animal"
  | .dog => "dog"
  | .cat => "cat"
  | .point => "point"
  | .color => "color"
  | .printable => "printable"
  | .callable => "callable"
  | .someobject => "someobject"
  | .something => "something"

/-- The operations of the sample universe.  An optional is only compatible to an optional
or to `something`; there are no boxes, generic arguments, references or exact types. -/
def sampleOps : TypeOps SampleType Unit where
  type t := if t.optional then .Optional else t.base.kind
  unboxed t := t
  compatibleTo a b _ :=
    b.base == .something || ((!a.optional || b.optional) && a.base.compatibleTo b.base)
  identicalTo a b _ := a == b
  optionalized t := { t with optional := true }
  boxedFor t _ := t
  boxedForType t := t
  genericArguments _ := []
  typeString t _ := t.base.name
  inexacted t := t
  setReference t _ := t
  canHaveProtocol t := !t.optional && (t.base.kind == .Class || t.base.kind == .ValueType
    || t.base.kind == .Enum)
  protocols t := if t.base == .dog || t.base == .point then [⟨.printable, false⟩] else []
  isGenericDynamismDisabled t := t.base == .cat || t.base == .point
  isManaged t := t.base.kind == .Class || t.base.kind == .Someobject
  unoptionalized t := { t with optional := false }
  someobject := ⟨.someobject, false⟩
  something := ⟨.something, false⟩
  multiProtocol _ := ⟨.something, false⟩
  calleeType _ := ⟨.point, false⟩

/-- A cast node at line 3, column 7, not yet analysed. -/
def sampleCast : ASTCast := ⟨⟨3, 7⟩, false⟩

/-- An analyser that has recorded nothing yet. -/
def freshAnalyser : ExpressionAnalyser := ⟨[], []⟩

/-- The default variable of the sample scopes: a borrowing local of type `something`. -/
def sampleVariable : MFLocalVariable SampleType :=
  ⟨false, 0, false, .Borrowing, ⟨.something, false⟩, []⟩

/-- A block of the sample programs that does not return certainly, declaring the variables
`0 .. n - 1`. -/
def sampleBlock (stmts : List (MFStmt SampleType)) (n : Nat) : ASTBlock (MFStmt SampleType) :=
  ⟨stmts, false, 0, ⟨0, n, n⟩, ⟨1, 1⟩⟩

/-- A sample compilation of two methods that call each other, neither analysed yet: method
0 takes a `dog` and calls method 1 on the context with its parameter; method 1 calls
method 0 back in the same way. -/
def sampleProgram : MFProgram SampleType :=
  ⟨[⟨⟨1, 1⟩, .ObjectMethod, true, none, [⟨"a", ⟨.dog, false⟩, ⟨1, 2⟩, .Borrowing⟩], 1,
      sampleBlock [.exprStatement (.call 1 (some .this) [.getVariable 0 false])] 1, .Unknown⟩,
    ⟨⟨2, 1⟩, .ObjectMethod, true, none, [⟨"b", ⟨.dog, false⟩, ⟨2, 2⟩, .Borrowing⟩], 1,
      sampleBlock [.exprStatement (.call 0 (some .this) [.getVariable 0 false])] 1, .Unknown⟩],
    [], []⟩

/-- A sample analyser at the end of a block: variable 0 is a `dog` parameter, variable 1 a
`dog` local, variable 2 a `dog` local that was returned, variable 3 a `point` local. -/
def sampleAnalyser : MFFunctionAnalyser SampleType :=
  ⟨0, [⟨true, 0, false, .Borrowing, ⟨.dog, false⟩, []⟩,
       ⟨false, 0, false, .Borrowing, ⟨.dog, false⟩, []⟩,
       ⟨false, 0, true, .Escaping, ⟨.dog, false⟩, []⟩,
       ⟨false, 0, false, .Borrowing, ⟨.point, false⟩, []⟩], false, 0⟩

/-- A universe of types with exact types on top of another universe: the flag tells
whether the type is exact, `inexacted` clears it, and every other operation works on the
underlying type. -/
def TypeOps.withExactTypes {τ κ : Type} (ops : TypeOps τ κ) : TypeOps (τ × Bool) κ where
  type t := ops.type t.1
  unboxed t := (ops.unboxed t.1, t.2)
  compatibleTo a b c := ops.compatibleTo a.1 b.1 c
  identicalTo a b c := ops.identicalTo a.1 b.1 c
  optionalized t := (ops.optionalized t.1, t.2)
  boxedFor t u := (ops.boxedFor t.1 u.1, t.2)
  boxedForType t := (ops.boxedForType t.1, t.2)
  genericArguments t := (ops.genericArguments t.1).map (fun a => (a, false))
  typeString t c := ops.typeString t.1 c
  inexacted t := (t.1, false)
  setReference t isReference := (ops.setReference t.1 isReference, t.2)
  canHaveProtocol t := ops.canHaveProtocol t.1
  protocols t := (ops.protocols t.1).map (fun a => (a, false))
  isGenericDynamismDisabled t := ops.isGenericDynamismDisabled t.1
  isManaged t := ops.isManaged t.1
  unoptionalized t := (ops.unoptionalized t.1, t.2)
  someobject := (ops.someobject, false)
  something := (ops.something, false)
  multiProtocol ps := (ops.multiProtocol (ps.map (fun a => a.1)), false)
  calleeType c := (ops.calleeType c, false)

/-- A universe in which a type is nothing but its kind: a type is compatible to itself
and to `Something`, no type declares protocols, and there are no references. -/
def kindOps : TypeOps TypeType Unit where
  type t := t
  unboxed t := t
  compatibleTo a b _ := a == b || b == TypeType.Something
  identicalTo a b _ := a == b
  optionalized _ := TypeType.Optional
  boxedFor _ _ := TypeType.Box
  boxedForType _ := TypeType.Box
  genericArguments _ := []
  typeString _ _ := "type"
  inexacted t := t
  setReference t _ := t
  canHaveProtocol t := t == TypeType.Class || t == TypeType.ValueType || t == TypeType.Enum
  protocols _ := []
  isGenericDynamismDisabled _ := false
  isManaged t := t == TypeType.Class || t == TypeType.Someobject
  unoptionalized t := t
  someobject := TypeType.Someobject
  something := TypeType.Something
  multiProtocol _ := TypeType.MultiProtocol
  calleeType _ := TypeType.Class

/-- The reference operations of the universe of kinds: no type is a reference. -/
def kindReferenceOps : ReferenceOps TypeType := ⟨fun _ => false, fun _ => true⟩

/-- The initializers, for which `isReturnForbidden` holds. -/
def initializersForbidReturn : FunctionType → Bool
  | .ObjectInitializer => true
  | .ValueTypeInitializer => true
  | _ => false

/-- An analyser that has recorded nothing yet, outside unsafe blocks. -/
def freshFunctionAnalyser : FunctionAnalyser := ⟨⟨[]⟩, [], false⟩

/-- An expression of the universe of kinds whose analysis records nothing and yields the
type `t`. -/
def plainValue (t : TypeType) : ReturnValue TypeType :=
  ⟨⟨[], [], .ok t⟩, ⟨[], [], .ok ()⟩, none⟩

/-- Reference operations under which every type is a mutable reference. -/
def allReferenceOps : ReferenceOps TypeType := ⟨fun _ => true, fun _ => true⟩

/-- A declaration in the universe of kinds of a variable of type `t` that the scope
numbers `id`; none of the calls it makes records or throws anything. -/
def plainDeclaration (t : TypeType) (id : Nat) : ASTVariableDeclaration TypeType :=
  ⟨⟨1, 1⟩, ⟨[], [], .ok t⟩, ⟨[], [], .ok ()⟩, ⟨[], [], .ok ⟨id, t, false⟩⟩, 0⟩

/-- An assignment in the universe of kinds to the variable `id` of type `t`, found in the
instance scope or not; none of the calls it makes records or throws anything. -/
def plainAssignment (t : TypeType) (id : Nat) (inInstanceScope : Bool) :
    ASTVariableAssignment TypeType :=
  ⟨⟨2, 1⟩, .ok ⟨⟨id, t, false⟩, inInstanceScope⟩, ⟨[], [], .ok ()⟩, .ok (), none, false⟩

/-- A class of function types for which `isFullyInitializedCheckRequired` holds: the
object initializers. -/
def objectInitializersRequireCheck : FunctionType → Bool
  | .ObjectInitializer => true
  | _ => false

/-- A sample compilation with an overriding method: method 0 of a class overrides method
1; it was found to let this and its parameter escape, while method 1, analysed before,
borrows both. -/
def overrideProgram : MFProgram SampleType :=
  ⟨[⟨⟨1, 1⟩, .ObjectMethod, true, some 1, [⟨"a", ⟨.dog, false⟩, ⟨1, 2⟩, .Escaping⟩], 1,
      sampleBlock [] 1, .Escaping⟩,
    ⟨⟨2, 1⟩, .ObjectMethod, true, none, [⟨"b", ⟨.dog, false⟩, ⟨2, 2⟩, .Borrowing⟩], 1,
      sampleBlock [] 1, .Borrowing⟩],
    [], []⟩

/-- The analyser of method 0 of `overrideProgram` at the end of its analysis. -/
def overrideAnalyser : MFFunctionAnalyser SampleType :=
  ⟨0, [⟨true, 0, false, .Escaping, ⟨.dog, false⟩, []⟩], true, 0⟩

/-- A sample analyser with two `dog` locals: variable 0 of the function's block and
variable 1 of a nested block. -/
def nestedAnalyser : MFFunctionAnalyser SampleType :=
  ⟨0, [⟨false, 0, false, .Borrowing, ⟨.dog, false⟩, []⟩,
       ⟨false, 0, false, .Borrowing, ⟨.dog, false⟩, []⟩], false, 0⟩

/-- A nested block that declares variable 1 (of the two variables of the function so
far) and ends with a return statement, be it flagged as returning certainly or not. -/
def nestedReturningBlock (returnedCertainly : Bool) : ASTBlock (MFStmt SampleType) :=
  ⟨[.return none false], returnedCertainly, 1, ⟨1, 1, 2⟩, ⟨3, 1⟩⟩

/-- A sample compilation with a deinitializer (function 0, not analysed yet) whose body
stores this in an instance variable. -/
def deinitializerProgram : MFProgram SampleType :=
  ⟨[⟨⟨1, 1⟩, .Deinitializer, true, none, [], 0,
      sampleBlock [.variableAssignment 0 true .this ⟨.dog, false⟩] 0, .Unknown⟩], [], []⟩

/-- A sample analyser whose only variable, the local 0 of type `dog`, is borrowing and has
the heap-allocating node 5 as a stack-promotion candidate. -/
def candidateAnalyser : MFFunctionAnalyser SampleType :=
  ⟨0, [⟨false, 0, false, .Borrowing, ⟨.dog, false⟩, [5]⟩], false, 0⟩

/-- Statement operations for the sample blocks: the analysis of a return statement records
`Returned` and that of any other statement records nothing; a return statement stands at
line 1, a statement without effect at line 2, an expression statement at line 3 and any
other statement at line 4; no statement declares a variable. -/
def sampleStatementOps : StatementOps (MFStmt SampleType) where
  analyse stmt a :=
    match stmt with
    | .return _ _ =>
      ({ a with pathAnalyser := a.pathAnalyser.record PathAnalyserIncident.Returned }, .ok ())
    | _ => (a, .ok ())
  position stmt :=
    match stmt with
    | .return _ _ => ⟨1, 1⟩
    | .other => ⟨2, 1⟩
    | .exprStatement _ => ⟨3, 1⟩
    | _ => ⟨4, 1⟩
  createStats _ := ⟨0, 0, 0⟩

/-- A sample block, not yet analysed: a return statement followed by two statements. -/
def deadCodeBlock : ASTBlock (MFStmt SampleType) :=
  ⟨[.return none false, .other, .exprStatement .typeExpr], false, 0, ⟨0, 0, 0⟩, ⟨1, 1⟩⟩

/-- A sample compilation in which a method calls the method that overrides it, neither
analysed yet: method 0 of a class calls method 1; method 1, of a subclass, overrides method
0 and stores this in an instance variable. -/
def cyclicOverrideProgram : MFProgram SampleType :=
  ⟨[⟨⟨1, 1⟩, .ObjectMethod, true, none, [], 0,
      sampleBlock [.exprStatement (.call 1 none [])] 0, .Unknown⟩,
    ⟨⟨2, 1⟩, .ObjectMethod, true, some 0, [], 0,
      sampleBlock [.variableAssignment 0 true .this ⟨.dog, false⟩] 0, .Unknown⟩],
    [], []⟩

/-- A raise statement of the universe of kinds at line 4, column 1, whose value is an
enumeration value at column 3: the check of the value against the type Enum records
nothing and returns, the check against any other type throws. -/
def sampleRaise : ASTRaise TypeType :=
  ⟨⟨4, 1⟩, fun t =>
    if t = TypeType.Enum then ⟨[], [], .ok ()⟩
    else ⟨[], [], .error ⟨⟨4, 3⟩, ["The raised value is not of the error type."], []⟩⟩, []⟩

/-- A sample compilation with one function that is not a method, not analysed yet: it
takes a `dog`, which the parser classified as borrowing, and calls itself with its
parameter. -/
def recursiveProgram : MFProgram SampleType :=
  ⟨[⟨⟨1, 1⟩, .Function, false, none, [⟨"a", ⟨.dog, false⟩, ⟨1, 2⟩, .Borrowing⟩], 1,
      sampleBlock [.exprStatement (.call 0 none [.getVariable 0 false])] 1, .Unknown⟩], [], []⟩

end EmojicodeCompiler

/-! # Theorems -/

namespace Runtime

theorem wrap64_of_inRange (x : Int) (h0 : -2 ^ 63 ≤ x) (h1 : x < 2 ^ 63) : wrap64 x = x := by
  unfold wrap64
  omega

/-- The increment of `ejcRetain` wraps around: on a count of `INT64_MAX` it leaves
`INT64_MIN`, for the strong count of a control block as for an embedded local count. -/
theorem ejcRetain_wraps_at_int64_max :
    (ejcRetain ⟨.real, 0, ⟨2 ^ 63 - 1, 0⟩, 0, 0, 0⟩).strong = -2 ^ 63 ∧
    (ejcRetain ⟨.null, 2 ^ 63 - 1, ⟨0, 0⟩, 0, 0, 0⟩).strong = -2 ^ 63 := by
  decide

theorem controlBlock_ejcRetain (o : Object) : (ejcRetain o).controlBlock = o.controlBlock := by
  unfold ejcRetain; split <;> simp_all

theorem controlBlock_ejcRelease (o : Object) : (ejcRelease o).controlBlock = o.controlBlock := by
  cases hc : o.controlBlock
  · simp only [ejcRelease, hc, releaseLocal]
    split_ifs <;> simp [Object.destructor, hc]
  · simp [ejcRelease, hc]
  · simp only [ejcRelease, hc, deleteControlBlock]
    split_ifs <;> simp [Object.destructor, Object.free, hc]

theorem controlBlock_apply (c : RcCall) (o : Object) : (c.apply o).controlBlock = o.controlBlock := by
  cases c
  · exact controlBlock_ejcRetain o
  · exact controlBlock_ejcRelease o

theorem strong_ejcRetain (o : Object) (h : o.controlBlock ≠ .ignoreBlock) :
    (ejcRetain o).strong = wrap64 (o.strong + 1) ∧
    (ejcRetain o).destructorCalls = o.destructorCalls := by
  cases hc : o.controlBlock <;> simp_all [ejcRetain, Object.strong]

theorem strong_ejcRelease (o : Object) (h : o.controlBlock ≠ .ignoreBlock) :
    (ejcRelease o).strong = wrap64 (o.strong - 1) ∧
    (ejcRelease o).destructorCalls
      = o.destructorCalls + (if wrap64 (o.strong - 1) = 0 then 1 else 0) := by
  cases hc : o.controlBlock
  · by_cases h1 : wrap64 (o.localCount - 1) = 0
    · simp [ejcRelease, Object.strong, hc, releaseLocal, Object.destructor, h1]
    · simp [ejcRelease, Object.strong, hc, releaseLocal, Object.destructor, h1]
  · exact absurd hc h
  · by_cases h1 : wrap64 (o.block.strongCount - 1) = 0
    · by_cases hw : o.block.weakCount = 0 <;>
        simp [ejcRelease, Object.strong, hc, Object.destructor, Object.free, deleteControlBlock,
          h1, hw]
    · simp [ejcRelease, Object.strong, hc, h1]

theorem runCalls_take_succ (o : Object) (calls : List RcCall) (k : Nat) (hk : k < calls.length) :
    runCalls o (calls.take (k + 1)) = (calls[k]).apply (runCalls o (calls.take k)) := by
  unfold runCalls
  rw [List.take_succ, List.foldl_append]
  simp [List.getElem?_eq_getElem hk]

theorem controlBlock_runCalls (o : Object) (calls : List RcCall) :
    (runCalls o calls).controlBlock = o.controlBlock := by
  induction calls generalizing o with
  | nil => rfl
  | cons c cs ih =>
    show (runCalls (c.apply o) cs).controlBlock = _
    rw [ih, controlBlock_apply]

theorem count_take_succ (calls : List RcCall) (k : Nat) (hk : k < calls.length) (c : RcCall) :
    (calls.take (k + 1)).count c = (calls.take k).count c + (if calls[k] = c then 1 else 0) := by
  rw [List.take_succ, List.count_append]
  simp [List.getElem?_eq_getElem hk, List.count_singleton]

/-- One call on an object whose count is a non-negative `int64_t` value and, for a retain,
is below `INT64_MAX`: the count goes up or down by one as an integer, and the destructor
is invoked exactly by a release that finds the count at 1. -/
theorem apply_step (o : Object) (h : o.controlBlock ≠ .ignoreBlock) (c : RcCall)
    (h0 : 0 ≤ o.strong) (h1 : o.strong < 2 ^ 63) (hc : c = .retain → o.strong + 1 < 2 ^ 63) :
    (c.apply o).strong = o.strong + (if c = .release then -1 else 1) ∧
    (c.apply o).destructorCalls
      = o.destructorCalls + (if c = RcCall.release ∧ o.strong = 1 then 1 else 0) := by
  cases c
  · have hs := strong_ejcRetain o h
    have hw := wrap64_of_inRange (o.strong + 1) (by omega) (hc rfl)
    simp only [RcCall.apply, hs.1, hs.2, hw]
    simp
  · have hs := strong_ejcRelease o h
    have hw := wrap64_of_inRange (o.strong - 1) (by omega) (by omega)
    simp only [RcCall.apply, hs.1, hs.2, hw, true_and, if_true]
    refine ⟨by ring, ?_⟩
    by_cases h1 : o.strong = 1
    · simp [h1]
    · have : ¬ o.strong - 1 = 0 := by omega
      simp [h1, this]

/-- The count never leaves the range of `int64_t` values from 0 to `INT64_MAX`: no initial
segment releases more often than it has retained plus the references the object starts
with, or retains so often that the count would pass `INT64_MAX`. -/
theorem strong_runCalls_take (o : Object) (h : o.controlBlock ≠ .ignoreBlock)
    (calls : List RcCall)
    (hr : ∀ k, k ≤ calls.length →
      ((calls.take k).count RcCall.release : Int)
          ≤ o.strong + ((calls.take k).count RcCall.retain : Int) ∧
        o.strong + ((calls.take k).count RcCall.retain : Int)
          < ((calls.take k).count RcCall.release : Int) + 2 ^ 63) :
    ∀ k, k ≤ calls.length →
      (runCalls o (calls.take k)).strong
        = o.strong + ((calls.take k).count RcCall.retain : Int)
            - ((calls.take k).count RcCall.release : Int) := by
  intro k
  induction k with
  | zero => intro _; simp [runCalls]
  | succ k ih =>
    intro hk1
    have hk : k < calls.length := by omega
    have hprev := ih (by omega)
    have hreg : (runCalls o (calls.take k)).controlBlock ≠ .ignoreBlock := by
      rwa [controlBlock_runCalls]
    have hrk := hr k (by omega)
    have hrk1 := hr (k + 1) hk1
    have hcr := count_take_succ calls k hk RcCall.retain
    have hcl := count_take_succ calls k hk RcCall.release
    rw [hcr, hcl] at hrk1 ⊢
    have hstep := apply_step _ hreg (calls[k]) (by rw [hprev]; omega) (by rw [hprev]; omega)
      (by
        intro hc
        rw [hprev]
        rw [if_pos hc, if_neg (by rw [hc]; decide)] at hrk1
        push_cast at hrk1
        omega)
    rw [runCalls_take_succ o calls k hk, hstep.1, hprev]
    cases hck : calls[k] <;> simp <;> ring

theorem runCalls_replicate_retain (n : Nat) :
    ∀ o : Object, o.controlBlock ≠ .ignoreBlock → 0 ≤ o.strong → o.strong + n < 2 ^ 63 →
      (runCalls o (List.replicate n RcCall.retain)).strong = o.strong + n ∧
      (runCalls o (List.replicate n RcCall.retain)).controlBlock = o.controlBlock := by
  induction n with
  | zero => intro o _ _ _; simp [runCalls]
  | succ n ih =>
    intro o hreg h0 hlt
    have hs := (strong_ejcRetain o hreg).1
    have hw := wrap64_of_inRange (o.strong + 1) (by omega) (by push_cast at hlt; omega)
    have hreg1 : (ejcRetain o).controlBlock ≠ .ignoreBlock := by rwa [controlBlock_ejcRetain]
    obtain ⟨h1, h2⟩ := ih (ejcRetain o) hreg1 (by rw [hs, hw]; omega)
      (by rw [hs, hw]; push_cast at hlt; omega)
    have hrun : runCalls o (List.replicate (n + 1) RcCall.retain)
        = runCalls (ejcRetain o) (List.replicate n RcCall.retain) := rfl
    rw [hrun, h1, h2, hs, hw, controlBlock_ejcRetain]
    exact ⟨by push_cast; ring, rfl⟩

theorem matched_of_retains (calls : List RcCall) (h : ∀ c ∈ calls, c = RcCall.retain) :
    Matched calls := by
  intro k _
  have : (calls.take k).count RcCall.release = 0 := by
    rw [List.count_eq_zero]
    intro hmem
    have := h _ (List.mem_of_mem_take hmem)
    cases this
  omega

/-- An object with one reference that is retained `n + 1` times, where `n + 2 = 2^63`:
the sequence is matched, and the last retain finds the count at `INT64_MAX` and leaves
`INT64_MIN`. -/
theorem runCalls_retains_past_int64_max (n : Nat) (hn : (n : Int) + 2 = 2 ^ 63) :
    Matched (List.replicate n RcCall.retain ++ [RcCall.retain]) ∧
    (runCalls ⟨.real, 0, ⟨1, 0⟩, 0, 0, 0⟩
        (List.replicate n RcCall.retain ++ [RcCall.retain])).strong = -2 ^ 63 := by
  constructor
  · apply matched_of_retains
    intro c hc
    rcases List.mem_append.mp hc with hc | hc
    · exact List.eq_of_mem_replicate hc
    · exact List.mem_singleton.mp hc
  · have h0 : (⟨.real, 0, ⟨1, 0⟩, 0, 0, 0⟩ : Object).strong = 1 := rfl
    obtain ⟨h1, h2⟩ := runCalls_replicate_retain n ⟨.real, 0, ⟨1, 0⟩, 0, 0, 0⟩
      (by decide) (by decide) (by rw [h0]; omega)
    have hrun : runCalls ⟨.real, 0, ⟨1, 0⟩, 0, 0, 0⟩
        (List.replicate n RcCall.retain ++ [RcCall.retain])
        = ejcRetain (runCalls ⟨.real, 0, ⟨1, 0⟩, 0, 0, 0⟩
            (List.replicate n RcCall.retain)) := by
      simp [runCalls, List.foldl_append, RcCall.apply]
    rw [hrun, (strong_ejcRetain _ (by rw [h2]; decide)).1, h1, h0]
    have : (1 : Int) + n + 1 = 2 ^ 63 := by omega
    rw [this]
    decide

theorem countP_set_le {α : Type} (p : α → Bool) (l : List α) (i : Nat) (a : α) :
    (l.set i a).countP p ≤ l.countP p + 1 := by
  by_cases h : i < l.length
  · rw [List.countP_set p l i a h]
    split_ifs <;> omega
  · rw [List.set_eq_of_length_le (by omega)]; omega

theorem countP_set_dead {α : Type} (p : α → Bool) (l : List α) (i : Nat) (a : α)
    (ha : p a = false) : (l.set i a).countP p ≤ l.countP p := by
  by_cases h : i < l.length
  · rw [List.countP_set p l i a h]
    simp [ha]
  · rw [List.set_eq_of_length_le (by omega)]

theorem countP_set_live_dead {α : Type} (p : α → Bool) (l : List α) (i : Nat) (a b : α)
    (hb : l[i]? = some b) (hpb : p b = true) (ha : p a = false) :
    (l.set i a).countP p + 1 = l.countP p := by
  obtain ⟨h, hget⟩ := List.getElem?_eq_some_iff.mp hb
  rw [List.countP_set p l i a h]
  have := List.boole_getElem_le_countP p l i h
  rw [hget] at this ⊢
  simp only [hpb, ha, if_true] at this ⊢
  simp
  omega

theorem wrap64_zero : wrap64 0 = 0 := by decide

theorem Heap.Inv.of_fresh {h : Heap} (hf : h.Fresh) (hb : h.object.block.strongCount < 2 ^ 63) :
    h.Inv := by
  obtain ⟨h1, h2, h3, h4, h5, h6⟩ := hf
  refine ⟨h1, by omega, hb, ?_, ?_, ?_⟩
  · have : h.liveRefs = 0 := by
      unfold Heap.liveRefs
      rw [List.countP_eq_zero]
      intro r hr; simp [h6 r hr]
    rw [this, h3]; simp
  · simp [h5, h2]
  · have : ¬ h.bothZero := by unfold Heap.bothZero; omega
    simp [this, h4]

theorem Heap.step_retain_inv {h h1 : Heap} (hi : h.Inv)
    (hb : h.object.block.strongCount + 1 < 2 ^ 63) (hs : h.step .retain = some h1) :
    h1.Inv ∧ ¬ h.bothZero ∧ ¬ h1.bothZero ∧ h1.object.blockDeletes = h.object.blockDeletes ∧
      h1.object.block.strongCount = h.object.block.strongCount + 1 := by
  obtain ⟨⟨cb, lc, ⟨s, w⟩, d, bd, fr⟩, addr, refs⟩ := h
  obtain ⟨hreal, hsn, hlt, hlive, halive, hdel⟩ := hi
  simp only [Heap.liveRefs, Heap.bothZero] at hreal hsn hlt hlive halive hdel hb
  subst hreal
  simp only [Heap.step] at hs
  split_ifs at hs with hfr
  simp only [Option.some.injEq] at hs
  subst hs
  have hs0 : 0 < s := halive.mp hfr
  have hw64 : wrap64 (s + 1) = s + 1 := wrap64_of_inRange _ (by omega) hb
  have hbz : ¬ (s = 0 ∧ w = 0) := by omega
  have h2 : ¬ (s + 1 = 0 ∧ w = 0) := by omega
  have h3 : 0 ≤ s + 1 := by omega
  have h4 : 0 < s + 1 := by omega
  rw [if_neg hbz] at hdel
  simp only [Heap.Inv, Heap.liveRefs, Heap.bothZero, ejcRetain, hw64]
  simp only [if_neg h2]
  exact ⟨⟨trivial, h3, hb, hlive, ⟨fun _ => h4, fun _ => hfr⟩, hdel⟩, hbz, h2, trivial, trivial⟩

theorem Heap.step_release_inv {h h1 : Heap} (hi : h.Inv) (hs : h.step .release = some h1) :
    h1.Inv ∧ ¬ h.bothZero ∧
      (h1.bothZero → h1.object.blockDeletes = h.object.blockDeletes + 1 ∧
        h.object.block.weakCount = 0) ∧
      (¬ h1.bothZero → h1.object.blockDeletes = h.object.blockDeletes) ∧
      h1.object.block.strongCount = h.object.block.strongCount - 1 := by
  obtain ⟨⟨cb, lc, ⟨s, w⟩, d, bd, fr⟩, addr, refs⟩ := h
  obtain ⟨hreal, hsn, hlt, hlive, halive, hdel⟩ := hi
  simp only [Heap.liveRefs, Heap.bothZero] at hreal hsn hlt hlive halive hdel
  subst hreal
  simp only [Heap.step] at hs
  split_ifs at hs with hfr
  simp only [Option.some.injEq] at hs
  subst hs
  have hs0 : 0 < s := halive.mp hfr
  have hw64 : wrap64 (s - 1) = s - 1 := wrap64_of_inRange _ (by omega) (by omega)
  have hb : ¬ (s = 0 ∧ w = 0) := by omega
  rw [if_neg hb] at hdel
  subst hdel
  by_cases h1 : s - 1 = 0
  · have hs1 : s = 1 := by omega
    subst hs1
    by_cases hw : w = 0
    · subst hw
      simp [ejcRelease, deleteControlBlock, Object.destructor, Object.free, Heap.Inv,
        Heap.liveRefs, Heap.bothZero, wrap64_zero] at hlive ⊢
      exact hlive
    · simp [ejcRelease, deleteControlBlock, Object.destructor, Object.free, hw, Heap.Inv,
        Heap.liveRefs, Heap.bothZero, wrap64_zero] at hlive ⊢
      exact hlive
  · have h2 : ¬ (s - 1 = 0 ∧ w = 0) := by omega
    have h3 : 0 ≤ s - 1 := by omega
    have h4 : 0 < s - 1 := by omega
    have h5 : s - 1 < 2 ^ 63 := by omega
    simp [ejcRelease, hw64, h1, h2, h3, h4, hb, hfr, Heap.Inv, Heap.liveRefs,
      Heap.bothZero] at hlive ⊢
    exact ⟨by omega, hlive⟩

theorem set_self {α : Type} (l : List α) (i : Nat) (a : α) (h : l[i]? = some a) :
    l.set i a = l := by
  induction l generalizing i with
  | nil => rfl
  | cons x l ih =>
    cases i with
    | zero => simp at h; simp [h]
    | succ i => simp at h; simp [ih i h]

theorem countP_pos_of_getElem {α : Type} (p : α → Bool) (l : List α) (i : Nat) (a : α)
    (h : l[i]? = some a) (hp : p a = true) : 0 < l.countP p := by
  rw [List.countP_pos_iff]
  exact ⟨a, List.mem_iff_getElem?.mpr ⟨i, h⟩, hp⟩

theorem Heap.step_createWeak_inv {h h1 : Heap} {i : Nat} (hi : h.Inv)
    (hs : h.step (.createWeak i) = some h1) :
    h1.Inv ∧ ¬ h.bothZero ∧ ¬ h1.bothZero ∧
      h1.object.block.strongCount = h.object.block.strongCount := by
  obtain ⟨⟨cb, lc, ⟨s, w⟩, d, bd, fr⟩, addr, refs⟩ := h
  obtain ⟨hreal, hsn, hlt, hlive, halive, hdel⟩ := hi
  simp only [Heap.liveRefs, Heap.bothZero] at hreal hsn hlt hlive halive hdel
  subst hreal
  simp only [Heap.step] at hs
  cases hr : refs[i]? with
  | none => simp [hr] at hs
  | some ref =>
    simp only [hr] at hs
    split_ifs at hs with hfr
    simp only [ejcCreateWeak, Option.some.injEq] at hs
    subst hs
    have hs0 : 0 < s := halive.mp hfr
    have hb : ¬ (s = 0 ∧ w = 0) := by omega
    have h2 : ¬ (s = 0 ∧ w + 1 = 0) := by omega
    rw [if_neg hb] at hdel
    have hc := countP_set_le (fun ref : WeakReference => ref.block != BlockPtr.null) refs i
      ⟨BlockPtr.real, addr⟩
    simp only [Heap.Inv, Heap.liveRefs, Heap.bothZero]
    simp only [if_neg h2]
    refine ⟨⟨trivial, hsn, hlt, ?_, halive, hdel⟩, hb, h2, trivial⟩
    omega

theorem Heap.step_retainWeak_inv {h h1 : Heap} {i : Nat} (hi : h.Inv)
    (hs : h.step (.retainWeak i) = some h1) :
    h1.Inv ∧ (h.bothZero → h1 = h) ∧ (¬ h.bothZero → ¬ h1.bothZero) ∧
      h1.object.block.strongCount = h.object.block.strongCount := by
  obtain ⟨⟨cb, lc, ⟨s, w⟩, d, bd, fr⟩, addr, refs⟩ := h
  have hi0 := hi
  obtain ⟨hreal, hsn, hlt, hlive, halive, hdel⟩ := hi
  simp only [Heap.liveRefs, Heap.bothZero] at hreal hsn hlt hlive halive hdel
  subst hreal
  simp only [Heap.step] at hs
  cases hr : refs[i]? with
  | none => simp [hr] at hs
  | some ref =>
    simp only [hr] at hs
    split_ifs at hs with hrd
    simp only [Option.some.injEq] at hs
    subst hs
    by_cases hn : ref.block = .null
    · simp only [ejcRetainWeak, hn, bne_self_eq_false, Bool.false_eq_true, if_false]
      exact ⟨hi0, fun _ => trivial, fun hb => hb, trivial⟩
    · have hp := countP_pos_of_getElem (fun ref : WeakReference => ref.block != BlockPtr.null)
        refs i ref hr (by simp [hn])
      have hw : 0 < w := by omega
      have hb : ¬ (s = 0 ∧ w = 0) := by omega
      have h2 : ¬ (s = 0 ∧ w + 1 = 0) := by omega
      rw [if_neg hb] at hdel
      have hne : (ref.block != BlockPtr.null) = true := by simp [hn]
      simp only [ejcRetainWeak, hne, if_true, Heap.Inv, Heap.liveRefs, Heap.bothZero]
      simp only [if_neg h2]
      refine ⟨⟨trivial, hsn, hlt, ?_, halive, hdel⟩, fun hz => absurd hz hb, fun _ => h2,
        trivial⟩
      omega

theorem Heap.releaseWeakReference_inv {cb : BlockPtr} {lc s w : Int} {d bd fr addr : Nat}
    {refs : List WeakReference} {i : Nat} {ref : WeakReference} (hr : refs[i]? = some ref)
    (hn : ¬ ref.block = .null)
    (hi : Heap.Inv ⟨⟨cb, lc, ⟨s, w⟩, d, bd, fr⟩, addr, refs⟩) :
    Heap.Inv ⟨(releaseWeakReference ref ⟨cb, lc, ⟨s, w⟩, d, bd, fr⟩).2, addr,
        refs.set i (releaseWeakReference ref ⟨cb, lc, ⟨s, w⟩, d, bd, fr⟩).1⟩ ∧
      ¬ (s = 0 ∧ w = 0) ∧
      (releaseWeakReference ref ⟨cb, lc, ⟨s, w⟩, d, bd, fr⟩).2.block = ⟨s, w - 1⟩ := by
  obtain ⟨hreal, hsn, hlt, hlive, halive, hdel⟩ := hi
  simp only [Heap.liveRefs, Heap.bothZero] at hreal hsn hlt hlive halive hdel
  subst hreal
  have hp := countP_set_live_dead (fun ref : WeakReference => ref.block != BlockPtr.null)
    refs i ⟨BlockPtr.null, ref.object⟩ ref hr (by simp [hn]) (by simp)
  have hp0 := countP_pos_of_getElem (fun ref : WeakReference => ref.block != BlockPtr.null)
    refs i ref hr (by simp [hn])
  have hw : 0 < w := by omega
  have hb : ¬ (s = 0 ∧ w = 0) := by omega
  rw [if_neg hb] at hdel
  subst hdel
  refine ⟨?_, hb, ?_⟩
  · simp only [Heap.Inv, Heap.liveRefs, Heap.bothZero, releaseWeakReference]
    by_cases hs : s = 0
    · subst hs
      by_cases hw1 : w - 1 = 0
      · simp [deleteControlBlock, hw1] at halive ⊢
        refine ⟨?_, halive⟩
        have hz : List.countP (fun ref : WeakReference => ref.block != BlockPtr.null)
            (refs.set i ⟨BlockPtr.null, ref.object⟩) = 0 := by omega
        simpa using hz
      · simp [deleteControlBlock, hw1] at halive ⊢
        exact ⟨by omega, halive⟩
    · simp [hs] at halive ⊢
      exact ⟨hsn, hlt, by omega, halive⟩
  · simp only [releaseWeakReference]
    by_cases hs : s = 0
    · subst hs
      by_cases hw1 : w - 1 = 0
      · simp [deleteControlBlock, hw1]
      · simp [deleteControlBlock, hw1]
    · simp [hs]

theorem Heap.step_releaseWeak_inv {h h1 : Heap} {i : Nat} (hi : h.Inv)
    (hs : h.step (.releaseWeak i) = some h1) :
    h1.Inv ∧ (h.bothZero → h1 = h) ∧
      (¬ h.bothZero → h1.bothZero → h.object.block.strongCount = 0) ∧
      h1.object.block.strongCount = h.object.block.strongCount := by
  obtain ⟨⟨cb, lc, ⟨s, w⟩, d, bd, fr⟩, addr, refs⟩ := h
  simp only [Heap.step] at hs
  cases hr : refs[i]? with
  | none => simp [hr] at hs
  | some ref =>
    simp only [hr] at hs
    split_ifs at hs with hrd
    simp only [Option.some.injEq] at hs
    subst hs
    by_cases hn : ref.block = .null
    · simp only [ejcReleaseWeak, hn, bne_self_eq_false, Bool.false_eq_true, if_false]
      rw [set_self refs i ref hr]
      exact ⟨hi, fun _ => rfl, fun hb hb1 => absurd hb1 hb, trivial⟩
    · have hne : (ref.block != BlockPtr.null) = true := by simp [hn]
      obtain ⟨h1, h2, h3⟩ := Heap.releaseWeakReference_inv hr hn hi
      simp only [ejcReleaseWeak, hne, if_true]
      refine ⟨h1, fun hz => absurd hz h2, fun _ hz => ?_, by rw [h3]⟩
      simp only [Heap.bothZero, h3] at hz
      exact hz.1

theorem Heap.step_acquireStrong_inv {h h1 : Heap} {i : Nat} (hi : h.Inv)
    (hbound : h.object.block.strongCount + 1 < 2 ^ 63)
    (hs : h.step (.acquireStrong i) = some h1) :
    h1.Inv ∧ (h.bothZero → h1 = h) ∧
      (¬ h.bothZero → h1.bothZero → h.object.block.strongCount = 0) ∧
      h1.object.block.strongCount ≤ h.object.block.strongCount + 1 := by
  obtain ⟨⟨cb, lc, ⟨s, w⟩, d, bd, fr⟩, addr, refs⟩ := h
  simp only at hbound
  simp only [Heap.step] at hs
  cases hr : refs[i]? with
  | none => simp [hr] at hs
  | some ref =>
    simp only [hr] at hs
    split_ifs at hs with hrd
    simp only [Option.some.injEq] at hs
    subst hs
    by_cases hn : ref.block = .null
    · simp only [ejcAcquireStrong, hn, beq_self_eq_true, if_true]
      rw [set_self refs i ref hr]
      exact ⟨hi, fun _ => rfl, fun hb hb1 => absurd hb1 hb, by simp⟩
    · have hne : (ref.block == BlockPtr.null) = false := by simp [hn]
      by_cases hs0 : s = 0
      · obtain ⟨h1, h2, h3⟩ := Heap.releaseWeakReference_inv hr hn hi
        have hs1 : (s == 0) = true := by simp [hs0]
        simp only [ejcAcquireStrong, hne, Bool.false_eq_true, if_false, hs1, if_true]
        exact ⟨h1, fun hz => absurd hz h2, fun _ _ => hs0, by rw [h3]; simp⟩
      · have hs1 : (s == 0) = false := by simp [hs0]
        simp only [ejcAcquireStrong, hne, Bool.false_eq_true, if_false, hs1]
        rw [set_self refs i ref hr]
        obtain ⟨hreal, hsn, hlt, hlive, halive, hdel⟩ := hi
        simp only [Heap.liveRefs, Heap.bothZero] at hreal hsn hlt hlive halive hdel
        have hb : ¬ (s = 0 ∧ w = 0) := by omega
        have hb1 : ¬ (s + 1 = 0 ∧ w = 0) := by omega
        rw [if_neg hb] at hdel
        simp only [Heap.Inv, Heap.liveRefs, Heap.bothZero]
        simp only [if_neg hb1]
        refine ⟨⟨hreal, by omega, hbound, hlive, ?_, hdel⟩, fun hz => absurd hz hb,
          fun _ hz => absurd hz hb1, le_refl _⟩
        constructor
        · intro; omega
        · intro; exact halive.mpr (by omega)

/-- Every defined step made while the strong count is below `INT64_MAX` keeps the
invariant and raises the strong count by one at most; it leaves a heap whose counters are
both zero as it is, and it can bring both counters to zero only as the last strong release
with no weak reference left, or as a weak release or failed acquisition after the object
died. -/
theorem Heap.step_inv {h h1 : Heap} {c : HeapCall} (hi : h.Inv)
    (hb : h.object.block.strongCount + 1 < 2 ^ 63) (hs : h.step c = some h1) :
    h1.Inv ∧ (h.bothZero → h1 = h) ∧
      (¬ h.bothZero → h1.bothZero →
        (c = .release ∧ h.object.block.weakCount = 0) ∨
        ((∃ i, c = .releaseWeak i ∨ c = .acquireStrong i) ∧
          h.object.block.strongCount = 0)) ∧
      h1.object.block.strongCount ≤ h.object.block.strongCount + 1 := by
  cases c with
  | retain =>
    obtain ⟨h1, h2, h3, _, h5⟩ := Heap.step_retain_inv hi hb hs
    exact ⟨h1, fun hz => absurd hz h2, fun _ hz => absurd hz h3, by omega⟩
  | release =>
    obtain ⟨h1, h2, h3, _, h5⟩ := Heap.step_release_inv hi hs
    exact ⟨h1, fun hz => absurd hz h2, fun _ hz => Or.inl ⟨rfl, (h3 hz).2⟩, by omega⟩
  | createWeak i =>
    obtain ⟨h1, h2, h3, h4⟩ := Heap.step_createWeak_inv hi hs
    exact ⟨h1, fun hz => absurd hz h2, fun _ hz => absurd hz h3, by omega⟩
  | retainWeak i =>
    obtain ⟨h1, h2, h3, h4⟩ := Heap.step_retainWeak_inv hi hs
    exact ⟨h1, h2, fun hz hz1 => absurd hz1 (h3 hz), by omega⟩
  | releaseWeak i =>
    obtain ⟨h1, h2, h3, h4⟩ := Heap.step_releaseWeak_inv hi hs
    exact ⟨h1, h2, fun hz hz1 => Or.inr ⟨⟨i, Or.inl rfl⟩, h3 hz hz1⟩, by omega⟩
  | acquireStrong i =>
    obtain ⟨h1, h2, h3, h4⟩ := Heap.step_acquireStrong_inv hi hb hs
    exact ⟨h1, h2, fun hz hz1 => Or.inr ⟨⟨i, Or.inr rfl⟩, h3 hz hz1⟩, h4⟩

theorem Heap.run_inv {h h1 : Heap} {calls : List HeapCall} (hi : h.Inv)
    (hb : h.object.block.strongCount + calls.length < 2 ^ 63)
    (hr : h.run calls = some h1) :
    h1.Inv ∧ h1.object.block.strongCount ≤ h.object.block.strongCount + calls.length := by
  induction calls generalizing h with
  | nil =>
    simp only [Heap.run, Option.some.injEq] at hr
    subst hr
    exact ⟨hi, by simp⟩
  | cons c cs ih =>
    simp only [Heap.run] at hr
    simp only [List.length_cons, Nat.cast_add, Nat.cast_one] at hb ⊢
    cases hs : h.step c with
    | none => simp [hs] at hr
    | some h2 =>
      simp only [hs] at hr
      obtain ⟨hi2, _, _, hle⟩ := Heap.step_inv hi (by omega) hs
      obtain ⟨hi1, hle1⟩ := ih hi2 (by omega) hr
      exact ⟨hi1, by omega⟩

theorem Heap.step_releaseWeak_twice {h h1 : Heap} {i : Nat}
    (hs : h.step (.releaseWeak i) = some h1) :
    h1.step (.releaseWeak i) = some h1 ∧
      ∀ ref, h.refs[i]? = some ref →
        h1.object.block.weakCount =
          h.object.block.weakCount - (if ref.block = .null then 0 else 1) := by
  obtain ⟨⟨cb, lc, ⟨s, w⟩, d, bd, fr⟩, addr, refs⟩ := h
  simp only [Heap.step] at hs
  cases hr : refs[i]? with
  | none => simp [hr] at hs
  | some ref =>
    simp only [hr] at hs
    split_ifs at hs with hrd
    simp only [Option.some.injEq] at hs
    subst hs
    obtain ⟨hlt, hget⟩ := List.getElem?_eq_some_iff.mp hr
    by_cases hn : ref.block = .null
    · simp only [ejcReleaseWeak, hn, bne_self_eq_false, Bool.false_eq_true, if_false]
      rw [set_self refs i ref hr]
      refine ⟨?_, ?_⟩
      · simp [Heap.step, hr, Heap.readable, hn, ejcReleaseWeak, set_self refs i ref hr]
      · intro r hr1
        cases hr1
        simp [hn]
    · have hne : (ref.block != BlockPtr.null) = true := by simp [hn]
      simp only [ejcReleaseWeak, hne, if_true]
      refine ⟨?_, ?_⟩
      · simp [Heap.step, hlt, Heap.readable, ejcReleaseWeak, releaseWeakReference]
      · intro r hr1
        cases hr1
        simp only [releaseWeakReference, hn, if_false]
        split_ifs
        · simp only [deleteControlBlock]
          split_ifs <;> rfl
        · rfl

/-- The last strong release: on a live heap whose strong count is 1, `ejcRelease` is
defined, takes the strong count to zero, leaves the weak count and the slots as they are,
and deletes the control block exactly when the weak count is zero. -/
theorem Heap.step_last_release {h : Heap} (hi : h.Inv) (hs : h.object.block.strongCount = 1) :
    ∃ h1, h.step .release = some h1 ∧
      h1.object.block = ⟨0, h.object.block.weakCount⟩ ∧ h1.refs = h.refs ∧
      h1.object.blockDeletes = (if h.object.block.weakCount = 0 then 1 else 0) := by
  obtain ⟨⟨cb, lc, ⟨s, w⟩, d, bd, fr⟩, addr, refs⟩ := h
  obtain ⟨hreal, hsn, hlt, hlive, halive, hdel⟩ := hi
  simp only [Heap.liveRefs, Heap.bothZero] at hreal hsn hlt hlive halive hdel hs
  subst hreal
  subst hs
  have hfr : fr = 0 := halive.mpr (by decide)
  have hb : ¬ ((1 : Int) = 0 ∧ w = 0) := by omega
  rw [if_neg hb] at hdel
  subst hdel
  subst hfr
  refine ⟨⟨ejcRelease ⟨.real, lc, ⟨1, w⟩, d, 0, 0⟩, addr, refs⟩, by simp [Heap.step], ?_,
    rfl, ?_⟩
  · by_cases hw : w = 0 <;>
      simp [ejcRelease, deleteControlBlock, Object.destructor, Object.free, wrap64_zero, hw]
  · by_cases hw : w = 0 <;>
      simp [ejcRelease, deleteControlBlock, Object.destructor, Object.free, wrap64_zero, hw]

/-- After the object died: through a live weak reference, `ejcReleaseWeak` and
`ejcAcquireStrong` are defined and do the same; they take one off the weak count, null the
reference, and delete the control block exactly when the weak count was 1. -/
theorem Heap.step_weak_after_death {h : Heap} (hi : h.Inv) {i : Nat} {ref : WeakReference}
    (hr : h.refs[i]? = some ref) (hn : ref.block ≠ .null)
    (hs : h.object.block.strongCount = 0) :
    ∃ h1, h.step (.releaseWeak i) = some h1 ∧ h.step (.acquireStrong i) = some h1 ∧
      h1.object.block = ⟨0, h.object.block.weakCount - 1⟩ ∧
      h1.refs = h.refs.set i ⟨.null, ref.object⟩ ∧
      h1.object.blockDeletes = (if h.object.block.weakCount = 1 then 1 else 0) := by
  obtain ⟨⟨cb, lc, ⟨s, w⟩, d, bd, fr⟩, addr, refs⟩ := h
  obtain ⟨hreal, hsn, hlt, hlive, halive, hdel⟩ := hi
  simp only [Heap.liveRefs, Heap.bothZero] at hreal hsn hlt hlive halive hdel hs hr
  subst hreal
  subst hs
  have hp0 := countP_pos_of_getElem (fun ref : WeakReference => ref.block != BlockPtr.null)
    refs i ref hr (by simp [hn])
  have hw : 0 < w := by omega
  have hb : ¬ ((0 : Int) = 0 ∧ w = 0) := by omega
  rw [if_neg hb] at hdel
  subst hdel
  have hne : (ref.block != BlockPtr.null) = true := by simp [hn]
  have hne2 : (ref.block == BlockPtr.null) = false := by simp [hn]
  refine ⟨⟨(releaseWeakReference ref ⟨.real, lc, ⟨0, w⟩, d, 0, fr⟩).2, addr,
    refs.set i (releaseWeakReference ref ⟨.real, lc, ⟨0, w⟩, d, 0, fr⟩).1⟩, ?_, ?_, ?_, ?_, ?_⟩
  · simp [Heap.step, hr, Heap.readable, ejcReleaseWeak, hne]
  · simp [Heap.step, hr, Heap.readable, ejcAcquireStrong, hne2]
  · by_cases hw1 : w - 1 = 0 <;> simp [releaseWeakReference, deleteControlBlock, hw1]
  · simp [releaseWeakReference]
  · by_cases hw1 : w - 1 = 0
    · have : w = 1 := by omega
      simp [releaseWeakReference, deleteControlBlock, hw1, this]
    · have : ¬ w = 1 := by omega
      simp [releaseWeakReference, deleteControlBlock, hw1, this]

theorem TypeDescription.differ_iff (a b : TypeDescription) :
    (a.rtti ≠ b.rtti ∨ a.optional ≠ b.optional) ↔ a ≠ b := by
  cases a; cases b; simp only [ne_eq, TypeDescription.mk.injEq]; tauto

theorem visitedLoop_zero (rttiAt : Nat → RunTimeTypeInfo) (d : List TypeDescription)
    (fuel p : Nat) : visitedLoop rttiAt d fuel 0 p = some ([], p) := by
  cases fuel <;> rfl

theorem checkGenericArgsLoop_zero (rttiAt : Nat → RunTimeTypeInfo) (l r : List TypeDescription)
    (fuel pl pr : Nat) : checkGenericArgsLoop rttiAt l r fuel 0 pl pr = some (true, pl, pr) := by
  cases fuel <;> rfl

theorem visitedLoop_succ {rttiAt : Nat → RunTimeTypeInfo} {d : List TypeDescription}
    {fuel i p : Nat} {w : List Nat × Nat}
    (h : visitedLoop rttiAt d (fuel + 1) (i + 1) p = some w) :
    ∃ a q sub rest, d[p]? = some a ∧ advance (p + 1) (rttiAt a.rtti).paramOffset = some q ∧
      visitedLoop rttiAt d fuel (rttiAt a.rtti).paramCount.toNat q = some sub ∧
      visitedLoop rttiAt d fuel i sub.2 = some rest ∧ w = (p :: sub.1 ++ rest.1, rest.2) := by
  simp only [visitedLoop] at h
  cases ha : d[p]? with
  | none => simp [ha] at h
  | some a =>
    simp only [ha] at h
    cases hq : advance (p + 1) (rttiAt a.rtti).paramOffset with
    | none => simp [hq] at h
    | some q =>
      simp only [hq] at h
      cases hs : visitedLoop rttiAt d fuel (rttiAt a.rtti).paramCount.toNat q with
      | none => simp [hs] at h
      | some sub =>
        simp only [hs] at h
        cases hr : visitedLoop rttiAt d fuel i sub.2 with
        | none => simp [hr] at h
        | some rest =>
          simp only [hr, Option.some.injEq] at h
          exact ⟨a, q, sub, rest, rfl, hq, hs, hr, h.symm⟩

/-- On two descriptions whose walks stay inside the arrays, the loop of `checkGenericArgs`
either returns true, the two walks being the same and all visited entries equal, or returns
false, some entry visited in the left description differing from the right one. -/
theorem checkGenericArgsLoop_of_visited (rttiAt : Nat → RunTimeTypeInfo)
    (l r : List TypeDescription) : ∀ (fuel i p : Nat) (wl wr : List Nat × Nat),
    visitedLoop rttiAt l fuel i p = some wl → visitedLoop rttiAt r fuel i p = some wr →
    (checkGenericArgsLoop rttiAt l r fuel i p p = some (true, wl.2, wl.2) ∧ wl = wr ∧
        ∀ k ∈ wl.1, l[k]? = r[k]?) ∨
    ((∃ pl pr, checkGenericArgsLoop rttiAt l r fuel i p p = some (false, pl, pr)) ∧
        ∃ k ∈ wl.1, l[k]? ≠ r[k]?) := by
  intro fuel
  induction fuel with
  | zero =>
    intro i p wl wr hl hr
    cases i with
    | zero =>
      simp only [visitedLoop, Option.some.injEq] at hl hr
      subst hl; subst hr
      left; simp [checkGenericArgsLoop]
    | succ i => simp [visitedLoop] at hl
  | succ fuel ih =>
    intro i p wl wr hl hr
    cases i with
    | zero =>
      simp only [visitedLoop, Option.some.injEq] at hl hr
      subst hl; subst hr
      left; simp [checkGenericArgsLoop]
    | succ i =>
      obtain ⟨a, q, subl, restl, ha, hq, hsl, hrl, rfl⟩ := visitedLoop_succ hl
      obtain ⟨b, q2, subr, restr, hb, hq2, hsr, hrr, rfl⟩ := visitedLoop_succ hr
      by_cases hab : a = b
      · subst hab
        rw [hq] at hq2
        cases hq2
        have hsame : ¬ (a.rtti ≠ a.rtti ∨ a.optional ≠ a.optional) := by simp
        rcases ih _ q subl subr hsl hsr with ⟨hc, heq, hag⟩ | ⟨⟨pl, pr, hc⟩, k, hk, hne⟩
        · subst heq
          rcases ih i subl.2 restl restr hrl hrr with
            ⟨hc2, heq2, hag2⟩ | ⟨⟨pl, pr, hc2⟩, k, hk, hne⟩
          · subst heq2
            left
            refine ⟨?_, rfl, ?_⟩
            · simp only [checkGenericArgsLoop, ha, hb, hq, hc, if_neg hsame]
              exact hc2
            · intro k hk
              simp only [List.mem_cons, List.mem_append] at hk
              rcases hk with (rfl | hk) | hk
              · rw [ha, hb]
              · exact hag k hk
              · exact hag2 k hk
          · right
            refine ⟨⟨pl, pr, ?_⟩, k, ?_, hne⟩
            · simp only [checkGenericArgsLoop, ha, hb, hq, hc, if_neg hsame]
              exact hc2
            · simp [hk]
        · right
          refine ⟨⟨pl, pr, ?_⟩, k, ?_, hne⟩
          · simp only [checkGenericArgsLoop, ha, hb, hq, hc, if_neg hsame]
          · simp [hk]
      · right
        have hdiff := (TypeDescription.differ_iff a b).mpr hab
        refine ⟨⟨p + 1, p + 1, ?_⟩, p, by simp, ?_⟩
        · simp only [checkGenericArgsLoop, ha, hb, if_pos hdiff]
        · rw [ha, hb]
          simpa using hab

theorem checkGenericArgsLoop_mono (rttiAt : Nat → RunTimeTypeInfo)
    (l r : List TypeDescription) : ∀ (fuel i pl pr : Nat) (res : Bool × Nat × Nat),
    checkGenericArgsLoop rttiAt l r fuel i pl pr = some res →
    checkGenericArgsLoop rttiAt l r (fuel + 1) i pl pr = some res := by
  intro fuel
  induction fuel with
  | zero =>
    intro i pl pr res h
    cases i with
    | zero => simpa [checkGenericArgsLoop] using h
    | succ i => simp [checkGenericArgsLoop] at h
  | succ fuel ih =>
    intro i pl pr res h
    cases i with
    | zero => simpa [checkGenericArgsLoop] using h
    | succ i =>
      rw [checkGenericArgsLoop] at h ⊢
      cases ha : l[pl]? with
      | none => simp [ha] at h
      | some a =>
        cases hb : r[pr]? with
        | none => simp [ha, hb] at h
        | some b =>
          simp only [ha, hb] at h ⊢
          split_ifs at h ⊢ with hd
          · exact h
          · cases hq : advance (pl + 1) (rttiAt a.rtti).paramOffset with
            | none => simp [hq] at h
            | some ql =>
              cases hq2 : advance (pr + 1) (rttiAt a.rtti).paramOffset with
              | none => simp [hq, hq2] at h
              | some qr =>
                simp only [hq, hq2] at h ⊢
                cases hc : checkGenericArgsLoop rttiAt l r fuel
                    (rttiAt a.rtti).paramCount.toNat ql qr with
                | none => simp [hc] at h
                | some res1 =>
                  rw [ih _ _ _ _ hc]
                  simp only [hc] at h
                  obtain ⟨g, pl1, pr1⟩ := res1
                  cases g with
                  | false => simpa using h
                  | true =>
                    simp only at h ⊢
                    exact ih _ _ _ _ h

theorem checkGenericArgsLoop_mono_le (rttiAt : Nat → RunTimeTypeInfo)
    (l r : List TypeDescription) (fuel fuel1 i pl pr : Nat) (res : Bool × Nat × Nat)
    (hle : fuel ≤ fuel1) (h : checkGenericArgsLoop rttiAt l r fuel i pl pr = some res) :
    checkGenericArgsLoop rttiAt l r fuel1 i pl pr = some res := by
  induction hle with
  | refl => exact h
  | step _ ih => exact checkGenericArgsLoop_mono rttiAt l r _ _ _ _ _ ih

/-- C13: for two descriptions whose depth-first walks for `argsCount` arguments behind
`argsOffset` stay inside their arrays and read at most `fuel` entries each,
`ejcCheckGenericArgs` returns a result (with every budget of at least `fuel`), and the
result is true exactly when every entry visited by the walk is the same (address of the
run-time type information and optional flag) in both descriptions, in which case the two
walks coincide.  The check is symmetric, and reflexive. -/
theorem ejcCheckGenericArgs_true_iff_visited_entries_equal (rttiAt : Nat → RunTimeTypeInfo)
    (l r : List TypeDescription) (fuel : Nat) (argsCount argsOffset : Int)
    (wl wr : List Nat × Nat)
    (hl : visited rttiAt l fuel argsCount argsOffset = some wl)
    (hr : visited rttiAt r fuel argsCount argsOffset = some wr) :
    ∃ g : Bool,
      (∀ fuel1, fuel ≤ fuel1 →
        ejcCheckGenericArgs rttiAt l r fuel1 argsCount argsOffset = some g) ∧
      (g = true ↔ ∀ k ∈ wl.1, l[k]? = r[k]?) ∧
      (g = true → wl = wr) ∧
      (∀ fuel1, fuel ≤ fuel1 →
        ejcCheckGenericArgs rttiAt r l fuel1 argsCount argsOffset = some g) ∧
      (∀ fuel1, fuel ≤ fuel1 →
        ejcCheckGenericArgs rttiAt l l fuel1 argsCount argsOffset = some true) := by
  simp only [visited] at hl hr
  cases hq : advance 0 argsOffset with
  | none => simp [hq] at hl
  | some q =>
    simp only [hq] at hl hr
    have hrun : ∀ (a b : List TypeDescription) (g : Bool) (pl pr : Nat),
        checkGenericArgsLoop rttiAt a b fuel argsCount.toNat q q = some (g, pl, pr) →
        ∀ fuel1, fuel ≤ fuel1 →
          ejcCheckGenericArgs rttiAt a b fuel1 argsCount argsOffset = some g := by
      intro a b g pl pr hc fuel1 hle
      simp only [ejcCheckGenericArgs, checkGenericArgs, hq]
      rw [checkGenericArgsLoop_mono_le rttiAt a b fuel fuel1 _ _ _ _ hle hc]
      rfl
    have hrefl : ∀ fuel1, fuel ≤ fuel1 →
        ejcCheckGenericArgs rttiAt l l fuel1 argsCount argsOffset = some true := by
      rcases checkGenericArgsLoop_of_visited rttiAt l l fuel _ q wl wl hl hl with
        ⟨hc, _, _⟩ | ⟨_, k, _, hne⟩
      · exact hrun l l true _ _ hc
      · exact absurd rfl hne
    rcases checkGenericArgsLoop_of_visited rttiAt l r fuel _ q wl wr hl hr with
      ⟨hc, heq, hag⟩ | ⟨⟨pl, pr, hc⟩, k, hk, hne⟩
    · refine ⟨true, hrun l r true _ _ hc, ⟨fun _ => hag, fun _ => rfl⟩, fun _ => heq, ?_, hrefl⟩
      rcases checkGenericArgsLoop_of_visited rttiAt r l fuel _ q wr wl hr hl with
        ⟨hc2, _, _⟩ | ⟨_, k, hk, hne⟩
      · exact hrun r l true _ _ hc2
      · exact absurd (hag k (heq ▸ hk)).symm hne
    · refine ⟨false, hrun l r false _ _ hc, ⟨fun h => Bool.noConfusion h,
        fun h => absurd (h k hk) hne⟩, fun h => Bool.noConfusion h, ?_, hrefl⟩
      rcases checkGenericArgsLoop_of_visited rttiAt r l fuel _ q wr wl hr hl with
        ⟨_, heq2, hag2⟩ | ⟨⟨pl2, pr2, hc2⟩, _⟩
      · exact absurd (hag2 k (heq2 ▸ hk)).symm hne
      · exact hrun r l false _ _ hc2

/-- Witness for C13: a type with two generic arguments, the second of which is optional
in the left description only; the check visits the entries 0, 1 and 2 and returns false. -/
theorem ejcCheckGenericArgs_true_iff_visited_entries_equal_witness :
    ∃ g : Bool,
      (∀ fuel1, 3 ≤ fuel1 →
        ejcCheckGenericArgs sampleRtti [⟨2, false⟩, ⟨1, false⟩, ⟨1, true⟩]
          [⟨2, false⟩, ⟨1, false⟩, ⟨1, false⟩] fuel1 1 0 = some g) ∧
      (g = true ↔ ∀ k ∈ [0, 1, 2],
        ([⟨2, false⟩, ⟨1, false⟩, ⟨1, true⟩] : List TypeDescription)[k]? =
          ([⟨2, false⟩, ⟨1, false⟩, ⟨1, false⟩] : List TypeDescription)[k]?) :=
  have h := ejcCheckGenericArgs_true_iff_visited_entries_equal sampleRtti
    [⟨2, false⟩, ⟨1, false⟩, ⟨1, true⟩] [⟨2, false⟩, ⟨1, false⟩, ⟨1, false⟩] 3 1 0
    ([0, 1, 2], 3) ([0, 1, 2], 3) (by decide) (by decide)
  h.elim fun g hg => ⟨g, hg.1, hg.2.1⟩

theorem ejcFindProtocolConformance_eq (info : List ProtocolConformanceEntry) (p : Nat)
    (hterm : NullTerminated info) (hp : p ≠ 0) :
    ejcFindProtocolConformance info p =
      some (match (entriesBeforeTerminator info).find? (fun e => e.protocolId == p) with
        | some e => e.protocolConformance
        | none => 0) := by
  induction info with
  | nil => obtain ⟨e, he, _⟩ := hterm; simp at he
  | cons e rest ih =>
    by_cases h0 : e.protocolId = 0
    · simp [ejcFindProtocolConformance, entriesBeforeTerminator, h0]
    · by_cases hep : e.protocolId = p
      · simp [ejcFindProtocolConformance, entriesBeforeTerminator, h0, hep, hp]
      · have hrest : NullTerminated rest := by
          obtain ⟨x, hx, hx0⟩ := hterm
          rcases List.mem_cons.mp hx with rfl | hx
          · exact absurd hx0 h0
          · exact ⟨x, hx, hx0⟩
        have := ih hrest
        simp only [entriesBeforeTerminator] at this
        simp [ejcFindProtocolConformance, entriesBeforeTerminator, h0, hep, this]

/-! ## The sentinel block and the superclass chain -/

/-- C29: on an object whose control block pointer is the sentinel `&ejcIgnoreBlock`,
`ejcRetain`, `ejcRetainMemory`, `ejcRelease` and `ejcReleaseMemory` return at once and
leave everything as it is, whereas `ejcReleaseWithoutDeinit`, which has no test for the
sentinel, takes one off the strong count of the sentinel block and, when the count
reaches zero, deletes the block (unless weak references are counted) and frees the
object. -/
theorem ignoreBlock_entry_points_except_releaseWithoutDeinit (o : Object)
    (h : o.controlBlock = .ignoreBlock) :
    ejcRetain o = o ∧ ejcRetainMemory o = some o ∧ ejcRelease o = o ∧
    ejcReleaseMemory o = some o ∧
    (ejcReleaseWithoutDeinit o).block.strongCount = o.block.strongCount - 1 ∧
    (ejcReleaseWithoutDeinit o).destructorCalls = o.destructorCalls ∧
    (o.block.strongCount = 1 → (ejcReleaseWithoutDeinit o).frees = o.frees + 1) := by
  obtain ⟨cb, lc, ⟨s, w⟩, d, bd, fr⟩ := o
  simp only at h
  subst h
  refine ⟨rfl, rfl, rfl, rfl, ?_, ?_, ?_⟩
  · simp only [ejcReleaseWithoutDeinit]
    split_ifs
    · rfl
    · simp only [deleteControlBlock, Object.free]
      split_ifs <;> rfl
  · simp only [ejcReleaseWithoutDeinit]
    split_ifs
    · rfl
    · simp only [deleteControlBlock, Object.free]
      split_ifs <;> rfl
  · intro hs
    simp only at hs
    subst hs
    simp [ejcReleaseWithoutDeinit, deleteControlBlock, Object.free]
    split_ifs <;> rfl

/-- Witness for C29: an exempt object whose sentinel block counts 1; the four guarded
entry points change nothing, `ejcReleaseWithoutDeinit` brings the count to 0. -/
theorem ignoreBlock_entry_points_except_releaseWithoutDeinit_witness :
    ejcRelease ⟨.ignoreBlock, 0, ⟨1, 0⟩, 0, 0, 0⟩ = ⟨.ignoreBlock, 0, ⟨1, 0⟩, 0, 0, 0⟩ ∧
    (ejcReleaseWithoutDeinit ⟨.ignoreBlock, 0, ⟨1, 0⟩, 0, 0, 0⟩).block.strongCount = 1 - 1 :=
  have h := ignoreBlock_entry_points_except_releaseWithoutDeinit
    ⟨.ignoreBlock, 0, ⟨1, 0⟩, 0, 0, 0⟩ rfl
  ⟨h.2.2.1, h.2.2.2.2.1⟩

theorem ejcInheritsFrom_on_chain (superclass : Nat → Nat) («from» : Nat) :
    ∀ (n c : Nat), superclass^[n] c = 0 → (∀ j < n, superclass^[j] c ≠ 0) →
      ∃ b : Bool, (∀ fuel, n < fuel → ejcInheritsFrom superclass fuel c «from» = some b) ∧
        (b = true ↔ ∃ k < n, superclass^[k] c = «from») := by
  intro n
  induction n with
  | zero =>
    intro c hend _
    simp only [Function.iterate_zero, id_eq] at hend
    subst hend
    refine ⟨false, fun fuel hf => ?_, by simp⟩
    obtain ⟨f, rfl⟩ : ∃ f, fuel = f + 1 := ⟨fuel - 1, by omega⟩
    simp [ejcInheritsFrom]
  | succ n ih =>
    intro c hend hmin
    have hc : c ≠ 0 := by simpa using hmin 0 (by omega)
    by_cases hcf : c = «from»
    · refine ⟨true, fun fuel hf => ?_, ⟨fun _ => ⟨0, by omega, by simpa using hcf⟩,
        fun _ => rfl⟩⟩
      obtain ⟨f, rfl⟩ : ∃ f, fuel = f + 1 := ⟨fuel - 1, by omega⟩
      simp only [ejcInheritsFrom, if_neg hc, if_pos hcf]
    · have hend1 : superclass^[n] (superclass c) = 0 := by
        rw [← Function.iterate_succ_apply]; exact hend
      have hmin1 : ∀ j < n, superclass^[j] (superclass c) ≠ 0 := by
        intro j hj
        rw [← Function.iterate_succ_apply]
        exact hmin (j + 1) (by omega)
      obtain ⟨b, hb1, hb2⟩ := ih (superclass c) hend1 hmin1
      refine ⟨b, fun fuel hf => ?_, ?_⟩
      · obtain ⟨f, rfl⟩ : ∃ f, fuel = f + 1 := ⟨fuel - 1, by omega⟩
        simp only [ejcInheritsFrom, if_neg hc, if_neg hcf]
        exact hb1 f (by omega)
      · rw [hb2]
        constructor
        · rintro ⟨k, hk, hkf⟩
          exact ⟨k + 1, by omega, by rw [Function.iterate_succ_apply]; exact hkf⟩
        · rintro ⟨k, hk, hkf⟩
          cases k with
          | zero => exact absurd (by simpa using hkf) hcf
          | succ k =>
            exact ⟨k, by omega, by rw [← Function.iterate_succ_apply]; exact hkf⟩

/-- C30: on a superclass chain of `n` class infos starting at `c` (following the link `n`
times from `c` arrives at `nullptr`, and not earlier), `ejcInheritsFrom(c, from)` returns
a result, with every fuel above `n`; it is true exactly when `from` is one of the class
infos of the chain, that is `c` itself or one reached from `c` by following superclass
links; it is false when `c` is null and when `from` is null. -/
theorem ejcInheritsFrom_true_iff_reachable (superclass : Nat → Nat) (c «from» n : Nat)
    (hend : superclass^[n] c = 0) (hmin : ∀ j < n, superclass^[j] c ≠ 0) :
    ∃ b : Bool, (∀ fuel, n < fuel → ejcInheritsFrom superclass fuel c «from» = some b) ∧
      (b = true ↔ ∃ k < n, superclass^[k] c = «from») ∧
      (c = 0 → b = false) ∧ («from» = 0 → b = false) := by
  obtain ⟨b, hb1, hb2⟩ := ejcInheritsFrom_on_chain superclass «from» n c hend hmin
  refine ⟨b, hb1, hb2, fun hc => ?_, fun hf => ?_⟩
  · cases hb : b with
    | false => rfl
    | true =>
      obtain ⟨k, hk, _⟩ := hb2.mp hb
      have := hmin 0 (by omega)
      simp [hc] at this
  · cases hb : b with
    | false => rfl
    | true =>
      obtain ⟨k, hk, hkf⟩ := hb2.mp hb
      exact absurd (hkf.trans hf) (hmin k hk)

/-- Witness for C30: class 3 of the sample hierarchy inherits from the root class 1. -/
theorem ejcInheritsFrom_true_iff_reachable_witness :
    ∃ b : Bool, (∀ fuel, 3 < fuel → ejcInheritsFrom sampleSuperclass fuel 3 1 = some b) ∧
      (b = true ↔ ∃ k < 3, sampleSuperclass^[k] 3 = 1) :=
  have h := ejcInheritsFrom_true_iff_reachable sampleSuperclass 3 1 3 (by decide) (by decide)
  h.elim fun b hb => ⟨b, hb.1, hb.2.1⟩

/-! ## Lengths and indices of type descriptions -/

theorem TypeTree.flattenAll_append (ts us : List TypeTree) :
    TypeTree.flattenAll (ts ++ us) = TypeTree.flattenAll ts ++ TypeTree.flattenAll us := by
  induction ts with
  | nil => simp [TypeTree.flattenAll]
  | cons t ts ih => simp [TypeTree.flattenAll, ih]

theorem TypeTree.sizeAll_append (ts us : List TypeTree) :
    TypeTree.sizeAll (ts ++ us) = TypeTree.sizeAll ts + TypeTree.sizeAll us := by
  induction ts with
  | nil => simp [TypeTree.sizeAll]
  | cons t ts ih => simp [TypeTree.sizeAll, ih, Nat.add_assoc]

theorem TypeTree.allWellFormed_append (rttiAt : Nat → RunTimeTypeInfo) (ts us : List TypeTree) :
    TypeTree.allWellFormed rttiAt (ts ++ us) =
      (TypeTree.allWellFormed rttiAt ts && TypeTree.allWellFormed rttiAt us) := by
  induction ts with
  | nil => simp [TypeTree.allWellFormed]
  | cons t ts ih => simp [TypeTree.allWellFormed, ih, Bool.and_assoc]

theorem TypeTree.length_flattenAll (ts : List TypeTree) :
    ∀ n, TypeTree.sizeAll ts = n → (TypeTree.flattenAll ts).length = n := by
  intro n
  induction n using Nat.strong_induction_on generalizing ts with
  | _ n ih =>
    intro hn
    cases ts with
    | nil =>
      simp only [TypeTree.sizeAll] at hn
      simp [TypeTree.flattenAll, ← hn]
    | cons t ts =>
      cases t with
      | node rtti optional args =>
        simp only [TypeTree.sizeAll, TypeTree.size] at hn
        have h1 := ih (TypeTree.sizeAll (args ++ ts)) (by rw [TypeTree.sizeAll_append]; omega)
          (args ++ ts) rfl
        rw [TypeTree.flattenAll_append, TypeTree.sizeAll_append, List.length_append] at h1
        simp only [TypeTree.flattenAll, TypeTree.flatten, List.cons_append, List.length_cons,
          List.length_append]
        omega

theorem indexTypeDescriptionLoop_forest (rttiAt : Nat → RunTimeTypeInfo) :
    ∀ (n : Nat) (ts : List TypeTree), TypeTree.sizeAll ts = n →
      TypeTree.allWellFormed rttiAt ts = true →
      ∀ (rest : List TypeDescription) (advanced : Nat) (i : Int),
        indexTypeDescriptionLoop rttiAt (TypeTree.flattenAll ts ++ rest) advanced i
          (i + ts.length) = some (advanced + n) := by
  intro n
  induction n using Nat.strong_induction_on with
  | _ n ih =>
    intro ts hn hwf rest advanced i
    cases ts with
    | nil =>
      simp only [TypeTree.sizeAll] at hn
      subst hn
      cases rest <;> simp [TypeTree.flattenAll, indexTypeDescriptionLoop]
    | cons t ts =>
      cases t with
      | node rtti optional args =>
        simp only [TypeTree.sizeAll, TypeTree.size] at hn
        simp only [TypeTree.allWellFormed, TypeTree.wellFormed, Bool.and_eq_true,
          decide_eq_true_eq] at hwf
        obtain ⟨⟨hpc, hargs⟩, hts⟩ := hwf
        have hstep := ih (TypeTree.sizeAll (args ++ ts))
          (by rw [TypeTree.sizeAll_append]; omega) (args ++ ts) rfl
          (by rw [TypeTree.allWellFormed_append, hargs, hts]; rfl) rest (advanced + 1) (i + 1)
        rw [TypeTree.flattenAll_append, TypeTree.sizeAll_append, List.append_assoc] at hstep
        simp only [TypeTree.flattenAll, TypeTree.flatten, List.cons_append,
          indexTypeDescriptionLoop, List.length_cons]
        have hcond : i < i + ((ts.length + 1 : Nat) : Int) := by omega
        rw [if_pos hcond, hpc]
        have hidx : i + ((ts.length + 1 : Nat) : Int) + (args.length : Int) =
            i + 1 + ((args ++ ts).length : Int) := by
          rw [List.length_append]
          push_cast
          omega
        rw [hidx]
        simp only [List.append_eq, List.append_assoc]
        rw [hstep]
        congr 1
        omega

theorem typeDescriptionLengthLoop_forest (rttiAt : Nat → RunTimeTypeInfo) :
    ∀ (n : Nat) (ts : List TypeTree), TypeTree.sizeAll ts = n →
      TypeTree.allWellFormed rttiAt ts = true →
      ∀ (rest : List TypeDescription) (i : Int),
        typeDescriptionLengthLoop rttiAt (TypeTree.flattenAll ts ++ rest) i
          (i + ts.length) = some (i + n) := by
  intro n
  induction n using Nat.strong_induction_on with
  | _ n ih =>
    intro ts hn hwf rest i
    cases ts with
    | nil =>
      simp only [TypeTree.sizeAll] at hn
      subst hn
      cases rest <;> simp [TypeTree.flattenAll, typeDescriptionLengthLoop]
    | cons t ts =>
      cases t with
      | node rtti optional args =>
        simp only [TypeTree.sizeAll, TypeTree.size] at hn
        simp only [TypeTree.allWellFormed, TypeTree.wellFormed, Bool.and_eq_true,
          decide_eq_true_eq] at hwf
        obtain ⟨⟨hpc, hargs⟩, hts⟩ := hwf
        have hstep := ih (TypeTree.sizeAll (args ++ ts))
          (by rw [TypeTree.sizeAll_append]; omega) (args ++ ts) rfl
          (by rw [TypeTree.allWellFormed_append, hargs, hts]; rfl) rest (i + 1)
        rw [TypeTree.flattenAll_append, TypeTree.sizeAll_append, List.append_assoc] at hstep
        simp only [TypeTree.flattenAll, TypeTree.flatten, List.cons_append,
          typeDescriptionLengthLoop, List.length_cons]
        have hcond : i < i + ((ts.length + 1 : Nat) : Int) := by omega
        rw [if_pos hcond, hpc]
        have hidx : i + ((ts.length + 1 : Nat) : Int) + (args.length : Int) =
            i + 1 + ((args ++ ts).length : Int) := by
          rw [List.length_append]
          push_cast
          omega
        rw [hidx]
        simp only [List.append_eq, List.append_assoc]
        rw [hstep]
        congr 1
        push_cast
        omega

/-- C40: for a well-formed flattened type description, that is the flattening of a type
tree each of whose entries has as many generic arguments as its `paramCount` says (so
that no `paramCount` is negative), whatever follows it in the array:
`ejcTypeDescriptionLength(d)` returns the number of entries of the subtree rooted at `d`,
which is 1 for a type without generic arguments, and `ejcIndexTypeDescription(d, k)`, for
`k` up to the number of sibling subtrees at `d`, returns `d` advanced by the total length
of the first `k` of them; in particular index 0 gives `d` itself and index 1 gives `d`
advanced by `ejcTypeDescriptionLength(d)`. -/
theorem typeDescriptionLength_counts_subtree_and_index_skips_siblings
    (rttiAt : Nat → RunTimeTypeInfo) (t : TypeTree) (ts : List TypeTree)
    (rest : List TypeDescription) (k : Nat)
    (ht : t.wellFormed rttiAt = true) (hts : TypeTree.allWellFormed rttiAt ts = true)
    (hk : k ≤ ts.length) :
    ejcTypeDescriptionLength rttiAt (t.flatten ++ rest) = some (t.size : Int) ∧
    t.size = t.flatten.length ∧
    (∀ rtti optional, t = TypeTree.node rtti optional [] → t.size = 1) ∧
    ejcIndexTypeDescription rttiAt (TypeTree.flattenAll ts ++ rest) k =
      some (TypeTree.flattenAll (ts.take k)).length ∧
    ejcIndexTypeDescription rttiAt (t.flatten ++ rest) 0 = some 0 ∧
    (∃ n : Nat, ejcTypeDescriptionLength rttiAt (t.flatten ++ rest) = some (n : Int) ∧
      ejcIndexTypeDescription rttiAt (t.flatten ++ rest) 1 = some (0 + n)) := by
  have hone : TypeTree.allWellFormed rttiAt [t] = true := by
    simp [TypeTree.allWellFormed, ht]
  have hflat : TypeTree.flattenAll [t] = t.flatten := by simp [TypeTree.flattenAll]
  have hsize : TypeTree.sizeAll [t] = t.size := by simp [TypeTree.sizeAll]
  have hlen : ejcTypeDescriptionLength rttiAt (t.flatten ++ rest) = some (t.size : Int) := by
    have := typeDescriptionLengthLoop_forest rttiAt t.size [t] hsize hone rest 0
    rw [hflat] at this
    simpa [ejcTypeDescriptionLength] using this
  have hidx1 : ejcIndexTypeDescription rttiAt (t.flatten ++ rest) 1 = some (0 + t.size) := by
    have := indexTypeDescriptionLoop_forest rttiAt t.size [t] hsize hone rest 0 0
    rw [hflat] at this
    simpa [ejcIndexTypeDescription] using this
  refine ⟨hlen, ?_, ?_, ?_, ?_, ⟨t.size, hlen, hidx1⟩⟩
  · have := TypeTree.length_flattenAll [t] t.size hsize
    rw [hflat] at this
    exact this.symm
  · intro rtti optional h
    subst h
    simp [TypeTree.size, TypeTree.sizeAll]
  · have hsplit : TypeTree.flattenAll ts =
        TypeTree.flattenAll (ts.take k) ++ TypeTree.flattenAll (ts.drop k) := by
      rw [← TypeTree.flattenAll_append, List.take_append_drop]
    have hwf : TypeTree.allWellFormed rttiAt (ts.take k) = true := by
      have h := hts
      rw [← List.take_append_drop k ts, TypeTree.allWellFormed_append] at h
      simp only [Bool.and_eq_true] at h
      exact h.1
    have := indexTypeDescriptionLoop_forest rttiAt _ (ts.take k) rfl hwf
      (TypeTree.flattenAll (ts.drop k) ++ rest) 0 0
    rw [List.length_take, Nat.min_eq_left hk, ← List.append_assoc, ← hsplit] at this
    rw [TypeTree.length_flattenAll (ts.take k) _ rfl]
    simpa [ejcIndexTypeDescription] using this
  · cases h : t.flatten ++ rest <;> simp [ejcIndexTypeDescription, indexTypeDescriptionLoop]

/-- Witness for C40: the description of a type with two generic arguments, the first of
which has one argument of its own, has length 4; index 1 of its argument list skips the
first argument with its own argument. -/
theorem typeDescriptionLength_counts_subtree_and_index_skips_siblings_witness :
    ejcTypeDescriptionLength sampleRtti
      [⟨2, false⟩, ⟨3, false⟩, ⟨1, true⟩, ⟨1, false⟩, ⟨9, false⟩] = some 4 ∧
    ejcIndexTypeDescription sampleRtti [⟨3, false⟩, ⟨1, true⟩, ⟨1, false⟩, ⟨9, false⟩] 1
      = some 2 :=
  have h := typeDescriptionLength_counts_subtree_and_index_skips_siblings sampleRtti
    (.node 2 false [.node 3 false [.node 1 true []], .node 1 false []])
    [.node 3 false [.node 1 true []], .node 1 false []] [⟨9, false⟩] 1
    (by decide) (by decide) (by decide)
  ⟨h.1, h.2.2.2.1⟩

end Runtime

namespace EmojicodeCompiler

/-! ## Casts -/

section Casts

variable {τ κ : Type} (ops : TypeOps τ κ) (tc : κ) (self : ASTCast) (type originalType : τ)
  (analyser : ExpressionAnalyser)

theorem unboxedType_of_not_box (t : τ) (h : ops.type t ≠ TypeType.Box) :
    ops.unboxedType t = ops.type t := by
  simp [TypeOps.unboxedType, h]

/-- Claim C3.  Casting an operand whose type has kind Class to a type of kind Class, when
neither type is compatible to the other, records the "will always fail" error, throws
nothing, marks the node as a downcast and returns the optional of the destination type. -/
theorem cast_unrelated_class_always_fails_downcast
    (hO : ops.type originalType = TypeType.Class) (hD : ops.type type = TypeType.Class)
    (h1 : ops.compatibleTo originalType type tc = false)
    (h2 : ops.compatibleTo type originalType tc = false) :
    (self.analyse ops tc type originalType analyser).result = .ok (ops.optionalized type) ∧
    (self.analyse ops tc type originalType analyser).node.isDowncast = true ∧
    (self.analyse ops tc type originalType analyser).analyser.errors
      = analyser.errors ++ [self.alwaysFails (ops.typeString type tc)] := by
  have hU : ops.unboxedType originalType = TypeType.Class := by
    rw [unboxedType_of_not_box ops _ (by rw [hO]; decide), hO]
  simp [ASTCast.analyse, hO, hD, h1, h2, hU, ExpressionAnalyser.error, ExpressionAnalyser.comply]

/-- Witness for C3: casting an `animal`-unrelated pair of the sample universe, `dog` to
`cat`. -/
theorem cast_unrelated_class_always_fails_downcast_witness :
    (sampleCast.analyse sampleOps () ⟨.cat, false⟩ ⟨.dog, false⟩ freshAnalyser).result
      = .ok ⟨.cat, true⟩ ∧
    (sampleCast.analyse sampleOps () ⟨.cat, false⟩ ⟨.dog, false⟩ freshAnalyser).node.isDowncast
      = true ∧
    (sampleCast.analyse sampleOps () ⟨.cat, false⟩ ⟨.dog, false⟩ freshAnalyser).analyser.errors
      = [sampleCast.alwaysFails "cat"] :=
  cast_unrelated_class_always_fails_downcast sampleOps () sampleCast ⟨.cat, false⟩ ⟨.dog, false⟩
    freshAnalyser (by decide) (by decide) (by decide) (by decide)

/-- Claim C4, as amended.  When the operand of a cast has an Optional type,
`ASTCast::analyse` records the error "Cannot cast optional." without throwing and returns
the optional of the destination type; no later check of the cast is made (no further
error, no boxing of the operand, the node is left as it was). -/
theorem cast_optional_records_error_and_returns
    (hO : ops.type originalType = TypeType.Optional) :
    (self.analyse ops tc type originalType analyser).result = .ok (ops.optionalized type) ∧
    (self.analyse ops tc type originalType analyser).analyser.errors
      = analyser.errors ++ [self.cannotCastOptional] ∧
    (self.analyse ops tc type originalType analyser).analyser.complied = analyser.complied ∧
    (self.analyse ops tc type originalType analyser).node = self := by
  simp [ASTCast.analyse, hO, ExpressionAnalyser.error]

/-- Witness for C4 (amended): casting an optional `dog` to `cat`. -/
theorem cast_optional_records_error_and_returns_witness :
    (sampleCast.analyse sampleOps () ⟨.cat, false⟩ ⟨.dog, true⟩ freshAnalyser).result
      = .ok ⟨.cat, true⟩ ∧
    (sampleCast.analyse sampleOps () ⟨.cat, false⟩ ⟨.dog, true⟩ freshAnalyser).analyser.errors
      = [sampleCast.cannotCastOptional] :=
  have h := cast_optional_records_error_and_returns sampleOps () sampleCast ⟨.cat, false⟩
    ⟨.dog, true⟩ freshAnalyser (by decide)
  ⟨h.1, h.2.1⟩

/-- Counterexample to C4 as stated: the cast of an operand of Optional type (an optional
`dog` cast to `cat`) does not end in a thrown error; `analyse` returns a type. -/
theorem cast_optional_does_not_throw :
    sampleOps.type ⟨.dog, true⟩ = TypeType.Optional ∧
    ¬ ∃ e, (sampleCast.analyse sampleOps () ⟨.cat, false⟩ ⟨.dog, true⟩ freshAnalyser).result
      = .error e := by
  refine ⟨by decide, ?_⟩
  rintro ⟨e, he⟩
  simp [ASTCast.analyse, sampleOps] at he

/-- The errors recorded by the compatibility check of a cast of a non-optional operand. -/
theorem cast_analyse_of_not_optional (hO : ops.type originalType ≠ TypeType.Optional) :
    (self.analyse ops tc type originalType analyser).analyser.errors
      = analyser.errors ++
          ((if ops.compatibleTo originalType type tc = true then [self.unnecessaryCast]
            else if ops.compatibleTo type originalType tc = false ∧
                ¬ (ops.unboxedType originalType = TypeType.Protocol ∧
                    ops.unboxedType type = TypeType.Protocol)
              then [self.alwaysFails (ops.typeString type tc)] else []) ++
           (if ¬ (ops.type type = TypeType.Class ∧ (ops.type originalType = TypeType.Someobject
                ∨ ops.type originalType = TypeType.Class)) ∧
                ops.unboxedType type = TypeType.Protocol ∧
                (ops.genericArguments type).isEmpty = false
              then [self.genericProtocol] else [])) ∧
    (self.analyse ops tc type originalType analyser).analyser.complied
      = analyser.complied ++
          [if ops.type type = TypeType.Class ∧ (ops.type originalType = TypeType.Someobject
                ∨ ops.type originalType = TypeType.Class) then ⟨false, false⟩ else ⟨true, false⟩] ∧
    (self.analyse ops tc type originalType analyser).result
      = (if ops.type type = TypeType.Class ∧ (ops.type originalType = TypeType.Someobject
                ∨ ops.type originalType = TypeType.Class) then .ok (ops.optionalized type)
         else if ops.unboxedType type = TypeType.Protocol then
           .ok (ops.optionalized (ops.boxedFor (ops.unboxed type) type))
         else if ops.type type ≠ TypeType.Class ∧ ops.type type ≠ TypeType.ValueType
            ∧ ops.type type ≠ TypeType.Enum then
           .error (self.cannotCastTo (ops.typeString type tc))
         else if ops.isGenericDynamismDisabled type = true then
           .error (self.dynamismDisabled (ops.typeString type tc))
         else .ok (ops.boxedFor (ops.optionalized type) (ops.boxedForType originalType))) := by
  unfold ASTCast.analyse
  rw [if_neg hO]
  cases ops.compatibleTo originalType type tc <;>
  cases ops.compatibleTo type originalType tc <;>
  cases (ops.genericArguments type).isEmpty <;>
  by_cases hpO : ops.unboxedType originalType = TypeType.Protocol <;>
  by_cases hpD : ops.unboxedType type = TypeType.Protocol <;>
  by_cases hdown : (ops.type type = TypeType.Class ∧ (ops.type originalType = TypeType.Someobject
                ∨ ops.type originalType = TypeType.Class)) <;>
  simp only [hpO, hpD, hdown] <;>
  simp [ExpressionAnalyser.error, ExpressionAnalyser.comply] <;>
  split_ifs <;> simp_all

/-- Claim C5, as amended.  For a cast whose operand type is not Optional, the errors that
`analyse` records beyond those already present are such that: "Unnecessary cast." is among
them exactly when the operand type is compatible to the destination; "will always fail"
is among them exactly when neither type is compatible to the other and the unboxed kinds
are not both Protocol; the two are never recorded together, and the only other error that
can be recorded is the one about generic protocols.  Neither diagnostic is ever thrown
(a thrown error is one of the two "You cannot cast to" errors), and in every case the
analysis goes on to box the operand (`comply` is called once).  The analysis returns a
type, which is built from the requested destination type, exactly when the cast is a
class downcast, the unboxed kind of the destination is Protocol, or the destination is a
Class, ValueType or Enum whose definition has not disabled generic dynamism; in every
other case it throws after the diagnostic was recorded. -/
theorem cast_diagnostics_tristate (hO : ops.type originalType ≠ TypeType.Optional) :
    ∃ recorded : List CompilerError,
      (self.analyse ops tc type originalType analyser).analyser.errors
        = analyser.errors ++ recorded ∧
      (self.unnecessaryCast ∈ recorded ↔ ops.compatibleTo originalType type tc = true) ∧
      (self.alwaysFails (ops.typeString type tc) ∈ recorded ↔
        (ops.compatibleTo originalType type tc = false ∧
         ops.compatibleTo type originalType tc = false ∧
         ¬ (ops.unboxedType originalType = TypeType.Protocol ∧
            ops.unboxedType type = TypeType.Protocol))) ∧
      ¬ (self.unnecessaryCast ∈ recorded ∧
          self.alwaysFails (ops.typeString type tc) ∈ recorded) ∧
      (∀ e ∈ recorded, e = self.unnecessaryCast ∨ e = self.alwaysFails (ops.typeString type tc)
        ∨ e = self.genericProtocol) ∧
      (∀ e, (self.analyse ops tc type originalType analyser).result = .error e →
        e = self.cannotCastTo (ops.typeString type tc)
          ∨ e = self.dynamismDisabled (ops.typeString type tc)) ∧
      (∃ expectation, (self.analyse ops tc type originalType analyser).analyser.complied
        = analyser.complied ++ [expectation]) ∧
      (∀ t, (self.analyse ops tc type originalType analyser).result = .ok t →
        t = ops.optionalized type ∨ t = ops.optionalized (ops.boxedFor (ops.unboxed type) type)
          ∨ t = ops.boxedFor (ops.optionalized type) (ops.boxedForType originalType)) ∧
      ((∃ t, (self.analyse ops tc type originalType analyser).result = .ok t) ↔
        ((ops.type type = TypeType.Class ∧ (ops.type originalType = TypeType.Someobject
              ∨ ops.type originalType = TypeType.Class)) ∨
          ops.unboxedType type = TypeType.Protocol ∨
          ((ops.type type = TypeType.Class ∨ ops.type type = TypeType.ValueType
              ∨ ops.type type = TypeType.Enum) ∧
            ops.isGenericDynamismDisabled type = false))) := by
  have hUF : self.unnecessaryCast ≠ self.alwaysFails (ops.typeString type tc) := by
    simp [ASTCast.unnecessaryCast, ASTCast.alwaysFails]
  have hUG : self.unnecessaryCast ≠ self.genericProtocol := by
    simp [ASTCast.unnecessaryCast, ASTCast.genericProtocol]
  have hFG : self.alwaysFails (ops.typeString type tc) ≠ self.genericProtocol := by
    simp [ASTCast.alwaysFails, ASTCast.genericProtocol]
  obtain ⟨he, hc, hr⟩ := cast_analyse_of_not_optional ops tc self type originalType analyser hO
  refine ⟨_, he, ?_, ?_, ?_, ?_, ?_, ⟨_, hc⟩, ?_, ?_⟩
  · split_ifs <;> simp_all [hUF.symm, hUG, hFG, Ne.symm hUG]
  · split_ifs <;> simp_all [hUF, hFG, Ne.symm hUF]
  · split_ifs <;> simp_all [hUF, hUG, hFG, Ne.symm hUF]
  · intro e
    split_ifs <;> simp <;> tauto
  · intro e
    rw [hr]
    split_ifs <;> simp
    · intro h; exact Or.inl h.symm
    · intro h; exact Or.inr h.symm
  · intro t
    rw [hr]
    split_ifs <;> simp
    · intro h; exact Or.inl h.symm
    · intro h; exact Or.inr (Or.inl h.symm)
    · intro h; exact Or.inr (Or.inr h.symm)
  · rw [hr]
    by_cases hdown : (ops.type type = TypeType.Class ∧ (ops.type originalType = TypeType.Someobject
          ∨ ops.type originalType = TypeType.Class))
    · rw [if_pos hdown]
      simp [hdown]
    · rw [if_neg hdown]
      by_cases hp : ops.unboxedType type = TypeType.Protocol
      · rw [if_pos hp]
        simp [hp]
      · rw [if_neg hp]
        by_cases hk : (ops.type type ≠ TypeType.Class ∧ ops.type type ≠ TypeType.ValueType
            ∧ ops.type type ≠ TypeType.Enum)
        · rw [if_pos hk]
          simp [hp, hdown, hk.1, hk.2.1, hk.2.2]
        · rw [if_neg hk]
          have hk2 : ops.type type = TypeType.Class ∨ ops.type type = TypeType.ValueType
              ∨ ops.type type = TypeType.Enum := by tauto
          cases hd : ops.isGenericDynamismDisabled type with
          | true => simp [hp, hdown]
          | false => simp [hp, hk2]

/-- Witness for C5 (amended): casting a `dog` to its superclass `animal` records
"Unnecessary cast." and returns a type. -/
theorem cast_diagnostics_tristate_witness :
    sampleOps.type ⟨.dog, false⟩ ≠ TypeType.Optional ∧
    sampleCast.unnecessaryCast ∈
      (sampleCast.analyse sampleOps () ⟨.animal, false⟩ ⟨.dog, false⟩
        freshAnalyser).analyser.errors ∧
    ∃ t, (sampleCast.analyse sampleOps () ⟨.animal, false⟩ ⟨.dog, false⟩
        freshAnalyser).result = .ok t := by
  obtain ⟨recorded, h1, h2, _, _, _, _, _, _, h9⟩ := cast_diagnostics_tristate sampleOps ()
    sampleCast ⟨.animal, false⟩ ⟨.dog, false⟩ freshAnalyser (by decide)
  refine ⟨by decide, ?_, h9.mpr (Or.inl (by decide))⟩
  rw [h1]
  exact List.mem_append_right _ (h2.mpr (by decide))

/-- Counterexample to C5 as stated: the cast of a `dog` to the callable type records
"Cast to unrelated type callable will always fail." and then throws "You cannot cast to
callable."; the analysis does not proceed with the requested destination type. -/
theorem cast_to_callable_records_always_fail_then_throws :
    sampleOps.type ⟨.dog, false⟩ ≠ TypeType.Optional ∧
    (sampleCast.analyse sampleOps () ⟨.callable, false⟩ ⟨.dog, false⟩
        freshAnalyser).analyser.errors = [sampleCast.alwaysFails "callable"] ∧
    (sampleCast.analyse sampleOps () ⟨.callable, false⟩ ⟨.dog, false⟩ freshAnalyser).result
      = .error (sampleCast.cannotCastTo "callable") :=
  ⟨by decide, by decide, rfl⟩

/-- Claim C6, as amended.  For a cast of a non-optional operand whose destination type's
definition has generic dynamism disabled, `ASTCast::analyse` throws exactly when the cast
is not a class downcast (a destination of kind Class with an operand of kind Class or
Someobject) and the unboxed kind of the destination is not Protocol.  In that case the
thrown error is the one about disabled dynamism when the destination is a Class, ValueType
or Enum.  A class downcast returns the optional of the destination and marks the node as a
downcast without reaching the dynamism check. -/
theorem cast_dynamism_disabled_throws_unless_downcast_or_protocol
    (hO : ops.type originalType ≠ TypeType.Optional)
    (hd : ops.isGenericDynamismDisabled type = true) :
    ((∃ e, (self.analyse ops tc type originalType analyser).result = .error e) ↔
      (¬ (ops.type type = TypeType.Class ∧ (ops.type originalType = TypeType.Someobject
            ∨ ops.type originalType = TypeType.Class)) ∧
        ops.unboxedType type ≠ TypeType.Protocol)) ∧
    (¬ (ops.type type = TypeType.Class ∧ (ops.type originalType = TypeType.Someobject
            ∨ ops.type originalType = TypeType.Class)) →
      ops.unboxedType type ≠ TypeType.Protocol →
      (ops.type type = TypeType.Class ∨ ops.type type = TypeType.ValueType
        ∨ ops.type type = TypeType.Enum) →
      (self.analyse ops tc type originalType analyser).result
        = .error (self.dynamismDisabled (ops.typeString type tc))) ∧
    ((ops.type type = TypeType.Class ∧ (ops.type originalType = TypeType.Someobject
            ∨ ops.type originalType = TypeType.Class)) →
      (self.analyse ops tc type originalType analyser).result = .ok (ops.optionalized type) ∧
      (self.analyse ops tc type originalType analyser).node.isDowncast = true) := by
  obtain ⟨_, _, hr⟩ := cast_analyse_of_not_optional ops tc self type originalType analyser hO
  refine ⟨?_, ?_, ?_⟩
  · rw [hr]
    split_ifs <;> simp_all
  · intro h1 h2 h3
    rw [hr, if_neg h1, if_neg h2, if_neg (by tauto), if_pos hd]
  · intro h
    refine ⟨by rw [hr, if_pos h], ?_⟩
    unfold ASTCast.analyse
    rw [if_neg hO]
    simp only [if_pos h]

/-- Witness for C6 (amended): casting a value of the top type `something` to the value type
`point`, whose definition has generic dynamism disabled, throws. -/
theorem cast_dynamism_disabled_throws_unless_downcast_or_protocol_witness :
    (sampleCast.analyse sampleOps () ⟨.point, false⟩ ⟨.something, false⟩ freshAnalyser).result
      = .error (sampleCast.dynamismDisabled "point") :=
  (cast_dynamism_disabled_throws_unless_downcast_or_protocol sampleOps () sampleCast
    ⟨.point, false⟩ ⟨.something, false⟩ freshAnalyser (by decide) (by decide)).2.1
    (by decide) (by decide) (by decide)

/-- Counterexample to C6 as stated: the class downcast from `animal` to `cat`, a class
whose definition has generic dynamism disabled, throws nothing; it returns the optional
of `cat`. -/
theorem cast_downcast_to_dynamism_disabled_class_returns :
    sampleOps.type ⟨.animal, false⟩ ≠ TypeType.Optional ∧
    sampleOps.isGenericDynamismDisabled ⟨.cat, false⟩ = true ∧
    (sampleCast.analyse sampleOps () ⟨.cat, false⟩ ⟨.animal, false⟩ freshAnalyser).result
      = .ok ⟨.cat, true⟩ := by
  refine ⟨by decide, by decide, ?_⟩
  simp [ASTCast.analyse, sampleOps, SampleBase.kind, SampleBase.compatibleTo,
    TypeOps.unboxedType, ExpressionAnalyser.comply]

end Casts

/-! ## Duplicate declarations -/

/-- Claim C7.  When the table already holds a declaration under the key of the new
function's name and mood, `duplicateDeclarationCheck` throws an error positioned at the
new declaration whose only note is positioned at the previous declaration; when the key
is absent it throws nothing. -/
theorem duplicateDeclarationCheck_throws_iff_present {μ : Type}
    (methodTableName : String → μ → String) (function : Declaration μ)
    (dict : List (String × Declaration μ)) :
    (∀ prev, dict.lookup (methodTableName function.name function.mood) = some prev →
      duplicateDeclarationCheck methodTableName function dict
        = .error ⟨function.position, [function.name, " is declared twice."],
            [(prev.position, "Previous declaration is here")]⟩) ∧
    (dict.lookup (methodTableName function.name function.mood) = none →
      duplicateDeclarationCheck methodTableName function dict = .ok ()) := by
  constructor
  · intro prev h
    simp [duplicateDeclarationCheck, h]
  · intro h
    simp [duplicateDeclarationCheck, h]

/-- Witness for C7: a second declaration of `run` in the same mood (line 9) against a table
that holds `run` from line 2. -/
theorem duplicateDeclarationCheck_throws_iff_present_witness :
    duplicateDeclarationCheck (fun (n : String) (m : Bool) => n ++ (if m then "!" else "?"))
        ⟨"run", true, ⟨9, 1⟩⟩ [("walk!", ⟨"walk", true, ⟨1, 1⟩⟩), ("run!", ⟨"run", true, ⟨2, 1⟩⟩)]
      = .error ⟨⟨9, 1⟩, ["run", " is declared twice."], [(⟨2, 1⟩, "Previous declaration is here")]⟩ ∧
    duplicateDeclarationCheck (fun (n : String) (m : Bool) => n ++ (if m then "!" else "?"))
        ⟨"run", false, ⟨9, 1⟩⟩ [("walk!", ⟨"walk", true, ⟨1, 1⟩⟩), ("run!", ⟨"run", true, ⟨2, 1⟩⟩)]
      = .ok () :=
  ⟨(duplicateDeclarationCheck_throws_iff_present _ ⟨"run", true, ⟨9, 1⟩⟩
      [("walk!", ⟨"walk", true, ⟨1, 1⟩⟩), ("run!", ⟨"run", true, ⟨2, 1⟩⟩)]).1
      ⟨"run", true, ⟨2, 1⟩⟩ (by simp [List.lookup]),
   (duplicateDeclarationCheck_throws_iff_present _ ⟨"run", false, ⟨9, 1⟩⟩
      [("walk!", ⟨"walk", true, ⟨1, 1⟩⟩), ("run!", ⟨"run", true, ⟨2, 1⟩⟩)]).2
      (by simp [List.lookup])⟩

/-! ## Closures -/

/-- Claim C10.  When the analysis of the closure body has completed and, if the body
potentially used self, the check of the use of the context has returned, `comply` returns,
and the errors it leaves are those of these two steps followed by the "Escaping closure
cannot capture Value Type context" error exactly when the closure is escaping, its body
potentially used self and the kind of the callee type is ValueType or Enum.  In
particular a closure whose body does not use self is analysed without that error (the
errors are those of the body analysis alone), whatever it captures, and it does not
capture the context. -/
theorem closure_comply_value_type_context_error {τ κ : Type} (ops : TypeOps τ κ) (tc : κ)
    (self : ASTClosure τ) (b : ClosureBodyAnalysis)
    (checkThisUse : SourcePosition → ExpressionAnalyser → Except CompilerError ExpressionAnalyser)
    (a1 : ExpressionAnalyser)
    (hcheck : b.usedSelfPotentially = true → checkThisUse self.position b.analyser = .ok a1) :
    ∃ node a, self.comply ops tc (.ok b) checkThisUse = .ok (node, a) ∧
      node.captures = b.captures ∧
      (node.captureSelf = some (ops.calleeType tc) ↔
        (b.usedSelfPotentially = true ∨ self.captureSelf = some (ops.calleeType tc))) ∧
      ((self.isEscaping = true ∧ b.usedSelfPotentially = true ∧
          (ops.type (ops.calleeType tc) = TypeType.ValueType
            ∨ ops.type (ops.calleeType tc) = TypeType.Enum)) →
        a.errors = a1.errors ++ [self.valueTypeContextError]) ∧
      (¬ (self.isEscaping = true ∧ b.usedSelfPotentially = true ∧
          (ops.type (ops.calleeType tc) = TypeType.ValueType
            ∨ ops.type (ops.calleeType tc) = TypeType.Enum)) →
        a.errors = (if b.usedSelfPotentially = true then a1.errors else b.analyser.errors)) ∧
      (b.usedSelfPotentially = false → a = b.analyser ∧ node.captureSelf = self.captureSelf) := by
  cases hu : b.usedSelfPotentially
  · refine ⟨{ self with captures := b.captures }, b.analyser, ?_, rfl, ?_, ?_, ?_, ?_⟩ <;>
      simp [ASTClosure.comply, hu]
  · have hc := hcheck hu
    by_cases hcond : self.isEscaping = true ∧
        (ops.type (ops.calleeType tc) = TypeType.ValueType
          ∨ ops.type (ops.calleeType tc) = TypeType.Enum)
    · refine ⟨{ self with captures := b.captures, captureSelf := some (ops.calleeType tc) },
        a1.error self.valueTypeContextError, ?_, rfl, ?_, ?_, ?_, ?_⟩ <;>
        simp [ASTClosure.comply, hu, hc, hcond, ExpressionAnalyser.error]
    · refine ⟨{ self with captures := b.captures, captureSelf := some (ops.calleeType tc) },
        a1, ?_, rfl, ?_, ?_, ?_, ?_⟩
      · simp only [ASTClosure.comply, hu, hc, if_true, if_neg hcond]
      · simp
      · intro h; exact absurd ⟨h.1, h.2.2⟩ hcond
      · intro _; simp
      · simp

/-- Witness for C10: an escaping closure in a method of the value type `point` whose body
uses self is reported; the check of the use of the context records nothing. -/
theorem closure_comply_value_type_context_error_witness :
    ∃ node a, ASTClosure.comply sampleOps () (⟨⟨5, 2⟩, true, [], none⟩ : ASTClosure SampleType)
        (.ok ⟨[4], true, freshAnalyser⟩) (fun _ a => .ok a) = .ok (node, a) ∧
      a.errors = [(⟨⟨5, 2⟩, true, [], none⟩ : ASTClosure SampleType).valueTypeContextError] := by
  obtain ⟨node, a, h1, _, _, h4, _, _⟩ := closure_comply_value_type_context_error sampleOps ()
    (⟨⟨5, 2⟩, true, [], none⟩ : ASTClosure SampleType) ⟨[4], true, freshAnalyser⟩
    (fun _ a => .ok a) freshAnalyser (fun _ => rfl)
  exact ⟨node, a, h1, by simpa [freshAnalyser] using h4 ⟨rfl, rfl, Or.inl (by decide)⟩⟩

/-! ## The sample universe obeys the compatibility laws -/

theorem SampleBase.compatibleTo_trans (a b c : SampleBase)
    (h1 : a.compatibleTo b = true) (h2 : b.compatibleTo c = true) : a.compatibleTo c = true := by
  cases a <;> cases b <;> cases c <;> first | rfl | exact absurd h1 (by decide) | exact absurd h2 (by decide)

theorem sampleOps_compatibleTo (a b : SampleType) :
    sampleOps.compatibleTo a b ()
      = (b.base == .something || ((!a.optional || b.optional) && a.base.compatibleTo b.base)) :=
  rfl

theorem sampleOps_conforms (a p : SampleType) (hc : sampleOps.canHaveProtocol a = true)
    (hp : p ∈ sampleOps.protocols a) : sampleOps.compatibleTo a p () = true := by
  obtain ⟨a, ao⟩ := a
  have hao : ao = false := by
    cases ao
    · rfl
    · exact absurd hc (by simp [sampleOps])
  subst hao
  cases a
  case dog => rw [List.mem_singleton.mp hp]; rfl
  case point => rw [List.mem_singleton.mp hp]; rfl
  all_goals exact absurd hp (List.not_mem_nil p)

theorem sampleOps_laws : CompatibilityLaws sampleOps () where
  trans := by
    rintro ⟨a, ao⟩ ⟨b, bo⟩ ⟨c, co⟩ h1 h2
    rw [sampleOps_compatibleTo] at h1 h2 ⊢
    simp only [Bool.or_eq_true, Bool.and_eq_true, beq_iff_eq, Bool.not_eq_true'] at h1 h2 ⊢
    rcases h2 with h2 | ⟨h2o, h2b⟩
    · exact Or.inl h2
    · rcases h1 with h1 | ⟨h1o, h1b⟩
      · subst h1
        cases c <;> first | exact Or.inl rfl | exact absurd h2b (by decide)
      · refine Or.inr ⟨?_, SampleBase.compatibleTo_trans a b c h1b h2b⟩
        cases ao <;> cases bo <;> cases co <;> simp_all
  something_top := by
    intro a
    rw [sampleOps_compatibleTo]
    rfl
  someobject_top := by
    rintro ⟨a, ao⟩ h
    cases ao
    · cases a <;> first | rfl | exact absurd h (by decide)
    · exact absurd h (by simp [sampleOps])
  inexact := by
    intro a
    exact Or.inr rfl
  conforms := sampleOps_conforms
  identical := by
    intro a p q hid h
    have : q = p := of_decide_eq_true hid
    rw [this]; exact h
  multi := by
    intro a ps _ _
    rw [sampleOps_compatibleTo]
    rfl

/-! ## Common-type finder -/

section Finder

variable {τ κ : Type} (ops : TypeOps τ κ) (analyser : SemanticAnalyser τ) (tc : κ)

/-- The state of the finder bounds the types `seen`: a first type was found, each seen
type (after literal defaulting) is compatible to or equal to the common type, and is
compatible to each common protocol. -/
theorem addType_bounds_first (f : CommonTypeFinder τ) (t : τ) (laws : CompatibilityLaws ops tc)
    (hf : f.firstTypeFound = false) (hp : f.commonProtocols = []) :
    (f.addType ops analyser t tc).firstTypeFound = true ∧
    (ops.compatibleTo (analyser.defaultLiteralType t) (f.addType ops analyser t tc).commonType tc
        = true
      ∨ analyser.defaultLiteralType t = (f.addType ops analyser t tc).commonType) ∧
    (∀ q ∈ (f.addType ops analyser t tc).commonProtocols,
      ops.compatibleTo (analyser.defaultLiteralType t) q tc = true) := by
  refine ⟨?_, ?_, ?_⟩
  · simp [CommonTypeFinder.addType, hf]
  · simpa [CommonTypeFinder.addType, hf, CommonTypeFinder.setCommonType]
      using laws.inexact (analyser.defaultLiteralType t)
  · intro q hq
    by_cases hc : ops.canHaveProtocol (analyser.defaultLiteralType t) = true
    · simp [CommonTypeFinder.addType, hf, CommonTypeFinder.setCommonType, hc, hp] at hq
      exact laws.conforms _ _ hc hq
    · simp [CommonTypeFinder.addType, hf, CommonTypeFinder.setCommonType, hc, hp] at hq

theorem updateCommonType_bounds (f : CommonTypeFinder τ) (a : τ) (seen : List τ)
    (laws : CompatibilityLaws ops tc)
    (hb : ∀ x ∈ seen, ops.compatibleTo x f.commonType tc = true ∨ x = f.commonType) :
    (f.updateCommonType ops a tc).firstTypeFound = f.firstTypeFound ∧
    (f.updateCommonType ops a tc).commonProtocols = f.commonProtocols ∧
    (∀ x ∈ a :: seen, ops.compatibleTo x (f.updateCommonType ops a tc).commonType tc = true
      ∨ x = (f.updateCommonType ops a tc).commonType) := by
  unfold CommonTypeFinder.updateCommonType
  by_cases h1 : ops.compatibleTo a f.commonType tc = true
  · simp only [h1, Bool.not_true, Bool.false_eq_true, if_false, true_and]
    intro x hx
    rcases List.mem_cons.mp hx with rfl | hx
    · exact Or.inl h1
    · exact hb x hx
  · have h1f : ops.compatibleTo a f.commonType tc = false := by simpa using h1
    simp only [h1f, Bool.not_false, if_true]
    by_cases h2 : ops.compatibleTo f.commonType a tc = true
    · simp only [h2, if_true, CommonTypeFinder.setCommonType, true_and]
      have hold : ∀ x ∈ seen, ops.compatibleTo x a tc = true := by
        intro x hx
        rcases hb x hx with h | h
        · exact laws.trans _ _ _ h h2
        · rw [h]; exact h2
      intro x hx
      rcases List.mem_cons.mp hx with rfl | hx
      · exact laws.inexact x
      · rcases laws.inexact a with h | h
        · exact Or.inl (laws.trans _ _ _ (hold x hx) h)
        · rw [← h]; exact Or.inl (hold x hx)
    · simp only [h2, Bool.false_eq_true, if_false]
      by_cases h3 : ops.type a = TypeType.Class ∧ ops.type f.commonType = TypeType.Class
      · simp only [h3, and_self, if_true, true_and]
        intro x hx
        rcases List.mem_cons.mp hx with rfl | hx
        · exact Or.inl (laws.someobject_top _ h3.1)
        · rcases hb x hx with h | h
          · exact Or.inl (laws.trans _ _ _ h (laws.someobject_top _ h3.2))
          · rw [h]; exact Or.inl (laws.someobject_top _ h3.2)
      · simp only [if_neg h3, true_and]
        intro x _
        exact Or.inl (laws.something_top x)

theorem updateCommonProtocols_bounds (f : CommonTypeFinder τ) (a : τ) (seen : List τ)
    (laws : CompatibilityLaws ops tc)
    (hq : ∀ q ∈ f.commonProtocols, ∀ x ∈ seen, ops.compatibleTo x q tc = true) :
    (f.updateCommonProtocols ops a tc).firstTypeFound = f.firstTypeFound ∧
    (f.updateCommonProtocols ops a tc).commonType = f.commonType ∧
    (∀ q ∈ (f.updateCommonProtocols ops a tc).commonProtocols,
      ∀ x ∈ a :: seen, ops.compatibleTo x q tc = true) := by
  unfold CommonTypeFinder.updateCommonProtocols
  by_cases he : f.commonProtocols.isEmpty = true
  · have hnil : f.commonProtocols = [] := List.isEmpty_iff.mp he
    simp [he, hnil]
  · by_cases hc : ops.canHaveProtocol a = true
    · simp only [he, hc, Bool.not_true, Bool.not_false, Bool.false_eq_true, if_true, if_false,
        true_and]
      intro q hqm x hx
      rw [List.mem_filter] at hqm
      obtain ⟨hqa, hany⟩ := hqm
      rcases List.mem_cons.mp hx with rfl | hx
      · exact laws.conforms _ _ hc hqa
      · rw [List.any_eq_true] at hany
        obtain ⟨p0, hp0, hid⟩ := hany
        exact laws.identical _ _ _ hid (hq p0 hp0 x hx)
    · simp [he, hc]

theorem addType_bounds_next (f : CommonTypeFinder τ) (t : τ) (seen : List τ)
    (laws : CompatibilityLaws ops tc) (hf : f.firstTypeFound = true)
    (hb : ∀ x ∈ seen, ops.compatibleTo x f.commonType tc = true ∨ x = f.commonType)
    (hq : ∀ q ∈ f.commonProtocols, ∀ x ∈ seen, ops.compatibleTo x q tc = true) :
    (f.addType ops analyser t tc).firstTypeFound = true ∧
    (∀ x ∈ analyser.defaultLiteralType t :: seen,
      ops.compatibleTo x (f.addType ops analyser t tc).commonType tc = true
        ∨ x = (f.addType ops analyser t tc).commonType) ∧
    (∀ q ∈ (f.addType ops analyser t tc).commonProtocols,
      ∀ x ∈ analyser.defaultLiteralType t :: seen, ops.compatibleTo x q tc = true) := by
  obtain ⟨h1, h2, h3⟩ := updateCommonType_bounds ops tc f (analyser.defaultLiteralType t) seen
    laws hb
  obtain ⟨k1, k2, k3⟩ := updateCommonProtocols_bounds ops tc
    (f.updateCommonType ops (analyser.defaultLiteralType t) tc) (analyser.defaultLiteralType t)
    seen laws (by rw [h2]; exact hq)
  have hadd : f.addType ops analyser t tc
      = (f.updateCommonType ops (analyser.defaultLiteralType t) tc).updateCommonProtocols ops
          (analyser.defaultLiteralType t) tc := by
    simp [CommonTypeFinder.addType, hf]
  rw [hadd]
  refine ⟨by rw [k1, h1, hf], ?_, k3⟩
  rw [k2]
  exact h3

theorem foldl_addType_bounds (rest : List τ) (f : CommonTypeFinder τ) (seen : List τ)
    (laws : CompatibilityLaws ops tc) (hf : f.firstTypeFound = true)
    (hb : ∀ x ∈ seen, ops.compatibleTo x f.commonType tc = true ∨ x = f.commonType)
    (hq : ∀ q ∈ f.commonProtocols, ∀ x ∈ seen, ops.compatibleTo x q tc = true) :
    (rest.foldl (fun g t => g.addType ops analyser t tc) f).firstTypeFound = true ∧
    (∀ x, (x ∈ seen ∨ x ∈ rest.map analyser.defaultLiteralType) →
      ops.compatibleTo x (rest.foldl (fun g t => g.addType ops analyser t tc) f).commonType tc = true
        ∨ x = (rest.foldl (fun g t => g.addType ops analyser t tc) f).commonType) ∧
    (∀ q ∈ (rest.foldl (fun g t => g.addType ops analyser t tc) f).commonProtocols,
      ∀ x, (x ∈ seen ∨ x ∈ rest.map analyser.defaultLiteralType) →
        ops.compatibleTo x q tc = true) := by
  induction rest generalizing f seen with
  | nil =>
    refine ⟨hf, ?_, ?_⟩
    · intro x hx
      rcases hx with hx | hx
      · exact hb x hx
      · simp at hx
    · intro q hqm x hx
      rcases hx with hx | hx
      · exact hq q hqm x hx
      · simp at hx
  | cons t rest ih =>
    obtain ⟨h1, h2, h3⟩ := addType_bounds_next ops analyser tc f t seen laws hf hb hq
    obtain ⟨i1, i2, i3⟩ := ih (f.addType ops analyser t tc) (analyser.defaultLiteralType t :: seen)
      h1 h2 h3
    refine ⟨i1, ?_, ?_⟩
    · intro x hx
      apply i2
      simp only [List.map_cons, List.mem_cons] at hx ⊢
      tauto
    · intro q hqm x hx
      apply i3 q hqm
      simp only [List.map_cons, List.mem_cons] at hx ⊢
      tauto

/-- Claim C2.  Under the compatibility laws assumed of `Type`, for every non-empty list of
element types fed to `addType` under one type context, the type `getCommonType` returns is
an upper bound of the inputs: every fed-in type, after literal defaulting, is compatible
to the returned type or equal to it. -/
theorem getCommonType_upper_bound (emptyContext : κ) (p : SourcePosition) (types : List τ)
    (laws : CompatibilityLaws ops tc) (hne : types ≠ []) :
    ∀ t ∈ types,
      ops.compatibleTo (analyser.defaultLiteralType t)
          ((CommonTypeFinder.feed ops analyser tc types).getCommonType ops emptyContext p).1 tc
        = true
      ∨ analyser.defaultLiteralType t
        = ((CommonTypeFinder.feed ops analyser tc types).getCommonType ops emptyContext p).1 := by
  obtain ⟨t0, rest, rfl⟩ := List.exists_cons_of_ne_nil hne
  obtain ⟨h1, h2, h3⟩ := addType_bounds_first ops analyser tc (CommonTypeFinder.init ops) t0 laws
    rfl rfl
  obtain ⟨i1, i2, i3⟩ := foldl_addType_bounds ops analyser tc rest
    ((CommonTypeFinder.init ops).addType ops analyser t0 tc) [analyser.defaultLiteralType t0] laws
    h1 (by simpa using h2) (by simpa using h3)
  have hfeed : CommonTypeFinder.feed ops analyser tc (t0 :: rest)
      = rest.foldl (fun g t => g.addType ops analyser t tc)
          ((CommonTypeFinder.init ops).addType ops analyser t0 tc) := rfl
  rw [hfeed]
  generalize rest.foldl (fun g t => g.addType ops analyser t tc)
      ((CommonTypeFinder.init ops).addType ops analyser t0 tc) = fin at i1 i2 i3
  intro t ht
  have hmem : analyser.defaultLiteralType t ∈ [analyser.defaultLiteralType t0]
      ∨ analyser.defaultLiteralType t ∈ rest.map analyser.defaultLiteralType := by
    rcases List.mem_cons.mp ht with rfl | ht
    · exact Or.inl (List.mem_singleton.mpr rfl)
    · exact Or.inr (List.mem_map_of_mem _ ht)
  unfold CommonTypeFinder.getCommonType
  simp only [i1, Bool.not_true, Bool.false_eq_true, if_false]
  split_ifs with htop hmany hone
  · exact Or.inl (laws.multi _ _ hmany (fun q hqm => i3 q hqm _ hmem))
  · obtain ⟨q, hq⟩ : ∃ q, fin.commonProtocols = [q] := List.length_eq_one.mp hone
    simp only [hq, List.headD_cons]
    exact Or.inl (i3 q (by rw [hq]; exact List.mem_singleton.mpr rfl) _ hmem)
  · exact i2 _ hmem
  · exact i2 _ hmem

/-- Witness for C2: the element types `dog` and `point` of the sample universe; the finder
widens to `something` and returns the protocol `printable` that both declare. -/
theorem getCommonType_upper_bound_witness :
    ((CommonTypeFinder.feed sampleOps ⟨id⟩ () [⟨.dog, false⟩, ⟨.point, false⟩]).getCommonType
        sampleOps () ⟨1, 1⟩).1 = ⟨.printable, false⟩ ∧
    ∀ t ∈ [(⟨.dog, false⟩ : SampleType), ⟨.point, false⟩],
      sampleOps.compatibleTo t
          ((CommonTypeFinder.feed sampleOps ⟨id⟩ () [⟨.dog, false⟩, ⟨.point, false⟩]).getCommonType
            sampleOps () ⟨1, 1⟩).1 () = true
      ∨ t = ((CommonTypeFinder.feed sampleOps ⟨id⟩ () [⟨.dog, false⟩, ⟨.point, false⟩]).getCommonType
            sampleOps () ⟨1, 1⟩).1 :=
  ⟨by decide, getCommonType_upper_bound sampleOps ⟨id⟩ () () ⟨1, 1⟩
    [⟨.dog, false⟩, ⟨.point, false⟩] sampleOps_laws (by simp)⟩

end Finder

/-! ## Memory-flow analysis: release insertion -/

section Releases

variable {τ κ : Type} (ops : TypeOps τ κ)

theorem releasesOf_sublist (scope : List (MFLocalVariable τ)) (p : SourcePosition) :
    ∀ (ids : List Nat) (releases : List (ASTRelease τ)),
      MFFunctionAnalyser.releasesOf ops scope p ids = some releases →
      List.Sublist (releases.map (fun r => r.variableId)) ids ∧
      ∀ r ∈ releases, ∃ var, scope[r.variableId]? = some var ∧
        MFFunctionAnalyser.shouldReleaseVariable ops var = true ∧ r.type = var.type
  | [], releases, h => by
    simp only [MFFunctionAnalyser.releasesOf, Option.some.injEq] at h
    subst h
    exact ⟨List.Sublist.slnil, by simp⟩
  | id :: ids, releases, h => by
    simp only [MFFunctionAnalyser.releasesOf] at h
    cases hv : scope[id]? with
    | none => simp [hv] at h
    | some var =>
      cases hr : MFFunctionAnalyser.releasesOf ops scope p ids with
      | none => simp [hv, hr] at h
      | some rest =>
        obtain ⟨ih1, ih2⟩ := releasesOf_sublist scope p ids rest hr
        simp only [hv, hr, Option.some.injEq] at h
        by_cases hs : MFFunctionAnalyser.shouldReleaseVariable ops var = true
        · rw [if_pos hs] at h
          subst h
          refine ⟨by simpa using ih1.cons₂ id, ?_⟩
          intro r hr'
          rcases List.mem_cons.mp hr' with rfl | hr'
          · exact ⟨var, hv, hs, rfl⟩
          · exact ih2 r hr'
        · rw [if_neg hs] at h
          subst h
          exact ⟨ih1.cons id, ih2⟩

theorem releasesOf_increasing (scope : List (MFLocalVariable τ)) (p : SourcePosition)
    (ids : List Nat) (releases : List (ASTRelease τ)) (hids : ids.Pairwise (· < ·))
    (h : MFFunctionAnalyser.releasesOf ops scope p ids = some releases) :
    (releases.map (fun r => r.variableId)).Pairwise (· < ·) ∧
    (releases.map (fun r => r.variableId)).Nodup ∧
    ∀ r ∈ releases, ∃ var, scope[r.variableId]? = some var ∧
      var.isParam = false ∧ var.isReturned = false ∧ ops.isManaged var.type = true := by
  obtain ⟨h1, h2⟩ := releasesOf_sublist ops scope p ids releases h
  have hp := hids.sublist h1
  refine ⟨hp, ?_, ?_⟩
  · exact hp.imp (fun hlt => Nat.ne_of_lt hlt)
  · intro r hr
    obtain ⟨var, hv, hs, _⟩ := h2 r hr
    refine ⟨var, hv, ?_⟩
    simpa [MFFunctionAnalyser.shouldReleaseVariable, and_assoc] using hs

theorem range_shift_increasing (n k : Nat) :
    ((List.range n).map (fun i => i + k)).Pairwise (· < ·) := by
  rw [List.pairwise_map]
  exact (List.pairwise_lt_range n).imp (fun h => by omega)

theorem releasesOf_returns (scope : List (MFLocalVariable τ)) (p : SourcePosition) :
    ∀ (ids : List Nat), (∀ id ∈ ids, id < scope.length) →
      ∃ releases, MFFunctionAnalyser.releasesOf ops scope p ids = some releases
  | [], _ => ⟨[], rfl⟩
  | id :: ids, h => by
    obtain ⟨rest, hrest⟩ := releasesOf_returns scope p ids
      (fun x hx => h x (List.mem_cons_of_mem _ hx))
    have hid : id < scope.length := h id (List.mem_cons_self _ _)
    simp only [MFFunctionAnalyser.releasesOf, List.getElem?_eq_getElem hid, hrest]
    exact ⟨_, rfl⟩

/-- Claim C8.  Whatever `releaseVariables` inserts for a block, it inserts at an exit point
of the block (at the block's end when the block does not return certainly, otherwise on
the return statement just before the stop index), the inserted releases are in strictly
increasing order of variable id, so that no variable is released twice, and every
released variable is, in the scope of the analyser, not a parameter, not marked returned,
and of a managed type.  The method returns whenever the scope holds the variables it
visits and, for a block that returned certainly, the stop index is between 1 and the
number of statements. -/
theorem releaseVariables_increasing_and_releasable (self : MFFunctionAnalyser τ)
    (block : ASTBlock (MFStmt τ)) :
    (∀ insertion, self.releaseVariables ops block = some insertion →
      (block.returnedCertainly = false → ∃ releases, insertion = .appended releases) ∧
      (∀ statement releases, insertion = .onReturn statement releases →
        block.returnedCertainly = true ∧ statement + 1 = block.stop ∧
        ∃ value initReturn, block.stmts[statement]? = some (.return value initReturn)) ∧
      (∀ releases,
        (insertion = .appended releases ∨ ∃ statement, insertion = .onReturn statement releases) →
        (releases.map (fun r => r.variableId)).Pairwise (· < ·) ∧
        (releases.map (fun r => r.variableId)).Nodup ∧
        ∀ r ∈ releases, ∃ var, self.scope[r.variableId]? = some var ∧
          var.isParam = false ∧ var.isReturned = false ∧ ops.isManaged var.type = true)) ∧
    (block.scopeStats.from + block.scopeStats.variables ≤ self.scope.length →
      block.scopeStats.allVariablesCount ≤ self.scope.length →
      (block.returnedCertainly = true → 1 ≤ block.stop ∧ block.stop ≤ block.stmts.length) →
      ∃ insertion, self.releaseVariables ops block = some insertion) := by
  constructor
  · intro insertion h
    unfold MFFunctionAnalyser.releaseVariables at h
    cases hrc : block.returnedCertainly with
    | false =>
      simp only [hrc, Bool.not_false, if_true, Option.map_eq_some'] at h
      obtain ⟨rels, hrels, rfl⟩ := h
      refine ⟨fun _ => ⟨rels, rfl⟩, ?_, ?_⟩
      · intro statement releases h'
        cases h'
      · intro releases h'
        rcases h' with h' | ⟨_, h'⟩
        · cases h'
          exact releasesOf_increasing ops _ _ _ _ (range_shift_increasing _ _) hrels
        · cases h'
    | true =>
      simp only [hrc, Bool.not_true, Bool.false_eq_true, if_false] at h
      refine ⟨fun h' => Bool.noConfusion h', ?_, ?_⟩
      · intro statement releases hins
        subst hins
        refine ⟨rfl, ?_⟩
        unfold ASTBlock.getReturn at h
        simp only [hrc, if_true] at h
        by_cases hz : block.stop = 0
        · simp [hz] at h
        · simp only [hz, if_false] at h
          cases hst : block.stmts[block.stop - 1]? with
          | none => simp [hst] at h
          | some st =>
            cases st with
            | «return» value initReturn =>
              simp only [hst, Option.map_eq_some'] at h
              obtain ⟨_, _, hins⟩ := h
              cases hins
              exact ⟨by omega, value, initReturn, hst⟩
            | _ => simp [hst] at h
      · intro releases h'
        rcases h' with h' | ⟨statement, h'⟩
        · subst h'
          cases hg : block.getReturn with
          | none => simp [hg] at h
          | some r =>
            cases r <;> simp [hg] at h
        · subst h'
          cases hg : block.getReturn with
          | none => simp [hg] at h
          | some r =>
            cases r with
            | none => simp [hg] at h
            | some idx =>
              simp only [hg, Option.map_eq_some'] at h
              obtain ⟨rels, hrels, hEq⟩ := h
              cases hEq
              exact releasesOf_increasing ops _ _ _ _ (List.pairwise_lt_range _) hrels
  · intro hscope hall hstop
    unfold MFFunctionAnalyser.releaseVariables
    cases hrc : block.returnedCertainly with
    | false =>
      obtain ⟨rels, hrels⟩ := releasesOf_returns ops self.scope block.position
        ((List.range block.scopeStats.variables).map (fun i => i + block.scopeStats.from))
        (by
          intro id hid
          obtain ⟨i, hi, rfl⟩ := List.mem_map.mp hid
          have := List.mem_range.mp hi
          omega)
      exact ⟨.appended rels, by simp [hrels]⟩
    | true =>
      obtain ⟨h1, h2⟩ := hstop hrc
      obtain ⟨rels, hrels⟩ := releasesOf_returns ops self.scope block.position
        (List.range block.scopeStats.allVariablesCount)
        (by
          intro id hid
          have := List.mem_range.mp hid
          omega)
      have hlt : block.stop - 1 < block.stmts.length := by omega
      have hz : block.stop ≠ 0 := by omega
      simp only [Bool.not_true, Bool.false_eq_true, if_false, ASTBlock.getReturn, hrc, if_true,
        hz, List.getElem?_eq_getElem hlt]
      cases block.stmts[block.stop - 1] <;>
        simp [MFFunctionAnalyser.releaseAllVariables, hrels]

/-- Witness for C8: at the end of a block over the four sample variables only the `dog`
local that is neither a parameter nor returned is released. -/
theorem releaseVariables_increasing_and_releasable_witness :
    sampleAnalyser.releaseVariables sampleOps (sampleBlock [] 4)
      = some (.appended [⟨false, 1, ⟨.dog, false⟩, ⟨1, 1⟩⟩]) ∧
    ∀ r ∈ [(⟨false, 1, ⟨.dog, false⟩, ⟨1, 1⟩⟩ : ASTRelease SampleType)],
      ∃ var, sampleAnalyser.scope[r.variableId]? = some var ∧
        var.isParam = false ∧ var.isReturned = false ∧ sampleOps.isManaged var.type = true :=
  ⟨by decide,
   (((releaseVariables_increasing_and_releasable sampleOps sampleAnalyser (sampleBlock [] 4)).1
      (.appended [⟨false, 1, ⟨.dog, false⟩, ⟨1, 1⟩⟩]) (by decide)).2.2
      [⟨false, 1, ⟨.dog, false⟩, ⟨1, 1⟩⟩] (Or.inl rfl)).2.2⟩

end Releases

/-! ## Memory-flow analysis: memoization -/

section Memo

variable {τ κ : Type} (ops : TypeOps τ κ)

theorem MFProgram.Keeps.same (c : Nat) (p : MFProgram τ) : MFProgram.Keeps c p p :=
  fun _ _ _ => rfl

theorem MFProgram.analysed_of_eq {p q : MFProgram τ} {h : Nat}
    (heq : q.functions[h]? = p.functions[h]?) (ha : p.analysed h) : q.analysed h := by
  obtain ⟨fn, h1, h2⟩ := ha
  exact ⟨fn, by rw [heq, h1], h2⟩

theorem MFProgram.Keeps.followedBy {c : Nat} {p q r : MFProgram τ}
    (h1 : MFProgram.Keeps c p q) (h2 : MFProgram.Keeps c q r) : MFProgram.Keeps c p r :=
  fun h hne ha => by
    rw [h2 h hne (MFProgram.analysed_of_eq (h1 h hne ha) ha), h1 h hne ha]

theorem MFProgram.Keeps.of_functions_eq {c : Nat} {p q : MFProgram τ}
    (h : q.functions = p.functions) : MFProgram.Keeps c p q :=
  fun _ _ _ => by rw [h]

theorem MFProgram.Keeps.of_all {c : Nat} {p q : MFProgram τ}
    (h : ∀ h, p.analysed h → q.functions[h]? = p.functions[h]?) : MFProgram.Keeps c p q :=
  fun x _ ha => h x ha

theorem MFProgram.SameThis.unchanged (p : MFProgram τ) : MFProgram.SameThis p p :=
  fun _ => rfl

theorem MFProgram.SameThis.andThen {p q r : MFProgram τ}
    (h1 : MFProgram.SameThis p q) (h2 : MFProgram.SameThis q r) : MFProgram.SameThis p r :=
  fun h => by rw [h2 h, h1 h]

theorem MFProgram.SameThis.keepsAnalysed {p q : MFProgram τ} (h1 : MFProgram.SameThis p q) {f : Nat}
    (ha : p.analysed f) : q.analysed f := by
  obtain ⟨fn, hf, hu⟩ := ha
  have := h1 f
  rw [hf] at this
  cases hq : q.functions[f]? with
  | none => simp [hq] at this
  | some fn' =>
    simp only [hq, Option.map_some', Option.some.injEq] at this
    exact ⟨fn', hq, by rw [this]; exact hu⟩

theorem MFProgram.setParameterMFType_keeps {p q : MFProgram τ} {f i : Nat} {c : MFFlowCategory}
    (h : p.setParameterMFType f i c = some q) :
    MFProgram.Keeps f p q ∧ MFProgram.SameThis p q := by
  unfold MFProgram.setParameterMFType at h
  cases hf : p.functions[f]? with
  | none => simp [hf] at h
  | some fn =>
    cases hp : fn.parameters[i]? with
    | none => simp [hf, hp] at h
    | some param =>
      simp only [hf, hp, Option.some.injEq] at h
      subst h
      constructor
      · intro h hne _
        exact List.getElem?_set_ne (Ne.symm hne)
      · intro h
        by_cases hh : f = h
        · subst hh
          have hlt : f < p.functions.length := by
            rcases Nat.lt_or_ge f p.functions.length with hl | hl
            · exact hl
            · rw [List.getElem?_eq_none hl] at hf; cases hf
          simp [List.getElem?_set_self hlt, hf]
        · simp [List.getElem?_set_ne hh]

theorem MFProgram.setMemoryFlowTypeForThis_keeps {p q : MFProgram τ} {f : Nat}
    {c : MFFlowCategory} (h : p.setMemoryFlowTypeForThis f c = some q) :
    MFProgram.Keeps f p q ∧ ∃ fn, q.functions[f]? = some fn ∧ fn.memoryFlowTypeForThis = c := by
  unfold MFProgram.setMemoryFlowTypeForThis at h
  cases hf : p.functions[f]? with
  | none => simp [hf] at h
  | some fn =>
    simp only [hf, Option.some.injEq] at h
    subst h
    constructor
    · intro h hne _
      exact List.getElem?_set_ne (Ne.symm hne)
    · have hlt : f < p.functions.length := by
        rcases Nat.lt_or_ge f p.functions.length with hl | hl
        · exact hl
        · rw [List.getElem?_eq_none hl] at hf; cases hf
      exact ⟨_, List.getElem?_set_self hlt, rfl⟩

theorem MFFunctionAnalyser.recordVariableGet_function {a b : MFFunctionAnalyser τ} {id : Nat}
    {c : MFFlowCategory} (h : a.recordVariableGet ops id c = some b) : b.function = a.function := by
  unfold MFFunctionAnalyser.recordVariableGet at h
  simp only at h
  split at h
  · cases h
  · rename_i a1 heq
    cases h
    split at heq
    · split at heq
      · cases heq
      · split at heq
        · cases heq; rfl
        · cases heq
    · cases heq
  · rename_i a1 heq
    have ha1 : a1.function = a.function := by
      split at heq
      · split at heq
        · cases heq
        · split at heq
          · cases heq
          · cases heq; rfl
      · cases heq; rfl
    split at h
    · split at h
      · cases h
      · split at h
        · cases h; exact ha1
        · cases h; exact ha1
    · cases h; exact ha1

theorem MFFunctionAnalyser.recordThis_function (a : MFFunctionAnalyser τ) (c : MFFlowCategory) :
    (a.recordThis c).function = a.function := by
  unfold MFFunctionAnalyser.recordThis
  split <;> rfl

theorem MFFunctionAnalyser.recordCaptures_function :
    ∀ (ids : List Nat) (a b : MFFunctionAnalyser τ),
      MFFunctionAnalyser.recordCaptures ops ids a = some b → b.function = a.function
  | [], a, b, h => by
    simp only [MFFunctionAnalyser.recordCaptures, Option.some.injEq] at h
    rw [h]
  | id :: ids, a, b, h => by
    simp only [MFFunctionAnalyser.recordCaptures, Option.bind_eq_some] at h
    obtain ⟨a1, h1, h2⟩ := h
    rw [MFFunctionAnalyser.recordCaptures_function ids a1 b h2,
      MFFunctionAnalyser.recordVariableGet_function ops h1]

theorem MFProgram.effect_keeps (c : Nat) (p : MFProgram τ) (e : MFEffect τ) :
    MFProgram.Keeps c p (p.effect e) :=
  MFProgram.Keeps.of_functions_eq rfl

theorem MFFunctionAnalyser.analyseIfNecessary_keeps
    {analyse : MFProgram τ → Nat → Option (MFProgram τ)}
    (HA : ∀ p g q, analyse p g = some q → ∀ h, p.analysed h → q.functions[h]? = p.functions[h]?)
    {p q : MFProgram τ} {f : Nat}
    (h : MFFunctionAnalyser.analyseIfNecessary analyse p f = some q) :
    ∀ h, p.analysed h → q.functions[h]? = p.functions[h]? := by
  unfold MFFunctionAnalyser.analyseIfNecessary at h
  cases hf : p.functions[f]? with
  | none => simp [hf] at h
  | some fn =>
    simp only [hf] at h
    split at h
    · exact HA _ _ _ h
    · cases h
      intro _ _; rfl

mutual
theorem MFExpr.analyseExpression_keeps
    {analyse : MFProgram τ → Nat → Option (MFProgram τ)}
    (HA : ∀ p g q, analyse p g = some q → ∀ h, p.analysed h → q.functions[h]? = p.functions[h]?) :
    ∀ (e : MFExpr) (c : MFFlowCategory) (s t : MFProgram τ × MFFunctionAnalyser τ),
      e.analyseMemoryFlow ops analyse c s = some t →
      t.2.function = s.2.function ∧ MFProgram.Keeps s.2.function s.1 t.1
  | .getVariable id inInstanceScope, c, s, t, h => by
    simp only [MFExpr.analyseMemoryFlow] at h
    split at h
    · obtain ⟨a, ha, rfl⟩ := Option.map_eq_some'.mp h
      exact ⟨MFFunctionAnalyser.recordVariableGet_function ops ha, MFProgram.Keeps.same _ _⟩
    · cases h
      exact ⟨rfl, MFProgram.Keeps.same _ _⟩
  | .isOnlyReference, c, s, t, h => by
    simp only [MFExpr.analyseMemoryFlow, Option.some.injEq] at h
    subst h
    exact ⟨rfl, MFProgram.Keeps.same _ _⟩
  | .typeExpr, c, s, t, h => by
    simp only [MFExpr.analyseMemoryFlow, Option.some.injEq] at h
    subst h
    exact ⟨rfl, MFProgram.Keeps.same _ _⟩
  | .closure node closureFunction captures capturesSelf, c, s, t, h => by
    simp only [MFExpr.analyseMemoryFlow, Option.bind_eq_some, Option.some.injEq] at h
    obtain ⟨p1, hp1, a1, ha1, rfl⟩ := h
    have hfun := MFFunctionAnalyser.recordCaptures_function ops _ _ _ ha1
    refine ⟨?_, ?_⟩
    · show (if capturesSelf = true then a1.recordThis MFFlowCategory.Escaping else a1).function = _
      split
      · rw [MFFunctionAnalyser.recordThis_function, hfun]
      · exact hfun
    · exact (MFProgram.effect_keeps _ _ _).followedBy (MFProgram.Keeps.of_all (HA _ _ _ hp1))
  | .callableBox node expr thunk, c, s, t, h => by
    simp only [MFExpr.analyseMemoryFlow, Option.bind_eq_some] at h
    obtain ⟨s1, hs1, h2⟩ := h
    obtain ⟨p2, hp2, rfl⟩ := Option.map_eq_some'.mp h2
    obtain ⟨i1, i2⟩ := MFExpr.analyseExpression_keeps HA expr c _ s1 hs1
    exact ⟨i1, ((MFProgram.effect_keeps _ _ _).followedBy i2).followedBy
      (MFProgram.Keeps.of_all (HA _ _ _ hp2))⟩
  | .this, c, s, t, h => by
    simp only [MFExpr.analyseMemoryFlow, Option.some.injEq] at h
    subst h
    exact ⟨MFFunctionAnalyser.recordThis_function _ _, MFProgram.Keeps.same _ _⟩
  | .call function callee args, c, s, t, h => by
    simp only [MFExpr.analyseMemoryFlow, Option.bind_eq_some] at h
    obtain ⟨p1, hp1, s2, hs2, h3⟩ := h
    have k1 : MFProgram.Keeps s.2.function s.1 p1 :=
      MFProgram.Keeps.of_all (MFFunctionAnalyser.analyseIfNecessary_keeps HA hp1)
    have k2 : s2.2.function = s.2.function ∧ MFProgram.Keeps s.2.function p1 s2.1 := by
      cases callee with
      | none =>
        simp only [Option.some.injEq] at hs2
        subst hs2
        exact ⟨rfl, MFProgram.Keeps.same _ _⟩
      | some calleeExpr =>
        simp only at hs2
        cases hf : p1.functions[function]? with
        | none => simp [hf] at hs2
        | some fn =>
          simp only [hf] at hs2
          exact MFExpr.analyseExpression_keeps HA calleeExpr _ _ s2 hs2
    obtain ⟨i1, i2⟩ := MFExpr.analyseArguments_keeps HA function args 0 s2 t h3
    refine ⟨by rw [i1, k2.1], ?_⟩
    rw [k2.1] at i2
    exact (k1.followedBy k2.2).followedBy i2
theorem MFExpr.analyseArguments_keeps
    {analyse : MFProgram τ → Nat → Option (MFProgram τ)}
    (HA : ∀ p g q, analyse p g = some q → ∀ h, p.analysed h → q.functions[h]? = p.functions[h]?)
    (function : Nat) :
    ∀ (args : List MFExpr) (i : Nat) (s t : MFProgram τ × MFFunctionAnalyser τ),
      MFExpr.analyseArguments ops analyse function args i s = some t →
      t.2.function = s.2.function ∧ MFProgram.Keeps s.2.function s.1 t.1
  | [], i, s, t, h => by
    simp only [MFExpr.analyseArguments, Option.some.injEq] at h
    subst h
    exact ⟨rfl, MFProgram.Keeps.same _ _⟩
  | arg :: rest, i, s, t, h => by
    simp only [MFExpr.analyseArguments] at h
    cases hf : s.1.functions[function]? with
    | none => simp [hf] at h
    | some fn =>
      cases hp : fn.parameters[i]? with
      | none => simp [hf, hp] at h
      | some param =>
        simp only [hf, hp, Option.bind_eq_some] at h
        obtain ⟨s1, hs1, h2⟩ := h
        obtain ⟨i1, i2⟩ := MFExpr.analyseExpression_keeps HA arg _ s s1 hs1
        obtain ⟨j1, j2⟩ := MFExpr.analyseArguments_keeps HA function rest (i + 1) s1 t h2
        refine ⟨by rw [j1, i1], ?_⟩
        rw [i1] at j2
        exact i2.followedBy j2
end

theorem MFFunctionAnalyser.recordVariableSet_keeps
    {analyse : MFProgram τ → Nat → Option (MFProgram τ)}
    (HA : ∀ p g q, analyse p g = some q → ∀ h, p.analysed h → q.functions[h]? = p.functions[h]?)
    (s t : MFProgram τ × MFFunctionAnalyser τ) (id : Nat) (expr : MFExpr) (type : τ)
    (h : MFFunctionAnalyser.recordVariableSet ops analyse s id expr type = some t) :
    t.2.function = s.2.function ∧ MFProgram.Keeps s.2.function s.1 t.1 := by
  unfold MFFunctionAnalyser.recordVariableSet at h
  cases hv : s.2.scope[id]? with
  | none => simp [hv] at h
  | some var =>
    simp only [hv, Option.bind_eq_some] at h
    obtain ⟨s2, hs2, h3⟩ := h
    obtain ⟨i1, i2⟩ := MFExpr.analyseExpression_keeps ops HA expr _ _ s2 hs2
    simp only at i1 i2
    split at h3
    · split at h3
      · split at h3
        · cases h3
        · cases h3
          exact ⟨i1, i2⟩
      · cases h3
        exact ⟨i1, i2⟩
    · cases h3
      exact ⟨i1, i2⟩

theorem MFFunctionAnalyser.popVariable_keeps (s t : MFProgram τ × MFFunctionAnalyser τ)
    (id : Nat) (h : MFFunctionAnalyser.popVariable s id = some t) :
    t.2.function = s.2.function ∧ MFProgram.Keeps s.2.function s.1 t.1 ∧
      MFProgram.SameThis s.1 t.1 := by
  unfold MFFunctionAnalyser.popVariable at h
  cases hv : s.2.scope[id]? with
  | none => simp [hv] at h
  | some var =>
    simp only [hv] at h
    obtain ⟨p1, hp1, rfl⟩ := Option.map_eq_some'.mp h
    refine ⟨rfl, ?_⟩
    split at hp1
    · exact MFProgram.setParameterMFType_keeps hp1
    · split at hp1
      · cases hp1
        have hfun : ∀ (l : List Nat) (q : MFProgram τ),
            (l.foldl (fun q init => q.effect (MFEffect.allocateOnStack init)) q).functions
              = q.functions := by
          intro l
          induction l with
          | nil => intro q; rfl
          | cons x xs ih => intro q; rw [List.foldl_cons, ih]; rfl
        exact ⟨MFProgram.Keeps.of_functions_eq (hfun _ _), fun h => by rw [hfun]⟩
      · cases hp1
        exact ⟨MFProgram.Keeps.same _ _, MFProgram.SameThis.unchanged _⟩

theorem MFFunctionAnalyser.popVariables_keeps :
    ∀ (ids : List Nat) (s t : MFProgram τ × MFFunctionAnalyser τ),
      MFFunctionAnalyser.popVariables ids s = some t →
      t.2.function = s.2.function ∧ MFProgram.Keeps s.2.function s.1 t.1 ∧
        MFProgram.SameThis s.1 t.1
  | [], s, t, h => by
    simp only [MFFunctionAnalyser.popVariables, Option.some.injEq] at h
    subst h
    exact ⟨rfl, MFProgram.Keeps.same _ _, MFProgram.SameThis.unchanged _⟩
  | id :: ids, s, t, h => by
    simp only [MFFunctionAnalyser.popVariables, Option.bind_eq_some] at h
    obtain ⟨s1, hs1, h2⟩ := h
    obtain ⟨i1, i2, i3⟩ := MFFunctionAnalyser.popVariable_keeps s s1 id hs1
    obtain ⟨j1, j2, j3⟩ := MFFunctionAnalyser.popVariables_keeps ids s1 t h2
    refine ⟨by rw [j1, i1], ?_, i3.andThen j3⟩
    rw [i1] at j2
    exact i2.followedBy j2

theorem MFFunctionAnalyser.popScope_keeps (block : ASTBlock (MFStmt τ))
    (s t : MFProgram τ × MFFunctionAnalyser τ)
    (h : MFFunctionAnalyser.popScope ops block s = some t) :
    t.2.function = s.2.function ∧ MFProgram.Keeps s.2.function s.1 t.1 ∧
      MFProgram.SameThis s.1 t.1 := by
  unfold MFFunctionAnalyser.popScope at h
  cases hr : s.2.releaseVariables ops block with
  | none => simp [hr] at h
  | some insertion =>
    simp only [hr] at h
    obtain ⟨i1, i2, i3⟩ := MFFunctionAnalyser.popVariables_keeps _ _ t h
    exact ⟨i1, (MFProgram.effect_keeps _ _ _).followedBy i2, fun h => by rw [i3 h]; rfl⟩

mutual
theorem MFStmt.analyseStatement_keeps
    {analyse : MFProgram τ → Nat → Option (MFProgram τ)}
    (HA : ∀ p g q, analyse p g = some q → ∀ h, p.analysed h → q.functions[h]? = p.functions[h]?) :
    ∀ (stmt : MFStmt τ) (s t : MFProgram τ × MFFunctionAnalyser τ),
      stmt.analyseMemoryFlow ops analyse s = some t →
      t.2.function = s.2.function ∧ MFProgram.Keeps s.2.function s.1 t.1
  | .exprStatement expr, s, t, h => by
    simp only [MFStmt.analyseMemoryFlow] at h
    exact MFExpr.analyseExpression_keeps ops HA expr _ s t h
  | .return value initReturn, s, t, h => by
    simp only [MFStmt.analyseMemoryFlow] at h
    cases value with
    | none =>
      cases h
      exact ⟨rfl, MFProgram.Keeps.same _ _⟩
    | some v =>
      simp only at h
      split at h
      · exact MFExpr.analyseExpression_keeps ops HA v _ s t h
      · cases h
        exact ⟨rfl, MFProgram.Keeps.same _ _⟩
  | .variableAssignment id inInstanceScope expr variableType, s, t, h => by
    simp only [MFStmt.analyseMemoryFlow] at h
    split at h
    · exact MFFunctionAnalyser.recordVariableSet_keeps ops HA s t id expr variableType h
    · exact MFExpr.analyseExpression_keeps ops HA expr _ s t h
  | .variableDeclareAndAssign id expr variableType, s, t, h => by
    simp only [MFStmt.analyseMemoryFlow] at h
    exact MFFunctionAnalyser.recordVariableSet_keeps ops HA s t id expr variableType h
  | .constantVariable id expr expressionType, s, t, h => by
    simp only [MFStmt.analyseMemoryFlow] at h
    exact MFFunctionAnalyser.recordVariableSet_keeps ops HA s t id expr expressionType h
  | .other, s, t, h => by
    simp only [MFStmt.analyseMemoryFlow, Option.some.injEq] at h
    subst h
    exact ⟨rfl, MFProgram.Keeps.same _ _⟩
  | .nested isLoop block, s, t, h => by
    simp only [MFStmt.analyseMemoryFlow, Option.bind_eq_some] at h
    obtain ⟨s1, hs1, h2⟩ := h
    obtain ⟨s2, hs2, rfl⟩ := Option.map_eq_some'.mp h2
    obtain ⟨i1, i2⟩ := ASTBlock.analyseBlock_keeps HA block _ s1 hs1
    obtain ⟨j1, j2, _⟩ := MFFunctionAnalyser.popScope_keeps ops block s1 s2 hs2
    have hin : (if isLoop = true then { s.2 with inLoop := s.2.inLoop + 1 } else s.2).function
        = s.2.function := by
      split <;> rfl
    simp only [hin] at i1 i2
    rw [i1] at j2
    refine ⟨?_, i2.followedBy j2⟩
    show (if isLoop = true then { s2.2 with inLoop := s2.2.inLoop - 1 } else s2.2).function = _
    split
    · show s2.2.function = _
      rw [j1, i1]
    · rw [j1, i1]
theorem ASTBlock.analyseBlock_keeps
    {analyse : MFProgram τ → Nat → Option (MFProgram τ)}
    (HA : ∀ p g q, analyse p g = some q → ∀ h, p.analysed h → q.functions[h]? = p.functions[h]?) :
    ∀ (block : ASTBlock (MFStmt τ)) (s t : MFProgram τ × MFFunctionAnalyser τ),
      block.analyseMemoryFlow ops analyse s = some t →
      t.2.function = s.2.function ∧ MFProgram.Keeps s.2.function s.1 t.1
  | ⟨stmts, returnedCertainly, stop, _, _⟩, s, t, h => by
    simp only [ASTBlock.analyseMemoryFlow] at h
    exact MFStmt.analyseStatements_keeps HA stmts _ s t h
theorem MFStmt.analyseStatements_keeps
    {analyse : MFProgram τ → Nat → Option (MFProgram τ)}
    (HA : ∀ p g q, analyse p g = some q → ∀ h, p.analysed h → q.functions[h]? = p.functions[h]?) :
    ∀ (stmts : List (MFStmt τ)) (stop : Nat) (s t : MFProgram τ × MFFunctionAnalyser τ),
      MFStmt.analyseStatements ops analyse stmts stop s = some t →
      t.2.function = s.2.function ∧ MFProgram.Keeps s.2.function s.1 t.1
  | [], 0, s, t, h => by
    simp only [MFStmt.analyseStatements, Option.some.injEq] at h
    subst h
    exact ⟨rfl, MFProgram.Keeps.same _ _⟩
  | _ :: _, 0, s, t, h => by
    simp only [MFStmt.analyseStatements, Option.some.injEq] at h
    subst h
    exact ⟨rfl, MFProgram.Keeps.same _ _⟩
  | [], _ + 1, s, t, h => by
    simp only [MFStmt.analyseStatements] at h
    cases h
  | stmt :: rest, stop + 1, s, t, h => by
    simp only [MFStmt.analyseStatements, Option.bind_eq_some] at h
    obtain ⟨s1, hs1, h2⟩ := h
    obtain ⟨i1, i2⟩ := MFStmt.analyseStatement_keeps HA stmt s s1 hs1
    obtain ⟨j1, j2⟩ := MFStmt.analyseStatements_keeps HA rest stop s1 t h2
    refine ⟨by rw [j1, i1], ?_⟩
    rw [i1] at j2
    exact i2.followedBy j2
end

theorem MFFunctionAnalyser.checkParameterPromises_functions :
    ∀ (params superParams : List (Parameter τ)) (p q : MFProgram τ),
      MFFunctionAnalyser.checkParameterPromises params superParams p = some q →
      q.functions = p.functions
  | _, [], p, q, h => by
    simp only [MFFunctionAnalyser.checkParameterPromises, Option.some.injEq] at h
    rw [← h]
  | [], _ :: _, p, q, h => by
    simp only [MFFunctionAnalyser.checkParameterPromises] at h
    cases h
  | param :: params, superParam :: superParams, p, q, h => by
    simp only [MFFunctionAnalyser.checkParameterPromises] at h
    rw [MFFunctionAnalyser.checkParameterPromises_functions params superParams _ q h]
    split <;> rfl

theorem MFFunctionAnalyser.checkMFPromises_keeps
    {analyse : MFProgram τ → Nat → Option (MFProgram τ)}
    (HA : ∀ p g q, analyse p g = some q → ∀ h, p.analysed h → q.functions[h]? = p.functions[h]?)
    (s : MFProgram τ × MFFunctionAnalyser τ) (q : MFProgram τ)
    (h : MFFunctionAnalyser.checkMFPromises analyse s = some q) :
    ∀ h, s.1.analysed h → q.functions[h]? = s.1.functions[h]? := by
  unfold MFFunctionAnalyser.checkMFPromises at h
  cases hf : s.1.functions[s.2.function]? with
  | none => simp [hf] at h
  | some fn =>
    simp only [hf] at h
    split at h
    · cases h
      intro x _
      split <;> rfl
    · split at h
      · cases hs : fn.superFunction with
        | none =>
          simp only [hs, Option.some.injEq] at h
          subst h
          intro _ _; rfl
        | some super =>
          simp only [hs, Option.bind_eq_some] at h
          obtain ⟨p1, hp1, h2⟩ := h
          have k1 := MFFunctionAnalyser.analyseIfNecessary_keeps HA hp1
          split at h2
          · rename_i fn1 superFn _ _
            have := MFFunctionAnalyser.checkParameterPromises_functions _ _ _ q h2
            intro x hx
            rw [this]
            have hk := k1 x hx
            split
            · exact hk
            · exact hk
          · cases h2
      · cases h
        intro _ _; rfl

theorem MFFunctionAnalyser.declareParameters_function :
    ∀ (params : List (Parameter τ)) (i : Nat) (a b : MFFunctionAnalyser τ),
      MFFunctionAnalyser.declareParameters params i a = some b → b.function = a.function
  | [], i, a, b, h => by
    simp only [MFFunctionAnalyser.declareParameters, Option.some.injEq] at h
    rw [h]
  | param :: rest, i, a, b, h => by
    simp only [MFFunctionAnalyser.declareParameters] at h
    cases hv : a.scope[i]? with
    | none => simp [hv] at h
    | some var =>
      simp only [hv] at h
      rw [MFFunctionAnalyser.declareParameters_function rest (i + 1) _ b h]

/-- One analysis, given that the analyses it starts keep the analysed functions: it
keeps every function that was analysed before, and the analysed function is analysed
afterwards. -/
theorem MFFunctionAnalyser.analyseWith_keeps (defaultVariable : MFLocalVariable τ)
    {analyse : MFProgram τ → Nat → Option (MFProgram τ)}
    (HA : ∀ p g q, analyse p g = some q → ∀ h, p.analysed h → q.functions[h]? = p.functions[h]?)
    (p q : MFProgram τ) (f : Nat)
    (h : MFFunctionAnalyser.analyseWith ops defaultVariable analyse p f = some q) :
    (∀ h, p.analysed h → q.functions[h]? = p.functions[h]?) ∧ q.analysed f := by
  unfold MFFunctionAnalyser.analyseWith at h
  cases hf : p.functions[f]? with
  | none => simp [hf] at h
  | some fn =>
    simp only [hf] at h
    by_cases hu : fn.memoryFlowTypeForThis.isUnknown = true
    · simp only [hu, Bool.not_true, Bool.false_eq_true, if_false, Option.bind_eq_some] at h
      obtain ⟨p1, hp1, a1, ha1, s2, hs2, p3, hp3, s4, hs4, h5⟩ := h
      have hfa : a1.function = f := MFFunctionAnalyser.declareParameters_function _ _ _ _ ha1
      obtain ⟨k1, _⟩ := MFProgram.setMemoryFlowTypeForThis_keeps hp1
      obtain ⟨w1, w2⟩ := ASTBlock.analyseBlock_keeps ops HA fn.ast (p1, a1) s2 hs2
      simp only [hfa] at w1 w2
      obtain ⟨k3, fn3, hfn3, hcat3⟩ := MFProgram.setMemoryFlowTypeForThis_keeps hp3
      obtain ⟨v1, v2, v3⟩ := MFFunctionAnalyser.popScope_keeps ops fn.ast (p3, s2.2) s4 hs4
      simp only [w1] at v1 v2
      have k5 := MFFunctionAnalyser.checkMFPromises_keeps HA s4 q h5
      have ha3 : p3.analysed f := ⟨fn3, hfn3, by rw [hcat3]; split <;> rfl⟩
      have ha4 : s4.1.analysed f := v3.keepsAnalysed ha3
      refine ⟨?_, MFProgram.analysed_of_eq (k5 f ha4) ha4⟩
      intro x hx
      have hne : x ≠ f := by
        rintro rfl
        obtain ⟨fn', hfn', hu'⟩ := hx
        rw [hf] at hfn'
        cases hfn'
        rw [hu] at hu'
        cases hu'
      have hall : MFProgram.Keeps f p s4.1 := ((k1.followedBy w2).followedBy k3).followedBy v2
      have hx4 : s4.1.functions[x]? = p.functions[x]? := hall x hne hx
      rw [k5 x (MFProgram.analysed_of_eq hx4 hx), hx4]
    · have hu' : fn.memoryFlowTypeForThis.isUnknown = false := by simpa using hu
      simp only [hu', Bool.not_false, if_true, Option.some.injEq] at h
      subst h
      exact ⟨fun _ _ => rfl, fn, hf, hu'⟩

theorem MFFunctionAnalyser.analyse_keeps (defaultVariable : MFLocalVariable τ) :
    ∀ (fuel : Nat) (p : MFProgram τ) (f : Nat) (q : MFProgram τ),
      MFFunctionAnalyser.analyse ops defaultVariable fuel p f = some q →
      (∀ h, p.analysed h → q.functions[h]? = p.functions[h]?) ∧ q.analysed f
  | 0, p, f, q, h =>
    MFFunctionAnalyser.analyseWith_keeps ops defaultVariable
      (fun _ _ _ hn => by cases hn) p q f h
  | fuel + 1, p, f, q, h =>
    MFFunctionAnalyser.analyseWith_keeps ops defaultVariable
      (fun p' g q' hq => (MFFunctionAnalyser.analyse_keeps defaultVariable fuel p' g q' hq).1)
      p q f h

theorem MFFunctionAnalyser.analyseAll_keeps (defaultVariable : MFLocalVariable τ) :
    ∀ (later : List (Nat × Nat)) (p q : MFProgram τ),
      MFFunctionAnalyser.analyseAll ops defaultVariable later p = some q →
      ∀ h, p.analysed h → q.functions[h]? = p.functions[h]?
  | [], p, q, h => by
    simp only [MFFunctionAnalyser.analyseAll, Option.some.injEq] at h
    subst h
    intro _ _; rfl
  | (fuel, g) :: rest, p, q, h => by
    simp only [MFFunctionAnalyser.analyseAll, Option.bind_eq_some] at h
    obtain ⟨p1, hp1, h2⟩ := h
    intro x hx
    have k1 := (MFFunctionAnalyser.analyse_keeps ops defaultVariable fuel p g p1 hp1).1 x hx
    rw [MFFunctionAnalyser.analyseAll_keeps defaultVariable rest p1 q h2 x
      (MFProgram.analysed_of_eq k1 hx), k1]

theorem MFFunctionAnalyser.analyse_of_analysed (defaultVariable : MFLocalVariable τ)
    (fuel : Nat) (p : MFProgram τ) (f : Nat) (h : p.analysed f) :
    MFFunctionAnalyser.analyse ops defaultVariable fuel p f = some p := by
  obtain ⟨fn, hf, hu⟩ := h
  cases fuel <;> simp [MFFunctionAnalyser.analyse, MFFunctionAnalyser.analyseWith, hf, hu]

/-- Claim C9.  Once `MFFunctionAnalyser::analyse` has completed for a function, the
function is analysed (its category for this is no longer unknown), and after any further
analyses of any functions: the function, with its category for this and the categories of
its parameters, is exactly as the first analysis left it, and `analyse` as well as
`analyseIfNecessary` on it return at once and change nothing, whatever their budget.  A
category finalized as Escaping therefore is never reported as Borrowing later. -/
theorem analyse_is_memoized (defaultVariable : MFLocalVariable τ) (fuel : Nat)
    (p p1 : MFProgram τ) (f : Nat)
    (h : MFFunctionAnalyser.analyse ops defaultVariable fuel p f = some p1) :
    p1.analysed f ∧
    ∀ (later : List (Nat × Nat)) (p2 : MFProgram τ),
      MFFunctionAnalyser.analyseAll ops defaultVariable later p1 = some p2 →
      p2.functions[f]? = p1.functions[f]? ∧
      (∀ fuel2, MFFunctionAnalyser.analyse ops defaultVariable fuel2 p2 f = some p2) ∧
      (∀ fuel2, MFFunctionAnalyser.analyseIfNecessary
          (MFFunctionAnalyser.analyse ops defaultVariable fuel2) p2 f = some p2) := by
  have hdone := (MFFunctionAnalyser.analyse_keeps ops defaultVariable fuel p f p1 h).2
  refine ⟨hdone, ?_⟩
  intro later p2 hl
  have hsame := MFFunctionAnalyser.analyseAll_keeps ops defaultVariable later p1 p2 hl f hdone
  have hdone2 : p2.analysed f := MFProgram.analysed_of_eq hsame hdone
  refine ⟨hsame, ?_, ?_⟩
  · intro fuel2
    exact MFFunctionAnalyser.analyse_of_analysed ops defaultVariable fuel2 p2 f hdone2
  · intro fuel2
    obtain ⟨fn, hf, hu⟩ := hdone2
    simp [MFFunctionAnalyser.analyseIfNecessary, hf, hu]

/-- Witness for C9: method 0 of the sample compilation is analysed, which analyses method 1
on the way; both end with an escaping context, and a further analysis of method 0 returns
the same state. -/
theorem analyse_is_memoized_witness :
    (MFFunctionAnalyser.analyse sampleOps sampleVariable 1 sampleProgram 0).map
        (fun p => p.functions.map (fun fn => fn.memoryFlowTypeForThis))
      = some [.Escaping, .Escaping] ∧
    ∃ p1, MFFunctionAnalyser.analyse sampleOps sampleVariable 1 sampleProgram 0 = some p1 ∧
      p1.analysed 0 ∧
      ∀ fuel2, MFFunctionAnalyser.analyse sampleOps sampleVariable fuel2 p1 0 = some p1 := by
  have hsome : (MFFunctionAnalyser.analyse sampleOps sampleVariable 1 sampleProgram 0).isSome
      = true := by decide
  obtain ⟨p1, hp1⟩ := Option.isSome_iff_exists.mp hsome
  have h := analyse_is_memoized sampleOps sampleVariable 1 sampleProgram p1 0 hp1
  exact ⟨by decide, p1, hp1, h.1, (h.2 [] p1 rfl).2.1⟩

end Memo

/-! ## Protocol conformance tables -/

section ProtocolTables

open Runtime

theorem emplace_conformances {κ : Type} (lt : κ → κ → Bool) (tables : List (κ × Nat))
    (key : κ) (conformance : Nat) (hc : conformance ≠ 0) (ht : ∀ e ∈ tables, e.2 ≠ 0) :
    ∀ e ∈ emplace lt tables key conformance, e.2 ≠ 0 := by
  induction tables with
  | nil =>
    intro e he
    simp only [emplace, List.mem_singleton] at he
    subst he
    exact hc
  | cons entry rest ih =>
    intro e he
    simp only [emplace] at he
    split_ifs at he
    · rcases List.mem_cons.mp he with rfl | he
      · exact hc
      · exact ht e he
    · rcases List.mem_cons.mp he with rfl | he
      · exact ht _ (List.mem_cons_self _ _)
      · exact ih (fun x hx => ht x (List.mem_cons_of_mem _ hx)) e he
    · exact ht e he

theorem generateLoop_conformances {κ : Type} (lt : κ → κ → Bool) (protocols : List κ)
    (s : List (κ × Nat) × LLVMModule) (ht : ∀ e ∈ s.1, e.2 ≠ 0) :
    ∀ e ∈ (generateLoop lt protocols s).1, e.2 ≠ 0 := by
  induction protocols generalizing s with
  | nil => exact ht
  | cons protocol rest ih =>
    exact ih _ (emplace_conformances lt s.1 protocol _
      (by simp [createDispatchTable, getConformanceVariable, LLVMModule.newGlobalVariable]) ht)

theorem declareImportedLoop_conformances {κ : Type} (lt : κ → κ → Bool) (protocols : List κ)
    (s : List (κ × Nat) × LLVMModule) (ht : ∀ e ∈ s.1, e.2 ≠ 0) :
    ∀ e ∈ (declareImportedLoop lt protocols s).1, e.2 ≠ 0 := by
  induction protocols generalizing s with
  | nil => exact ht
  | cons protocol rest ih =>
    exact ih _ (emplace_conformances lt s.1 protocol _
      (by simp [getConformanceVariable, LLVMModule.newGlobalVariable]) ht)

theorem createProtocolTable_conformances {κ : Type} (rtti : κ → Nat)
    (tables : List (κ × Nat)) (ht : ∀ e ∈ tables, e.2 ≠ 0) :
    ∀ e ∈ entriesBeforeTerminator (createProtocolTable (protocolTableEntries rtti tables)),
      e.protocolConformance ≠ 0 := by
  intro e he
  have hmem := List.mem_takeWhile_imp he
  have hin : e ∈ createProtocolTable (protocolTableEntries rtti tables) :=
    (List.takeWhile_sublist _).subset he
  simp only [createProtocolTable, protocolTableEntries, List.map_map, List.mem_append,
    List.mem_map, List.mem_singleton] at hin
  rcases hin with ⟨x, hx, rfl⟩ | rfl
  · exact ht x hx
  · simp at hmem

/-- C14: on a null-terminated array whose entries before the terminator hold conformance
pointers that are not null, and for a non-null protocol id `p`,
`ejcFindProtocolConformance` returns the conformance pointer of the first entry before the
terminator whose id is `p`, and it returns null exactly when no entry before the
terminator has id `p`.  Every table that `createProtocolTable` emits ends with a null
entry, and the tables it emits for the maps built by `generate` and `declareImported` are
such arrays: every conformance pointer they hold is the address of a new global
variable. -/
theorem ejcFindProtocolConformance_first_match_null_iff_absent
    (info : List ProtocolConformanceEntry) (p : Nat) (hterm : NullTerminated info)
    (hp : p ≠ 0) (hconf : ∀ e ∈ entriesBeforeTerminator info, e.protocolConformance ≠ 0) :
    (∃ result, ejcFindProtocolConformance info p = some result ∧
      (∀ e, (entriesBeforeTerminator info).find? (fun e => e.protocolId == p) = some e →
        result = e.protocolConformance) ∧
      (result = 0 ↔ ∀ e ∈ entriesBeforeTerminator info, e.protocolId ≠ p)) ∧
    (∀ protocolTables : List (Nat × Nat),
      (createProtocolTable protocolTables).getLast? = some ⟨0, 0⟩ ∧
      NullTerminated (createProtocolTable protocolTables)) ∧
    (∀ (κ : Type) (lt : κ → κ → Bool) (rtti : κ → Nat) (protocols : List κ) (m : LLVMModule),
      (∀ e ∈ entriesBeforeTerminator
          (createProtocolTable (protocolTableEntries rtti (generate lt protocols m).1)),
        e.protocolConformance ≠ 0) ∧
      (∀ e ∈ entriesBeforeTerminator
          (createProtocolTable (protocolTableEntries rtti (declareImported lt protocols m).1)),
        e.protocolConformance ≠ 0)) := by
  refine ⟨?_, fun protocolTables =>
      ⟨by simp [createProtocolTable], ⟨⟨0, 0⟩, by simp [createProtocolTable], rfl⟩⟩,
    fun κ lt rtti protocols m =>
      ⟨createProtocolTable_conformances rtti _
          (generateLoop_conformances lt protocols ([], m) (by simp)),
        createProtocolTable_conformances rtti _
          (declareImportedLoop_conformances lt protocols ([], m) (by simp))⟩⟩
  have heq := ejcFindProtocolConformance_eq info p hterm hp
  cases hf : (entriesBeforeTerminator info).find? (fun e => e.protocolId == p) with
  | none =>
    rw [hf] at heq
    have hnone : ∀ e ∈ entriesBeforeTerminator info, e.protocolId ≠ p := by
      intro e he
      have := List.find?_eq_none.mp hf e he
      simpa using this
    refine ⟨0, heq, ?_, ⟨fun _ => hnone, fun _ => rfl⟩⟩
    intro e he
    cases he
  | some e =>
    rw [hf] at heq
    have hmem : e ∈ entriesBeforeTerminator info := List.mem_of_find?_eq_some hf
    have hid : e.protocolId = p := by
      have := List.find?_some hf
      simpa using this
    refine ⟨e.protocolConformance, heq, ?_,
      ⟨fun h0 => absurd h0 (hconf e hmem), fun hall => absurd hid (hall e hmem)⟩⟩
    intro e1 he1
    cases he1
    rfl

/-- Witness for C14: the table emitted for a type with the protocols 7 and 5, whose
run-time type information lies at the addresses 70 and 50.  The conformance of 7, the
first one created, is found at the address of the second global variable; protocol 9,
which the type does not have, gives null. -/
theorem ejcFindProtocolConformance_first_match_null_iff_absent_witness :
    createProtocolTable (protocolTableEntries (fun k => 10 * k)
        (generate (fun a b => decide (a < b)) [7, 5] ⟨0⟩).1)
      = [⟨50, 4⟩, ⟨70, 2⟩, ⟨0, 0⟩] ∧
    (∃ result, ejcFindProtocolConformance [⟨50, 4⟩, ⟨70, 2⟩, ⟨0, 0⟩] 70 = some result ∧
      (result = 0 ↔ ∀ e ∈ entriesBeforeTerminator [⟨50, 4⟩, ⟨70, 2⟩, ⟨0, 0⟩],
        e.protocolId ≠ 70)) ∧
    ejcFindProtocolConformance [⟨50, 4⟩, ⟨70, 2⟩, ⟨0, 0⟩] 70 = some 2 ∧
    ejcFindProtocolConformance [⟨50, 4⟩, ⟨70, 2⟩, ⟨0, 0⟩] 90 = some 0 :=
  have h := (ejcFindProtocolConformance_first_match_null_iff_absent
    [⟨50, 4⟩, ⟨70, 2⟩, ⟨0, 0⟩] 70 (by decide) (by decide) (by decide)).1
  ⟨by decide, h.elim fun result hres => ⟨result, hres.1, hres.2.2⟩, by decide, by decide⟩

end ProtocolTables

/-! ## Common-type finder: results, scenarios and protocols -/

section FinderResults

variable {τ κ : Type} (ops : TypeOps τ κ) (analyser : SemanticAnalyser τ) (tc : κ)

theorem addType_firstTypeFound (f : CommonTypeFinder τ) (t : τ) :
    (f.addType ops analyser t tc).firstTypeFound = true := by
  unfold CommonTypeFinder.addType
  by_cases hf : f.firstTypeFound = true
  · simp only [hf, Bool.not_true, Bool.false_eq_true, if_false,
      CommonTypeFinder.updateCommonProtocols, CommonTypeFinder.updateCommonType,
      CommonTypeFinder.setCommonType]
    split_ifs <;> first | exact hf | rfl
  · simp [hf]

theorem feed_append_singleton (ts : List τ) (t : τ) :
    CommonTypeFinder.feed ops analyser tc (ts ++ [t])
      = (CommonTypeFinder.feed ops analyser tc ts).addType ops analyser t tc := by
  simp [CommonTypeFinder.feed, List.foldl_append]

theorem feed_firstTypeFound (types : List τ) :
    (CommonTypeFinder.feed ops analyser tc types).firstTypeFound = true ↔ types ≠ [] := by
  induction types using List.reverseRecOn with
  | nil => simp [CommonTypeFinder.feed, CommonTypeFinder.init]
  | append_singleton ts t _ =>
    rw [feed_append_singleton, addType_firstTypeFound]
    simp

/-- C17: the result of `getCommonType`.  When an element was seen and the unboxed kind of
the running common type is Something or Someobject, it is the multi-protocol type built
from the surviving protocols if more than one survived, the single protocol if exactly one
survived, and the running common type if none survived; in every other case it is the
running common type, which is `something` as long as no element was fed.  A warning is
emitted exactly when no element was seen, or the common type is such a top type and no
protocol survived; it is then the only warning. -/
theorem getCommonType_result_and_warning (emptyContext : κ) (f : CommonTypeFinder τ)
    (p : SourcePosition) :
    (f.firstTypeFound = true →
      (ops.unboxedType f.commonType = TypeType.Something
        ∨ ops.unboxedType f.commonType = TypeType.Someobject) →
      (1 < f.commonProtocols.length →
        (f.getCommonType ops emptyContext p).1 = ops.multiProtocol f.commonProtocols) ∧
      (∀ q, f.commonProtocols = [q] → (f.getCommonType ops emptyContext p).1 = q) ∧
      (f.commonProtocols = [] → (f.getCommonType ops emptyContext p).1 = f.commonType)) ∧
    (¬ (f.firstTypeFound = true ∧
        (ops.unboxedType f.commonType = TypeType.Something
          ∨ ops.unboxedType f.commonType = TypeType.Someobject)) →
      (f.getCommonType ops emptyContext p).1 = f.commonType) ∧
    (∀ types, (CommonTypeFinder.feed ops analyser tc types).firstTypeFound = false →
      (CommonTypeFinder.feed ops analyser tc types).commonType = ops.something) ∧
    ((f.getCommonType ops emptyContext p).2 ≠ [] ↔
      (f.firstTypeFound = false ∨
        ((ops.unboxedType f.commonType = TypeType.Something
          ∨ ops.unboxedType f.commonType = TypeType.Someobject) ∧ f.commonProtocols = []))) ∧
    ((f.getCommonType ops emptyContext p).2.length ≤ 1) := by
  refine ⟨?_, ?_, ?_, ?_, ?_⟩
  · intro hf htop
    unfold CommonTypeFinder.getCommonType
    simp only [hf, Bool.not_true, Bool.false_eq_true, if_false, if_pos htop]
    refine ⟨fun h => by simp [h], fun q hq => by simp [hq], fun h => by simp [h]⟩
  · intro hn
    unfold CommonTypeFinder.getCommonType
    by_cases hf : f.firstTypeFound = true
    · have htop : ¬ (ops.unboxedType f.commonType = TypeType.Something
          ∨ ops.unboxedType f.commonType = TypeType.Someobject) := fun h => hn ⟨hf, h⟩
      simp only [hf, Bool.not_true, Bool.false_eq_true, if_false, if_neg htop]
    · simp [hf]
  · intro types hf
    have hnil : types = [] := by
      by_contra hne
      rw [(feed_firstTypeFound ops analyser tc types).mpr hne] at hf
      exact Bool.noConfusion hf
    subst hnil
    rfl
  · unfold CommonTypeFinder.getCommonType
    by_cases hf : f.firstTypeFound = true
    · simp only [hf, Bool.not_true, Bool.false_eq_true, if_false, false_or]
      by_cases htop : ops.unboxedType f.commonType = TypeType.Something
          ∨ ops.unboxedType f.commonType = TypeType.Someobject
      · simp only [if_pos htop, htop, true_and]
        cases hps : f.commonProtocols with
        | nil => simp
        | cons q qs =>
          cases qs with
          | nil => simp
          | cons q2 qs => simp
      · simp [if_neg htop, htop]
    · simp [hf]
  · unfold CommonTypeFinder.getCommonType
    split_ifs <;> simp

end FinderResults

section FinderScenario

variable {τ κ : Type} (ops : TypeOps τ κ) (analyser : SemanticAnalyser τ) (tc : κ)

theorem updateCommonProtocols_of_nil (f : CommonTypeFinder τ) (t : τ)
    (h : f.commonProtocols = []) :
    (f.updateCommonProtocols ops t tc).commonProtocols = [] := by
  simp [CommonTypeFinder.updateCommonProtocols, h]

theorem updateCommonType_commonProtocols (f : CommonTypeFinder τ) (t : τ) :
    (f.updateCommonType ops t tc).commonProtocols = f.commonProtocols := by
  unfold CommonTypeFinder.updateCommonType CommonTypeFinder.setCommonType
  split_ifs <;> rfl

theorem addType_commonProtocols_of_found (f : CommonTypeFinder τ) (t : τ)
    (hf : f.firstTypeFound = true) :
    (f.addType ops analyser t tc).commonProtocols =
      if f.commonProtocols.isEmpty then []
      else if ops.canHaveProtocol (analyser.defaultLiteralType t) = false then []
      else (ops.protocols (analyser.defaultLiteralType t)).filter (fun protocol =>
        f.commonProtocols.any (fun p => ops.identicalTo protocol p tc)) := by
  unfold CommonTypeFinder.addType
  simp only [hf, Bool.not_true, Bool.false_eq_true, if_false]
  unfold CommonTypeFinder.updateCommonProtocols
  simp only [updateCommonType_commonProtocols]
  by_cases hnil : f.commonProtocols.isEmpty = true
  · have := List.isEmpty_iff.mp hnil
    simp [hnil, updateCommonType_commonProtocols, this]
  · by_cases hcan : ops.canHaveProtocol (analyser.defaultLiteralType t) = true
    · simp [hnil, hcan]
    · simp [hnil, hcan]

theorem addType_init (t : τ) :
    (CommonTypeFinder.init ops).addType ops analyser t tc =
      ⟨true, ops.setReference (ops.inexacted (analyser.defaultLiteralType t)) false,
        if ops.canHaveProtocol (analyser.defaultLiteralType t) then
          ops.protocols (analyser.defaultLiteralType t) else []⟩ := by
  simp [CommonTypeFinder.addType, CommonTypeFinder.init, CommonTypeFinder.setCommonType]

/-- C16: the element types of `[1, "x", 2]`.  The first and the second element type (after
literal defaulting, the first in its inexact non-reference form) are incompatible in both
directions, they are not both classes, none of the protocols of the second is identical to
a protocol of the first, and the third is compatible to `something` as every type is.
Then `getCommonType` returns `something` and emits the warning that says so. -/
theorem getCommonType_numeric_string_numeric_is_something (emptyContext : κ)
    (p : SourcePosition) (t1 t2 t3 : τ)
    (hSN : ops.compatibleTo (analyser.defaultLiteralType t2)
      (ops.setReference (ops.inexacted (analyser.defaultLiteralType t1)) false) tc = false)
    (hNS : ops.compatibleTo
      (ops.setReference (ops.inexacted (analyser.defaultLiteralType t1)) false)
      (analyser.defaultLiteralType t2) tc = false)
    (hkind : ¬ (ops.type (analyser.defaultLiteralType t2) = TypeType.Class ∧
      ops.type (ops.setReference (ops.inexacted (analyser.defaultLiteralType t1)) false)
        = TypeType.Class))
    (hprot : ∀ q ∈ ops.protocols (analyser.defaultLiteralType t2),
      ∀ r ∈ ops.protocols (analyser.defaultLiteralType t1), ops.identicalTo q r tc = false)
    (htop : ops.compatibleTo (analyser.defaultLiteralType t3) ops.something tc = true)
    (hsomething : ops.unboxedType ops.something = TypeType.Something) :
    (CommonTypeFinder.feed ops analyser tc [t1, t2, t3]).getCommonType ops emptyContext p =
      (ops.something, [⟨p, ["Common type was inferred to be ",
        ops.typeString ops.something emptyContext, "."], []⟩]) := by
  have h1 := addType_init ops analyser tc t1
  have hfeed : CommonTypeFinder.feed ops analyser tc [t1, t2, t3] =
      ((((CommonTypeFinder.init ops).addType ops analyser t1 tc).addType ops analyser t2 tc).addType
        ops analyser t3 tc) := rfl
  rw [hfeed, h1]
  generalize hP : (if ops.canHaveProtocol (analyser.defaultLiteralType t1) then
      ops.protocols (analyser.defaultLiteralType t1) else []) = P
  have hPsub : ∀ r ∈ P, r ∈ ops.protocols (analyser.defaultLiteralType t1) := by
    intro r hr
    rw [← hP] at hr
    split_ifs at hr
    · exact hr
    · simp at hr
  have h2 : (CommonTypeFinder.addType ops analyser
      ⟨true, ops.setReference (ops.inexacted (analyser.defaultLiteralType t1)) false, P⟩ t2 tc)
      = ⟨true, ops.something, []⟩ := by
    have hp2 := addType_commonProtocols_of_found ops analyser tc
      ⟨true, ops.setReference (ops.inexacted (analyser.defaultLiteralType t1)) false, P⟩ t2 rfl
    have hp2nil : (CommonTypeFinder.addType ops analyser
        ⟨true, ops.setReference (ops.inexacted (analyser.defaultLiteralType t1)) false, P⟩
        t2 tc).commonProtocols = [] := by
      rw [hp2]
      split_ifs
      · rfl
      · rfl
      · rw [List.filter_eq_nil_iff]
        intro q hq
        simp only [List.any_eq_true, not_exists, not_and, Bool.not_eq_true]
        intro r hr
        exact hprot q hq r (hPsub r hr)
    have hfound := addType_firstTypeFound ops analyser tc
      ⟨true, ops.setReference (ops.inexacted (analyser.defaultLiteralType t1)) false, P⟩ t2
    have hct : (CommonTypeFinder.addType ops analyser
        ⟨true, ops.setReference (ops.inexacted (analyser.defaultLiteralType t1)) false, P⟩
        t2 tc).commonType = ops.something := by
      simp only [CommonTypeFinder.addType, Bool.not_true, Bool.false_eq_true, if_false,
        CommonTypeFinder.updateCommonProtocols, CommonTypeFinder.updateCommonType, hSN, hNS,
        Bool.not_false, if_true, if_neg hkind]
      split_ifs <;> rfl
    generalize CommonTypeFinder.addType ops analyser
        ⟨true, ops.setReference (ops.inexacted (analyser.defaultLiteralType t1)) false, P⟩
        t2 tc = g at hp2nil hfound hct
    cases g
    simp only at hp2nil hfound hct
    rw [hp2nil, hfound, hct]
  rw [h2]
  simp [CommonTypeFinder.addType, CommonTypeFinder.updateCommonProtocols,
    CommonTypeFinder.updateCommonType, htop, CommonTypeFinder.getCommonType, hsomething]

/-- Witness for C16: the value type `point`, the enum `color` and `point` again in the
sample universe are incompatible and share no protocol; the common type is `something`. -/
theorem getCommonType_numeric_string_numeric_is_something_witness :
    (CommonTypeFinder.feed sampleOps ⟨id⟩ ()
        [⟨.point, false⟩, ⟨.color, false⟩, ⟨.point, false⟩]).getCommonType sampleOps () ⟨1, 1⟩ =
      (⟨.something, false⟩, [⟨⟨1, 1⟩, ["Common type was inferred to be ", "something", "."],
        []⟩]) :=
  getCommonType_numeric_string_numeric_is_something sampleOps ⟨id⟩ () () ⟨1, 1⟩
    ⟨.point, false⟩ ⟨.color, false⟩ ⟨.point, false⟩ (by decide) (by decide) (by decide)
    (by decide) (by decide) (by decide)

end FinderScenario

section FinderProtocols

variable {τ κ : Type} (ops : TypeOps τ κ) (analyser : SemanticAnalyser τ) (tc : κ)

theorem feed_commonProtocols_mem (laws : IdentityLaws ops tc) (ts : List τ) :
    ∀ (t : τ) (q : τ),
      q ∈ (CommonTypeFinder.feed ops analyser tc (ts ++ [t])).commonProtocols ↔
        q ∈ ops.protocols (analyser.defaultLiteralType t) ∧
        ∀ x ∈ ts ++ [t], ops.canHaveProtocol (analyser.defaultLiteralType x) = true ∧
          ∃ r ∈ ops.protocols (analyser.defaultLiteralType x), ops.identicalTo r q tc = true := by
  induction ts using List.reverseRecOn with
  | nil =>
    intro t q
    have h1 : CommonTypeFinder.feed ops analyser tc ([] ++ [t])
        = (CommonTypeFinder.init ops).addType ops analyser t tc := rfl
    rw [h1, addType_init]
    simp only [List.nil_append, List.mem_singleton, forall_eq]
    by_cases hcan : ops.canHaveProtocol (analyser.defaultLiteralType t) = true
    · simp only [hcan, if_true, true_and]
      exact ⟨fun hq => ⟨hq, q, hq, laws.refl q⟩, fun h => h.1⟩
    · simp [hcan]
  | append_singleton ts t0 ih =>
    intro t q
    rw [feed_append_singleton]
    have hfound : (CommonTypeFinder.feed ops analyser tc (ts ++ [t0])).firstTypeFound = true :=
      (feed_firstTypeFound ops analyser tc _).mpr (by simp)
    rw [addType_commonProtocols_of_found ops analyser tc _ t hfound]
    have ih0 := ih t0
    generalize (CommonTypeFinder.feed ops analyser tc (ts ++ [t0])).commonProtocols = S at ih0
    have hsplit : ∀ (P : τ → Prop), (∀ x ∈ ts ++ [t0] ++ [t], P x) ↔
        ((∀ x ∈ ts ++ [t0], P x) ∧ P t) := by
      intro P
      simp only [List.mem_append, List.mem_singleton]
      constructor
      · intro h
        exact ⟨fun x hx => h x (Or.inl hx), h t (Or.inr rfl)⟩
      · rintro ⟨h1, h2⟩ x (hx | rfl)
        · exact h1 x hx
        · exact h2
    rw [hsplit]
    constructor
    · intro hq
      by_cases hS : S.isEmpty = true
      · simp [hS] at hq
      · by_cases hcan : ops.canHaveProtocol (analyser.defaultLiteralType t) = true
        · simp only [hS, hcan, Bool.false_eq_true, if_false, Bool.true_eq_false,
            List.mem_filter, List.any_eq_true] at hq
          obtain ⟨hqt, s, hs, hqs⟩ := hq
          obtain ⟨_, hall⟩ := (ih0 s).mp hs
          refine ⟨hqt, fun x hx => ?_, hcan, q, hqt, laws.refl q⟩
          obtain ⟨hc, r, hr, hrs⟩ := hall x hx
          exact ⟨hc, r, hr, laws.trans r s q hrs (laws.symm q s hqs)⟩
        · simp [hS, hcan] at hq
    · rintro ⟨hqt, hall, hcan, _⟩
      obtain ⟨_, r0, hr0, hr0q⟩ := hall t0 (by simp)
      have hr0S : r0 ∈ S := by
        rw [ih0 r0]
        refine ⟨hr0, fun x hx => ?_⟩
        obtain ⟨hc, r, hr, hrq⟩ := hall x hx
        exact ⟨hc, r, hr, laws.trans r q r0 hrq (laws.symm r0 q hr0q)⟩
      have hS : ¬ S.isEmpty = true := by
        intro hS
        rw [List.isEmpty_iff.mp hS] at hr0S
        simp at hr0S
      simp only [hS, hcan, Bool.false_eq_true, if_false, Bool.true_eq_false,
        List.mem_filter, List.any_eq_true]
      exact ⟨hqt, r0, hr0S, laws.symm r0 q hr0q⟩

/-- C18: after feeding the types `ts` and then `t` to `addType` (identity of types being an
equivalence), the common protocols are the protocols declared by the last element for
which every element can have protocols and declares a protocol identical to it; up to
identity, a protocol is in the set exactly when every element can have protocols and
declares a protocol identical to it.  When some element cannot have protocols the set is
empty, and an empty set stays empty whatever is fed afterwards. -/
theorem commonProtocols_is_intersection_under_identity (laws : IdentityLaws ops tc)
    (ts : List τ) (t : τ) :
    (∀ q, q ∈ (CommonTypeFinder.feed ops analyser tc (ts ++ [t])).commonProtocols ↔
      q ∈ ops.protocols (analyser.defaultLiteralType t) ∧
      ∀ x ∈ ts ++ [t], ops.canHaveProtocol (analyser.defaultLiteralType x) = true ∧
        ∃ r ∈ ops.protocols (analyser.defaultLiteralType x), ops.identicalTo r q tc = true) ∧
    (∀ q, (∃ s ∈ (CommonTypeFinder.feed ops analyser tc (ts ++ [t])).commonProtocols,
        ops.identicalTo s q tc = true) ↔
      ∀ x ∈ ts ++ [t], ops.canHaveProtocol (analyser.defaultLiteralType x) = true ∧
        ∃ r ∈ ops.protocols (analyser.defaultLiteralType x), ops.identicalTo r q tc = true) ∧
    ((∃ x ∈ ts ++ [t], ops.canHaveProtocol (analyser.defaultLiteralType x) = false) →
      (CommonTypeFinder.feed ops analyser tc (ts ++ [t])).commonProtocols = []) ∧
    (∀ later, (CommonTypeFinder.feed ops analyser tc (ts ++ [t])).commonProtocols = [] →
      (CommonTypeFinder.feed ops analyser tc (ts ++ [t] ++ later)).commonProtocols = []) := by
  have hmem := feed_commonProtocols_mem ops analyser tc laws ts t
  refine ⟨hmem, ?_, ?_, ?_⟩
  · intro q
    constructor
    · rintro ⟨s, hs, hsq⟩ x hx
      obtain ⟨hc, r, hr, hrs⟩ := ((hmem s).mp hs).2 x hx
      exact ⟨hc, r, hr, laws.trans r s q hrs hsq⟩
    · intro hall
      obtain ⟨_, r0, hr0, hr0q⟩ := hall t (by simp)
      refine ⟨r0, (hmem r0).mpr ⟨hr0, fun x hx => ?_⟩, hr0q⟩
      obtain ⟨hc, r, hr, hrq⟩ := hall x hx
      exact ⟨hc, r, hr, laws.trans r q r0 hrq (laws.symm r0 q hr0q)⟩
  · rintro ⟨x, hx, hcan⟩
    apply List.eq_nil_iff_forall_not_mem.mpr
    intro q hq
    have := (((hmem q).mp hq).2 x hx).1
    rw [hcan] at this
    exact Bool.noConfusion this
  · intro later
    induction later using List.reverseRecOn with
    | nil => simp
    | append_singleton ls u ih =>
      intro h0
      rw [← List.append_assoc, feed_append_singleton]
      have hfound : (CommonTypeFinder.feed ops analyser tc (ts ++ [t] ++ ls)).firstTypeFound
          = true := (feed_firstTypeFound ops analyser tc _).mpr (by simp)
      rw [addType_commonProtocols_of_found ops analyser tc _ u hfound, ih h0]
      rfl

/-- Witness for C18: the `dog` and the `point` of the sample universe both declare
`printable`, which therefore is the one common protocol. -/
theorem commonProtocols_is_intersection_under_identity_witness :
    (⟨.printable, false⟩ : SampleType) ∈ (CommonTypeFinder.feed sampleOps ⟨id⟩ ()
        ([⟨.dog, false⟩] ++ [⟨.point, false⟩])).commonProtocols ↔
      (⟨.printable, false⟩ : SampleType) ∈ sampleOps.protocols ⟨.point, false⟩ ∧
      ∀ x ∈ [(⟨.dog, false⟩ : SampleType)] ++ [⟨.point, false⟩],
        sampleOps.canHaveProtocol x = true ∧
        ∃ r ∈ sampleOps.protocols x, sampleOps.identicalTo r ⟨.printable, false⟩ () = true :=
  (commonProtocols_is_intersection_under_identity sampleOps ⟨id⟩ ()
    ⟨fun a => by simp [sampleOps], fun a b h => by simp [sampleOps] at h ⊢; exact h.symm,
      fun a b c h1 h2 => by simp [sampleOps] at h1 h2 ⊢; exact h1.trans h2⟩
    [⟨.dog, false⟩] ⟨.point, false⟩).1 ⟨.printable, false⟩

end FinderProtocols

section FinderCopies

variable {τ κ : Type} (ops : TypeOps τ κ) (analyser : SemanticAnalyser τ) (tc : κ)

theorem addType_same_again (t : τ)
    (hcompat : ops.compatibleTo (analyser.defaultLiteralType t)
      (ops.setReference (ops.inexacted (analyser.defaultLiteralType t)) false) tc = true)
    (hrefl : ∀ q ∈ ops.protocols (analyser.defaultLiteralType t), ops.identicalTo q q tc = true) :
    CommonTypeFinder.addType ops analyser
        ⟨true, ops.setReference (ops.inexacted (analyser.defaultLiteralType t)) false,
          if ops.canHaveProtocol (analyser.defaultLiteralType t) then
            ops.protocols (analyser.defaultLiteralType t) else []⟩ t tc
      = ⟨true, ops.setReference (ops.inexacted (analyser.defaultLiteralType t)) false,
          if ops.canHaveProtocol (analyser.defaultLiteralType t) then
            ops.protocols (analyser.defaultLiteralType t) else []⟩ := by
  by_cases hcan : ops.canHaveProtocol (analyser.defaultLiteralType t) = true
  · have hfilter : List.filter (fun protocol =>
        (ops.protocols (analyser.defaultLiteralType t)).any
          (fun p => ops.identicalTo protocol p tc))
        (ops.protocols (analyser.defaultLiteralType t))
        = ops.protocols (analyser.defaultLiteralType t) := by
      rw [List.filter_eq_self]
      intro q hq
      rw [List.any_eq_true]
      exact ⟨q, hq, hrefl q hq⟩
    simp only [CommonTypeFinder.addType, CommonTypeFinder.updateCommonType,
      CommonTypeFinder.updateCommonProtocols, hcompat, hcan, Bool.not_true,
      Bool.false_eq_true, if_false, if_true, hfilter]
    split_ifs <;> rfl
  · simp [CommonTypeFinder.addType, CommonTypeFinder.updateCommonType,
      CommonTypeFinder.updateCommonProtocols, hcompat, hcan]

theorem feed_replicate (t : τ) (n : Nat)
    (hcompat : ops.compatibleTo (analyser.defaultLiteralType t)
      (ops.setReference (ops.inexacted (analyser.defaultLiteralType t)) false) tc = true)
    (hrefl : ∀ q ∈ ops.protocols (analyser.defaultLiteralType t), ops.identicalTo q q tc = true) :
    CommonTypeFinder.feed ops analyser tc (List.replicate (n + 1) t)
      = ⟨true, ops.setReference (ops.inexacted (analyser.defaultLiteralType t)) false,
          if ops.canHaveProtocol (analyser.defaultLiteralType t) then
            ops.protocols (analyser.defaultLiteralType t) else []⟩ := by
  induction n with
  | zero => exact addType_init ops analyser tc t
  | succ n ih =>
    have : List.replicate (n + 1 + 1) t = List.replicate (n + 1) t ++ [t] := by
      rw [List.replicate_succ' (n + 1)]
    rw [this, feed_append_singleton, ih]
    exact addType_same_again ops analyser tc t hcompat hrefl

end FinderCopies

/-! ## Return and raise statements -/

section ReturnAndRaise

variable {τ κ : Type} (ops : TypeOps τ κ) (rops : ReferenceOps τ)
  (isReturnForbidden : FunctionType → Bool) (tc : κ)

theorem PathAnalyser.hasCertainly_record (pa : PathAnalyser) (incident : PathAnalyserIncident) :
    (pa.record incident).hasCertainly incident = true := by
  simp [PathAnalyser.record, PathAnalyser.hasCertainly]

theorem FunctionAnalyser.hasCertainly_perform {α : Type} (a : FunctionAnalyser)
    (call : Analysed α) (incident : PathAnalyserIncident)
    (h : a.pathAnalyser.hasCertainly incident = true) :
    (a.perform call).1.pathAnalyser.hasCertainly incident = true := by
  simp only [PathAnalyser.hasCertainly, decide_eq_true_eq] at h
  simp [FunctionAnalyser.perform, PathAnalyser.hasCertainly, h]

theorem FunctionAnalyser.error_pathAnalyser (a : FunctionAnalyser) (ce : CompilerError) :
    (a.error ce).pathAnalyser = a.pathAnalyser := rfl

theorem ASTReturn.returnReference_pathAnalyser (self : ASTReturn τ) (value : ReturnValue τ)
    (type : τ) (a : FunctionAnalyser) :
    (self.returnReference rops value type a).pathAnalyser = a.pathAnalyser := by
  unfold ASTReturn.returnReference
  cases value.getVariable with
  | some inInstanceScope => simp only; split_ifs <;> rfl
  | none => simp only; split_ifs <;> rfl

theorem FunctionAnalyser.error_if_pathAnalyser (c : Prop) [Decidable c] (a : FunctionAnalyser)
    (ce : CompilerError) : (if c then a.error ce else a).pathAnalyser = a.pathAnalyser := by
  split_ifs <;> rfl

/-- C19: after `ASTReturn::analyse` and after `ASTRaise::analyse`, whatever the function,
the statement and the analyser, and whether the call returns or throws, the path analyser
has the incident `Returned` recorded on the current path. -/
theorem returned_recorded_after_return_and_raise (function : AnalysedFunction τ)
    (analyser : FunctionAnalyser) :
    (∀ self : ASTReturn τ,
      (self.analyse ops rops isReturnForbidden tc function analyser).1.pathAnalyser.hasCertainly
        PathAnalyserIncident.Returned = true) ∧
    (∀ (instanceScope : List (Variable τ)) (self : ASTRaise τ),
      (self.analyse ops isReturnForbidden function instanceScope
        analyser).2.1.pathAnalyser.hasCertainly PathAnalyserIncident.Returned = true) := by
  have h0 : ({ analyser with pathAnalyser :=
      analyser.pathAnalyser.record PathAnalyserIncident.Returned } :
        FunctionAnalyser).pathAnalyser.hasCertainly PathAnalyserIncident.Returned = true :=
    PathAnalyser.hasCertainly_record _ _
  constructor
  · intro self
    obtain ⟨pos, value⟩ := self
    unfold ASTReturn.analyse
    by_cases hnr : ops.type function.returnType = TypeType.NoReturn
    · rw [if_pos hnr]
      cases value <;> exact h0
    · rw [if_neg hnr]
      cases value with
      | none => exact h0
      | some value =>
        obtain ⟨⟨incidents, errors, result⟩, complied, getVariable⟩ := value
        dsimp only
        by_cases hforb : isReturnForbidden function.functionType = true
        · rw [if_pos hforb]
          exact h0
        · rw [if_neg hforb]
          have h1 := FunctionAnalyser.hasCertainly_perform _
            (⟨incidents, errors, result⟩ : Analysed τ) _ h0
          cases result with
          | error e => exact h1
          | ok type =>
            dsimp only [FunctionAnalyser.perform] at h1 ⊢
            by_cases href : rops.isReference function.returnType = true
            · rw [if_pos href]
              dsimp only
              rw [ASTReturn.returnReference_pathAnalyser,
                FunctionAnalyser.error_if_pathAnalyser]
              exact h1
            · rw [if_neg href]
              apply FunctionAnalyser.hasCertainly_perform
              rw [FunctionAnalyser.error_if_pathAnalyser]
              exact h1
  · intro instanceScope self
    obtain ⟨pos, expectType, release⟩ := self
    unfold ASTRaise.analyse
    by_cases hep : (!function.errorProne) = true
    · rw [if_pos hep]
      exact h0
    · rw [if_neg hep]
      dsimp only
      generalize expectType function.errorType = call
      obtain ⟨incidents, errors, result⟩ := call
      have h1 := FunctionAnalyser.hasCertainly_perform _
        (⟨incidents, errors, result⟩ : Analysed Unit) _ h0
      cases result with
      | error e => exact h1
      | ok u =>
        dsimp only [FunctionAnalyser.perform] at h1 ⊢
        by_cases hforb : isReturnForbidden function.functionType = true
        · rw [if_pos hforb]
          exact h1
        · rw [if_neg hforb]
          exact h1

/-- C20 (amended): in a function whose function type forbids return, `ASTReturn::analyse`
throws for every return statement with a value (the error about the missing return type
when the function declares none, the error about initializers otherwise) and for the
statement without a value when the function declares a return type; the statement
without a value in a function without return type is accepted.  So the call throws
exactly when the statement has a value or the function declares a return type. -/
theorem return_where_forbidden_throws_unless_bare_without_return_type
    (function : AnalysedFunction τ) (self : ASTReturn τ) (analyser : FunctionAnalyser)
    (hforbidden : isReturnForbidden function.functionType = true) :
    (∀ value, self.value = some value → ops.type function.returnType = TypeType.NoReturn →
      (self.analyse ops rops isReturnForbidden tc function analyser).2
        = .error ⟨self.position, ["No return type declared. Use ↩️↩️."], []⟩) ∧
    (∀ value, self.value = some value → ops.type function.returnType ≠ TypeType.NoReturn →
      (self.analyse ops rops isReturnForbidden tc function analyser).2
        = .error ⟨self.position, ["↩️ cannot be used inside an initializer."], []⟩) ∧
    (self.value = none → ops.type function.returnType ≠ TypeType.NoReturn →
      (self.analyse ops rops isReturnForbidden tc function analyser).2
        = .error ⟨self.position,
            ["↩️↩️ can only be used in functions without a return value."], []⟩) ∧
    (self.value = none → ops.type function.returnType = TypeType.NoReturn →
      (self.analyse ops rops isReturnForbidden tc function analyser).2 = .ok ()) ∧
    ((∃ e, (self.analyse ops rops isReturnForbidden tc function analyser).2 = .error e) ↔
      (self.value ≠ none ∨ ops.type function.returnType ≠ TypeType.NoReturn)) := by
  have h1 : ∀ value, self.value = some value →
      ops.type function.returnType = TypeType.NoReturn →
      (self.analyse ops rops isReturnForbidden tc function analyser).2
        = .error ⟨self.position, ["No return type declared. Use ↩️↩️."], []⟩ := by
    intro value hv hnr
    simp [ASTReturn.analyse, hv, hnr]
  have h2 : ∀ value, self.value = some value →
      ops.type function.returnType ≠ TypeType.NoReturn →
      (self.analyse ops rops isReturnForbidden tc function analyser).2
        = .error ⟨self.position, ["↩️ cannot be used inside an initializer."], []⟩ := by
    intro value hv hnr
    simp [ASTReturn.analyse, hv, hnr, hforbidden]
  have h3 : self.value = none → ops.type function.returnType ≠ TypeType.NoReturn →
      (self.analyse ops rops isReturnForbidden tc function analyser).2
        = .error ⟨self.position,
            ["↩️↩️ can only be used in functions without a return value."], []⟩ := by
    intro hv hnr
    simp [ASTReturn.analyse, hv, hnr]
  have h4 : self.value = none → ops.type function.returnType = TypeType.NoReturn →
      (self.analyse ops rops isReturnForbidden tc function analyser).2 = .ok () := by
    intro hv hnr
    simp [ASTReturn.analyse, hv, hnr]
  refine ⟨h1, h2, h3, h4, ?_⟩
  by_cases hnr : ops.type function.returnType = TypeType.NoReturn
  · cases hv : self.value with
    | none =>
      rw [h4 hv hnr]
      simp [hnr]
    | some value =>
      rw [h1 value hv hnr]
      simp
  · cases hv : self.value with
    | none =>
      rw [h3 hv hnr]
      simp [hnr]
    | some value =>
      rw [h2 value hv hnr]
      simp

/-- Witness for C20: in an object initializer with a declared return type, the return
statement without a value throws. -/
theorem return_where_forbidden_throws_unless_bare_without_return_type_witness :
    (ASTReturn.analyse kindOps kindReferenceOps initializersForbidReturn ()
        ⟨.Class, .ObjectInitializer, false, .NoReturn⟩ ⟨⟨1, 1⟩, none⟩ freshFunctionAnalyser).2
      = .error ⟨⟨1, 1⟩, ["↩️↩️ can only be used in functions without a return value."], []⟩ :=
  (return_where_forbidden_throws_unless_bare_without_return_type kindOps kindReferenceOps
    initializersForbidReturn () ⟨.Class, .ObjectInitializer, false, .NoReturn⟩ ⟨⟨1, 1⟩, none⟩
    freshFunctionAnalyser rfl).2.2.1 rfl (by decide)

/-- Counterexample to C20 as stated: in an object initializer that declares no return
type, the return statement without a value is analysed without any error, thrown or
recorded. -/
theorem bare_return_in_initializer_without_return_type_accepted :
    initializersForbidReturn FunctionType.ObjectInitializer = true ∧
    ASTReturn.analyse kindOps kindReferenceOps initializersForbidReturn ()
        ⟨.NoReturn, .ObjectInitializer, false, .NoReturn⟩ ⟨⟨1, 1⟩, none⟩ freshFunctionAnalyser
      = (⟨⟨[PathAnalyserIncident.Returned]⟩, [], false⟩, .ok ()) :=
  ⟨rfl, rfl⟩

end ReturnAndRaise

/-! ## Return types, raise statements and variables -/

section ReturnTypes

variable {τ κ : Type} (ops : TypeOps τ κ) (rops : ReferenceOps τ)
  (isReturnForbidden : FunctionType → Bool) (tc : κ)

theorem ASTReturn.returnReference_errors (self : ASTReturn τ) (value : ReturnValue τ)
    (type : τ) (a : FunctionAnalyser) :
    ∃ added, (self.returnReference rops value type a).errors = a.errors ++ added ∧
      (added = [] ↔ (value.getVariable = some true ∨
        (value.getVariable = none ∧ rops.isReference type = true ∧
          a.isInUnsafeBlock = true ∧ rops.isMutable type = true))) := by
  obtain ⟨analysis, complied, getVariable⟩ := value
  unfold ASTReturn.returnReference
  cases getVariable with
  | some inInstanceScope =>
    cases inInstanceScope with
    | true => exact ⟨[], by simp, by simp⟩
    | false =>
      exact ⟨[⟨self.position, ["Only instance variables can be referenced."], []⟩],
        by simp [FunctionAnalyser.error], by simp⟩
  | none =>
    dsimp only
    by_cases href : rops.isReference type = true
    · rw [if_pos href]
      by_cases hblock : a.isInUnsafeBlock = true
      · by_cases hmut : rops.isMutable type = true
        · exact ⟨[], by simp [hblock, hmut], by simp [href, hblock, hmut]⟩
        · exact ⟨[⟨self.position, ["Cannot forward immutable reference."], []⟩],
            by simp [hblock, hmut, FunctionAnalyser.error], by simp [hmut]⟩
      · by_cases hmut : rops.isMutable type = true
        · exact ⟨[⟨self.position, ["Forwarding reference is an unsafe operation."], []⟩],
            by simp [hblock, hmut, FunctionAnalyser.error], by simp [hblock]⟩
        · exact ⟨[⟨self.position, ["Forwarding reference is an unsafe operation."], []⟩,
              ⟨self.position, ["Cannot forward immutable reference."], []⟩],
            by simp [hblock, hmut, FunctionAnalyser.error], by simp [hmut]⟩
    · rw [if_neg href]
      exact ⟨[⟨self.position, ["The provided expression cannot produce a reference."], []⟩],
        by simp [FunctionAnalyser.error], by simp [href]⟩

theorem ASTReturn.analyse_of_value (function : AnalysedFunction τ) (self : ASTReturn τ)
    (value : ReturnValue τ) (type : τ) (analyser : FunctionAnalyser)
    (hv : self.value = some value)
    (hrt : ops.type function.returnType ≠ TypeType.NoReturn)
    (hforb : isReturnForbidden function.functionType = false)
    (hres : value.analysis.result = .ok type) :
    self.analyse ops rops isReturnForbidden tc function analyser =
      (if rops.isReference function.returnType then
        (self.returnReference rops value type
          (if !ops.compatibleTo type function.returnType tc then
            (({ analyser with pathAnalyser :=
                analyser.pathAnalyser.record PathAnalyserIncident.Returned } :
              FunctionAnalyser).perform value.analysis).1.error
              ⟨self.position,
                ["Declared return type is ", ops.typeString function.returnType tc], []⟩
          else (({ analyser with pathAnalyser :=
                analyser.pathAnalyser.record PathAnalyserIncident.Returned } :
              FunctionAnalyser).perform value.analysis).1), .ok ())
      else
        (if !ops.compatibleTo type function.returnType tc then
            (({ analyser with pathAnalyser :=
                analyser.pathAnalyser.record PathAnalyserIncident.Returned } :
              FunctionAnalyser).perform value.analysis).1.error
              ⟨self.position,
                ["Declared return type is ", ops.typeString function.returnType tc], []⟩
          else (({ analyser with pathAnalyser :=
                analyser.pathAnalyser.record PathAnalyserIncident.Returned } :
              FunctionAnalyser).perform value.analysis).1).perform value.complied) := by
  obtain ⟨pos, v⟩ := self
  simp only at hv
  subst hv
  obtain ⟨⟨incidents, errors, result⟩, complied, getVariable⟩ := value
  simp only at hres
  subst hres
  unfold ASTReturn.analyse
  rw [if_neg hrt]
  dsimp only
  simp only [hforb, Bool.false_eq_true, if_false]
  rfl

/-- C21 (amended): when the type of the returned value is not compatible to the declared
return type, `ASTReturn::analyse` hands the error "Declared return type is ..." to
`analyser->error`, where it is recorded, and goes on: the call returns normally when the
declared return type is a reference, and otherwise ends as the call of `comply` ends. -/
theorem return_type_mismatch_is_recorded_and_analysis_goes_on
    (function : AnalysedFunction τ) (self : ASTReturn τ) (value : ReturnValue τ) (type : τ)
    (analyser : FunctionAnalyser) (hv : self.value = some value)
    (hrt : ops.type function.returnType ≠ TypeType.NoReturn)
    (hforb : isReturnForbidden function.functionType = false)
    (hres : value.analysis.result = .ok type)
    (hcompat : ops.compatibleTo type function.returnType tc = false) :
    (∃ later, (self.analyse ops rops isReturnForbidden tc function analyser).1.errors =
      analyser.errors ++ value.analysis.errors ++
        (⟨self.position, ["Declared return type is ",
          ops.typeString function.returnType tc], []⟩ : CompilerError) :: later) ∧
    (self.analyse ops rops isReturnForbidden tc function analyser).2 =
      (if rops.isReference function.returnType then .ok () else value.complied.result) := by
  rw [ASTReturn.analyse_of_value ops rops isReturnForbidden tc function self value type
    analyser hv hrt hforb hres]
  simp only [hcompat, Bool.not_false, if_true]
  by_cases href : rops.isReference function.returnType = true
  · simp only [href, if_true]
    obtain ⟨added, hadd, _⟩ := ASTReturn.returnReference_errors rops self value type
      ((({ analyser with pathAnalyser :=
          analyser.pathAnalyser.record PathAnalyserIncident.Returned } :
        FunctionAnalyser).perform value.analysis).1.error
        ⟨self.position, ["Declared return type is ",
          ops.typeString function.returnType tc], []⟩)
    refine ⟨⟨added, ?_⟩, trivial⟩
    rw [hadd]
    simp [FunctionAnalyser.error, FunctionAnalyser.perform]
  · simp only [href, Bool.false_eq_true, if_false]
    exact ⟨⟨value.complied.errors, by simp [FunctionAnalyser.error, FunctionAnalyser.perform]⟩,
      rfl⟩

/-- Witness for C21: a method declared to return a class returns a value of an enum; the
error is recorded and the call returns. -/
theorem return_type_mismatch_is_recorded_and_analysis_goes_on_witness :
    (ASTReturn.analyse kindOps kindReferenceOps initializersForbidReturn ()
        ⟨.Class, .ObjectMethod, false, .NoReturn⟩ ⟨⟨1, 1⟩, some (plainValue .Enum)⟩
        freshFunctionAnalyser).2 =
      (if kindReferenceOps.isReference TypeType.Class then .ok ()
        else (plainValue TypeType.Enum).complied.result) :=
  (return_type_mismatch_is_recorded_and_analysis_goes_on kindOps kindReferenceOps
    initializersForbidReturn () ⟨.Class, .ObjectMethod, false, .NoReturn⟩
    ⟨⟨1, 1⟩, some (plainValue .Enum)⟩ (plainValue .Enum) .Enum freshFunctionAnalyser
    rfl (by decide) rfl rfl rfl).2

/-- Counterexample to C21 as stated: a method declared to return a class returns a value
of an enum, which is not compatible; `ASTReturn::analyse` returns normally, the mismatch
being recorded as an error of the analyser. -/
theorem return_type_mismatch_does_not_throw :
    kindOps.compatibleTo TypeType.Enum TypeType.Class () = false ∧
    ASTReturn.analyse kindOps kindReferenceOps initializersForbidReturn ()
        ⟨.Class, .ObjectMethod, false, .NoReturn⟩ ⟨⟨1, 1⟩, some (plainValue .Enum)⟩
        freshFunctionAnalyser =
      (⟨⟨[PathAnalyserIncident.Returned]⟩,
        [⟨⟨1, 1⟩, ["Declared return type is ", "type"], []⟩], false⟩, .ok ()) :=
  ⟨rfl, rfl⟩

/-- C25 (amended): in a function whose declared return type is a reference, for a return
whose value is analysed without error and is compatible to the return type,
`ASTReturn::analyse` always returns normally, and it records no error exactly when the
returned expression is an instance variable, or is not a variable at all, has a type
that is a mutable reference, and the return is inside an unsafe block.  A local variable
is rejected whatever its type. -/
theorem return_reference_accepted_iff_instance_variable_or_unsafe_forwarding
    (function : AnalysedFunction τ) (self : ASTReturn τ) (value : ReturnValue τ) (type : τ)
    (analyser : FunctionAnalyser) (hv : self.value = some value)
    (hrt : ops.type function.returnType ≠ TypeType.NoReturn)
    (hforb : isReturnForbidden function.functionType = false)
    (hres : value.analysis.result = .ok type)
    (hnone : value.analysis.errors = [])
    (hcompat : ops.compatibleTo type function.returnType tc = true)
    (href : rops.isReference function.returnType = true) :
    (self.analyse ops rops isReturnForbidden tc function analyser).2 = .ok () ∧
    ((self.analyse ops rops isReturnForbidden tc function analyser).1.errors = analyser.errors ↔
      (value.getVariable = some true ∨
        (value.getVariable = none ∧ rops.isReference type = true ∧
          analyser.isInUnsafeBlock = true ∧ rops.isMutable type = true))) ∧
    (value.getVariable = some false →
      (self.analyse ops rops isReturnForbidden tc function analyser).1.errors =
        analyser.errors ++
          [⟨self.position, ["Only instance variables can be referenced."], []⟩]) := by
  rw [ASTReturn.analyse_of_value ops rops isReturnForbidden tc function self value type
    analyser hv hrt hforb hres]
  simp only [hcompat, href, Bool.not_true, Bool.false_eq_true, if_false, if_true]
  obtain ⟨added, hadd, hiff⟩ := ASTReturn.returnReference_errors rops self value type
    (({ analyser with pathAnalyser :=
        analyser.pathAnalyser.record PathAnalyserIncident.Returned } :
      FunctionAnalyser).perform value.analysis).1
  refine ⟨trivial, ?_, ?_⟩
  · rw [hadd]
    simp only [FunctionAnalyser.perform, hnone, List.append_nil, List.append_right_eq_self]
    exact hiff
  · intro hlocal
    simp [ASTReturn.returnReference, hlocal, FunctionAnalyser.error, FunctionAnalyser.perform,
      hnone]

/-- Witness for C25: an instance variable returned from a method that returns a
reference is accepted. -/
theorem return_reference_accepted_iff_instance_variable_or_unsafe_forwarding_witness :
    (ASTReturn.analyse kindOps allReferenceOps initializersForbidReturn ()
        ⟨.Class, .ObjectMethod, false, .NoReturn⟩
        ⟨⟨1, 1⟩, some ⟨⟨[], [], .ok .Class⟩, ⟨[], [], .ok ()⟩, some true⟩⟩
        freshFunctionAnalyser).2 = .ok () :=
  (return_reference_accepted_iff_instance_variable_or_unsafe_forwarding kindOps allReferenceOps
    initializersForbidReturn () ⟨.Class, .ObjectMethod, false, .NoReturn⟩
    ⟨⟨1, 1⟩, some ⟨⟨[], [], .ok .Class⟩, ⟨[], [], .ok ()⟩, some true⟩⟩
    ⟨⟨[], [], .ok .Class⟩, ⟨[], [], .ok ()⟩, some true⟩ .Class freshFunctionAnalyser
    rfl (by decide) rfl rfl rfl rfl rfl).1

/-- Counterexample to C25 as stated: inside an unsafe block, a method that returns a
reference returns a local variable whose type is a mutable reference; the return is
rejected with the error that only instance variables can be referenced. -/
theorem return_of_local_reference_in_unsafe_block_rejected :
    allReferenceOps.isReference TypeType.Class = true ∧
    allReferenceOps.isMutable TypeType.Class = true ∧
    ASTReturn.analyse kindOps allReferenceOps initializersForbidReturn ()
        ⟨.Class, .ObjectMethod, false, .NoReturn⟩
        ⟨⟨1, 1⟩, some ⟨⟨[], [], .ok .Class⟩, ⟨[], [], .ok ()⟩, some false⟩⟩ ⟨⟨[]⟩, [], true⟩ =
      (⟨⟨[PathAnalyserIncident.Returned]⟩,
        [⟨⟨1, 1⟩, ["Only instance variables can be referenced."], []⟩], true⟩, .ok ()) :=
  ⟨rfl, rfl, rfl⟩

end ReturnTypes

section RaiseAndVariables

variable {τ κ : Type} (ops : TypeOps τ κ) (isReturnForbidden : FunctionType → Bool)

/-- C22: `ASTRaise::analyse` throws its error "Function is not declared error-prone."
when the function is not error-prone, before the raised value is looked at.  In an
error-prone function it has the raised value checked against the declared error type of
the function (`expectType(function()->errorType()->type(), &value_)`) and ends as that
check ends: it throws nothing of its own.  So the call throws exactly when the function is
not error-prone or the check against the declared error type throws; and, the raised
value passing that check, exactly when the function is not error-prone. -/
theorem raise_throws_iff_function_not_error_prone (function : AnalysedFunction τ)
    (instanceScope : List (Variable τ)) (self : ASTRaise τ) (analyser : FunctionAnalyser) :
    (function.errorProne = false →
      (self.analyse ops isReturnForbidden function instanceScope analyser).2.2 =
        .error ⟨self.position, ["Function is not declared error-prone."], []⟩ ∧
      (self.analyse ops isReturnForbidden function instanceScope analyser).2.1 =
        { analyser with pathAnalyser :=
            analyser.pathAnalyser.record PathAnalyserIncident.Returned }) ∧
    (function.errorProne = true →
      (self.analyse ops isReturnForbidden function instanceScope analyser).2.2 =
        (self.expectType function.errorType).result ∧
      (self.analyse ops isReturnForbidden function instanceScope analyser).2.1 =
        (({ analyser with pathAnalyser :=
            analyser.pathAnalyser.record PathAnalyserIncident.Returned } :
          FunctionAnalyser).perform (self.expectType function.errorType)).1) ∧
    ((∃ e, (self.analyse ops isReturnForbidden function instanceScope analyser).2.2 = .error e)
      ↔ (function.errorProne = false ∨
          ∃ e, (self.expectType function.errorType).result = .error e)) ∧
    ((self.expectType function.errorType).result = .ok () →
      ((∃ e, (self.analyse ops isReturnForbidden function instanceScope analyser).2.2 = .error e)
        ↔ function.errorProne = false)) := by
  obtain ⟨pos, expectType, release⟩ := self
  have hnot : function.errorProne = false →
      (ASTRaise.analyse ops isReturnForbidden function instanceScope
          ⟨pos, expectType, release⟩ analyser).2.2 =
        .error ⟨pos, ["Function is not declared error-prone."], []⟩ ∧
      (ASTRaise.analyse ops isReturnForbidden function instanceScope
          ⟨pos, expectType, release⟩ analyser).2.1 =
        { analyser with pathAnalyser :=
            analyser.pathAnalyser.record PathAnalyserIncident.Returned } := by
    intro hep
    simp [ASTRaise.analyse, hep]
  have hprone : function.errorProne = true →
      (ASTRaise.analyse ops isReturnForbidden function instanceScope
          ⟨pos, expectType, release⟩ analyser).2.2 = (expectType function.errorType).result ∧
      (ASTRaise.analyse ops isReturnForbidden function instanceScope
          ⟨pos, expectType, release⟩ analyser).2.1 =
        (({ analyser with pathAnalyser :=
            analyser.pathAnalyser.record PathAnalyserIncident.Returned } :
          FunctionAnalyser).perform (expectType function.errorType)).1 := by
    intro hep
    unfold ASTRaise.analyse
    simp only [hep, Bool.not_true, Bool.false_eq_true, if_false]
    generalize expectType function.errorType = call
    obtain ⟨incidents, errors, result⟩ := call
    cases result with
    | error e => exact ⟨rfl, rfl⟩
    | ok u =>
      dsimp only [FunctionAnalyser.perform]
      by_cases hforb : isReturnForbidden function.functionType = true
      · rw [if_pos hforb]
        exact ⟨rfl, rfl⟩
      · rw [if_neg hforb]
        exact ⟨rfl, rfl⟩
  refine ⟨hnot, hprone, ?_, fun hok => ?_⟩
  · cases hep : function.errorProne with
    | false =>
      rw [(hnot hep).1]
      simp
    | true =>
      rw [(hprone hep).1]
      simp
  · simp only at hok
    cases hep : function.errorProne with
    | false =>
      rw [(hnot hep).1]
      simp
    | true =>
      rw [(hprone hep).1, hok]
      simp

/-- Witness for C22, in the universe of kinds, for a raise statement whose value passes
the check against the type Enum only: in an error-prone function with error type Enum the
call returns; with error type Class it throws what the check throws; in a function that
is not error-prone it throws its own error. -/
theorem raise_throws_iff_function_not_error_prone_witness :
    (sampleRaise.analyse kindOps initializersForbidReturn
        ⟨TypeType.NoReturn, .Function, true, TypeType.Enum⟩ [] freshFunctionAnalyser).2.2
      = .ok () ∧
    (sampleRaise.analyse kindOps initializersForbidReturn
        ⟨TypeType.NoReturn, .Function, true, TypeType.Class⟩ [] freshFunctionAnalyser).2.2
      = .error ⟨⟨4, 3⟩, ["The raised value is not of the error type."], []⟩ ∧
    (sampleRaise.analyse kindOps initializersForbidReturn
        ⟨TypeType.NoReturn, .Function, false, TypeType.Enum⟩ [] freshFunctionAnalyser).2.2
      = .error ⟨⟨4, 1⟩, ["Function is not declared error-prone."], []⟩ :=
  ⟨((raise_throws_iff_function_not_error_prone kindOps initializersForbidReturn
      ⟨TypeType.NoReturn, .Function, true, TypeType.Enum⟩ [] sampleRaise
      freshFunctionAnalyser).2.1 rfl).1,
   ((raise_throws_iff_function_not_error_prone kindOps initializersForbidReturn
      ⟨TypeType.NoReturn, .Function, true, TypeType.Class⟩ [] sampleRaise
      freshFunctionAnalyser).2.1 rfl).1,
   ((raise_throws_iff_function_not_error_prone kindOps initializersForbidReturn
      ⟨TypeType.NoReturn, .Function, false, TypeType.Enum⟩ [] sampleRaise
      freshFunctionAnalyser).1 rfl).1⟩

/-- C23 (amended): when `ASTVariableDeclaration::analyse` declares a variable (none of the
calls it makes throwing), a variable of Optional type counts as initialized at once: the
path analyser holds its initialization incident as certain right after the declaration.
For a variable of any other type the declaration itself records nothing; an assignment
to a variable that is analysed to its end records the initialization incident of that
variable. -/
theorem optional_declaration_is_recorded_as_initialized (self : ASTVariableDeclaration τ)
    (analyser : FunctionAnalyser) (type : τ) (var : Variable τ)
    (htype : self.analysedType.result = .ok type)
    (hshadow : self.shadowing.result = .ok ())
    (hdeclared : self.declared.result = .ok var) :
    (self.analyse ops analyser).2.2 = .ok () ∧
    (self.analyse ops analyser).1.id = var.id ∧
    (ops.type type = TypeType.Optional →
      (self.analyse ops analyser).2.1.pathAnalyser.hasCertainly
        (PathAnalyserIncident.variable false var.id) = true) ∧
    (ops.type type ≠ TypeType.Optional →
      (self.analyse ops analyser).2.1.pathAnalyser.incidents =
        analyser.pathAnalyser.incidents ++ self.analysedType.incidents ++
          self.shadowing.incidents ++ self.declared.incidents) ∧
    (∀ (isFullyInitializedCheckRequired : FunctionType → Bool) (function : FunctionAttributes)
      (assignment : ASTVariableAssignment τ) (later : FunctionAnalyser)
      (rvar : ResolvedVariable τ),
      assignment.resolved = .ok rvar → assignment.expected.result = .ok () →
      (assignment.analyse isFullyInitializedCheckRequired function
        later).2.1.pathAnalyser.hasCertainly
          (PathAnalyserIncident.variable rvar.inInstanceScope rvar.variable.id) = true) := by
  obtain ⟨pos, ⟨i1, e1, r1⟩, ⟨i2, e2, r2⟩, ⟨i3, e3, r3⟩, id⟩ := self
  simp only at htype hshadow hdeclared
  subst htype
  subst hshadow
  subst hdeclared
  refine ⟨rfl, rfl, ?_, ?_, ?_⟩
  · intro hopt
    simp [ASTVariableDeclaration.analyse, hopt, FunctionAnalyser.perform,
      PathAnalyser.record, PathAnalyser.hasCertainly]
  · intro hopt
    simp [ASTVariableDeclaration.analyse, hopt, FunctionAnalyser.perform]
  · intro isFICR function assignment later rvar hres hexp
    obtain ⟨apos, resolved, ⟨ai, ae, ar⟩, mutated, access, wasInitialized⟩ := assignment
    simp only at hres hexp
    subst hres
    subst hexp
    unfold ASTVariableAssignment.analyse
    dsimp only [FunctionAnalyser.perform]
    cases mutated <;>
      simp [PathAnalyser.record, PathAnalyser.hasCertainly]

/-- Witness for C23: a variable of class type is declared in the universe of kinds; the
declaration records nothing. -/
theorem optional_declaration_is_recorded_as_initialized_witness :
    ((plainDeclaration .Class 0).analyse kindOps freshFunctionAnalyser).2.2 = .ok () ∧
    ((plainDeclaration .Class 0).analyse kindOps freshFunctionAnalyser).1.id = 0 :=
  have h := optional_declaration_is_recorded_as_initialized kindOps (plainDeclaration .Class 0)
    freshFunctionAnalyser .Class ⟨0, .Class, false⟩ rfl rfl rfl
  ⟨h.1, h.2.1⟩

/-- Counterexample to C23 as stated: right after the declaration of the variable 0 of
Optional type, with no assignment analysed, the path analyser holds the initialization
incident of the variable as certain. -/
theorem optional_declaration_holds_incident_as_certain :
    kindOps.type TypeType.Optional = TypeType.Optional ∧
    freshFunctionAnalyser.pathAnalyser.hasCertainly (PathAnalyserIncident.variable false 0)
      = false ∧
    ((plainDeclaration .Optional 0).analyse kindOps freshFunctionAnalyser).2.1.pathAnalyser.hasCertainly
      (PathAnalyserIncident.variable false 0) = true ∧
    ((plainDeclaration .Optional 0).analyse kindOps freshFunctionAnalyser).2.2 = .ok () :=
  ⟨rfl, by decide, by decide, rfl⟩

/-- C24: for an assignment whose variable is found, the errors of the analyser after
`ASTVariableAssignment::analyse` are those before, then the error "Can't mutate instance
variable ..." exactly when the variable is in the instance scope, the function is not
mutating and its function type does not require the fully-initialized check, then the
errors of the type check of the assigned value.  So, that error not being among the
others, it is reported if and only if the three conditions hold; assignments to local
variables, in mutating functions and in functions that require the check never produce
it. -/
theorem assignment_cannot_mutate_error_iff
    (isFullyInitializedCheckRequired : FunctionType → Bool) (function : FunctionAttributes)
    (self : ASTVariableAssignment τ) (analyser : FunctionAnalyser) (rvar : ResolvedVariable τ)
    (hres : self.resolved = .ok rvar) :
    (self.analyse isFullyInitializedCheckRequired function analyser).2.1.errors =
      analyser.errors ++
        (if rvar.inInstanceScope = true ∧ function.mutating = false ∧
            isFullyInitializedCheckRequired function.functionType = false
          then [self.cannotMutate function] else []) ++ self.expected.errors ∧
    (self.cannotMutate function ∉ analyser.errors →
      self.cannotMutate function ∉ self.expected.errors →
      (self.cannotMutate function ∈
          (self.analyse isFullyInitializedCheckRequired function analyser).2.1.errors ↔
        (rvar.inInstanceScope = true ∧ function.mutating = false ∧
          isFullyInitializedCheckRequired function.functionType = false))) := by
  have herr : (self.analyse isFullyInitializedCheckRequired function analyser).2.1.errors =
      analyser.errors ++
        (if rvar.inInstanceScope = true ∧ function.mutating = false ∧
            isFullyInitializedCheckRequired function.functionType = false
          then [self.cannotMutate function] else []) ++ self.expected.errors := by
    obtain ⟨pos, resolved, ⟨ai, ae, ar⟩, mutated, access, wasInitialized⟩ := self
    simp only at hres
    subst hres
    obtain ⟨v, inInstanceScope⟩ := rvar
    unfold ASTVariableAssignment.analyse
    dsimp only [FunctionAnalyser.perform, AccessesAnyVariable.setVariableAccess]
    cases inInstanceScope <;> cases function.mutating <;>
      cases isFullyInitializedCheckRequired function.functionType <;>
      cases ar <;> cases mutated <;>
      simp [FunctionAnalyser.error]
  refine ⟨herr, fun h1 h2 => ?_⟩
  rw [herr]
  simp only [List.mem_append]
  by_cases hc : rvar.inInstanceScope = true ∧ function.mutating = false ∧
      isFullyInitializedCheckRequired function.functionType = false
  · simp [hc]
  · simp only [if_neg hc, List.not_mem_nil, or_false]
    constructor
    · rintro (h | h)
      · exact absurd h h1
      · exact absurd h h2
    · intro h
      exact absurd h hc

/-- Witness for C24: an assignment to an instance variable in a method that is not
mutating and not an initializer records the error. -/
theorem assignment_cannot_mutate_error_iff_witness :
    ((plainAssignment .Class 0 true).analyse objectInitializersRequireCheck
        ⟨⟨1, 1⟩, false, .ObjectMethod⟩ freshFunctionAnalyser).2.1.errors =
      [] ++ (if true = true ∧ false = false ∧
          objectInitializersRequireCheck FunctionType.ObjectMethod = false
        then [(plainAssignment .Class 0 true).cannotMutate ⟨⟨1, 1⟩, false, .ObjectMethod⟩]
        else []) ++ [] :=
  (assignment_cannot_mutate_error_iff objectInitializersRequireCheck
    ⟨⟨1, 1⟩, false, .ObjectMethod⟩ (plainAssignment .Class 0 true) freshFunctionAnalyser
    ⟨⟨0, .Class, false⟩, true⟩ rfl).1

end RaiseAndVariables

/-! ## Memory-flow analysis: releases on return and promises of overrides -/

section ReleasesOnReturn

variable {τ κ : Type} (ops : TypeOps τ κ)

theorem releasesOf_mem (scope : List (MFLocalVariable τ)) (p : SourcePosition) :
    ∀ (ids : List Nat) (releases : List (ASTRelease τ)),
      MFFunctionAnalyser.releasesOf ops scope p ids = some releases →
      ∀ r, r ∈ releases ↔ r.variableId ∈ ids ∧ ∃ var, scope[r.variableId]? = some var ∧
        MFFunctionAnalyser.shouldReleaseVariable ops var = true ∧
        r = ⟨false, r.variableId, var.type, p⟩
  | [], releases, h => by
    simp only [MFFunctionAnalyser.releasesOf, Option.some.injEq] at h
    subst h
    simp
  | id :: ids, releases, h => by
    simp only [MFFunctionAnalyser.releasesOf] at h
    cases hv : scope[id]? with
    | none => simp [hv] at h
    | some var =>
      cases hr : MFFunctionAnalyser.releasesOf ops scope p ids with
      | none => simp [hv, hr] at h
      | some rest =>
        simp only [hv, hr, Option.some.injEq] at h
        have ih := releasesOf_mem scope p ids rest hr
        intro r
        by_cases hs : MFFunctionAnalyser.shouldReleaseVariable ops var = true
        · rw [if_pos hs] at h
          subst h
          simp only [List.mem_cons, ih r]
          constructor
          · rintro (rfl | ⟨hmem, hx⟩)
            · exact ⟨Or.inl rfl, var, hv, hs, rfl⟩
            · exact ⟨Or.inr hmem, hx⟩
          · rintro ⟨hmem | hmem, v, hv2, hs2, hr2⟩
            · left
              rw [hmem, hv] at hv2
              cases hv2
              rw [hr2, hmem]
            · exact Or.inr ⟨hmem, v, hv2, hs2, hr2⟩
        · rw [if_neg hs] at h
          subst h
          rw [ih r]
          simp only [List.mem_cons]
          constructor
          · rintro ⟨hmem, hx⟩
            exact ⟨Or.inr hmem, hx⟩
          · rintro ⟨hmem | hmem, v, hv2, hs2, hr2⟩
            · rw [hmem, hv] at hv2
              cases hv2
              exact absurd hs2 hs
            · exact ⟨hmem, v, hv2, hs2, hr2⟩

/-- C26 (amended): for a block that returned certainly and whose statement before the stop
index is a return (the scope holding all variables declared so far), the releases pushed
onto that return statement are those of all variables of the function declared so far,
ids `0 .. allVariablesCount - 1`, that are not parameters, were never returned and are
managed.  They are the releases the block would have had appended at its end only when
the block's own variables are all the variables (`from = 0` and
`variables = allVariablesCount`). -/
theorem releases_on_return_cover_all_variables_so_far (self : MFFunctionAnalyser τ)
    (block : ASTBlock (MFStmt τ)) (statement : Nat)
    (hret : block.returnedCertainly = true)
    (hget : block.getReturn = some (some statement))
    (hscope : block.scopeStats.allVariablesCount ≤ self.scope.length) :
    ∃ releases, self.releaseVariables ops block = some (.onReturn statement releases) ∧
      (∀ r, r ∈ releases ↔
        r.variableId < block.scopeStats.allVariablesCount ∧
        ∃ var, self.scope[r.variableId]? = some var ∧ var.isParam = false ∧
          var.isReturned = false ∧ ops.isManaged var.type = true ∧
          r = ⟨false, r.variableId, var.type, block.position⟩) ∧
      (block.scopeStats.from = 0 →
        block.scopeStats.variables = block.scopeStats.allVariablesCount →
        self.releaseVariables ops { block with returnedCertainly := false }
          = some (.appended releases)) := by
  obtain ⟨releases, hrel⟩ := releasesOf_returns ops self.scope block.position
    (List.range block.scopeStats.allVariablesCount)
    (fun id hid => by have := List.mem_range.mp hid; omega)
  refine ⟨releases, ?_, ?_, ?_⟩
  · simp [MFFunctionAnalyser.releaseVariables, hret, hget,
      MFFunctionAnalyser.releaseAllVariables, hrel]
  · intro r
    rw [releasesOf_mem ops self.scope block.position _ releases hrel r, List.mem_range]
    simp only [MFFunctionAnalyser.shouldReleaseVariable, Bool.and_eq_true,
      Bool.not_eq_true', and_assoc]
  · intro hfrom hvars
    have hmap : (List.range block.scopeStats.variables).map (fun i => i + block.scopeStats.from)
        = List.range block.scopeStats.allVariablesCount := by
      rw [hfrom, hvars]
      simp
    simp [MFFunctionAnalyser.releaseVariables, hmap, hrel]

/-- Witness for C26: the block of a function with the `dog` locals 0 and 1 returns; both
are released on the return statement. -/
theorem releases_on_return_cover_all_variables_so_far_witness :
    ∃ releases, nestedAnalyser.releaseVariables sampleOps
        ⟨[.return none false], true, 1, ⟨0, 2, 2⟩, ⟨3, 1⟩⟩ = some (.onReturn 0 releases) ∧
      (nestedAnalyser.releaseVariables sampleOps
        ⟨[.return none false], false, 1, ⟨0, 2, 2⟩, ⟨3, 1⟩⟩ = some (.appended releases)) :=
  have h := releases_on_return_cover_all_variables_so_far sampleOps nestedAnalyser
    ⟨[.return none false], true, 1, ⟨0, 2, 2⟩, ⟨3, 1⟩⟩ 0 rfl rfl (by decide)
  h.elim fun releases hr => ⟨releases, hr.1, hr.2.2 rfl rfl⟩

/-- Counterexample to C26 as stated: a nested block that declares variable 1 only returns;
the return statement gets the releases of the variables 0 and 1, while the block's own
variables, which would have been released at its end had it not returned, are variable 1
alone. -/
theorem releases_on_return_exceed_block_variables :
    nestedAnalyser.releaseVariables sampleOps (nestedReturningBlock true)
      = some (.onReturn 0 [⟨false, 0, ⟨.dog, false⟩, ⟨3, 1⟩⟩, ⟨false, 1, ⟨.dog, false⟩, ⟨3, 1⟩⟩]) ∧
    nestedAnalyser.releaseVariables sampleOps (nestedReturningBlock false)
      = some (.appended [⟨false, 1, ⟨.dog, false⟩, ⟨3, 1⟩⟩]) ∧
    (nestedReturningBlock true).scopeStats = ⟨1, 1, 2⟩ := by
  decide

end ReleasesOnReturn

section Promises

variable {τ κ : Type} (ops : TypeOps τ κ)

/-- C27 (amended): for a function of type Deinitializer, `checkMFPromises` returns
normally, and it hands the error "👇 must not escape from ♻️." to `compiler->error`, where
it is recorded, exactly when the analyser has recorded that this escapes (`thisEscapes_`),
reporting nothing otherwise; the flag is set by `recordThis` for an escaping category that
is not the return category. -/
theorem deinitializer_error_iff_this_escapes
    (analyse : MFProgram τ → Nat → Option (MFProgram τ))
    (s : MFProgram τ × MFFunctionAnalyser τ) (fn : Function τ)
    (hfn : s.1.functions[s.2.function]? = some fn)
    (hde : fn.functionType = FunctionType.Deinitializer) :
    (∃ q, MFFunctionAnalyser.checkMFPromises analyse s = some q ∧
      q.functions = s.1.functions ∧
      q.errors = s.1.errors ++
        (if s.2.thisEscapes then [⟨fn.position, ["👇 must not escape from ♻️."], []⟩] else []) ∧
      (q.errors ≠ s.1.errors ↔ s.2.thisEscapes = true)) ∧
    (∀ (a : MFFunctionAnalyser τ) (category : MFFlowCategory),
      (a.recordThis category).thisEscapes =
        (a.thisEscapes || (category.isEscaping && !category.isReturn))) := by
  constructor
  · unfold MFFunctionAnalyser.checkMFPromises
    simp only [hfn, hde, if_true]
    cases hesc : s.2.thisEscapes with
    | true =>
      refine ⟨_, rfl, rfl, by simp [MFProgram.error], ?_⟩
      simp [MFProgram.error]
    | false =>
      refine ⟨_, rfl, rfl, by simp, ?_⟩
      simp
  · intro a category
    unfold MFFunctionAnalyser.recordThis
    cases hc : (category.isEscaping && !category.isReturn) with
    | true => simp
    | false => simp

/-- Witness for C27: at the end of the analysis of the sample deinitializer, which lets
this escape, the error is recorded. -/
theorem deinitializer_error_iff_this_escapes_witness :
    ∃ q, MFFunctionAnalyser.checkMFPromises (fun _ _ => none)
        (deinitializerProgram, (⟨0, [], true, 0⟩ : MFFunctionAnalyser SampleType)) = some q ∧
      q.errors = [] ++
        (if true then [⟨⟨1, 1⟩, ["👇 must not escape from ♻️."], []⟩] else []) :=
  have h := (deinitializer_error_iff_this_escapes (fun _ _ => none)
    (deinitializerProgram, (⟨0, [], true, 0⟩ : MFFunctionAnalyser SampleType))
    ⟨⟨1, 1⟩, .Deinitializer, true, none, [], 0,
      sampleBlock [.variableAssignment 0 true .this ⟨.dog, false⟩] 0, .Unknown⟩ rfl rfl).1
  h.elim fun q hq => ⟨q, hq.1, hq.2.2.1⟩

/-- Counterexample to C27 as stated: the sample deinitializer stores this in an instance
variable.  Promise checking with the flag set returns normally, the error being recorded
among the errors of the compiler, and so does the analysis of the whole function, which
ends with the function analysed and the error recorded. -/
theorem deinitializer_escape_is_recorded_and_checking_returns :
    MFFunctionAnalyser.checkMFPromises (fun _ _ => none)
        (deinitializerProgram, (⟨0, [], true, 0⟩ : MFFunctionAnalyser SampleType)) =
      some ⟨deinitializerProgram.functions,
        [⟨⟨1, 1⟩, ["👇 must not escape from ♻️."], []⟩], []⟩ ∧
    (MFFunctionAnalyser.analyse sampleOps sampleVariable 0 deinitializerProgram 0).map
        (fun q => (q.errors, q.functions.map (fun fn => fn.memoryFlowTypeForThis))) =
      some ([⟨⟨1, 1⟩, ["👇 must not escape from ♻️."], []⟩], [MFFlowCategory.Escaping]) :=
  ⟨rfl, by decide⟩

theorem checkParameterPromises_errors :
    ∀ (params superParams : List (Parameter τ)) (p : MFProgram τ),
      superParams.length ≤ params.length →
      ∃ q, MFFunctionAnalyser.checkParameterPromises params superParams p = some q ∧
        q.functions = p.functions ∧
        q.errors = p.errors ++
          ((params.zip superParams).filter (fun ps =>
            ps.1.memoryFlowType.isEscaping && !ps.2.memoryFlowType.isEscaping)).map
            (fun ps => (⟨ps.1.typePosition, ["Function lets parameter \"", ps.1.name,
              "\" escape, which violates the overridden function’s promise."], []⟩ :
              CompilerError))
  | params, [], p, _ => by
    refine ⟨p, ?_, rfl, by simp⟩
    cases params <;> rfl
  | [], _ :: _, _, h => by simp at h
  | param :: params, superParam :: superParams, p, h => by
    simp only [List.length_cons, Nat.add_le_add_iff_right] at h
    simp only [MFFunctionAnalyser.checkParameterPromises]
    obtain ⟨q, hq, hf, he⟩ := checkParameterPromises_errors params superParams
      (if !param.memoryFlowType.fulfillsPromise superParam.memoryFlowType then
        p.error ⟨param.typePosition, ["Function lets parameter \"", param.name,
          "\" escape, which violates the overridden function’s promise."], []⟩
      else p) h
    refine ⟨q, hq, ?_, ?_⟩
    · rw [hf]
      split_ifs <;> rfl
    · rw [he]
      cases hesc : (param.memoryFlowType.isEscaping && !superParam.memoryFlowType.isEscaping)
      · simp [MFFlowCategory.fulfillsPromise, hesc]
      · simp [MFFlowCategory.fulfillsPromise, hesc, MFProgram.error]

end Promises

/-! ## Common-type finder: the widening step -/

section FinderWidening

variable {τ κ : Type} (ops : TypeOps τ κ)

/-- C31 (amended): `updateCommonType` performs this widening step on the running common
type `C` given the new element type `T`: if `T` is compatible to `C`, `C` is kept; else if
`C` is compatible to `T`, `C` becomes the inexact, non-reference form of `T` (what
`setCommonType` stores); else if `T` and `C` are both of kind Class, `C` becomes
`someobject`; else `C` becomes `something`.  Nothing else of the finder changes.  So two
class types, neither compatible to the other, widen to `someobject`. -/
theorem updateCommonType_widening_step (f : CommonTypeFinder τ) (type : τ) (typeContext : κ) :
    (f.updateCommonType ops type typeContext).commonType =
      (if ops.compatibleTo type f.commonType typeContext = true then f.commonType
        else if ops.compatibleTo f.commonType type typeContext = true then
          ops.setReference (ops.inexacted type) false
        else if ops.type type = TypeType.Class ∧ ops.type f.commonType = TypeType.Class then
          ops.someobject
        else ops.something) ∧
    (f.updateCommonType ops type typeContext).firstTypeFound = f.firstTypeFound ∧
    (f.updateCommonType ops type typeContext).commonProtocols = f.commonProtocols ∧
    (ops.compatibleTo type f.commonType typeContext = false →
      ops.compatibleTo f.commonType type typeContext = false →
      ops.type type = TypeType.Class → ops.type f.commonType = TypeType.Class →
      (f.updateCommonType ops type typeContext).commonType = ops.someobject) := by
  unfold CommonTypeFinder.updateCommonType CommonTypeFinder.setCommonType
  cases h1 : ops.compatibleTo type f.commonType typeContext <;>
    cases h2 : ops.compatibleTo f.commonType type typeContext <;>
    by_cases h3 : ops.type type = TypeType.Class ∧ ops.type f.commonType = TypeType.Class <;>
    simp [h3]
  intro ha hb
  exact absurd ⟨ha, hb⟩ h3

/-- Counterexample to C31 as stated: in the sample universe with exact types, the common
type is `dog` and the new element has the exact type `animal`, to which `dog` is
compatible; the common type becomes the inexact `animal`, not the element's type. -/
theorem updateCommonType_of_exact_type_stores_inexact :
    sampleOps.withExactTypes.compatibleTo (⟨.animal, false⟩, true) (⟨.dog, false⟩, false) ()
      = false ∧
    sampleOps.withExactTypes.compatibleTo (⟨.dog, false⟩, false) (⟨.animal, false⟩, true) ()
      = true ∧
    (CommonTypeFinder.updateCommonType sampleOps.withExactTypes
        ⟨true, (⟨.dog, false⟩, false), []⟩ (⟨.animal, false⟩, true) ()).commonType
      = (⟨.animal, false⟩, false) ∧
    (CommonTypeFinder.updateCommonType sampleOps.withExactTypes
        ⟨true, (⟨.dog, false⟩, false), []⟩ (⟨.animal, false⟩, true) ()).commonType
      ≠ (⟨.animal, false⟩, true) := by
  decide

end FinderWidening

/-! ## Memory-flow analysis: variable gets, captures and stack allocation -/

section VariableGets

variable {τ κ : Type} (ops : TypeOps τ κ)

theorem getElem?_lt_length {α : Type} {l : List α} {i : Nat} {a : α} (h : l[i]? = some a) :
    i < l.length := by
  rcases Nat.lt_or_ge i l.length with hl | hl
  · exact hl
  · rw [List.getElem?_eq_none hl] at h
    cases h

theorem exists_getElem?_of_lt {α : Type} {l : List α} {i : Nat} (h : i < l.length) :
    ∃ a, l[i]? = some a :=
  ⟨l[i], List.getElem?_eq_getElem h⟩

/-- What `recordVariableGet(id, category)` does to a scope that holds the variable: it
returns, the variable gets the flow category `category` when the category is escaping,
the get is not that of a parameter under Return, and the type of the variable, made
non-optional, is neither a value type nor an enum; everything else but the flag
`isReturned` of the variable stays as it was. -/
theorem MFFunctionAnalyser.recordVariableGet_spec (self : MFFunctionAnalyser τ) (id : Nat)
    (var : MFLocalVariable τ) (category : MFFlowCategory) (hvar : self.scope[id]? = some var) :
    ∃ b var1, self.recordVariableGet ops id category = some b ∧ b.scope[id]? = some var1 ∧
      var1.flowCategory =
        (if category.isEscaping = true ∧ ¬ (category.isReturn = true ∧ var.isParam = true) ∧
            ¬ (ops.type (ops.unoptionalized var.type) = TypeType.ValueType ∨
              ops.type (ops.unoptionalized var.type) = TypeType.Enum)
          then category else var.flowCategory) ∧
      var1.type = var.type ∧ var1.isParam = var.isParam ∧ var1.param = var.param ∧
      var1.inits = var.inits ∧
      (∀ j, j ≠ id → b.scope[j]? = self.scope[j]?) ∧
      b.scope.length = self.scope.length ∧
      b.thisEscapes = self.thisEscapes ∧ b.inLoop = self.inLoop ∧ b.function = self.function := by
  have hlt := getElem?_lt_length hvar
  have hne : ∀ (v : MFLocalVariable τ) (j : Nat), j ≠ id →
      (self.scope.set id v)[j]? = self.scope[j]? :=
    fun v j hj => List.getElem?_set_ne (Ne.symm hj)
  unfold MFFunctionAnalyser.recordVariableGet
  cases category <;> cases hp : var.isParam <;>
    by_cases ht : (ops.type (ops.unoptionalized var.type) = TypeType.ValueType ∨
      ops.type (ops.unoptionalized var.type) = TypeType.Enum) <;>
    simp [MFFlowCategory.isReturn, MFFlowCategory.isEscaping, hvar, hp, ht,
      List.getElem?_set_self hlt]
  all_goals
    intro j hj
    simp [hne _ j hj]

/-- C33 (amended): for a variable of the memory-flow scope, local or parameter,
`recordVariableGet(v, c)` returns, and afterwards: under `c` = Escaping, and under `c` =
Return when `v` is not a parameter, the flow category of `v` is `c`, which is escaping,
unless the type of `v`, ignoring optionality, is a value type or an enum, in which case
the flow category is unchanged; under Return a parameter is left exactly as it was
(`if (var.isParam) return;`), whatever its type; and a get under Borrowing changes
nothing at all. -/
theorem recordVariableGet_marks_escaping_unless_value_or_returned_parameter
    (self : MFFunctionAnalyser τ) (id : Nat) (var : MFLocalVariable τ)
    (category : MFFlowCategory) (hvar : self.scope[id]? = some var) :
    ∃ b var1, self.recordVariableGet ops id category = some b ∧ b.scope[id]? = some var1 ∧
      ((category = MFFlowCategory.Escaping ∨
          (category = MFFlowCategory.Return ∧ var.isParam = false)) →
        ¬ (ops.type (ops.unoptionalized var.type) = TypeType.ValueType ∨
          ops.type (ops.unoptionalized var.type) = TypeType.Enum) →
        var1.flowCategory = category ∧ var1.flowCategory.isEscaping = true) ∧
      ((ops.type (ops.unoptionalized var.type) = TypeType.ValueType ∨
          ops.type (ops.unoptionalized var.type) = TypeType.Enum) →
        var1.flowCategory = var.flowCategory) ∧
      (category = MFFlowCategory.Return → var.isParam = true → b = self) ∧
      (category = MFFlowCategory.Borrowing → b = self) := by
  obtain ⟨b, var1, hb, hv1, hcat, -⟩ :=
    MFFunctionAnalyser.recordVariableGet_spec ops self id var category hvar
  refine ⟨b, var1, hb, hv1, ?_, ?_, ?_, ?_⟩
  · intro hc ht
    rw [hcat]
    rcases hc with hc | ⟨hc, hp⟩
    · subst hc
      simp [MFFlowCategory.isEscaping, MFFlowCategory.isReturn, ht]
    · subst hc
      simp [MFFlowCategory.isEscaping, MFFlowCategory.isReturn, ht, hp]
  · intro ht
    rw [hcat]
    simp [ht]
  · intro hc hp
    subst hc
    have hself : self.recordVariableGet ops id MFFlowCategory.Return = some self := by
      unfold MFFunctionAnalyser.recordVariableGet
      simp [MFFlowCategory.isReturn, hvar, hp]
    rw [hself] at hb
    exact (Option.some.inj hb).symm
  · intro hc
    subst hc
    have hself : self.recordVariableGet ops id MFFlowCategory.Borrowing = some self := by
      unfold MFFunctionAnalyser.recordVariableGet
      simp [MFFlowCategory.isReturn, MFFlowCategory.isEscaping]
    rw [hself] at hb
    exact (Option.some.inj hb).symm

/-- Witness for C33: a local of class type `dog` is consumed under Return and is escaping
afterwards. -/
theorem recordVariableGet_marks_escaping_unless_value_or_returned_parameter_witness :
    ∃ b var1, MFFunctionAnalyser.recordVariableGet sampleOps nestedAnalyser 0
        MFFlowCategory.Return = some b ∧ b.scope[0]? = some var1 ∧
      var1.flowCategory = MFFlowCategory.Return :=
  (recordVariableGet_marks_escaping_unless_value_or_returned_parameter sampleOps nestedAnalyser 0
    ⟨false, 0, false, .Borrowing, ⟨.dog, false⟩, []⟩ .Return rfl).elim
    fun b hb => hb.elim fun var1 h =>
      ⟨b, var1, h.1, h.2.1, (h.2.2.1 (Or.inr ⟨rfl, rfl⟩) (by decide)).1⟩

/-- Counterexample to C33 as stated: a borrowing parameter of class type `dog` is consumed
under Return; its type is neither a value type nor an enum, and its flow category is
still Borrowing afterwards. -/
theorem recordVariableGet_of_returned_parameter_not_escaping :
    sampleOps.type (sampleOps.unoptionalized ⟨.dog, false⟩) = TypeType.Class ∧
    MFFunctionAnalyser.recordVariableGet sampleOps
        ⟨0, [⟨true, 0, false, .Borrowing, ⟨.dog, false⟩, []⟩], false, 0⟩ 0 MFFlowCategory.Return =
      some ⟨0, [⟨true, 0, false, .Borrowing, ⟨.dog, false⟩, []⟩], false, 0⟩ ∧
    MFFlowCategory.Borrowing.isEscaping = false := by
  decide

theorem MFFunctionAnalyser.recordCaptures_spec :
    ∀ (ids : List Nat) (a : MFFunctionAnalyser τ), (∀ id ∈ ids, id < a.scope.length) →
      ∃ b, MFFunctionAnalyser.recordCaptures ops ids a = some b ∧
        b.scope.length = a.scope.length ∧ b.thisEscapes = a.thisEscapes ∧
        b.inLoop = a.inLoop ∧ b.function = a.function ∧
        ∀ j var, a.scope[j]? = some var → ∃ var1, b.scope[j]? = some var1 ∧
          var1.type = var.type ∧ var1.isParam = var.isParam ∧ var1.inits = var.inits ∧
          (var.flowCategory = MFFlowCategory.Escaping →
            var1.flowCategory = MFFlowCategory.Escaping) ∧
          (j ∈ ids →
            ¬ (ops.type (ops.unoptionalized var.type) = TypeType.ValueType ∨
              ops.type (ops.unoptionalized var.type) = TypeType.Enum) →
            var1.flowCategory = MFFlowCategory.Escaping) ∧
          (j ∉ ids → var1 = var)
  | [], a, _ => ⟨a, rfl, rfl, rfl, rfl, rfl, fun j var hj =>
      ⟨var, hj, rfl, rfl, rfl, fun h => h, fun h => absurd h (List.not_mem_nil j),
        fun _ => rfl⟩⟩
  | id :: rest, a, hb => by
    have hid : id < a.scope.length := hb id (List.mem_cons_self _ _)
    obtain ⟨v0, hv0⟩ := exists_getElem?_of_lt hid
    obtain ⟨a1, w1, ha1, hw1, hcat, hty, hpa, -, hin, hoth, hlen, hte, hil, hfn⟩ :=
      MFFunctionAnalyser.recordVariableGet_spec ops a id v0 MFFlowCategory.Escaping hv0
    obtain ⟨b, hb1, hlen2, hte2, hil2, hfn2, hall⟩ :=
      MFFunctionAnalyser.recordCaptures_spec rest a1
        (fun x hx => by rw [hlen]; exact hb x (List.mem_cons_of_mem _ hx))
    refine ⟨b, ?_, by rw [hlen2, hlen], by rw [hte2, hte], by rw [hil2, hil],
      by rw [hfn2, hfn], ?_⟩
    · simp only [MFFunctionAnalyser.recordCaptures, ha1, Option.some_bind]
      exact hb1
    · intro j var hj
      by_cases hji : j = id
      · subst hji
        rw [hv0] at hj
        cases hj
        obtain ⟨var1, h1, h2, h3, h4, h5, h6, h7⟩ := hall j w1 hw1
        have hesc : ¬ (ops.type (ops.unoptionalized v0.type) = TypeType.ValueType ∨
            ops.type (ops.unoptionalized v0.type) = TypeType.Enum) →
            w1.flowCategory = MFFlowCategory.Escaping := by
          intro ht
          rw [hcat]
          simp [MFFlowCategory.isEscaping, MFFlowCategory.isReturn, ht]
        refine ⟨var1, h1, by rw [h2, hty], by rw [h3, hpa], by rw [h4, hin], ?_, ?_, ?_⟩
        · intro he
          apply h5
          rw [hcat]
          split
          · rfl
          · exact he
        · intro _ ht
          exact h5 (hesc ht)
        · intro hn
          exact absurd (List.mem_cons_self _ _) hn
      · have hsame : a1.scope[j]? = some var := by rw [hoth j hji]; exact hj
        obtain ⟨var1, h1, h2, h3, h4, h5, h6, h7⟩ := hall j var hsame
        refine ⟨var1, h1, h2, h3, h4, h5, ?_, ?_⟩
        · intro hm ht
          rcases List.mem_cons.mp hm with hm | hm
          · exact absurd hm hji
          · exact h6 hm ht
        · intro hn
          exact h7 (fun hm => hn (List.mem_cons_of_mem _ hm))

/-- C35: when the analysis of the closure's own function returns and the captured
variables are variables of the enclosing function's scope, `ASTClosure::analyseMemoryFlow`
returns, and afterwards each captured variable whose type, ignoring optionality, is
neither a value type nor an enum has the flow category Escaping in the enclosing
function's scope, and if the closure captures self the enclosing function's this is
recorded as escaping (`thisEscapes_`).  The method does not read whether the closure is
escaping, so this holds for every closure. -/
theorem closure_captures_escape_by_construction
    (analyse : MFProgram τ → Nat → Option (MFProgram τ))
    (node closureFunction : Nat) (captures : List Nat) (capturesSelf : Bool)
    (category : MFFlowCategory) (s : MFProgram τ × MFFunctionAnalyser τ) (p1 : MFProgram τ)
    (hana : analyse (s.1.effect (.analyseAllocation node category)) closureFunction = some p1)
    (hcap : ∀ id ∈ captures, id < s.2.scope.length) :
    ∃ t, (MFExpr.closure node closureFunction captures capturesSelf).analyseMemoryFlow ops
        analyse category s = some t ∧ t.1 = p1 ∧
      (∀ id ∈ captures, ∃ var var1, s.2.scope[id]? = some var ∧ t.2.scope[id]? = some var1 ∧
        var1.type = var.type ∧
        (¬ (ops.type (ops.unoptionalized var.type) = TypeType.ValueType ∨
            ops.type (ops.unoptionalized var.type) = TypeType.Enum) →
          var1.flowCategory = MFFlowCategory.Escaping ∧ var1.flowCategory.isEscaping = true)) ∧
      (capturesSelf = true → t.2.thisEscapes = true) := by
  obtain ⟨a1, ha1, -, -, -, -, hall⟩ :=
    MFFunctionAnalyser.recordCaptures_spec ops captures s.2 hcap
  refine ⟨(p1, if capturesSelf then a1.recordThis MFFlowCategory.Escaping else a1), ?_, rfl,
    ?_, ?_⟩
  · simp only [MFExpr.analyseMemoryFlow, hana, ha1, Option.some_bind]
  · intro id hid
    obtain ⟨var, hvar⟩ := exists_getElem?_of_lt (hcap id hid)
    obtain ⟨var1, h1, h2, -, -, -, h6, -⟩ := hall id var hvar
    refine ⟨var, var1, hvar, ?_, h2, fun ht => ?_⟩
    · cases capturesSelf
      · exact h1
      · simpa [MFFunctionAnalyser.recordThis, MFFlowCategory.isEscaping,
          MFFlowCategory.isReturn] using h1
    · rw [h6 hid ht]
      exact ⟨rfl, rfl⟩
  · intro hs
    subst hs
    simp [MFFunctionAnalyser.recordThis, MFFlowCategory.isEscaping, MFFlowCategory.isReturn]

/-- Witness for C35: a closure that captures the local 0, a `dog`, and self. -/
theorem closure_captures_escape_by_construction_witness :
    ∃ t, (MFExpr.closure 7 1 [0] true).analyseMemoryFlow sampleOps
        (fun p _ => some p) MFFlowCategory.Borrowing (overrideProgram, nestedAnalyser) = some t ∧
      t.2.thisEscapes = true :=
  (closure_captures_escape_by_construction sampleOps (fun p _ => some p) 7 1 [0] true
    .Borrowing (overrideProgram, nestedAnalyser) _ rfl (by decide)).elim
    fun t h => ⟨t, h.1, h.2.2.2 rfl⟩

end VariableGets

section StackAllocation

variable {τ κ : Type} (ops : TypeOps τ κ)

theorem MFFunctionAnalyser.recordVariableGet_inits {a b : MFFunctionAnalyser τ} {id : Nat}
    {c : MFFlowCategory} (h : a.recordVariableGet ops id c = some b) :
    b.inLoop = a.inLoop ∧
      ∀ j : Nat, (b.scope[j]?).map (fun (v : MFLocalVariable τ) => v.inits) =
          (a.scope[j]?).map (fun (v : MFLocalVariable τ) => v.inits) := by
  cases hv : a.scope[id]? with
  | none =>
    unfold MFFunctionAnalyser.recordVariableGet at h
    cases c <;> simp [MFFlowCategory.isReturn, MFFlowCategory.isEscaping, hv] at h <;>
      (subst h; exact ⟨rfl, fun _ => rfl⟩)
  | some var =>
    obtain ⟨b1, var1, hb1, hv1, -, -, -, -, hin, hoth, -, -, hil, -⟩ :=
      MFFunctionAnalyser.recordVariableGet_spec ops a id var c hv
    rw [hb1] at h
    cases h
    refine ⟨hil, fun j => ?_⟩
    by_cases hj : j = id
    · subst hj
      rw [hv1, hv]
      simp [hin]
    · rw [hoth j hj]

theorem MFFunctionAnalyser.recordCaptures_inits :
    ∀ (ids : List Nat) (a b : MFFunctionAnalyser τ),
      MFFunctionAnalyser.recordCaptures ops ids a = some b →
      b.inLoop = a.inLoop ∧
        ∀ j : Nat, (b.scope[j]?).map (fun (v : MFLocalVariable τ) => v.inits) =
          (a.scope[j]?).map (fun (v : MFLocalVariable τ) => v.inits)
  | [], a, b, h => by
    simp only [MFFunctionAnalyser.recordCaptures, Option.some.injEq] at h
    subst h
    exact ⟨rfl, fun _ => rfl⟩
  | id :: ids, a, b, h => by
    simp only [MFFunctionAnalyser.recordCaptures, Option.bind_eq_some] at h
    obtain ⟨a1, h1, h2⟩ := h
    obtain ⟨i1, i2⟩ := MFFunctionAnalyser.recordVariableGet_inits ops h1
    obtain ⟨j1, j2⟩ := MFFunctionAnalyser.recordCaptures_inits ids a1 b h2
    exact ⟨by rw [j1, i1], fun j => by rw [j2 j, i2 j]⟩

theorem MFFunctionAnalyser.recordThis_inits (a : MFFunctionAnalyser τ) (c : MFFlowCategory) :
    (a.recordThis c).inLoop = a.inLoop ∧ (a.recordThis c).scope = a.scope := by
  unfold MFFunctionAnalyser.recordThis
  split <;> exact ⟨rfl, rfl⟩

mutual
theorem MFExpr.analyseExpression_inits
    (analyse : MFProgram τ → Nat → Option (MFProgram τ)) :
    ∀ (e : MFExpr) (c : MFFlowCategory) (s t : MFProgram τ × MFFunctionAnalyser τ),
      e.analyseMemoryFlow ops analyse c s = some t →
      t.2.inLoop = s.2.inLoop ∧
        ∀ j : Nat, (t.2.scope[j]?).map (fun (v : MFLocalVariable τ) => v.inits) =
          (s.2.scope[j]?).map (fun (v : MFLocalVariable τ) => v.inits)
  | .getVariable id inInstanceScope, c, s, t, h => by
    simp only [MFExpr.analyseMemoryFlow] at h
    split at h
    · obtain ⟨a, ha, rfl⟩ := Option.map_eq_some'.mp h
      exact MFFunctionAnalyser.recordVariableGet_inits ops ha
    · cases h
      exact ⟨rfl, fun _ => rfl⟩
  | .isOnlyReference, c, s, t, h => by
    simp only [MFExpr.analyseMemoryFlow, Option.some.injEq] at h
    subst h
    exact ⟨rfl, fun _ => rfl⟩
  | .typeExpr, c, s, t, h => by
    simp only [MFExpr.analyseMemoryFlow, Option.some.injEq] at h
    subst h
    exact ⟨rfl, fun _ => rfl⟩
  | .closure node closureFunction captures capturesSelf, c, s, t, h => by
    simp only [MFExpr.analyseMemoryFlow, Option.bind_eq_some, Option.some.injEq] at h
    obtain ⟨p1, _, a1, ha1, rfl⟩ := h
    obtain ⟨i1, i2⟩ := MFFunctionAnalyser.recordCaptures_inits ops _ _ _ ha1
    cases capturesSelf
    · exact ⟨i1, i2⟩
    · obtain ⟨r1, r2⟩ := MFFunctionAnalyser.recordThis_inits a1 MFFlowCategory.Escaping
      exact ⟨by simpa [r1] using i1, fun j => by simpa [r2] using i2 j⟩
  | .callableBox node expr thunk, c, s, t, h => by
    simp only [MFExpr.analyseMemoryFlow, Option.bind_eq_some] at h
    obtain ⟨s1, hs1, h2⟩ := h
    obtain ⟨p2, _, rfl⟩ := Option.map_eq_some'.mp h2
    exact MFExpr.analyseExpression_inits analyse expr c
      (s.1.effect (.analyseAllocation node c), s.2) s1 hs1
  | .this, c, s, t, h => by
    simp only [MFExpr.analyseMemoryFlow, Option.some.injEq] at h
    subst h
    obtain ⟨r1, r2⟩ := MFFunctionAnalyser.recordThis_inits s.2 c
    exact ⟨r1, fun j => by simp only [r2]⟩
  | .call function callee args, c, s, t, h => by
    simp only [MFExpr.analyseMemoryFlow, Option.bind_eq_some] at h
    obtain ⟨p1, _, s2, hs2, h3⟩ := h
    have k2 : s2.2.inLoop = s.2.inLoop ∧
        ∀ j : Nat, (s2.2.scope[j]?).map (fun (v : MFLocalVariable τ) => v.inits) =
          (s.2.scope[j]?).map (fun (v : MFLocalVariable τ) => v.inits) := by
      cases callee with
      | none =>
        simp only [Option.some.injEq] at hs2
        subst hs2
        exact ⟨rfl, fun _ => rfl⟩
      | some calleeExpr =>
        simp only at hs2
        cases hf : p1.functions[function]? with
        | none => simp [hf] at hs2
        | some fn =>
          simp only [hf] at hs2
          exact MFExpr.analyseExpression_inits analyse calleeExpr _ (p1, s.2) s2 hs2
    obtain ⟨i1, i2⟩ := MFExpr.analyseArguments_inits analyse function args 0 s2 t h3
    exact ⟨by rw [i1, k2.1], fun j => by rw [i2 j, k2.2 j]⟩
theorem MFExpr.analyseArguments_inits
    (analyse : MFProgram τ → Nat → Option (MFProgram τ)) (function : Nat) :
    ∀ (args : List MFExpr) (i : Nat) (s t : MFProgram τ × MFFunctionAnalyser τ),
      MFExpr.analyseArguments ops analyse function args i s = some t →
      t.2.inLoop = s.2.inLoop ∧
        ∀ j : Nat, (t.2.scope[j]?).map (fun (v : MFLocalVariable τ) => v.inits) =
          (s.2.scope[j]?).map (fun (v : MFLocalVariable τ) => v.inits)
  | [], i, s, t, h => by
    simp only [MFExpr.analyseArguments, Option.some.injEq] at h
    subst h
    exact ⟨rfl, fun _ => rfl⟩
  | arg :: rest, i, s, t, h => by
    simp only [MFExpr.analyseArguments] at h
    cases hf : s.1.functions[function]? with
    | none => simp [hf] at h
    | some fn =>
      cases hp : fn.parameters[i]? with
      | none => simp [hf, hp] at h
      | some param =>
        simp only [hf, hp, Option.bind_eq_some] at h
        obtain ⟨s1, hs1, h2⟩ := h
        obtain ⟨i1, i2⟩ := MFExpr.analyseExpression_inits analyse arg _ s s1 hs1
        obtain ⟨j1, j2⟩ := MFExpr.analyseArguments_inits analyse function rest (i + 1) s1 t h2
        exact ⟨by rw [j1, i1], fun j => by rw [j2 j, i2 j]⟩
end

end StackAllocation

section StackAllocationCommit

variable {τ κ : Type} (ops : TypeOps τ κ)

theorem MFFunctionAnalyser.recordVariableSet_inits
    (analyse : MFProgram τ → Nat → Option (MFProgram τ))
    (s t : MFProgram τ × MFFunctionAnalyser τ) (id : Nat) (expr : MFExpr) (type : τ)
    (var : MFLocalVariable τ) (hvar : s.2.scope[id]? = some var)
    (h : MFFunctionAnalyser.recordVariableSet ops analyse s id expr type = some t) :
    ∃ var1, t.2.scope[id]? = some var1 ∧
      var1.inits = var.inits ++
        (match expr.heapAllocates with
          | some node => if s.2.inLoop = 0 then [node] else []
          | none => []) ∧
      (∀ j : Nat, j ≠ id → (t.2.scope[j]?).map (fun (v : MFLocalVariable τ) => v.inits) =
        (s.2.scope[j]?).map (fun (v : MFLocalVariable τ) => v.inits)) ∧
      t.2.inLoop = s.2.inLoop := by
  have hlt := getElem?_lt_length hvar
  unfold MFFunctionAnalyser.recordVariableSet at h
  simp only [hvar, Option.bind_eq_some] at h
  obtain ⟨s2, hs2, h3⟩ := h
  obtain ⟨i1, i2⟩ := MFExpr.analyseExpression_inits ops analyse expr _
    (s.1, { s.2 with scope := s.2.scope.set id { var with type := type } }) s2 hs2
  simp only at i1 i2
  have hid : (s2.2.scope[id]?).map (fun (v : MFLocalVariable τ) => v.inits) = some var.inits := by
    rw [i2 id, List.getElem?_set_self hlt]
    rfl
  have hoth : ∀ j : Nat, j ≠ id →
      (s2.2.scope[j]?).map (fun (v : MFLocalVariable τ) => v.inits) =
        (s.2.scope[j]?).map (fun (v : MFLocalVariable τ) => v.inits) := by
    intro j hj
    rw [i2 j, List.getElem?_set_ne (Ne.symm hj)]
  cases hv2 : s2.2.scope[id]? with
  | none => simp [hv2] at hid
  | some var2 =>
    have hin2 : var2.inits = var.inits := by simpa [hv2] using hid
    have hlt2 := getElem?_lt_length hv2
    cases hh : expr.heapAllocates with
    | none =>
      simp only [hh, Option.some.injEq] at h3
      subst h3
      exact ⟨var2, hv2, by simp [hin2], hoth, i1⟩
    | some node =>
      simp only [hh] at h3
      by_cases hl : s2.2.inLoop = 0
      · rw [if_pos hl] at h3
        simp only [hv2, Option.some.injEq] at h3
        subst h3
        refine ⟨{ var2 with inits := var2.inits ++ [node] }, List.getElem?_set_self hlt2, ?_, ?_, i1⟩
        · have hl0 : s.2.inLoop = 0 := by rw [← i1]; exact hl
          simp [hin2, hl0]
        · intro j hj
          show ((s2.2.scope.set id _)[j]?).map _ = _
          rw [List.getElem?_set_ne (Ne.symm hj)]
          exact hoth j hj
      · rw [if_neg hl] at h3
        simp only [Option.some.injEq] at h3
        subst h3
        have hl0 : ¬ s.2.inLoop = 0 := by rw [← i1]; exact hl
        exact ⟨var2, hv2, by simp [hin2, hl0], hoth, i1⟩

theorem MFFunctionAnalyser.popVariable_commits (s t : MFProgram τ × MFFunctionAnalyser τ)
    (id : Nat) (h : MFFunctionAnalyser.popVariable s id = some t) :
    ∃ var, s.2.scope[id]? = some var ∧
      t.1.effects = s.1.effects ++
        (if var.isParam = false ∧ var.flowCategory.isEscaping = false then
          var.inits.map MFEffect.allocateOnStack else []) ∧
      t.2.scope = s.2.scope.set id { var with inits := [] } := by
  unfold MFFunctionAnalyser.popVariable at h
  cases hv : s.2.scope[id]? with
  | none => simp [hv] at h
  | some var =>
    simp only [hv] at h
    obtain ⟨p1, hp1, rfl⟩ := Option.map_eq_some'.mp h
    refine ⟨var, rfl, ?_, rfl⟩
    have hfold : ∀ (l : List Nat) (q : MFProgram τ),
        (l.foldl (fun q init => q.effect (MFEffect.allocateOnStack init)) q).effects
          = q.effects ++ l.map MFEffect.allocateOnStack := by
      intro l
      induction l with
      | nil => intro q; simp
      | cons x xs ih => intro q; rw [List.foldl_cons, ih]; simp [MFProgram.effect]
    cases hp : var.isParam with
    | true =>
      simp only [hp, if_true] at hp1
      have : p1.effects = s.1.effects := by
        unfold MFProgram.setParameterMFType at hp1
        cases hf : s.1.functions[s.2.function]? with
        | none => simp [hf] at hp1
        | some fn =>
          cases hq : fn.parameters[var.param]? with
          | none => simp [hf, hq] at hp1
          | some param =>
            simp only [hf, hq, Option.some.injEq] at hp1
            rw [← hp1]
      simp [this]
    | false =>
      simp only [hp, Bool.false_eq_true, if_false] at hp1
      cases he : var.flowCategory.isEscaping with
      | true =>
        simp only [he, Bool.not_true, Bool.false_eq_true, if_false, Option.some.injEq] at hp1
        subst hp1
        simp
      | false =>
        simp only [he, Bool.not_false, if_true, Option.some.injEq] at hp1
        subst hp1
        simp [hfold]

theorem MFFunctionAnalyser.popVariables_commits :
    ∀ (ids : List Nat) (s t : MFProgram τ × MFFunctionAnalyser τ), ids.Nodup →
      MFFunctionAnalyser.popVariables ids s = some t →
      ∃ added, t.1.effects = s.1.effects ++ added ∧
        (∀ e, e ∈ added ↔ ∃ id var node, id ∈ ids ∧ s.2.scope[id]? = some var ∧
          var.isParam = false ∧ var.flowCategory.isEscaping = false ∧ node ∈ var.inits ∧
          e = MFEffect.allocateOnStack node) ∧
        (∀ id ∈ ids, ∃ var1, t.2.scope[id]? = some var1 ∧ var1.inits = []) ∧
        (∀ j : Nat, j ∉ ids → t.2.scope[j]? = s.2.scope[j]?)
  | [], s, t, _, h => by
    simp only [MFFunctionAnalyser.popVariables, Option.some.injEq] at h
    subst h
    exact ⟨[], by simp, by simp, by simp, fun _ _ => rfl⟩
  | id :: ids, s, t, hnd, h => by
    simp only [MFFunctionAnalyser.popVariables, Option.bind_eq_some] at h
    obtain ⟨s1, hs1, h2⟩ := h
    obtain ⟨hnot, hnd1⟩ := List.nodup_cons.mp hnd
    obtain ⟨var, hvar, heff, hscope⟩ := MFFunctionAnalyser.popVariable_commits s s1 id hs1
    obtain ⟨added, ha1, ha2, ha3, ha4⟩ :=
      MFFunctionAnalyser.popVariables_commits ids s1 t hnd1 h2
    have hlt := getElem?_lt_length hvar
    have hsame : ∀ j : Nat, j ≠ id → s1.2.scope[j]? = s.2.scope[j]? := by
      intro j hj
      rw [hscope, List.getElem?_set_ne (Ne.symm hj)]
    refine ⟨(if var.isParam = false ∧ var.flowCategory.isEscaping = false then
          var.inits.map MFEffect.allocateOnStack else []) ++ added, ?_, ?_, ?_, ?_⟩
    · rw [ha1, heff, List.append_assoc]
    · intro e
      rw [List.mem_append, ha2 e]
      constructor
      · rintro (he | ⟨id1, var1, node, hm, hv1, hrest⟩)
        · by_cases hc : var.isParam = false ∧ var.flowCategory.isEscaping = false
          · rw [if_pos hc, List.mem_map] at he
            obtain ⟨node, hn, rfl⟩ := he
            exact ⟨id, var, node, List.mem_cons_self _ _, hvar, hc.1, hc.2, hn, rfl⟩
          · rw [if_neg hc] at he
            cases he
        · have hne : id1 ≠ id := fun hx => hnot (hx ▸ hm)
          exact ⟨id1, var1, node, List.mem_cons_of_mem _ hm, by rw [← hsame id1 hne]; exact hv1,
            hrest⟩
      · rintro ⟨id1, var1, node, hm, hv1, hp, he, hn, rfl⟩
        rcases List.mem_cons.mp hm with hx | hx
        · subst hx
          rw [hvar] at hv1
          cases hv1
          left
          rw [if_pos ⟨hp, he⟩]
          exact List.mem_map.mpr ⟨node, hn, rfl⟩
        · right
          have hne : id1 ≠ id := fun hy => hnot (hy ▸ hx)
          exact ⟨id1, var1, node, hx, by rw [hsame id1 hne]; exact hv1, hp, he, hn, rfl⟩
    · intro id1 hm
      rcases List.mem_cons.mp hm with hx | hx
      · subst hx
        refine ⟨{ var with inits := [] }, ?_, rfl⟩
        rw [ha4 id1 hnot, hscope, List.getElem?_set_self hlt]
      · exact ha3 id1 hx
    · intro j hj
      have hj1 : j ≠ id := fun hx => hj (hx ▸ List.mem_cons_self _ _)
      have hj2 : j ∉ ids := fun hx => hj (List.mem_cons_of_mem _ hx)
      rw [ha4 j hj2, hsame j hj1]

/-- C34: when `popScope(block)` returns, the effects it adds to the syntax tree are the
insertion of the releases followed by calls of `allocateOnStack`, and a node is committed
to the stack by one of these calls if and only if it is in the candidate list (`inits`)
of a variable of the popped block (ids `from .. from + variables - 1`) that is not a
parameter and whose flow category is not escaping at that moment; afterwards every
variable of the popped block has an empty candidate list.  `recordVariableSet` adds the
assigned expression to the candidate list of its variable exactly when the expression is
a heap-allocating node and the analysis is not inside a loop (`inLoop_ == 0`), and leaves
the lists of the other variables alone, as does the analysis of the expression.  So no
allocation assigned to a variable that escaped, to a parameter, or inside a loop body is
committed to the stack. -/
theorem popScope_stack_allocates_iff_candidate_of_borrowing_local
    (block : ASTBlock (MFStmt τ)) (s t : MFProgram τ × MFFunctionAnalyser τ)
    (h : MFFunctionAnalyser.popScope ops block s = some t) :
    (∃ insertion added, s.2.releaseVariables ops block = some insertion ∧
      t.1.effects = s.1.effects ++
        [MFEffect.released s.2.function block.position insertion] ++ added ∧
      (∀ e, e ∈ added ↔ ∃ id var node,
        block.scopeStats.from ≤ id ∧ id < block.scopeStats.from + block.scopeStats.variables ∧
        s.2.scope[id]? = some var ∧ var.isParam = false ∧
        var.flowCategory.isEscaping = false ∧ node ∈ var.inits ∧
        e = MFEffect.allocateOnStack node) ∧
      (∀ id, block.scopeStats.from ≤ id →
        id < block.scopeStats.from + block.scopeStats.variables →
        ∃ var1, t.2.scope[id]? = some var1 ∧ var1.inits = [])) ∧
    (∀ (analyse : MFProgram τ → Nat → Option (MFProgram τ))
      (s0 t0 : MFProgram τ × MFFunctionAnalyser τ) (id : Nat) (expr : MFExpr) (type : τ)
      (var : MFLocalVariable τ), s0.2.scope[id]? = some var →
      MFFunctionAnalyser.recordVariableSet ops analyse s0 id expr type = some t0 →
      ∃ var1, t0.2.scope[id]? = some var1 ∧
        (∀ node, node ∈ var1.inits ↔
          node ∈ var.inits ∨ (expr.heapAllocates = some node ∧ s0.2.inLoop = 0)) ∧
        (∀ j : Nat, j ≠ id →
          (t0.2.scope[j]?).map (fun (v : MFLocalVariable τ) => v.inits) =
            (s0.2.scope[j]?).map (fun (v : MFLocalVariable τ) => v.inits))) := by
  constructor
  · unfold MFFunctionAnalyser.popScope at h
    cases hr : s.2.releaseVariables ops block with
    | none => simp [hr] at h
    | some insertion =>
      simp only [hr] at h
      have hnd : ((List.range block.scopeStats.variables).map
          (fun i => i + block.scopeStats.from)).Nodup :=
        (List.nodup_range _).map (fun a b hab => by simpa using hab)
      have hmem : ∀ id : Nat, id ∈ (List.range block.scopeStats.variables).map
          (fun i => i + block.scopeStats.from) ↔
          (block.scopeStats.from ≤ id ∧
            id < block.scopeStats.from + block.scopeStats.variables) := by
        intro id
        simp only [List.mem_map, List.mem_range]
        constructor
        · rintro ⟨i, hi, rfl⟩
          omega
        · rintro ⟨h1, h2⟩
          exact ⟨id - block.scopeStats.from, by omega, by omega⟩
      obtain ⟨added, ha1, ha2, ha3, -⟩ :=
        MFFunctionAnalyser.popVariables_commits _ _ t hnd h
      refine ⟨insertion, added, rfl, ?_, ?_, ?_⟩
      · rw [ha1]
        simp [MFProgram.effect]
      · intro e
        rw [ha2 e]
        constructor
        · rintro ⟨id, var, node, hm, hrest⟩
          exact ⟨id, var, node, ((hmem id).mp hm).1, ((hmem id).mp hm).2, hrest⟩
        · rintro ⟨id, var, node, h1, h2, hrest⟩
          exact ⟨id, var, node, (hmem id).mpr ⟨h1, h2⟩, hrest⟩
      · intro id h1 h2
        exact ha3 id ((hmem id).mpr ⟨h1, h2⟩)
  · intro analyse s0 t0 id expr type var hvar hset
    obtain ⟨var1, h1, h2, h3, -⟩ :=
      MFFunctionAnalyser.recordVariableSet_inits ops analyse s0 t0 id expr type var hvar hset
    refine ⟨var1, h1, ?_, h3⟩
    intro node
    rw [h2]
    cases hh : expr.heapAllocates with
    | none => simp
    | some n =>
      by_cases hl : s0.2.inLoop = 0
      · simp [hl, eq_comm]
      · simp [hl]

/-- Witness for C34: the block of the sample analyser is popped; the candidate 5 of its
borrowing local is committed to the stack and the candidate list is emptied. -/
theorem popScope_stack_allocates_iff_candidate_of_borrowing_local_witness :
    ∃ insertion added,
      candidateAnalyser.releaseVariables sampleOps (sampleBlock [] 1) = some insertion ∧
      [MFEffect.released 0 ⟨1, 1⟩ (.appended [⟨false, 0, ⟨.dog, false⟩, ⟨1, 1⟩⟩]),
          MFEffect.allocateOnStack 5] =
        overrideProgram.effects ++
          [MFEffect.released candidateAnalyser.function (sampleBlock [] 1).position insertion]
          ++ added :=
  (popScope_stack_allocates_iff_candidate_of_borrowing_local sampleOps (sampleBlock [] 1)
    (overrideProgram, candidateAnalyser)
    (⟨overrideProgram.functions, [],
      [.released 0 ⟨1, 1⟩ (.appended [⟨false, 0, ⟨.dog, false⟩, ⟨1, 1⟩⟩]), .allocateOnStack 5]⟩,
      ⟨0, [⟨false, 0, false, .Borrowing, ⟨.dog, false⟩, []⟩], false, 0⟩) rfl).1.elim
    fun insertion h => h.elim fun added h1 => ⟨insertion, added, h1.1, h1.2.1⟩

end StackAllocationCommit

/-! ## Assignments: first initialization -/

section FirstInitialization

variable {τ κ : Type} (ops : TypeOps τ κ)

theorem ASTVariableAssignment.analyse_wasInitialized
    (isFullyInitializedCheckRequired : FunctionType → Bool) (function : FunctionAttributes)
    (self : ASTVariableAssignment τ) (analyser : FunctionAnalyser) (rvar : ResolvedVariable τ)
    (hres : self.resolved = .ok rvar) (hexp : self.expected.result = .ok ()) :
    (self.analyse isFullyInitializedCheckRequired function analyser).1.wasInitialized =
      (analyser.pathAnalyser.hasCertainly
          (PathAnalyserIncident.variable rvar.inInstanceScope rvar.variable.id) ||
        decide (PathAnalyserIncident.variable rvar.inInstanceScope rvar.variable.id ∈
          self.expected.incidents)) ∧
    (self.analyse isFullyInitializedCheckRequired function analyser).2.1.pathAnalyser.hasCertainly
      (PathAnalyserIncident.variable rvar.inInstanceScope rvar.variable.id) = true ∧
    (self.analyse isFullyInitializedCheckRequired function analyser).2.2 =
      self.mutated := by
  obtain ⟨apos, resolved, ⟨ai, ae, ar⟩, mutated, access, wasInitialized⟩ := self
  simp only at hres hexp
  subst hres
  subst hexp
  unfold ASTVariableAssignment.analyse
  dsimp only [FunctionAnalyser.perform, AccessesAnyVariable.setVariableAccess]
  cases mutated <;> cases rvar.inInstanceScope <;>
    simp [PathAnalyser.record, PathAnalyser.hasCertainly, FunctionAnalyser.error] <;>
    split <;> simp

/-- C37: for an assignment whose variable is found and whose value is checked without a
throw, `ASTVariableAssignment::analyse` sets `wasInitialized_` to whether the
initialization incident of the variable is certain on the current path when the
assignment is recorded, which is whether it was certain before the statement (the check
of the assigned value not recording that incident itself), and after the assignment the
incident is certain.  So after the declaration of a fresh variable of a type that is not
optional, of two consecutive assignments to it the first gets the flag false and the
second the flag true. -/
theorem assignment_wasInitialized_iff_incident_certain_before
    (isFullyInitializedCheckRequired : FunctionType → Bool) (function : FunctionAttributes)
    (self : ASTVariableAssignment τ) (analyser : FunctionAnalyser) (rvar : ResolvedVariable τ)
    (hres : self.resolved = .ok rvar) (hexp : self.expected.result = .ok ())
    (hquiet : PathAnalyserIncident.variable rvar.inInstanceScope rvar.variable.id ∉
      self.expected.incidents) :
    (self.analyse isFullyInitializedCheckRequired function analyser).1.wasInitialized =
      analyser.pathAnalyser.hasCertainly
        (PathAnalyserIncident.variable rvar.inInstanceScope rvar.variable.id) ∧
    (self.analyse isFullyInitializedCheckRequired function analyser).2.1.pathAnalyser.hasCertainly
      (PathAnalyserIncident.variable rvar.inInstanceScope rvar.variable.id) = true ∧
    (∀ (decl : ASTVariableDeclaration τ) (a0 : FunctionAnalyser) (type : τ) (var : Variable τ)
      (second : ASTVariableAssignment τ) (rvar2 : ResolvedVariable τ),
      decl.analysedType.result = .ok type → decl.shadowing.result = .ok () →
      decl.declared.result = .ok var → ops.type type ≠ TypeType.Optional →
      a0.pathAnalyser.hasCertainly (PathAnalyserIncident.variable false var.id) = false →
      PathAnalyserIncident.variable false var.id ∉
        decl.analysedType.incidents ++ decl.shadowing.incidents ++ decl.declared.incidents →
      rvar.inInstanceScope = false → rvar.variable.id = var.id →
      self.mutated = .ok () →
      second.resolved = .ok rvar2 → second.expected.result = .ok () →
      rvar2.inInstanceScope = false → rvar2.variable.id = var.id →
      (decl.analyse ops a0).2.2 = .ok () ∧
      (self.analyse isFullyInitializedCheckRequired function
        (decl.analyse ops a0).2.1).1.wasInitialized = false ∧
      (self.analyse isFullyInitializedCheckRequired function
        (decl.analyse ops a0).2.1).2.2 = .ok () ∧
      (second.analyse isFullyInitializedCheckRequired function
        (self.analyse isFullyInitializedCheckRequired function
          (decl.analyse ops a0).2.1).2.1).1.wasInitialized = true) := by
  have hq : decide (PathAnalyserIncident.variable rvar.inInstanceScope rvar.variable.id ∈
      self.expected.incidents) = false := by simpa using hquiet
  refine ⟨?_, ?_, ?_⟩
  · rw [(ASTVariableAssignment.analyse_wasInitialized isFullyInitializedCheckRequired function
      self analyser rvar hres hexp).1, hq, Bool.or_false]
  · exact (ASTVariableAssignment.analyse_wasInitialized isFullyInitializedCheckRequired function
      self analyser rvar hres hexp).2.1
  · intro decl a0 type var second rvar2 htype hshadow hdeclared hopt hfresh hdq hloc hid hmut
      hres2 hexp2 hloc2 hid2
    obtain ⟨w1, w2, w3⟩ := ASTVariableAssignment.analyse_wasInitialized
      isFullyInitializedCheckRequired function self (decl.analyse ops a0).2.1 rvar hres hexp
    obtain ⟨v1, -, -⟩ := ASTVariableAssignment.analyse_wasInitialized
      isFullyInitializedCheckRequired function second
      (self.analyse isFullyInitializedCheckRequired function (decl.analyse ops a0).2.1).2.1
      rvar2 hres2 hexp2
    have hdecl : (decl.analyse ops a0).2.2 = .ok () ∧
        (decl.analyse ops a0).2.1.pathAnalyser.hasCertainly
          (PathAnalyserIncident.variable false var.id) = false := by
      obtain ⟨pos, ⟨i1, e1, r1⟩, ⟨i2, e2, r2⟩, ⟨i3, e3, r3⟩, id⟩ := decl
      simp only at htype hshadow hdeclared hdq
      subst htype
      subst hshadow
      subst hdeclared
      simp only [PathAnalyser.hasCertainly, decide_eq_false_iff_not] at hfresh
      simp only [List.mem_append, not_or] at hdq
      simp [ASTVariableDeclaration.analyse, hopt, FunctionAnalyser.perform,
        PathAnalyser.hasCertainly, hfresh, hdq]
    refine ⟨hdecl.1, ?_, ?_, ?_⟩
    · rw [w1, hq, Bool.or_false, hloc, hid]
      exact hdecl.2
    · rw [w3, hmut]
    · rw [v1, hloc2, hid2]
      rw [hloc, hid] at w2
      rw [w2]
      rfl

/-- Witness for C37: a variable of class type is declared and assigned twice; the first
assignment gets the flag false, the second the flag true. -/
theorem assignment_wasInitialized_iff_incident_certain_before_witness :
    ((plainAssignment .Class 0 false).analyse objectInitializersRequireCheck
        ⟨⟨1, 1⟩, false, .ObjectMethod⟩
        ((plainDeclaration .Class 0).analyse kindOps freshFunctionAnalyser).2.1).1.wasInitialized
      = false ∧
    ((plainAssignment .Class 0 false).analyse objectInitializersRequireCheck
        ⟨⟨1, 1⟩, false, .ObjectMethod⟩
        ((plainAssignment .Class 0 false).analyse objectInitializersRequireCheck
          ⟨⟨1, 1⟩, false, .ObjectMethod⟩
          ((plainDeclaration .Class 0).analyse kindOps freshFunctionAnalyser).2.1).2.1).1.wasInitialized
      = true :=
  have h := (assignment_wasInitialized_iff_incident_certain_before kindOps
    objectInitializersRequireCheck ⟨⟨1, 1⟩, false, .ObjectMethod⟩ (plainAssignment .Class 0 false)
    freshFunctionAnalyser ⟨⟨0, .Class, false⟩, false⟩ rfl rfl (by decide)).2.2
    (plainDeclaration .Class 0) freshFunctionAnalyser .Class ⟨0, .Class, false⟩
    (plainAssignment .Class 0 false) ⟨⟨0, .Class, false⟩, false⟩
    rfl rfl rfl (by decide) (by decide) (by decide) rfl rfl rfl rfl rfl rfl rfl
  ⟨h.2.1, h.2.2.2⟩

end FirstInitialization

/-! ## Blocks: the stop index -/

section Blocks

variable {σ : Type} (sops : StatementOps σ)

theorem ASTBlock.analyseLoop_ok :
    ∀ (rest : List σ) (i : Nat) (st st1 : BlockAnalysis σ),
      ASTBlock.analyseLoop sops rest i st = (st1, .ok ()) →
      st1.analyser = ASTBlock.analyserBefore sops rest st.analyser rest.length ∧
      (st.block.returnedCertainly = true →
        st1.block = st.block ∧ st1.warnings = st.warnings ∧ st1.hasStats = st.hasStats) ∧
      (st.block.returnedCertainly = false →
        (st1.block = st.block ∧ st1.warnings = st.warnings ∧ st1.hasStats = st.hasStats ∧
          ∀ j, j < rest.length →
            (ASTBlock.analyserBefore sops rest st.analyser j).pathAnalyser.hasCertainly
              PathAnalyserIncident.Returned = false) ∨
        (∃ j stmt, rest[j]? = some stmt ∧
          (ASTBlock.analyserBefore sops rest st.analyser j).pathAnalyser.hasCertainly
            PathAnalyserIncident.Returned = true ∧
          (∀ k, k < j →
            (ASTBlock.analyserBefore sops rest st.analyser k).pathAnalyser.hasCertainly
              PathAnalyserIncident.Returned = false) ∧
          st1.block = { st.block with
            returnedCertainly := true, stop := i + j, scopeStats := sops.createStats (i + j) } ∧
          st1.warnings = st.warnings ++
            [⟨sops.position stmt, ["Code will never be executed."], []⟩] ∧
          st1.hasStats = true))
  | [], i, st, st1, h => by
    simp only [ASTBlock.analyseLoop, Prod.mk.injEq, and_true] at h
    subst h
    refine ⟨rfl, fun _ => ⟨rfl, rfl, rfl⟩, fun _ => Or.inl ⟨rfl, rfl, rfl, ?_⟩⟩
    intro j hj
    cases hj
  | stmt :: rest, i, st, st1, h => by
    cases hrc : st.block.returnedCertainly with
    | true =>
      simp only [ASTBlock.analyseLoop, hrc, Bool.not_true, Bool.false_and, Bool.false_eq_true,
        if_false] at h
      cases hr : (sops.analyse stmt st.analyser).2 with
      | error e => simp [hr] at h
      | ok u =>
        simp only [hr] at h
        obtain ⟨h1, h2, -⟩ := ASTBlock.analyseLoop_ok rest (i + 1) _ st1 h
        refine ⟨?_, fun _ => h2 hrc, fun hx => Bool.noConfusion hx⟩
        rw [h1]
        rfl
    | false =>
      cases hc : st.analyser.pathAnalyser.hasCertainly PathAnalyserIncident.Returned with
      | true =>
        simp only [ASTBlock.analyseLoop, hrc, hc, Bool.not_false, Bool.and_self, if_true] at h
        cases hr : (sops.analyse stmt st.analyser).2 with
        | error e => simp [hr] at h
        | ok u =>
          simp only [hr] at h
          obtain ⟨h1, h2, -⟩ := ASTBlock.analyseLoop_ok rest (i + 1) _ st1 h
          obtain ⟨b1, b2, b3⟩ := h2 rfl
          refine ⟨(by rw [h1]; rfl), fun hx => Bool.noConfusion hx, fun _ => Or.inr ⟨0, stmt, by simp, hc, ?_,
            b1, b2, b3⟩⟩
          intro k hk
          cases hk
      | false =>
        simp only [ASTBlock.analyseLoop, hrc, hc, Bool.not_false, Bool.true_and,
          Bool.false_eq_true, if_false] at h
        cases hr : (sops.analyse stmt st.analyser).2 with
        | error e => simp [hr] at h
        | ok u =>
          simp only [hr] at h
          obtain ⟨h1, -, h3⟩ := ASTBlock.analyseLoop_ok rest (i + 1) _ st1 h
          refine ⟨(by rw [h1]; rfl), fun hx => Bool.noConfusion hx, fun _ => ?_⟩
          rcases h3 hrc with ⟨b1, b2, b3, b4⟩ | ⟨j, s, c1, c2, c3, c4, c5, c6⟩
          · refine Or.inl ⟨b1, b2, b3, ?_⟩
            intro j hj
            cases j with
            | zero => exact hc
            | succ j => exact b4 j (by simpa using hj)
          · refine Or.inr ⟨j + 1, s, by simpa using c1, c2, ?_, ?_, c5, c6⟩
            · intro k hk
              cases k with
              | zero => exact hc
              | succ k => exact c3 k (by omega)
            · rw [c4]
              simp only [Nat.add_assoc, Nat.add_comm 1 j]

theorem ASTBlock.analyse_ok (block : ASTBlock σ) (hasStats : Bool) (analyser : FunctionAnalyser)
    (r : BlockAnalysis σ) (hfresh : block.returnedCertainly = false)
    (h : ASTBlock.analyse sops block hasStats analyser = (r, .ok ())) :
    r.analyser = ASTBlock.analyserBefore sops block.stmts analyser block.stmts.length ∧
    ((r.block = block ∧ r.warnings = [] ∧
        ∀ j, j ≤ block.stmts.length →
          (ASTBlock.analyserBefore sops block.stmts analyser j).pathAnalyser.hasCertainly
            PathAnalyserIncident.Returned = false) ∨
      (∃ j stmt, block.stmts[j]? = some stmt ∧
        (ASTBlock.analyserBefore sops block.stmts analyser j).pathAnalyser.hasCertainly
          PathAnalyserIncident.Returned = true ∧
        (∀ k, k < j →
          (ASTBlock.analyserBefore sops block.stmts analyser k).pathAnalyser.hasCertainly
            PathAnalyserIncident.Returned = false) ∧
        r.block = { block with
          returnedCertainly := true, stop := j, scopeStats := sops.createStats j } ∧
        r.warnings = [⟨sops.position stmt, ["Code will never be executed."], []⟩]) ∨
      ((ASTBlock.analyserBefore sops block.stmts analyser
          block.stmts.length).pathAnalyser.hasCertainly PathAnalyserIncident.Returned = true ∧
        (∀ k, k < block.stmts.length →
          (ASTBlock.analyserBefore sops block.stmts analyser k).pathAnalyser.hasCertainly
            PathAnalyserIncident.Returned = false) ∧
        r.block = { block with returnedCertainly := true, stop := block.stmts.length } ∧
        r.warnings = [])) := by
  unfold ASTBlock.analyse at h
  simp only at h
  cases hl : ASTBlock.analyseLoop sops block.stmts 0 ⟨block, hasStats, analyser, []⟩ with
  | mk st res =>
    rw [hl] at h
    cases res with
    | error e => simp at h
    | ok u =>
      cases u
      obtain ⟨h1, -, h3⟩ := ASTBlock.analyseLoop_ok sops block.stmts 0 _ st hl
      simp only at h1 h3
      rcases h3 hfresh with ⟨b1, b2, -, b4⟩ | ⟨j, stmt, c1, c2, c3, c4, c5, -⟩
      · have hrc : st.block.returnedCertainly = false := by rw [b1]; exact hfresh
        cases hc : st.analyser.pathAnalyser.hasCertainly PathAnalyserIncident.Returned with
        | false =>
          simp only [hrc, hc, Bool.not_false, Bool.and_false, Bool.false_eq_true, if_false,
            Prod.mk.injEq, and_true] at h
          subst h
          refine ⟨h1, Or.inl ⟨b1, b2, ?_⟩⟩
          intro j hj
          rcases Nat.lt_or_eq_of_le hj with hlt | heq
          · exact b4 j hlt
          · rw [heq, ← h1]
            exact hc
        | true =>
          simp only [hrc, hc, Bool.not_false, Bool.and_self, if_true, Prod.mk.injEq,
            and_true] at h
          subst h
          refine ⟨h1, Or.inr (Or.inr ⟨?_, b4, ?_, b2⟩)⟩
          · rw [← h1]
            exact hc
          · simp only [b1]
      · have hrc : st.block.returnedCertainly = true := by rw [c4]
        simp only [hrc, Bool.not_true, Bool.false_and, Bool.false_eq_true, if_false,
          Prod.mk.injEq, and_true] at h
        subst h
        refine ⟨h1, Or.inr (Or.inl ⟨j, stmt, c1, c2, c3, ?_, ?_⟩)⟩
        · rw [c4]
          simp
        · rw [c5]
          simp

end Blocks

section BlockStop

variable {τ κ : Type}

theorem MFStmt.analyseStatements_eq_foldlM (ops : TypeOps τ κ)
    (analyse : MFProgram τ → Nat → Option (MFProgram τ)) :
    ∀ (stmts : List (MFStmt τ)) (k : Nat) (s : MFProgram τ × MFFunctionAnalyser τ),
      k ≤ stmts.length →
      MFStmt.analyseStatements ops analyse stmts k s =
        (stmts.take k).foldlM (fun s stmt => stmt.analyseMemoryFlow ops analyse s) s
  | [], 0, s, _ => by simp [MFStmt.analyseStatements]
  | _ :: _, 0, s, _ => by simp [MFStmt.analyseStatements]
  | [], k + 1, s, h => by simp at h
  | stmt :: rest, k + 1, s, h => by
    simp only [MFStmt.analyseStatements, List.take_succ_cons, List.foldlM_cons,
      Option.bind_eq_bind]
    congr 1
    funext s1
    exact MFStmt.analyseStatements_eq_foldlM ops analyse rest k s1 (by simpa using h)

/-- C36 (amended): for a block that is analysed for the first time and whose statements are
analysed without a throw, `ASTBlock::analyse` makes the block return certainly exactly
when `Returned` is certain before some statement or after the last one, and then sets the
stop index to the least statement index at which `Returned` is already certain before that
statement is analysed, or to the statement count when it is certain only after the last
statement.  The statements at or after the stop index are dead; the warning "Code will
never be executed." is issued once, at the statement at the stop index, and the dead
statements after it get no warning of their own; all statements are still analysed.
`ASTBlock::analyseMemoryFlow` then visits exactly the statements before the stop index, in
order, and all statements when the block does not return certainly. -/
theorem block_stop_index_is_first_certain_return (sops : StatementOps (MFStmt τ))
    (block : ASTBlock (MFStmt τ)) (hasStats : Bool) (analyser : FunctionAnalyser)
    (r : BlockAnalysis (MFStmt τ)) (hfresh : block.returnedCertainly = false)
    (h : ASTBlock.analyse sops block hasStats analyser = (r, .ok ())) :
    r.block.stmts = block.stmts ∧
    r.analyser = ASTBlock.analyserBefore sops block.stmts analyser block.stmts.length ∧
    (r.block.returnedCertainly = true ↔ ∃ j, j ≤ block.stmts.length ∧
      (ASTBlock.analyserBefore sops block.stmts analyser j).pathAnalyser.hasCertainly
        PathAnalyserIncident.Returned = true) ∧
    (r.block.returnedCertainly = true →
      r.block.stop ≤ block.stmts.length ∧
      (ASTBlock.analyserBefore sops block.stmts analyser r.block.stop).pathAnalyser.hasCertainly
        PathAnalyserIncident.Returned = true ∧
      ∀ k, k < r.block.stop →
        (ASTBlock.analyserBefore sops block.stmts analyser k).pathAnalyser.hasCertainly
          PathAnalyserIncident.Returned = false) ∧
    r.warnings =
      (if r.block.returnedCertainly = true then
        (block.stmts[r.block.stop]?).toList.map
          (fun stmt => ⟨sops.position stmt, ["Code will never be executed."], []⟩)
      else []) ∧
    (∀ (ops : TypeOps τ κ) (analyse : MFProgram τ → Nat → Option (MFProgram τ))
      (s : MFProgram τ × MFFunctionAnalyser τ),
      r.block.analyseMemoryFlow ops analyse s =
        (block.stmts.take
          (if r.block.returnedCertainly = true then r.block.stop else block.stmts.length)).foldlM
          (fun s stmt => stmt.analyseMemoryFlow ops analyse s) s) := by
  obtain ⟨h1, hcases⟩ := ASTBlock.analyse_ok sops block hasStats analyser r hfresh h
  have hmf : ∀ (b : ASTBlock (MFStmt τ)) (ops : TypeOps τ κ)
      (analyse : MFProgram τ → Nat → Option (MFProgram τ))
      (s : MFProgram τ × MFFunctionAnalyser τ),
      (b.returnedCertainly = true → b.stop ≤ b.stmts.length) →
      b.analyseMemoryFlow ops analyse s =
        (b.stmts.take (if b.returnedCertainly = true then b.stop else b.stmts.length)).foldlM
          (fun s stmt => stmt.analyseMemoryFlow ops analyse s) s := by
    intro b ops analyse s hb
    obtain ⟨stmts, rc, stop, stats, pos⟩ := b
    simp only [ASTBlock.analyseMemoryFlow]
    cases rc with
    | false =>
      simp only [Bool.not_false, if_true, Bool.false_eq_true, if_false]
      exact MFStmt.analyseStatements_eq_foldlM ops analyse stmts _ s (Nat.le_refl _)
    | true =>
      simp only [Bool.not_true, Bool.false_eq_true, if_false, if_true]
      exact MFStmt.analyseStatements_eq_foldlM ops analyse stmts _ s (hb rfl)
  rcases hcases with ⟨b1, b2, b3⟩ | ⟨j, stmt, c1, c2, c3, c4, c5⟩ | ⟨d1, d2, d3, d4⟩
  · refine ⟨by rw [b1], h1, ?_, ?_, ?_, ?_⟩
    · rw [b1, hfresh]
      constructor
      · intro hx
        cases hx
      · rintro ⟨j, hj, hc⟩
        rw [b3 j hj] at hc
        cases hc
    · rw [b1, hfresh]
      intro hx
      cases hx
    · rw [b1, hfresh, b2]
      simp
    · intro ops analyse s
      have := hmf r.block ops analyse s (by rw [b1, hfresh]; intro hx; cases hx)
      rw [this, b1]
  · have hj : j < block.stmts.length := getElem?_lt_length c1
    refine ⟨by rw [c4], h1, ?_, ?_, ?_, ?_⟩
    · rw [c4]
      exact ⟨fun _ => ⟨j, Nat.le_of_lt hj, c2⟩, fun _ => rfl⟩
    · rw [c4]
      intro _
      exact ⟨Nat.le_of_lt hj, c2, c3⟩
    · rw [c4, c5]
      simp [c1]
    · intro ops analyse s
      have := hmf r.block ops analyse s (by rw [c4]; intro _; exact Nat.le_of_lt hj)
      rw [this, c4]
  · refine ⟨by rw [d3], h1, ?_, ?_, ?_, ?_⟩
    · rw [d3]
      exact ⟨fun _ => ⟨block.stmts.length, Nat.le_refl _, d1⟩, fun _ => rfl⟩
    · rw [d3]
      intro _
      exact ⟨Nat.le_refl _, d1, d2⟩
    · rw [d3, d4]
      simp
    · intro ops analyse s
      have := hmf r.block ops analyse s (by rw [d3]; intro _; exact Nat.le_refl _)
      rw [this, d3]

/-- Witness for C36: the sample block is analysed; the stop index is 1, and the memory-flow
analysis visits the return statement only. -/
theorem block_stop_index_is_first_certain_return_witness :
    (ASTBlock.analyse sampleStatementOps deadCodeBlock false freshFunctionAnalyser).1.block.stop
      = 1 ∧
    ((ASTBlock.analyse sampleStatementOps deadCodeBlock false
        freshFunctionAnalyser).1.block.returnedCertainly = true ↔
      ∃ j, j ≤ deadCodeBlock.stmts.length ∧
        (ASTBlock.analyserBefore sampleStatementOps deadCodeBlock.stmts freshFunctionAnalyser
          j).pathAnalyser.hasCertainly PathAnalyserIncident.Returned = true) :=
  ⟨rfl, (@block_stop_index_is_first_certain_return SampleType Unit sampleStatementOps deadCodeBlock
    false freshFunctionAnalyser
    (ASTBlock.analyse sampleStatementOps deadCodeBlock false freshFunctionAnalyser).1
    rfl rfl).2.2.1⟩

/-- Counterexample to C36 as stated: in the sample block the stop index is 1, so the
statements 1 and 2 are dead; one warning is issued, at the position of statement 1 (line
2), and none at the position of statement 2 (line 3). -/
theorem dead_statements_after_the_first_are_not_warned_about :
    (ASTBlock.analyse sampleStatementOps deadCodeBlock false freshFunctionAnalyser).2 = .ok () ∧
    (ASTBlock.analyse sampleStatementOps deadCodeBlock false freshFunctionAnalyser).1.block.stop
      = 1 ∧
    (ASTBlock.analyse sampleStatementOps deadCodeBlock false freshFunctionAnalyser).1.warnings =
      [⟨⟨2, 1⟩, ["Code will never be executed."], []⟩] ∧
    deadCodeBlock.stmts.map sampleStatementOps.position = [⟨1, 1⟩, ⟨2, 1⟩, ⟨3, 1⟩] :=
  ⟨rfl, rfl, rfl, rfl⟩

/-- C39: for a block that is analysed for the first time, on a path where `Returned` is not
yet certain, and whose statements are analysed without a throw: if the block returned
certainly then 1 <= stop index <= number of statements, so that the statement
`stmts_[stop_ - 1]` that `ASTBlock::getReturn` reads is a statement of the block, and
`getReturn` returns null whenever the block did not return certainly. -/
theorem getReturn_access_in_bounds_after_analysis (sops : StatementOps (MFStmt τ))
    (block : ASTBlock (MFStmt τ)) (hasStats : Bool) (analyser : FunctionAnalyser)
    (r : BlockAnalysis (MFStmt τ)) (hfresh : block.returnedCertainly = false)
    (hstart : analyser.pathAnalyser.hasCertainly PathAnalyserIncident.Returned = false)
    (h : ASTBlock.analyse sops block hasStats analyser = (r, .ok ())) :
    (r.block.returnedCertainly = true →
      1 ≤ r.block.stop ∧ r.block.stop ≤ r.block.stmts.length ∧
      ∃ stmt, r.block.stmts[r.block.stop - 1]? = some stmt) ∧
    r.block.getReturn.isSome = true ∧
    (r.block.returnedCertainly = false → r.block.getReturn = some none) := by
  obtain ⟨-, hcases⟩ := ASTBlock.analyse_ok sops block hasStats analyser r hfresh h
  have hbounds : r.block.returnedCertainly = true →
      1 ≤ r.block.stop ∧ r.block.stop ≤ r.block.stmts.length := by
    rcases hcases with ⟨b1, -, -⟩ | ⟨j, stmt, c1, c2, -, c4, -⟩ | ⟨d1, -, d3, -⟩
    · rw [b1, hfresh]
      intro hx
      cases hx
    · intro _
      have hj : j < block.stmts.length := getElem?_lt_length c1
      rw [c4]
      refine ⟨?_, Nat.le_of_lt hj⟩
      cases j with
      | zero =>
        simp only [ASTBlock.analyserBefore] at c2
        rw [hstart] at c2
        cases c2
      | succ j => exact Nat.succ_le_succ (Nat.zero_le _)
    · intro _
      rw [d3]
      refine ⟨?_, Nat.le_refl _⟩
      cases hn : block.stmts.length with
      | zero =>
        rw [hn] at d1
        simp only [ASTBlock.analyserBefore] at d1
        rw [hstart] at d1
        cases d1
      | succ n => exact Nat.succ_le_succ (Nat.zero_le _)
  have hstmt : r.block.returnedCertainly = true →
      ∃ stmt, r.block.stmts[r.block.stop - 1]? = some stmt := by
    intro hrc
    obtain ⟨h1, h2⟩ := hbounds hrc
    exact exists_getElem?_of_lt (by omega)
  refine ⟨fun hrc => ⟨(hbounds hrc).1, (hbounds hrc).2, hstmt hrc⟩, ?_, ?_⟩
  · unfold ASTBlock.getReturn
    cases hrc : r.block.returnedCertainly with
    | false => simp
    | true =>
      obtain ⟨h1, -⟩ := hbounds hrc
      obtain ⟨stmt, hs⟩ := hstmt hrc
      have h0 : ¬ r.block.stop = 0 := by omega
      simp only [if_true, if_neg h0, hs]
      cases stmt <;> rfl
  · intro hrc
    unfold ASTBlock.getReturn
    simp [hrc]

/-- Witness for C39: after the analysis of the sample block, which returns certainly with
stop index 1, `getReturn` finds the return statement at index 0. -/
theorem getReturn_access_in_bounds_after_analysis_witness :
    (ASTBlock.analyse sampleStatementOps deadCodeBlock false
        freshFunctionAnalyser).1.block.getReturn = some (some 0) ∧
    (ASTBlock.analyse sampleStatementOps deadCodeBlock false
        freshFunctionAnalyser).1.block.getReturn.isSome = true :=
  ⟨rfl, (getReturn_access_in_bounds_after_analysis sampleStatementOps deadCodeBlock false
    freshFunctionAnalyser
    (ASTBlock.analyse sampleStatementOps deadCodeBlock false freshFunctionAnalyser).1
    rfl rfl rfl).2.1⟩

end BlockStop

/-! ## Memory-flow analysis: the pessimistic start and termination -/

section Progress

variable {τ κ : Type} (ops : TypeOps τ κ)

theorem MFProgram.Stays.unmoved (p : MFProgram τ) : MFProgram.Stays p p :=
  ⟨rfl, fun _ fn h _ => ⟨fn, h, rfl⟩⟩

theorem MFProgram.Stays.followedByStays {p q r : MFProgram τ} (h1 : MFProgram.Stays p q)
    (h2 : MFProgram.Stays q r) : MFProgram.Stays p r := by
  refine ⟨by rw [h2.1, h1.1], ?_⟩
  intro h fn hf hu
  obtain ⟨fn1, hf1, hc1⟩ := h1.2 h fn hf hu
  obtain ⟨fn2, hf2, hc2⟩ := h2.2 h fn1 hf1 (by rw [hc1]; exact hu)
  exact ⟨fn2, hf2, by rw [hc2, hc1]⟩

theorem MFProgram.Stays.of_same_functions {p q : MFProgram τ} (h : q.functions = p.functions) :
    MFProgram.Stays p q :=
  ⟨by rw [h], fun _ fn hf _ => ⟨fn, by rw [h]; exact hf, rfl⟩⟩

theorem MFProgram.Stays.of_sameThis {p q : MFProgram τ} (h : MFProgram.SameThis p q) :
    MFProgram.Stays p q := by
  constructor
  · apply Nat.le_antisymm
    · by_contra hlt
      have hlt1 : p.functions.length < q.functions.length := by omega
      have := h p.functions.length
      rw [List.getElem?_eq_none (Nat.le_refl _), List.getElem?_eq_getElem hlt1] at this
      cases this
    · by_contra hlt
      have hlt1 : q.functions.length < p.functions.length := by omega
      have := h q.functions.length
      rw [List.getElem?_eq_none (Nat.le_refl _), List.getElem?_eq_getElem hlt1] at this
      cases this
  · intro x fn hf _
    have := h x
    rw [hf] at this
    cases hq : q.functions[x]? with
    | none => simp [hq] at this
    | some fn1 =>
      simp only [hq, Option.map_some', Option.some.injEq] at this
      exact ⟨fn1, rfl, this⟩

theorem MFProgram.Stays.of_keeps {p q : MFProgram τ}
    (hlen : q.functions.length = p.functions.length)
    (h : ∀ h, p.analysed h → q.functions[h]? = p.functions[h]?) : MFProgram.Stays p q :=
  ⟨hlen, fun x fn hf hu => ⟨fn, by rw [h x ⟨fn, hf, hu⟩]; exact hf, rfl⟩⟩

theorem MFProgram.effect_stays (p : MFProgram τ) (e : MFEffect τ) :
    MFProgram.Stays p (p.effect e) :=
  MFProgram.Stays.of_same_functions rfl

theorem MFFunctionAnalyser.analyseIfNecessary_stays
    {analyse : MFProgram τ → Nat → Option (MFProgram τ)}
    (HS : ∀ p g q, analyse p g = some q → MFProgram.Stays p q)
    {p q : MFProgram τ} {f : Nat}
    (h : MFFunctionAnalyser.analyseIfNecessary analyse p f = some q) : MFProgram.Stays p q := by
  unfold MFFunctionAnalyser.analyseIfNecessary at h
  cases hf : p.functions[f]? with
  | none => simp [hf] at h
  | some fn =>
    simp only [hf] at h
    split at h
    · exact HS _ _ _ h
    · cases h
      exact MFProgram.Stays.unmoved _

mutual
theorem MFExpr.analyseExpression_stays
    {analyse : MFProgram τ → Nat → Option (MFProgram τ)}
    (HS : ∀ p g q, analyse p g = some q → MFProgram.Stays p q) :
    ∀ (e : MFExpr) (c : MFFlowCategory) (s t : MFProgram τ × MFFunctionAnalyser τ),
      e.analyseMemoryFlow ops analyse c s = some t → MFProgram.Stays s.1 t.1
  | .getVariable id inInstanceScope, c, s, t, h => by
    simp only [MFExpr.analyseMemoryFlow] at h
    split at h
    · obtain ⟨a, _, rfl⟩ := Option.map_eq_some'.mp h
      exact MFProgram.Stays.unmoved _
    · cases h
      exact MFProgram.Stays.unmoved _
  | .isOnlyReference, c, s, t, h => by
    simp only [MFExpr.analyseMemoryFlow, Option.some.injEq] at h
    subst h
    exact MFProgram.Stays.unmoved _
  | .typeExpr, c, s, t, h => by
    simp only [MFExpr.analyseMemoryFlow, Option.some.injEq] at h
    subst h
    exact MFProgram.Stays.unmoved _
  | .closure node closureFunction captures capturesSelf, c, s, t, h => by
    simp only [MFExpr.analyseMemoryFlow, Option.bind_eq_some, Option.some.injEq] at h
    obtain ⟨p1, hp1, a1, _, rfl⟩ := h
    exact (MFProgram.effect_stays _ _).followedByStays (HS _ _ _ hp1)
  | .callableBox node expr thunk, c, s, t, h => by
    simp only [MFExpr.analyseMemoryFlow, Option.bind_eq_some] at h
    obtain ⟨s1, hs1, h2⟩ := h
    obtain ⟨p2, hp2, rfl⟩ := Option.map_eq_some'.mp h2
    have i2 := MFExpr.analyseExpression_stays HS expr c
      (s.1.effect (.analyseAllocation node c), s.2) s1 hs1
    exact ((MFProgram.effect_stays _ _).followedByStays i2).followedByStays (HS _ _ _ hp2)
  | .this, c, s, t, h => by
    simp only [MFExpr.analyseMemoryFlow, Option.some.injEq] at h
    subst h
    exact MFProgram.Stays.unmoved _
  | .call function callee args, c, s, t, h => by
    simp only [MFExpr.analyseMemoryFlow, Option.bind_eq_some] at h
    obtain ⟨p1, hp1, s2, hs2, h3⟩ := h
    have k1 : MFProgram.Stays s.1 p1 := MFFunctionAnalyser.analyseIfNecessary_stays HS hp1
    have k2 : MFProgram.Stays p1 s2.1 := by
      cases callee with
      | none =>
        simp only [Option.some.injEq] at hs2
        subst hs2
        exact MFProgram.Stays.unmoved _
      | some calleeExpr =>
        simp only at hs2
        cases hf : p1.functions[function]? with
        | none => simp [hf] at hs2
        | some fn =>
          simp only [hf] at hs2
          exact MFExpr.analyseExpression_stays HS calleeExpr _ (p1, s.2) s2 hs2
    exact (k1.followedByStays k2).followedByStays (MFExpr.analyseArguments_stays HS function args 0 s2 t h3)
theorem MFExpr.analyseArguments_stays
    {analyse : MFProgram τ → Nat → Option (MFProgram τ)}
    (HS : ∀ p g q, analyse p g = some q → MFProgram.Stays p q) (function : Nat) :
    ∀ (args : List MFExpr) (i : Nat) (s t : MFProgram τ × MFFunctionAnalyser τ),
      MFExpr.analyseArguments ops analyse function args i s = some t → MFProgram.Stays s.1 t.1
  | [], i, s, t, h => by
    simp only [MFExpr.analyseArguments, Option.some.injEq] at h
    subst h
    exact MFProgram.Stays.unmoved _
  | arg :: rest, i, s, t, h => by
    simp only [MFExpr.analyseArguments] at h
    cases hf : s.1.functions[function]? with
    | none => simp [hf] at h
    | some fn =>
      cases hp : fn.parameters[i]? with
      | none => simp [hf, hp] at h
      | some param =>
        simp only [hf, hp, Option.bind_eq_some] at h
        obtain ⟨s1, hs1, h2⟩ := h
        exact (MFExpr.analyseExpression_stays HS arg _ s s1 hs1).followedByStays
          (MFExpr.analyseArguments_stays HS function rest (i + 1) s1 t h2)
end

theorem MFFunctionAnalyser.recordVariableSet_stays
    {analyse : MFProgram τ → Nat → Option (MFProgram τ)}
    (HS : ∀ p g q, analyse p g = some q → MFProgram.Stays p q)
    (s t : MFProgram τ × MFFunctionAnalyser τ) (id : Nat) (expr : MFExpr) (type : τ)
    (h : MFFunctionAnalyser.recordVariableSet ops analyse s id expr type = some t) :
    MFProgram.Stays s.1 t.1 := by
  unfold MFFunctionAnalyser.recordVariableSet at h
  cases hv : s.2.scope[id]? with
  | none => simp [hv] at h
  | some var =>
    simp only [hv, Option.bind_eq_some] at h
    obtain ⟨s2, hs2, h3⟩ := h
    have i2 := MFExpr.analyseExpression_stays ops HS expr _ _ s2 hs2
    simp only at i2
    split at h3
    · split at h3
      · split at h3
        · cases h3
        · cases h3
          exact i2
      · cases h3
        exact i2
    · cases h3
      exact i2

theorem MFFunctionAnalyser.popScope_stays (block : ASTBlock (MFStmt τ))
    (s t : MFProgram τ × MFFunctionAnalyser τ)
    (h : MFFunctionAnalyser.popScope ops block s = some t) : MFProgram.Stays s.1 t.1 :=
  MFProgram.Stays.of_sameThis (MFFunctionAnalyser.popScope_keeps ops block s t h).2.2

mutual
theorem MFStmt.analyseStatement_stays
    {analyse : MFProgram τ → Nat → Option (MFProgram τ)}
    (HS : ∀ p g q, analyse p g = some q → MFProgram.Stays p q) :
    ∀ (stmt : MFStmt τ) (s t : MFProgram τ × MFFunctionAnalyser τ),
      stmt.analyseMemoryFlow ops analyse s = some t → MFProgram.Stays s.1 t.1
  | .exprStatement expr, s, t, h => by
    simp only [MFStmt.analyseMemoryFlow] at h
    exact MFExpr.analyseExpression_stays ops HS expr _ s t h
  | .return value initReturn, s, t, h => by
    simp only [MFStmt.analyseMemoryFlow] at h
    cases value with
    | none =>
      cases h
      exact MFProgram.Stays.unmoved _
    | some v =>
      simp only at h
      split at h
      · exact MFExpr.analyseExpression_stays ops HS v _ s t h
      · cases h
        exact MFProgram.Stays.unmoved _
  | .variableAssignment id inInstanceScope expr variableType, s, t, h => by
    simp only [MFStmt.analyseMemoryFlow] at h
    split at h
    · exact MFFunctionAnalyser.recordVariableSet_stays ops HS s t id expr variableType h
    · exact MFExpr.analyseExpression_stays ops HS expr _ s t h
  | .variableDeclareAndAssign id expr variableType, s, t, h => by
    simp only [MFStmt.analyseMemoryFlow] at h
    exact MFFunctionAnalyser.recordVariableSet_stays ops HS s t id expr variableType h
  | .constantVariable id expr expressionType, s, t, h => by
    simp only [MFStmt.analyseMemoryFlow] at h
    exact MFFunctionAnalyser.recordVariableSet_stays ops HS s t id expr expressionType h
  | .other, s, t, h => by
    simp only [MFStmt.analyseMemoryFlow, Option.some.injEq] at h
    subst h
    exact MFProgram.Stays.unmoved _
  | .nested isLoop block, s, t, h => by
    simp only [MFStmt.analyseMemoryFlow, Option.bind_eq_some] at h
    obtain ⟨s1, hs1, h2⟩ := h
    obtain ⟨s2, hs2, rfl⟩ := Option.map_eq_some'.mp h2
    have i2 := ASTBlock.analyseBlock_stays HS block _ s1 hs1
    exact i2.followedByStays (MFFunctionAnalyser.popScope_stays ops block s1 s2 hs2)
theorem ASTBlock.analyseBlock_stays
    {analyse : MFProgram τ → Nat → Option (MFProgram τ)}
    (HS : ∀ p g q, analyse p g = some q → MFProgram.Stays p q) :
    ∀ (block : ASTBlock (MFStmt τ)) (s t : MFProgram τ × MFFunctionAnalyser τ),
      block.analyseMemoryFlow ops analyse s = some t → MFProgram.Stays s.1 t.1
  | ⟨stmts, returnedCertainly, stop, _, _⟩, s, t, h => by
    simp only [ASTBlock.analyseMemoryFlow] at h
    exact MFStmt.analyseStatements_stays HS stmts _ s t h
theorem MFStmt.analyseStatements_stays
    {analyse : MFProgram τ → Nat → Option (MFProgram τ)}
    (HS : ∀ p g q, analyse p g = some q → MFProgram.Stays p q) :
    ∀ (stmts : List (MFStmt τ)) (stop : Nat) (s t : MFProgram τ × MFFunctionAnalyser τ),
      MFStmt.analyseStatements ops analyse stmts stop s = some t → MFProgram.Stays s.1 t.1
  | [], 0, s, t, h => by
    simp only [MFStmt.analyseStatements, Option.some.injEq] at h
    subst h
    exact MFProgram.Stays.unmoved _
  | _ :: _, 0, s, t, h => by
    simp only [MFStmt.analyseStatements, Option.some.injEq] at h
    subst h
    exact MFProgram.Stays.unmoved _
  | [], _ + 1, s, t, h => by
    simp only [MFStmt.analyseStatements] at h
    cases h
  | stmt :: rest, stop + 1, s, t, h => by
    simp only [MFStmt.analyseStatements, Option.bind_eq_some] at h
    obtain ⟨s1, hs1, h2⟩ := h
    exact (MFStmt.analyseStatement_stays HS stmt s s1 hs1).followedByStays
      (MFStmt.analyseStatements_stays HS rest stop s1 t h2)
end

end Progress

section ProgressOfAnalyses

variable {τ κ : Type} (ops : TypeOps τ κ)

theorem MFFunctionAnalyser.checkMFPromises_stays
    {analyse : MFProgram τ → Nat → Option (MFProgram τ)}
    (HS : ∀ p g q, analyse p g = some q → MFProgram.Stays p q)
    (s : MFProgram τ × MFFunctionAnalyser τ) (q : MFProgram τ)
    (h : MFFunctionAnalyser.checkMFPromises analyse s = some q) : MFProgram.Stays s.1 q := by
  unfold MFFunctionAnalyser.checkMFPromises at h
  cases hf : s.1.functions[s.2.function]? with
  | none => simp [hf] at h
  | some fn =>
    simp only [hf] at h
    split at h
    · cases h
      apply MFProgram.Stays.of_same_functions
      split <;> rfl
    · split at h
      · cases hs : fn.superFunction with
        | none =>
          simp only [hs, Option.some.injEq] at h
          subst h
          exact MFProgram.Stays.unmoved _
        | some super =>
          simp only [hs, Option.bind_eq_some] at h
          obtain ⟨p1, hp1, h2⟩ := h
          have k1 := MFFunctionAnalyser.analyseIfNecessary_stays HS hp1
          split at h2
          · have := MFFunctionAnalyser.checkParameterPromises_functions _ _ _ q h2
            refine k1.followedByStays (MFProgram.Stays.of_same_functions ?_)
            rw [this]
            split <;> rfl
          · cases h2
      · cases h
        exact MFProgram.Stays.unmoved _

theorem MFProgram.setMemoryFlowTypeForThis_length {p q : MFProgram τ} {f : Nat}
    {c : MFFlowCategory} (h : p.setMemoryFlowTypeForThis f c = some q) :
    q.functions.length = p.functions.length := by
  unfold MFProgram.setMemoryFlowTypeForThis at h
  cases hf : p.functions[f]? with
  | none => simp [hf] at h
  | some fn =>
    simp only [hf, Option.some.injEq] at h
    subst h
    simp

/-- One analysis, given that the analyses it starts leave the analysed functions alone:
it leaves the number of functions and the analysed functions as they were. -/
theorem MFFunctionAnalyser.analyseWith_stays (defaultVariable : MFLocalVariable τ)
    {analyse : MFProgram τ → Nat → Option (MFProgram τ)}
    (HA : ∀ p g q, analyse p g = some q → ∀ h, p.analysed h → q.functions[h]? = p.functions[h]?)
    (HS : ∀ p g q, analyse p g = some q → MFProgram.Stays p q)
    (p q : MFProgram τ) (f : Nat)
    (h : MFFunctionAnalyser.analyseWith ops defaultVariable analyse p f = some q) :
    MFProgram.Stays p q := by
  apply MFProgram.Stays.of_keeps
  · unfold MFFunctionAnalyser.analyseWith at h
    cases hf : p.functions[f]? with
    | none => simp [hf] at h
    | some fn =>
      simp only [hf] at h
      by_cases hu : fn.memoryFlowTypeForThis.isUnknown = true
      · simp only [hu, Bool.not_true, Bool.false_eq_true, if_false, Option.bind_eq_some] at h
        obtain ⟨p1, hp1, a1, ha1, s2, hs2, p3, hp3, s4, hs4, h5⟩ := h
        have l1 := MFProgram.setMemoryFlowTypeForThis_length hp1
        have l2 := (ASTBlock.analyseBlock_stays ops HS fn.ast (p1, a1) s2 hs2).1
        have l3 := MFProgram.setMemoryFlowTypeForThis_length hp3
        have l4 := (MFFunctionAnalyser.popScope_stays ops fn.ast (p3, s2.2) s4 hs4).1
        have l5 := (MFFunctionAnalyser.checkMFPromises_stays HS s4 q h5).1
        simp only at l2 l4
        rw [l5, l4, l3, l2, l1]
      · have hu1 : fn.memoryFlowTypeForThis.isUnknown = false := by simpa using hu
        simp only [hu1, Bool.not_false, if_true, Option.some.injEq] at h
        subst h
        rfl
  · exact (MFFunctionAnalyser.analyseWith_keeps ops defaultVariable HA p q f h).1

theorem MFFunctionAnalyser.analyse_stays (defaultVariable : MFLocalVariable τ) :
    ∀ (fuel : Nat) (p : MFProgram τ) (f : Nat) (q : MFProgram τ),
      MFFunctionAnalyser.analyse ops defaultVariable fuel p f = some q → MFProgram.Stays p q
  | 0, p, f, q, h =>
    MFFunctionAnalyser.analyseWith_stays ops defaultVariable
      (fun _ _ _ hn => by cases hn) (fun _ _ _ hn => by cases hn) p q f h
  | fuel + 1, p, f, q, h =>
    MFFunctionAnalyser.analyseWith_stays ops defaultVariable
      (fun p1 g q1 hq => (MFFunctionAnalyser.analyse_keeps ops defaultVariable fuel p1 g q1 hq).1)
      (fun p1 g q1 hq => MFFunctionAnalyser.analyse_stays defaultVariable fuel p1 g q1 hq)
      p q f h

theorem countP_le_of_pointwise {α : Type} (P : α → Bool) :
    ∀ (l1 l2 : List α), l2.length = l1.length →
      (∀ (i : Nat) (a b : α), l1[i]? = some a → l2[i]? = some b → P b = true → P a = true) →
      l2.countP P ≤ l1.countP P
  | [], [], _, _ => Nat.le_refl _
  | [], _ :: _, h, _ => by simp at h
  | _ :: _, [], h, _ => by simp at h
  | a :: l1, b :: l2, h, hp => by
    have ih := countP_le_of_pointwise P l1 l2 (by simpa using h)
      (fun i x y hx hy => hp (i + 1) x y (by simpa using hx) (by simpa using hy))
    have h0 := hp 0 a b (by simp) (by simp)
    rw [List.countP_cons, List.countP_cons]
    cases hb : P b with
    | false => simp; omega
    | true => simp [h0 hb]; omega

theorem MFProgram.pending_le_of_stays {p q : MFProgram τ} (h : MFProgram.Stays p q) :
    q.pending ≤ p.pending := by
  unfold MFProgram.pending
  apply countP_le_of_pointwise _ _ _ h.1
  intro i a b ha hb hub
  cases hua : a.memoryFlowTypeForThis.isUnknown with
  | true => rfl
  | false =>
    obtain ⟨fn1, hf1, hc1⟩ := h.2 i a ha hua
    rw [hb] at hf1
    cases hf1
    rw [hc1, hua] at hub
    cases hub

theorem MFProgram.pending_of_setEscaping {p q : MFProgram τ} {f : Nat} {fn : Function τ}
    (hf : p.functions[f]? = some fn) (hu : fn.memoryFlowTypeForThis.isUnknown = true)
    (h : p.setMemoryFlowTypeForThis f MFFlowCategory.Escaping = some q) :
    q.pending + 1 = p.pending := by
  unfold MFProgram.setMemoryFlowTypeForThis at h
  simp only [hf, Option.some.injEq] at h
  subst h
  exact Runtime.countP_set_live_dead _ _ _ _ fn hf hu rfl

end ProgressOfAnalyses

section Agreement

variable {τ κ : Type} (ops : TypeOps τ κ)

theorem bind_congr_of_some {α β : Type} {a b : Option α} {f g : α → Option β} (hab : a = b)
    (hfg : ∀ x, a = some x → f x = g x) : a.bind f = b.bind g := by
  subst hab
  cases a with
  | none => rfl
  | some x => exact hfg x rfl

theorem MFFunctionAnalyser.analyseIfNecessary_agree
    {A B : MFProgram τ → Nat → Option (MFProgram τ)} (k : Nat)
    (HAB : ∀ p g, p.pending ≤ k → A p g = B p g) (p : MFProgram τ) (f : Nat)
    (hk : p.pending ≤ k) :
    MFFunctionAnalyser.analyseIfNecessary A p f = MFFunctionAnalyser.analyseIfNecessary B p f := by
  unfold MFFunctionAnalyser.analyseIfNecessary
  cases p.functions[f]? with
  | none => rfl
  | some fn =>
    simp only
    split
    · exact HAB p f hk
    · rfl

mutual
theorem MFExpr.analyseExpression_agree
    {A B : MFProgram τ → Nat → Option (MFProgram τ)} (k : Nat)
    (HAB : ∀ p g, p.pending ≤ k → A p g = B p g)
    (HS : ∀ p g q, A p g = some q → MFProgram.Stays p q) :
    ∀ (e : MFExpr) (c : MFFlowCategory) (s : MFProgram τ × MFFunctionAnalyser τ),
      s.1.pending ≤ k → e.analyseMemoryFlow ops A c s = e.analyseMemoryFlow ops B c s
  | .getVariable id inInstanceScope, c, s, _ => by
    simp only [MFExpr.analyseMemoryFlow]
  | .isOnlyReference, c, s, _ => by
    simp only [MFExpr.analyseMemoryFlow]
  | .typeExpr, c, s, _ => by
    simp only [MFExpr.analyseMemoryFlow]
  | .closure node closureFunction captures capturesSelf, c, s, hk => by
    simp only [MFExpr.analyseMemoryFlow]
    rw [HAB (s.1.effect (.analyseAllocation node c)) closureFunction hk]
  | .callableBox node expr thunk, c, s, hk => by
    simp only [MFExpr.analyseMemoryFlow]
    apply bind_congr_of_some
    · exact MFExpr.analyseExpression_agree k HAB HS expr c
        (s.1.effect (.analyseAllocation node c), s.2) hk
    · intro s1 hs1
      have hst := MFExpr.analyseExpression_stays ops HS expr c _ s1 hs1
      have hk1 : s1.1.pending ≤ k := Nat.le_trans (MFProgram.pending_le_of_stays hst) hk
      rw [HAB s1.1 thunk hk1]
  | .this, c, s, _ => by
    simp only [MFExpr.analyseMemoryFlow]
  | .call function callee args, c, s, hk => by
    simp only [MFExpr.analyseMemoryFlow]
    apply bind_congr_of_some
    · exact MFFunctionAnalyser.analyseIfNecessary_agree k HAB s.1 function hk
    · intro p1 hp1
      have hst1 := MFFunctionAnalyser.analyseIfNecessary_stays HS hp1
      have hk1 : p1.pending ≤ k := Nat.le_trans (MFProgram.pending_le_of_stays hst1) hk
      apply bind_congr_of_some
      · cases callee with
        | none => rfl
        | some calleeExpr =>
          simp only
          cases p1.functions[function]? with
          | none => rfl
          | some fn =>
            exact MFExpr.analyseExpression_agree k HAB HS calleeExpr _ (p1, s.2) hk1
      · intro s2 hs2
        have hst2 : MFProgram.Stays p1 s2.1 := by
          cases callee with
          | none =>
            simp only [Option.some.injEq] at hs2
            subst hs2
            exact MFProgram.Stays.unmoved _
          | some calleeExpr =>
            simp only at hs2
            cases hf : p1.functions[function]? with
            | none => simp [hf] at hs2
            | some fn =>
              simp only [hf] at hs2
              exact MFExpr.analyseExpression_stays ops HS calleeExpr _ (p1, s.2) s2 hs2
        exact MFExpr.analyseArguments_agree k HAB HS function args 0 s2
          (Nat.le_trans (MFProgram.pending_le_of_stays hst2) hk1)
theorem MFExpr.analyseArguments_agree
    {A B : MFProgram τ → Nat → Option (MFProgram τ)} (k : Nat)
    (HAB : ∀ p g, p.pending ≤ k → A p g = B p g)
    (HS : ∀ p g q, A p g = some q → MFProgram.Stays p q) (function : Nat) :
    ∀ (args : List MFExpr) (i : Nat) (s : MFProgram τ × MFFunctionAnalyser τ),
      s.1.pending ≤ k →
      MFExpr.analyseArguments ops A function args i s =
        MFExpr.analyseArguments ops B function args i s
  | [], i, s, _ => by
    simp only [MFExpr.analyseArguments]
  | arg :: rest, i, s, hk => by
    simp only [MFExpr.analyseArguments]
    cases s.1.functions[function]? with
    | none => rfl
    | some fn =>
      simp only
      cases fn.parameters[i]? with
      | none => rfl
      | some param =>
        simp only
        apply bind_congr_of_some
        · exact MFExpr.analyseExpression_agree k HAB HS arg _ s hk
        · intro s1 hs1
          have hst := MFExpr.analyseExpression_stays ops HS arg _ s s1 hs1
          exact MFExpr.analyseArguments_agree k HAB HS function rest (i + 1) s1
            (Nat.le_trans (MFProgram.pending_le_of_stays hst) hk)
end

theorem MFFunctionAnalyser.recordVariableSet_agree
    {A B : MFProgram τ → Nat → Option (MFProgram τ)} (k : Nat)
    (HAB : ∀ p g, p.pending ≤ k → A p g = B p g)
    (HS : ∀ p g q, A p g = some q → MFProgram.Stays p q)
    (s : MFProgram τ × MFFunctionAnalyser τ) (id : Nat) (expr : MFExpr) (type : τ)
    (hk : s.1.pending ≤ k) :
    MFFunctionAnalyser.recordVariableSet ops A s id expr type =
      MFFunctionAnalyser.recordVariableSet ops B s id expr type := by
  unfold MFFunctionAnalyser.recordVariableSet
  cases s.2.scope[id]? with
  | none => rfl
  | some var =>
    simp only
    apply bind_congr_of_some
    · exact MFExpr.analyseExpression_agree ops k HAB HS expr _ _ hk
    · intro _ _
      rfl

mutual
theorem MFStmt.analyseStatement_agree
    {A B : MFProgram τ → Nat → Option (MFProgram τ)} (k : Nat)
    (HAB : ∀ p g, p.pending ≤ k → A p g = B p g)
    (HS : ∀ p g q, A p g = some q → MFProgram.Stays p q) :
    ∀ (stmt : MFStmt τ) (s : MFProgram τ × MFFunctionAnalyser τ), s.1.pending ≤ k →
      stmt.analyseMemoryFlow ops A s = stmt.analyseMemoryFlow ops B s
  | .exprStatement expr, s, hk => by
    simp only [MFStmt.analyseMemoryFlow]
    exact MFExpr.analyseExpression_agree ops k HAB HS expr _ s hk
  | .return value initReturn, s, hk => by
    simp only [MFStmt.analyseMemoryFlow]
    cases value with
    | none => rfl
    | some v =>
      simp only
      split
      · exact MFExpr.analyseExpression_agree ops k HAB HS v _ s hk
      · rfl
  | .variableAssignment id inInstanceScope expr variableType, s, hk => by
    simp only [MFStmt.analyseMemoryFlow]
    split
    · exact MFFunctionAnalyser.recordVariableSet_agree ops k HAB HS s id expr variableType hk
    · exact MFExpr.analyseExpression_agree ops k HAB HS expr _ s hk
  | .variableDeclareAndAssign id expr variableType, s, hk => by
    simp only [MFStmt.analyseMemoryFlow]
    exact MFFunctionAnalyser.recordVariableSet_agree ops k HAB HS s id expr variableType hk
  | .constantVariable id expr expressionType, s, hk => by
    simp only [MFStmt.analyseMemoryFlow]
    exact MFFunctionAnalyser.recordVariableSet_agree ops k HAB HS s id expr expressionType hk
  | .other, s, _ => by
    simp only [MFStmt.analyseMemoryFlow]
  | .nested isLoop block, s, hk => by
    simp only [MFStmt.analyseMemoryFlow]
    apply bind_congr_of_some
    · exact ASTBlock.analyseBlock_agree k HAB HS block _ hk
    · intro _ _
      rfl
theorem ASTBlock.analyseBlock_agree
    {A B : MFProgram τ → Nat → Option (MFProgram τ)} (k : Nat)
    (HAB : ∀ p g, p.pending ≤ k → A p g = B p g)
    (HS : ∀ p g q, A p g = some q → MFProgram.Stays p q) :
    ∀ (block : ASTBlock (MFStmt τ)) (s : MFProgram τ × MFFunctionAnalyser τ), s.1.pending ≤ k →
      block.analyseMemoryFlow ops A s = block.analyseMemoryFlow ops B s
  | ⟨stmts, returnedCertainly, stop, _, _⟩, s, hk => by
    simp only [ASTBlock.analyseMemoryFlow]
    exact MFStmt.analyseStatements_agree k HAB HS stmts _ s hk
theorem MFStmt.analyseStatements_agree
    {A B : MFProgram τ → Nat → Option (MFProgram τ)} (k : Nat)
    (HAB : ∀ p g, p.pending ≤ k → A p g = B p g)
    (HS : ∀ p g q, A p g = some q → MFProgram.Stays p q) :
    ∀ (stmts : List (MFStmt τ)) (stop : Nat) (s : MFProgram τ × MFFunctionAnalyser τ),
      s.1.pending ≤ k →
      MFStmt.analyseStatements ops A stmts stop s = MFStmt.analyseStatements ops B stmts stop s
  | [], 0, s, _ => by
    simp only [MFStmt.analyseStatements]
  | _ :: _, 0, s, _ => by
    simp only [MFStmt.analyseStatements]
  | [], _ + 1, s, _ => by
    simp only [MFStmt.analyseStatements]
  | stmt :: rest, stop + 1, s, hk => by
    simp only [MFStmt.analyseStatements]
    apply bind_congr_of_some
    · exact MFStmt.analyseStatement_agree k HAB HS stmt s hk
    · intro s1 hs1
      have hst := MFStmt.analyseStatement_stays ops HS stmt s s1 hs1
      exact MFStmt.analyseStatements_agree k HAB HS rest stop s1
        (Nat.le_trans (MFProgram.pending_le_of_stays hst) hk)
end

theorem MFFunctionAnalyser.checkMFPromises_agree
    {A B : MFProgram τ → Nat → Option (MFProgram τ)} (k : Nat)
    (HAB : ∀ p g, p.pending ≤ k → A p g = B p g)
    (s : MFProgram τ × MFFunctionAnalyser τ) (hk : s.1.pending ≤ k) :
    MFFunctionAnalyser.checkMFPromises A s = MFFunctionAnalyser.checkMFPromises B s := by
  unfold MFFunctionAnalyser.checkMFPromises
  cases s.1.functions[s.2.function]? with
  | none => rfl
  | some fn =>
    simp only
    split
    · rfl
    · split
      · cases fn.superFunction with
        | none => rfl
        | some super =>
          simp only
          rw [MFFunctionAnalyser.analyseIfNecessary_agree k HAB s.1 super hk]
      · rfl

end Agreement

section Termination

variable {τ κ : Type} (ops : TypeOps τ κ)

theorem MFProgram.pending_of_setKnown {p q : MFProgram τ} {f : Nat} {c : MFFlowCategory}
    (hc : c.isUnknown = false) (h : p.setMemoryFlowTypeForThis f c = some q) :
    q.pending ≤ p.pending := by
  unfold MFProgram.setMemoryFlowTypeForThis at h
  cases hf : p.functions[f]? with
  | none => simp [hf] at h
  | some fn =>
    simp only [hf, Option.some.injEq] at h
    subst h
    exact Runtime.countP_set_dead _ _ _ _ hc

theorem MFProgram.pending_pos {p : MFProgram τ} {f : Nat} {fn : Function τ}
    (hf : p.functions[f]? = some fn) (hu : fn.memoryFlowTypeForThis.isUnknown = true) :
    0 < p.pending := by
  cases hq : p.setMemoryFlowTypeForThis f MFFlowCategory.Escaping with
  | none => simp [MFProgram.setMemoryFlowTypeForThis, hf] at hq
  | some q =>
    have := MFProgram.pending_of_setEscaping hf hu hq
    omega

theorem MFFunctionAnalyser.analyseWith_agree (defaultVariable : MFLocalVariable τ)
    {A B : MFProgram τ → Nat → Option (MFProgram τ)} (k : Nat)
    (HAB : ∀ p g, p.pending ≤ k → A p g = B p g)
    (HS : ∀ p g q, A p g = some q → MFProgram.Stays p q)
    (p : MFProgram τ) (f : Nat) (hk : p.pending ≤ k + 1) :
    MFFunctionAnalyser.analyseWith ops defaultVariable A p f =
      MFFunctionAnalyser.analyseWith ops defaultVariable B p f := by
  unfold MFFunctionAnalyser.analyseWith
  cases hf : p.functions[f]? with
  | none => rfl
  | some fn =>
    simp only
    by_cases hu : fn.memoryFlowTypeForThis.isUnknown = true
    · simp only [hu, Bool.not_true, Bool.false_eq_true, if_false]
      apply bind_congr_of_some rfl
      intro p1 hp1
      have hk1 : p1.pending ≤ k := by
        have := MFProgram.pending_of_setEscaping hf hu hp1
        omega
      apply bind_congr_of_some rfl
      intro a1 _
      apply bind_congr_of_some (ASTBlock.analyseBlock_agree ops k HAB HS fn.ast (p1, a1) hk1)
      intro s2 hs2
      have hk2 : s2.1.pending ≤ k :=
        Nat.le_trans (MFProgram.pending_le_of_stays
          (ASTBlock.analyseBlock_stays ops HS fn.ast (p1, a1) s2 hs2)) hk1
      apply bind_congr_of_some rfl
      intro p3 hp3
      have hk3 : p3.pending ≤ k :=
        Nat.le_trans (MFProgram.pending_of_setKnown (by split <;> rfl) hp3) hk2
      apply bind_congr_of_some rfl
      intro s4 hs4
      have hk4 : s4.1.pending ≤ k :=
        Nat.le_trans (MFProgram.pending_le_of_stays
          (MFFunctionAnalyser.popScope_stays ops fn.ast (p3, s2.2) s4 hs4)) hk3
      exact MFFunctionAnalyser.checkMFPromises_agree k HAB s4 hk4
    · simp only [hu, Bool.not_false, if_true]

theorem MFFunctionAnalyser.analyseWith_of_none_pending (defaultVariable : MFLocalVariable τ)
    (A B : MFProgram τ → Nat → Option (MFProgram τ)) (p : MFProgram τ) (f : Nat)
    (hk : p.pending = 0) :
    MFFunctionAnalyser.analyseWith ops defaultVariable A p f =
      MFFunctionAnalyser.analyseWith ops defaultVariable B p f := by
  unfold MFFunctionAnalyser.analyseWith
  cases hf : p.functions[f]? with
  | none => rfl
  | some fn =>
    simp only
    by_cases hu : fn.memoryFlowTypeForThis.isUnknown = true
    · have := MFProgram.pending_pos hf hu
      omega
    · simp only [hu, Bool.not_false, if_true]

/-- The budget of `analyse` plays no part once it is at least the number of functions
that are not analysed yet. -/
theorem MFFunctionAnalyser.analyse_budget_irrelevant (defaultVariable : MFLocalVariable τ) :
    ∀ (k fuel1 fuel2 : Nat) (p : MFProgram τ) (f : Nat), p.pending ≤ k → k ≤ fuel1 →
      k ≤ fuel2 →
      MFFunctionAnalyser.analyse ops defaultVariable fuel1 p f =
        MFFunctionAnalyser.analyse ops defaultVariable fuel2 p f
  | 0, fuel1, fuel2, p, f, hp, _, _ => by
    have h0 : p.pending = 0 := by omega
    cases fuel1 <;> cases fuel2 <;> simp only [MFFunctionAnalyser.analyse] <;>
      exact MFFunctionAnalyser.analyseWith_of_none_pending ops defaultVariable _ _ p f h0
  | k + 1, 0, _, _, _, _, h1, _ => by omega
  | k + 1, _ + 1, 0, _, _, _, _, h2 => by omega
  | k + 1, a + 1, b + 1, p, f, hp, h1, h2 => by
    simp only [MFFunctionAnalyser.analyse]
    exact MFFunctionAnalyser.analyseWith_agree ops defaultVariable k
      (fun p1 g hp1 => MFFunctionAnalyser.analyse_budget_irrelevant defaultVariable k a b p1 g hp1
        (by omega) (by omega))
      (fun p1 g q hq => MFFunctionAnalyser.analyse_stays ops defaultVariable a p1 g q hq)
      p f hp

theorem MFFunctionAnalyser.recordVariableGet_keeps_escaping {a b : MFFunctionAnalyser τ}
    {id : Nat} {c : MFFlowCategory} (h : a.recordVariableGet ops id c = some b) :
    ∀ (j : Nat) (var : MFLocalVariable τ), a.scope[j]? = some var →
      var.flowCategory.isEscaping = true →
      ∃ var1, b.scope[j]? = some var1 ∧ var1.flowCategory.isEscaping = true := by
  intro j var hj he
  cases hv : a.scope[id]? with
  | none =>
    unfold MFFunctionAnalyser.recordVariableGet at h
    cases c <;> simp [MFFlowCategory.isReturn, MFFlowCategory.isEscaping, hv] at h <;>
      (subst h; exact ⟨var, hj, he⟩)
  | some v0 =>
    obtain ⟨b1, var1, hb1, hv1, hcat, -, -, -, -, hoth, -⟩ :=
      MFFunctionAnalyser.recordVariableGet_spec ops a id v0 c hv
    rw [hb1] at h
    cases h
    by_cases hji : j = id
    · subst hji
      rw [hv] at hj
      cases hj
      refine ⟨var1, hv1, ?_⟩
      rw [hcat]
      split
      · rename_i hc
        exact hc.1
      · exact he
    · exact ⟨var, by rw [hoth j hji]; exact hj, he⟩

end Termination

section Definedness

variable {τ κ : Type} (ops : TypeOps τ κ)

theorem MFProgram.wellFormedFor_of_wellFormed {p : MFProgram τ} (h : p.wellFormed = true) :
    p.WellFormedFor p.arities :=
  ⟨rfl, fun fn hfn => by
    unfold MFProgram.wellFormed at h
    exact List.all_eq_true.mp h fn hfn⟩

theorem MFProgram.WellFormedFor.toWellFormed {ar : List Nat} {p : MFProgram τ}
    (h : p.WellFormedFor ar) : p.wellFormed = true := by
  unfold MFProgram.wellFormed
  rw [List.all_eq_true, h.1]
  exact h.2

theorem MFProgram.WellFormedFor.length_eq {ar : List Nat} {p : MFProgram τ}
    (h : p.WellFormedFor ar) : p.functions.length = ar.length := by
  rw [← h.1]
  simp [MFProgram.arities]

theorem MFProgram.WellFormedFor.function_at {ar : List Nat} {p : MFProgram τ}
    (h : p.WellFormedFor ar) {g arity : Nat} (hg : ar[g]? = some arity) :
    ∃ fn, p.functions[g]? = some fn ∧ fn.parameters.length = arity ∧ fn.wellFormed ar = true := by
  rw [← h.1] at hg
  simp only [MFProgram.arities, List.getElem?_map, Option.map_eq_some'] at hg
  obtain ⟨fn, hfn, hlen⟩ := hg
  exact ⟨fn, hfn, hlen, h.2 fn (List.mem_iff_getElem?.mpr ⟨_, hfn⟩)⟩

theorem MFProgram.WellFormedFor.function_below {ar : List Nat} {p : MFProgram τ}
    (h : p.WellFormedFor ar) {g : Nat} (hg : g < ar.length) :
    ∃ fn, p.functions[g]? = some fn ∧ ar[g]? = some fn.parameters.length ∧
      fn.wellFormed ar = true := by
  obtain ⟨arity, ha⟩ := exists_getElem?_of_lt hg
  obtain ⟨fn, hfn, hlen, hwf⟩ := h.function_at ha
  exact ⟨fn, hfn, by rw [ha, hlen], hwf⟩

theorem MFProgram.WellFormedFor.of_functions_unchanged {ar : List Nat} {p q : MFProgram τ}
    (h : p.WellFormedFor ar) (hq : q.functions = p.functions) : q.WellFormedFor ar := by
  refine ⟨?_, ?_⟩
  · rw [← h.1]
    simp [MFProgram.arities, hq]
  · rw [hq]
    exact h.2

/-- Putting, in place of a function, one that differs from it in flow categories only keeps
the compilation well-formed. -/
theorem MFProgram.WellFormedFor.setFunction {ar : List Nat} {p : MFProgram τ}
    (h : p.WellFormedFor ar) {g : Nat} {fn fn1 : Function τ} (hfn : p.functions[g]? = some fn)
    (hlen : fn1.parameters.length = fn.parameters.length)
    (hwf : fn1.wellFormed ar = fn.wellFormed ar) :
    MFProgram.WellFormedFor ar { p with functions := p.functions.set g fn1 } := by
  refine ⟨?_, ?_⟩
  · rw [← h.1]
    simp only [MFProgram.arities, List.map_set, hlen]
    apply Runtime.set_self
    simp [List.getElem?_map, hfn]
  · intro x hx
    rcases List.mem_or_eq_of_mem_set hx with hx | rfl
    · exact h.2 x hx
    · rw [hwf]
      exact h.2 fn (List.mem_iff_getElem?.mpr ⟨_, hfn⟩)

theorem MFProgram.setMemoryFlowTypeForThis_defined {ar : List Nat} {p : MFProgram τ}
    (h : p.WellFormedFor ar) {g : Nat} (hg : g < ar.length) (c : MFFlowCategory) :
    ∃ q, p.setMemoryFlowTypeForThis g c = some q ∧ q.WellFormedFor ar := by
  obtain ⟨fn, hfn, _, _⟩ := h.function_below hg
  have hq : p.setMemoryFlowTypeForThis g c
      = some ⟨p.functions.set g { fn with memoryFlowTypeForThis := c }, p.errors, p.effects⟩ := by
    simp only [MFProgram.setMemoryFlowTypeForThis, hfn]
  exact ⟨_, hq, h.setFunction hfn rfl rfl⟩

theorem MFProgram.setParameterMFType_defined {ar : List Nat} {p : MFProgram τ}
    (h : p.WellFormedFor ar) {g arity i : Nat} (hg : ar[g]? = some arity) (hi : i < arity)
    (c : MFFlowCategory) :
    ∃ q, p.setParameterMFType g i c = some q ∧ q.WellFormedFor ar := by
  obtain ⟨fn, hfn, hlen, _⟩ := h.function_at hg
  obtain ⟨param, hparam⟩ := exists_getElem?_of_lt (by rw [hlen]; exact hi : i < fn.parameters.length)
  let param1 : Parameter τ := { param with memoryFlowType := c }
  let fn1 : Function τ := { fn with parameters := fn.parameters.set i param1 }
  have hq : p.setParameterMFType g i c
      = some ⟨p.functions.set g fn1, p.errors, p.effects⟩ := by
    simp only [MFProgram.setParameterMFType, hfn, hparam]
  exact ⟨_, hq, h.setFunction hfn (by simp [fn1]) (by simp [fn1, Function.wellFormed])⟩

theorem MFFunctionAnalyser.Ready.withProgram {ar : List Nat} {f vc k : Nat}
    {s : MFProgram τ × MFFunctionAnalyser τ} (h : MFFunctionAnalyser.Ready ar f vc k s)
    {q : MFProgram τ} (hq : q.WellFormedFor ar) (hp : q.pending ≤ s.1.pending) :
    MFFunctionAnalyser.Ready ar f vc k (q, s.2) :=
  ⟨hq, Nat.le_trans hp h.2.1, h.2.2.1, h.2.2.2.1, h.2.2.2.2⟩

theorem MFFunctionAnalyser.Ready.withAnalyser {ar : List Nat} {f vc k : Nat}
    {s : MFProgram τ × MFFunctionAnalyser τ} (h : MFFunctionAnalyser.Ready ar f vc k s)
    {b : MFFunctionAnalyser τ} (hf : b.function = s.2.function)
    (hl : b.scope.length = s.2.scope.length)
    (hp : ∀ arity, MFFunctionAnalyser.ParametersBelow arity s.2.scope →
      MFFunctionAnalyser.ParametersBelow arity b.scope) :
    MFFunctionAnalyser.Ready ar f vc k (s.1, b) := by
  obtain ⟨h1, h2, h3, h4, n, hn, h5⟩ := h
  exact ⟨h1, h2, by rw [hf, h3], by rw [hl, h4], n, hn, hp n h5⟩

theorem MFFunctionAnalyser.recordVariableGet_defined (a : MFFunctionAnalyser τ) (id : Nat)
    (c : MFFlowCategory) (hid : id < a.scope.length) :
    ∃ b, a.recordVariableGet ops id c = some b ∧ b.function = a.function ∧
      b.scope.length = a.scope.length ∧
      ∀ arity, MFFunctionAnalyser.ParametersBelow arity a.scope →
        MFFunctionAnalyser.ParametersBelow arity b.scope := by
  obtain ⟨v0, hv0⟩ := exists_getElem?_of_lt hid
  obtain ⟨b, w1, hb, hw1, -, -, hpa, hpm, -, hoth, hlen, -, -, hfn⟩ :=
    MFFunctionAnalyser.recordVariableGet_spec ops a id v0 c hv0
  refine ⟨b, hb, hfn, hlen, fun arity hpb j v hj hv => ?_⟩
  by_cases hji : j = id
  · subst hji
    rw [hw1] at hj
    cases hj
    rw [hpm]
    exact hpb j v0 hv0 (by rw [← hpa]; exact hv)
  · rw [hoth j hji] at hj
    exact hpb j v hj hv

theorem MFFunctionAnalyser.recordCaptures_defined :
    ∀ (ids : List Nat) (a : MFFunctionAnalyser τ), (∀ id ∈ ids, id < a.scope.length) →
      ∃ b, MFFunctionAnalyser.recordCaptures ops ids a = some b ∧ b.function = a.function ∧
        b.scope.length = a.scope.length ∧
        ∀ arity, MFFunctionAnalyser.ParametersBelow arity a.scope →
          MFFunctionAnalyser.ParametersBelow arity b.scope
  | [], a, _ => ⟨a, rfl, rfl, rfl, fun _ h => h⟩
  | id :: rest, a, hb => by
    obtain ⟨a1, ha1, hf1, hl1, hp1⟩ := MFFunctionAnalyser.recordVariableGet_defined ops a id
      MFFlowCategory.Escaping (hb id (List.mem_cons_self _ _))
    obtain ⟨b, hb1, hf2, hl2, hp2⟩ := MFFunctionAnalyser.recordCaptures_defined rest a1
      (fun x hx => by rw [hl1]; exact hb x (List.mem_cons_of_mem _ hx))
    refine ⟨b, ?_, by rw [hf2, hf1], by rw [hl2, hl1], fun arity h => hp2 arity (hp1 arity h)⟩
    simp only [MFFunctionAnalyser.recordCaptures, ha1, Option.some_bind, hb1]

theorem MFFunctionAnalyser.recordThis_ready {ar : List Nat} {f vc k : Nat}
    {s : MFProgram τ × MFFunctionAnalyser τ} (h : MFFunctionAnalyser.Ready ar f vc k s)
    (c : MFFlowCategory) : MFFunctionAnalyser.Ready ar f vc k (s.1, s.2.recordThis c) := by
  apply h.withAnalyser
  · unfold MFFunctionAnalyser.recordThis; split <;> rfl
  · unfold MFFunctionAnalyser.recordThis; split <;> rfl
  · intro arity hp
    unfold MFFunctionAnalyser.recordThis; split <;> exact hp

end Definedness

section DefinednessOfExpressions

variable {τ κ : Type} (ops : TypeOps τ κ)

theorem MFFunctionAnalyser.analyseIfNecessary_defined
    {analyse : MFProgram τ → Nat → Option (MFProgram τ)} {ar : List Nat} {k : Nat}
    (HS : ∀ p g q, analyse p g = some q → MFProgram.Stays p q)
    (HD : ∀ p g, MFProgram.WellFormedFor ar p → g < ar.length → p.pending ≤ k →
      ∃ q, analyse p g = some q ∧ q.WellFormedFor ar)
    {p : MFProgram τ} (hp : p.WellFormedFor ar) (hk : p.pending ≤ k) {g : Nat}
    (hg : g < ar.length) :
    ∃ q, MFFunctionAnalyser.analyseIfNecessary analyse p g = some q ∧ q.WellFormedFor ar ∧
      q.pending ≤ p.pending := by
  obtain ⟨fn, hfn, _, _⟩ := hp.function_below hg
  unfold MFFunctionAnalyser.analyseIfNecessary
  simp only [hfn]
  by_cases hu : fn.memoryFlowTypeForThis.isUnknown = true
  · rw [if_pos hu]
    obtain ⟨q, hq, hwf⟩ := HD p g hp hg hk
    exact ⟨q, hq, hwf, MFProgram.pending_le_of_stays (HS _ _ _ hq)⟩
  · rw [if_neg hu]
    exact ⟨p, rfl, hp, le_refl _⟩

theorem MFFunctionAnalyser.Ready.withEffect {ar : List Nat} {f vc k : Nat}
    {s : MFProgram τ × MFFunctionAnalyser τ} (h : MFFunctionAnalyser.Ready ar f vc k s)
    (e : MFEffect τ) : MFFunctionAnalyser.Ready ar f vc k (s.1.effect e, s.2) :=
  h.withProgram (h.1.of_functions_unchanged rfl)
    (MFProgram.pending_le_of_stays (MFProgram.effect_stays _ _))

mutual
theorem MFExpr.analyseExpression_defined
    {analyse : MFProgram τ → Nat → Option (MFProgram τ)} {ar : List Nat} {f vc k : Nat}
    (HS : ∀ p g q, analyse p g = some q → MFProgram.Stays p q)
    (HD : ∀ p g, MFProgram.WellFormedFor ar p → g < ar.length → p.pending ≤ k →
      ∃ q, analyse p g = some q ∧ q.WellFormedFor ar) :
    ∀ (e : MFExpr) (c : MFFlowCategory) (s : MFProgram τ × MFFunctionAnalyser τ),
      MFFunctionAnalyser.Ready ar f vc k s → e.wellFormed ar vc = true →
      ∃ t, e.analyseMemoryFlow ops analyse c s = some t ∧ MFFunctionAnalyser.Ready ar f vc k t
  | .getVariable id inInstanceScope, c, s, hr, hw => by
    cases inInstanceScope with
    | true => exact ⟨s, by simp [MFExpr.analyseMemoryFlow], hr⟩
    | false =>
      simp only [MFExpr.wellFormed, Bool.false_or, decide_eq_true_eq] at hw
      obtain ⟨b, hb, hf, hl, hp⟩ := MFFunctionAnalyser.recordVariableGet_defined ops s.2 id c
        (by rw [hr.2.2.2.1]; exact hw)
      exact ⟨(s.1, b), by simp [MFExpr.analyseMemoryFlow, hb], hr.withAnalyser hf hl hp⟩
  | .isOnlyReference, c, s, hr, _ => ⟨s, by simp only [MFExpr.analyseMemoryFlow], hr⟩
  | .typeExpr, c, s, hr, _ => ⟨s, by simp only [MFExpr.analyseMemoryFlow], hr⟩
  | .closure node closureFunction captures capturesSelf, c, s, hr, hw => by
    simp only [MFExpr.wellFormed, Bool.and_eq_true, decide_eq_true_eq, List.all_eq_true] at hw
    obtain ⟨hcf, hcap⟩ := hw
    have hr0 := hr.withEffect (.analyseAllocation node c)
    obtain ⟨p1, hp1, hwf1⟩ := HD _ closureFunction hr0.1 hcf hr0.2.1
    obtain ⟨a1, ha1, hf1, hl1, hpp1⟩ := MFFunctionAnalyser.recordCaptures_defined ops captures s.2
      (fun id hid => by rw [hr.2.2.2.1]; exact hcap id hid)
    have hr1 : MFFunctionAnalyser.Ready ar f vc k (p1, a1) :=
      MFFunctionAnalyser.Ready.withAnalyser
        (hr0.withProgram hwf1 (MFProgram.pending_le_of_stays (HS _ _ _ hp1))) hf1 hl1 hpp1
    refine ⟨(p1, if capturesSelf then a1.recordThis MFFlowCategory.Escaping else a1), ?_, ?_⟩
    · simp only [MFExpr.analyseMemoryFlow, hp1, Option.some_bind, ha1]
    · cases capturesSelf with
      | true => exact MFFunctionAnalyser.recordThis_ready hr1 MFFlowCategory.Escaping
      | false => exact hr1
  | .callableBox node expr thunk, c, s, hr, hw => by
    simp only [MFExpr.wellFormed, Bool.and_eq_true, decide_eq_true_eq] at hw
    obtain ⟨hwe, hth⟩ := hw
    obtain ⟨s1, hs1, hr1⟩ := MFExpr.analyseExpression_defined HS HD expr c
      (s.1.effect (.analyseAllocation node c), s.2) (hr.withEffect _) hwe
    obtain ⟨p2, hp2, hwf2⟩ := HD s1.1 thunk hr1.1 hth hr1.2.1
    refine ⟨(p2, s1.2), ?_, hr1.withProgram hwf2 (MFProgram.pending_le_of_stays (HS _ _ _ hp2))⟩
    simp only [MFExpr.analyseMemoryFlow, hs1, Option.some_bind, hp2, Option.map_some']
  | .this, c, s, hr, _ =>
    ⟨(s.1, s.2.recordThis c), by simp only [MFExpr.analyseMemoryFlow],
      MFFunctionAnalyser.recordThis_ready hr c⟩
  | .call function callee args, c, s, hr, hw => by
    unfold MFExpr.wellFormed at hw
    simp only [Bool.and_eq_true] at hw
    obtain ⟨⟨hwc, hwa⟩, hany⟩ := hw
    cases har : ar[function]? with
    | none => simp [har] at hany
    | some arity =>
      have hlen : args.length ≤ arity := by simpa [har] using hany
      have hlt : function < ar.length := getElem?_lt_length har
      obtain ⟨p1, hp1, hwf1, hle1⟩ :=
        MFFunctionAnalyser.analyseIfNecessary_defined HS HD hr.1 hr.2.1 hlt
      have hr1 : MFFunctionAnalyser.Ready ar f vc k (p1, s.2) := hr.withProgram hwf1 hle1
      cases callee with
      | none =>
        obtain ⟨t, ht, hrt⟩ := MFExpr.analyseArguments_defined HS HD function arity har args 0
          (p1, s.2) hr1 hwa (by omega)
        refine ⟨t, ?_, hrt⟩
        simp only [MFExpr.analyseMemoryFlow, hp1, Option.some_bind, ht]
      | some calleeExpr =>
        obtain ⟨fn, hfn, _, _⟩ := hwf1.function_at har
        obtain ⟨s2, hs2, hr2⟩ := MFExpr.analyseExpression_defined HS HD calleeExpr
          fn.memoryFlowTypeForThis (p1, s.2) hr1 hwc
        obtain ⟨t, ht, hrt⟩ := MFExpr.analyseArguments_defined HS HD function arity har args 0
          s2 hr2 hwa (by omega)
        refine ⟨t, ?_, hrt⟩
        simp only [MFExpr.analyseMemoryFlow, hp1, Option.some_bind, hfn, hs2, ht]
theorem MFExpr.analyseArguments_defined
    {analyse : MFProgram τ → Nat → Option (MFProgram τ)} {ar : List Nat} {f vc k : Nat}
    (HS : ∀ p g q, analyse p g = some q → MFProgram.Stays p q)
    (HD : ∀ p g, MFProgram.WellFormedFor ar p → g < ar.length → p.pending ≤ k →
      ∃ q, analyse p g = some q ∧ q.WellFormedFor ar)
    (function arity : Nat) (har : ar[function]? = some arity) :
    ∀ (args : List MFExpr) (i : Nat) (s : MFProgram τ × MFFunctionAnalyser τ),
      MFFunctionAnalyser.Ready ar f vc k s → MFExpr.allWellFormed ar vc args = true →
      i + args.length ≤ arity →
      ∃ t, MFExpr.analyseArguments ops analyse function args i s = some t ∧
        MFFunctionAnalyser.Ready ar f vc k t
  | [], i, s, hr, _, _ => ⟨s, by simp only [MFExpr.analyseArguments], hr⟩
  | arg :: rest, i, s, hr, hw, hlen => by
    simp only [MFExpr.allWellFormed, Bool.and_eq_true] at hw
    simp only [List.length_cons] at hlen
    obtain ⟨fn, hfn, hpl, _⟩ := hr.1.function_at har
    obtain ⟨param, hparam⟩ := exists_getElem?_of_lt (by omega : i < fn.parameters.length)
    obtain ⟨s1, hs1, hr1⟩ := MFExpr.analyseExpression_defined HS HD arg param.memoryFlowType s
      hr hw.1
    obtain ⟨t, ht, hrt⟩ := MFExpr.analyseArguments_defined HS HD function arity har rest (i + 1)
      s1 hr1 hw.2 (by omega)
    refine ⟨t, ?_, hrt⟩
    simp only [MFExpr.analyseArguments, hfn, hparam, hs1, Option.some_bind, ht]
end

end DefinednessOfExpressions

section DefinednessOfStatements

variable {τ κ : Type} (ops : TypeOps τ κ)

theorem MFFunctionAnalyser.ParametersBelow.setVariable {arity : Nat} {scope : List (MFLocalVariable τ)}
    (h : MFFunctionAnalyser.ParametersBelow arity scope) {id : Nat} {var var1 : MFLocalVariable τ}
    (hv : scope[id]? = some var) (hp : var1.isParam = var.isParam) (hm : var1.param = var.param) :
    MFFunctionAnalyser.ParametersBelow arity (scope.set id var1) := by
  intro j v hj hvp
  by_cases hji : j = id
  · subst hji
    rw [List.getElem?_set_self (getElem?_lt_length hv)] at hj
    cases hj
    rw [hm]
    exact h j var hv (by rw [← hp]; exact hvp)
  · rw [List.getElem?_set_ne (Ne.symm hji)] at hj
    exact h j v hj hvp

theorem MFFunctionAnalyser.recordVariableSet_defined
    {analyse : MFProgram τ → Nat → Option (MFProgram τ)} {ar : List Nat} {f vc k : Nat}
    (HS : ∀ p g q, analyse p g = some q → MFProgram.Stays p q)
    (HD : ∀ p g, MFProgram.WellFormedFor ar p → g < ar.length → p.pending ≤ k →
      ∃ q, analyse p g = some q ∧ q.WellFormedFor ar)
    (s : MFProgram τ × MFFunctionAnalyser τ) (id : Nat) (expr : MFExpr) (type : τ)
    (hr : MFFunctionAnalyser.Ready ar f vc k s) (hid : id < vc)
    (hw : expr.wellFormed ar vc = true) :
    ∃ t, MFFunctionAnalyser.recordVariableSet ops analyse s id expr type = some t ∧
      MFFunctionAnalyser.Ready ar f vc k t := by
  obtain ⟨var, hvar⟩ := exists_getElem?_of_lt (by rw [hr.2.2.2.1]; exact hid : id < s.2.scope.length)
  have hr1 : MFFunctionAnalyser.Ready ar f vc k
      (s.1, { s.2 with scope := s.2.scope.set id { var with type := type } }) :=
    hr.withAnalyser rfl (by simp) (fun arity hp => hp.setVariable hvar rfl rfl)
  obtain ⟨s2, hs2, hr2⟩ := MFExpr.analyseExpression_defined ops HS HD expr
    MFFlowCategory.Escaping _ hr1 hw
  unfold MFFunctionAnalyser.recordVariableSet
  simp only [hvar, hs2, Option.some_bind]
  cases hh : expr.heapAllocates with
  | none => exact ⟨s2, rfl, hr2⟩
  | some node =>
    simp only
    by_cases hl : s2.2.inLoop = 0
    · rw [if_pos hl]
      obtain ⟨var2, hvar2⟩ := exists_getElem?_of_lt
        (by rw [hr2.2.2.2.1]; exact hid : id < s2.2.scope.length)
      simp only [hvar2]
      exact ⟨_, rfl, hr2.withAnalyser rfl (by simp) (fun arity hp => hp.setVariable hvar2 rfl rfl)⟩
    · rw [if_neg hl]
      exact ⟨s2, rfl, hr2⟩

theorem MFFunctionAnalyser.releasesOf_defined (scope : List (MFLocalVariable τ))
    (p : SourcePosition) :
    ∀ ids : List Nat, (∀ id ∈ ids, id < scope.length) →
      ∃ r, MFFunctionAnalyser.releasesOf ops scope p ids = some r
  | [], _ => ⟨[], rfl⟩
  | id :: rest, h => by
    obtain ⟨var, hvar⟩ := exists_getElem?_of_lt (h id (List.mem_cons_self _ _))
    obtain ⟨r, hr⟩ := MFFunctionAnalyser.releasesOf_defined scope p rest
      (fun x hx => h x (List.mem_cons_of_mem _ hx))
    simp only [MFFunctionAnalyser.releasesOf, hvar, hr]
    exact ⟨_, rfl⟩

theorem MFFunctionAnalyser.releaseVariables_defined {ar : List Nat} {vc : Nat}
    (a : MFFunctionAnalyser τ) (block : ASTBlock (MFStmt τ)) (hl : a.scope.length = vc)
    (hw : block.wellFormed ar vc = true) :
    ∃ insertion, a.releaseVariables ops block = some insertion := by
  obtain ⟨stmts, returnedCertainly, stop, scopeStats, position⟩ := block
  simp only [ASTBlock.wellFormed, Bool.and_eq_true, decide_eq_true_eq, Bool.or_eq_true,
    Bool.not_eq_true'] at hw
  obtain ⟨⟨⟨_, hfrom⟩, hall⟩, hstop⟩ := hw
  unfold MFFunctionAnalyser.releaseVariables
  cases returnedCertainly with
  | false =>
    obtain ⟨r, hr⟩ := MFFunctionAnalyser.releasesOf_defined ops a.scope position
      ((List.range scopeStats.variables).map (fun i => i + scopeStats.from))
      (fun id hid => by
        simp only [List.mem_map, List.mem_range] at hid
        obtain ⟨i, hi, rfl⟩ := hid
        omega)
    simp [hr]
  | true =>
    have hs : 1 ≤ stop ∧ stop ≤ stmts.length := by simpa using hstop
    obtain ⟨stmt, hstmt⟩ := exists_getElem?_of_lt (by omega : stop - 1 < stmts.length)
    obtain ⟨r, hr⟩ := MFFunctionAnalyser.releasesOf_defined ops a.scope position
      (List.range scopeStats.allVariablesCount)
      (fun id hid => by
        simp only [List.mem_range] at hid
        omega)
    have hne : ¬ stop = 0 := by omega
    cases stmt <;>
      simp [ASTBlock.getReturn, hne, hstmt, MFFunctionAnalyser.releaseAllVariables, hr]

theorem MFFunctionAnalyser.popVariable_defined {ar : List Nat} {f vc k : Nat}
    (s : MFProgram τ × MFFunctionAnalyser τ) (id : Nat)
    (hr : MFFunctionAnalyser.Ready ar f vc k s) (hid : id < vc) :
    ∃ t, MFFunctionAnalyser.popVariable s id = some t ∧ MFFunctionAnalyser.Ready ar f vc k t := by
  obtain ⟨var, hvar⟩ := exists_getElem?_of_lt (by rw [hr.2.2.2.1]; exact hid : id < s.2.scope.length)
  obtain ⟨hwf, hk, hf, hl, arity, harity, hpb⟩ := hr
  have hcommitted : ∃ p1, (if var.isParam then
        s.1.setParameterMFType s.2.function var.param var.flowCategory
      else if !var.flowCategory.isEscaping then
        some (var.inits.foldl (fun q init => q.effect (.allocateOnStack init)) s.1)
      else some s.1) = some p1 ∧ p1.WellFormedFor ar := by
    by_cases hp : var.isParam = true
    · rw [if_pos hp, hf]
      exact MFProgram.setParameterMFType_defined hwf harity (hpb id var hvar hp) _
    · rw [if_neg hp]
      by_cases he : (!var.flowCategory.isEscaping) = true
      · rw [if_pos he]
        refine ⟨_, rfl, hwf.of_functions_unchanged ?_⟩
        generalize var.inits = inits
        generalize s.1 = p0
        induction inits generalizing p0 with
        | nil => rfl
        | cons init rest ih => exact ih _
      · rw [if_neg he]
        exact ⟨_, rfl, hwf⟩
  obtain ⟨p1, hp1, hwf1⟩ := hcommitted
  have heq : MFFunctionAnalyser.popVariable s id
      = some (p1, { s.2 with scope := s.2.scope.set id { var with inits := [] } }) := by
    unfold MFFunctionAnalyser.popVariable
    simp only [hvar, hp1, Option.map_some']
  refine ⟨_, heq, hwf1, ?_, hf, by simpa using hl, arity, harity,
    MFFunctionAnalyser.ParametersBelow.setVariable hpb hvar rfl rfl⟩
  exact Nat.le_trans (MFProgram.pending_le_of_stays (MFProgram.Stays.of_sameThis
    (MFFunctionAnalyser.popVariable_keeps s _ id heq).2.2)) hk

theorem MFFunctionAnalyser.popVariables_defined {ar : List Nat} {f vc k : Nat} :
    ∀ (ids : List Nat) (s : MFProgram τ × MFFunctionAnalyser τ),
      MFFunctionAnalyser.Ready ar f vc k s → (∀ id ∈ ids, id < vc) →
      ∃ t, MFFunctionAnalyser.popVariables ids s = some t ∧ MFFunctionAnalyser.Ready ar f vc k t
  | [], s, hr, _ => ⟨s, rfl, hr⟩
  | id :: rest, s, hr, h => by
    obtain ⟨s1, hs1, hr1⟩ := MFFunctionAnalyser.popVariable_defined s id hr
      (h id (List.mem_cons_self _ _))
    obtain ⟨t, ht, hrt⟩ := MFFunctionAnalyser.popVariables_defined rest s1 hr1
      (fun x hx => h x (List.mem_cons_of_mem _ hx))
    exact ⟨t, by simp only [MFFunctionAnalyser.popVariables, hs1, Option.some_bind, ht], hrt⟩

theorem MFFunctionAnalyser.popScope_defined {ar : List Nat} {f vc k : Nat}
    (block : ASTBlock (MFStmt τ)) (s : MFProgram τ × MFFunctionAnalyser τ)
    (hr : MFFunctionAnalyser.Ready ar f vc k s) (hw : block.wellFormed ar vc = true) :
    ∃ t, MFFunctionAnalyser.popScope ops block s = some t ∧
      MFFunctionAnalyser.Ready ar f vc k t := by
  obtain ⟨insertion, hins⟩ := MFFunctionAnalyser.releaseVariables_defined ops s.2 block
    hr.2.2.2.1 hw
  have hfrom : block.scopeStats.from + block.scopeStats.variables ≤ vc := by
    obtain ⟨stmts, returnedCertainly, stop, scopeStats, position⟩ := block
    simp only [ASTBlock.wellFormed, Bool.and_eq_true, decide_eq_true_eq] at hw
    exact hw.1.1.2
  obtain ⟨t, ht, hrt⟩ := MFFunctionAnalyser.popVariables_defined
    ((List.range block.scopeStats.variables).map (fun i => i + block.scopeStats.from))
    (s.1.effect (.released s.2.function block.position insertion), s.2)
    (hr.withEffect _)
    (fun id hid => by
      simp only [List.mem_map, List.mem_range] at hid
      obtain ⟨i, hi, rfl⟩ := hid
      omega)
  exact ⟨t, by simp only [MFFunctionAnalyser.popScope, hins, ht], hrt⟩

mutual
theorem MFStmt.analyseStatement_defined
    {analyse : MFProgram τ → Nat → Option (MFProgram τ)} {ar : List Nat} {f vc k : Nat}
    (HS : ∀ p g q, analyse p g = some q → MFProgram.Stays p q)
    (HD : ∀ p g, MFProgram.WellFormedFor ar p → g < ar.length → p.pending ≤ k →
      ∃ q, analyse p g = some q ∧ q.WellFormedFor ar) :
    ∀ (stmt : MFStmt τ) (s : MFProgram τ × MFFunctionAnalyser τ),
      MFFunctionAnalyser.Ready ar f vc k s → stmt.wellFormed ar vc = true →
      ∃ t, stmt.analyseMemoryFlow ops analyse s = some t ∧ MFFunctionAnalyser.Ready ar f vc k t
  | .exprStatement expr, s, hr, hw => by
    simp only [MFStmt.wellFormed] at hw
    simp only [MFStmt.analyseMemoryFlow]
    exact MFExpr.analyseExpression_defined ops HS HD expr _ s hr hw
  | .return value initReturn, s, hr, hw => by
    simp only [MFStmt.analyseMemoryFlow]
    cases value with
    | none => exact ⟨s, rfl, hr⟩
    | some v =>
      simp only [MFStmt.wellFormed] at hw
      cases initReturn with
      | true => exact ⟨s, by simp, hr⟩
      | false =>
        simp only [Bool.not_false, if_true]
        exact MFExpr.analyseExpression_defined ops HS HD v _ s hr hw
  | .variableAssignment id inInstanceScope expr variableType, s, hr, hw => by
    simp only [MFStmt.wellFormed, Bool.and_eq_true, Bool.or_eq_true, decide_eq_true_eq] at hw
    simp only [MFStmt.analyseMemoryFlow]
    cases inInstanceScope with
    | true =>
      simp only [Bool.not_true, Bool.false_eq_true, if_false]
      exact MFExpr.analyseExpression_defined ops HS HD expr _ s hr hw.2
    | false =>
      simp only [Bool.not_false, if_true]
      exact MFFunctionAnalyser.recordVariableSet_defined ops HS HD s id expr variableType hr
        (by simpa using hw.1) hw.2
  | .variableDeclareAndAssign id expr variableType, s, hr, hw => by
    simp only [MFStmt.wellFormed, Bool.and_eq_true, decide_eq_true_eq] at hw
    simp only [MFStmt.analyseMemoryFlow]
    exact MFFunctionAnalyser.recordVariableSet_defined ops HS HD s id expr variableType hr
      hw.1 hw.2
  | .constantVariable id expr expressionType, s, hr, hw => by
    simp only [MFStmt.wellFormed, Bool.and_eq_true, decide_eq_true_eq] at hw
    simp only [MFStmt.analyseMemoryFlow]
    exact MFFunctionAnalyser.recordVariableSet_defined ops HS HD s id expr expressionType hr
      hw.1 hw.2
  | .other, s, hr, _ => ⟨s, by simp only [MFStmt.analyseMemoryFlow], hr⟩
  | .nested isLoop block, s, hr, hw => by
    simp only [MFStmt.wellFormed] at hw
    have hr0 : MFFunctionAnalyser.Ready ar f vc k
        (s.1, if isLoop then { s.2 with inLoop := s.2.inLoop + 1 } else s.2) :=
      hr.withAnalyser (by split <;> rfl) (by split <;> rfl)
        (fun arity hp => by split <;> exact hp)
    obtain ⟨s1, hs1, hr1⟩ := ASTBlock.analyseBlock_defined HS HD block _ hr0 hw
    obtain ⟨s2, hs2, hr2⟩ := MFFunctionAnalyser.popScope_defined ops block s1 hr1 hw
    refine ⟨(s2.1, if isLoop then { s2.2 with inLoop := s2.2.inLoop - 1 } else s2.2), ?_, ?_⟩
    · simp only [MFStmt.analyseMemoryFlow, hs1, Option.some_bind, hs2, Option.map_some']
    · exact hr2.withAnalyser (by split <;> rfl) (by split <;> rfl)
        (fun arity hp => by split <;> exact hp)
theorem ASTBlock.analyseBlock_defined
    {analyse : MFProgram τ → Nat → Option (MFProgram τ)} {ar : List Nat} {f vc k : Nat}
    (HS : ∀ p g q, analyse p g = some q → MFProgram.Stays p q)
    (HD : ∀ p g, MFProgram.WellFormedFor ar p → g < ar.length → p.pending ≤ k →
      ∃ q, analyse p g = some q ∧ q.WellFormedFor ar) :
    ∀ (block : ASTBlock (MFStmt τ)) (s : MFProgram τ × MFFunctionAnalyser τ),
      MFFunctionAnalyser.Ready ar f vc k s → block.wellFormed ar vc = true →
      ∃ t, block.analyseMemoryFlow ops analyse s = some t ∧ MFFunctionAnalyser.Ready ar f vc k t
  | ⟨stmts, returnedCertainly, stop, _, _⟩, s, hr, hw => by
    simp only [ASTBlock.wellFormed, Bool.and_eq_true, decide_eq_true_eq, Bool.or_eq_true,
      Bool.not_eq_true'] at hw
    obtain ⟨⟨⟨hall, _⟩, _⟩, hstop⟩ := hw
    simp only [ASTBlock.analyseMemoryFlow]
    apply MFStmt.analyseStatements_defined HS HD stmts _ s hr hall
    cases returnedCertainly with
    | false => simp
    | true =>
      have hs : 1 ≤ stop ∧ stop ≤ stmts.length := by simpa using hstop
      simpa using hs.2
theorem MFStmt.analyseStatements_defined
    {analyse : MFProgram τ → Nat → Option (MFProgram τ)} {ar : List Nat} {f vc k : Nat}
    (HS : ∀ p g q, analyse p g = some q → MFProgram.Stays p q)
    (HD : ∀ p g, MFProgram.WellFormedFor ar p → g < ar.length → p.pending ≤ k →
      ∃ q, analyse p g = some q ∧ q.WellFormedFor ar) :
    ∀ (stmts : List (MFStmt τ)) (stop : Nat) (s : MFProgram τ × MFFunctionAnalyser τ),
      MFFunctionAnalyser.Ready ar f vc k s → MFStmt.allWellFormed ar vc stmts = true →
      stop ≤ stmts.length →
      ∃ t, MFStmt.analyseStatements ops analyse stmts stop s = some t ∧
        MFFunctionAnalyser.Ready ar f vc k t
  | [], 0, s, hr, _, _ => ⟨s, by simp only [MFStmt.analyseStatements], hr⟩
  | _ :: _, 0, s, hr, _, _ => ⟨s, by simp only [MFStmt.analyseStatements], hr⟩
  | [], _ + 1, s, _, _, hlen => by simp at hlen
  | stmt :: rest, stop + 1, s, hr, hw, hlen => by
    simp only [MFStmt.allWellFormed, Bool.and_eq_true] at hw
    simp only [List.length_cons, Nat.add_le_add_iff_right] at hlen
    obtain ⟨s1, hs1, hr1⟩ := MFStmt.analyseStatement_defined HS HD stmt s hr hw.1
    obtain ⟨t, ht, hrt⟩ := MFStmt.analyseStatements_defined HS HD rest stop s1 hr1 hw.2 hlen
    exact ⟨t, by simp only [MFStmt.analyseStatements, hs1, Option.some_bind, ht], hrt⟩
end

end DefinednessOfStatements

section DefinednessOfAnalyses

variable {τ κ : Type} (ops : TypeOps τ κ)

theorem MFFunctionAnalyser.checkMFPromises_defined
    {analyse : MFProgram τ → Nat → Option (MFProgram τ)} {ar : List Nat} {f vc k : Nat}
    (HS : ∀ p g q, analyse p g = some q → MFProgram.Stays p q)
    (HD : ∀ p g, MFProgram.WellFormedFor ar p → g < ar.length → p.pending ≤ k →
      ∃ q, analyse p g = some q ∧ q.WellFormedFor ar)
    (s : MFProgram τ × MFFunctionAnalyser τ) (hr : MFFunctionAnalyser.Ready ar f vc k s) :
    ∃ q, MFFunctionAnalyser.checkMFPromises analyse s = some q ∧ q.WellFormedFor ar := by
  obtain ⟨hwf, hk, hf, hl, arity, harity, hpb⟩ := hr
  obtain ⟨fn, hfn, hlen, hfwf⟩ := hwf.function_at harity
  unfold MFFunctionAnalyser.checkMFPromises
  rw [hf]
  simp only [hfn]
  by_cases hde : fn.functionType = FunctionType.Deinitializer
  · rw [if_pos hde]
    refine ⟨_, rfl, ?_⟩
    split
    · exact hwf.of_functions_unchanged rfl
    · exact hwf
  · rw [if_neg hde]
    by_cases hclass : fn.ownerIsClass = true
    · rw [if_pos hclass]
      cases hsuper : fn.superFunction with
      | none => exact ⟨_, rfl, hwf⟩
      | some super =>
        simp only
        simp only [Function.wellFormed, hsuper, Bool.and_eq_true, decide_eq_true_eq] at hfwf
        obtain ⟨_, hsup⟩ := hfwf
        cases hsa : ar[super]? with
        | none => simp [hsa] at hsup
        | some superArity =>
          have hle : superArity ≤ fn.parameters.length := by simpa [hsa] using hsup
          obtain ⟨p1, hp1, hwf1, _⟩ := MFFunctionAnalyser.analyseIfNecessary_defined HS HD hwf hk
            (getElem?_lt_length hsa)
          obtain ⟨fn1, hfn1, hlen1, _⟩ := hwf1.function_at harity
          obtain ⟨superFn, hsfn, hslen, _⟩ := hwf1.function_at hsa
          obtain ⟨q, hq, hqf, _⟩ := checkParameterPromises_errors fn1.parameters
            superFn.parameters
            (if !fn1.memoryFlowTypeForThis.fulfillsPromise superFn.memoryFlowTypeForThis then
              p1.error ⟨fn1.position, ["Function lets this context escape, which "
                ++ "violates the overridden function’s promise."], []⟩
            else p1) (by omega)
          refine ⟨q, ?_, hwf1.of_functions_unchanged ?_⟩
          · simp only [hp1, Option.some_bind, hfn1, hsfn]
            exact hq
          · rw [hqf]
            split <;> rfl
    · rw [if_neg hclass]
      exact ⟨_, rfl, hwf⟩

theorem MFFunctionAnalyser.declareParameters_defined :
    ∀ (params : List (Parameter τ)) (i : Nat) (a : MFFunctionAnalyser τ),
      i + params.length ≤ a.scope.length →
      ∃ b, MFFunctionAnalyser.declareParameters params i a = some b ∧
        b.function = a.function ∧ b.scope.length = a.scope.length ∧
        ∀ arity, i + params.length ≤ arity →
          MFFunctionAnalyser.ParametersBelow arity a.scope →
          MFFunctionAnalyser.ParametersBelow arity b.scope
  | [], i, a, _ => ⟨a, rfl, rfl, rfl, fun _ _ h => h⟩
  | param :: rest, i, a, h => by
    simp only [List.length_cons] at h
    obtain ⟨var, hvar⟩ := exists_getElem?_of_lt (by omega : i < a.scope.length)
    let var1 : MFLocalVariable τ := { var with isParam := true, param := i, type := param.type }
    obtain ⟨b, hb, hf, hl, hp⟩ := MFFunctionAnalyser.declareParameters_defined rest (i + 1)
      { a with scope := a.scope.set i var1 }
      (by simp only [List.length_set]; omega)
    refine ⟨b, ?_, hf, by rw [hl]; simp, fun arity harity hpa => ?_⟩
    · simp only [MFFunctionAnalyser.declareParameters, hvar, hb]
    · simp only [List.length_cons] at harity
      apply hp arity (by omega)
      intro j v hj hv
      by_cases hji : j = i
      · subst hji
        simp only [List.getElem?_set_self (getElem?_lt_length hvar), Option.some.injEq] at hj
        subst hj
        simp only
        omega
      · simp only [List.getElem?_set_ne (Ne.symm hji)] at hj
        exact hpa j v hj hv

theorem MFFunctionAnalyser.analyseWith_defined (defaultVariable : MFLocalVariable τ)
    (hdefault : defaultVariable.isParam = false)
    {analyse : MFProgram τ → Nat → Option (MFProgram τ)} {ar : List Nat} {k : Nat}
    (HS : ∀ p g q, analyse p g = some q → MFProgram.Stays p q)
    (HD : ∀ p g, MFProgram.WellFormedFor ar p → g < ar.length → p.pending ≤ k →
      ∃ q, analyse p g = some q ∧ q.WellFormedFor ar)
    (p : MFProgram τ) (f : Nat) (hwf : p.WellFormedFor ar) (hf : f < ar.length)
    (hk : p.pending ≤ k + 1) :
    ∃ q, MFFunctionAnalyser.analyseWith ops defaultVariable analyse p f = some q ∧
      q.WellFormedFor ar := by
  obtain ⟨fn, hfn, harity, hfwf⟩ := hwf.function_below hf
  unfold MFFunctionAnalyser.analyseWith
  simp only [hfn]
  by_cases hu : fn.memoryFlowTypeForThis.isUnknown = true
  · rw [if_neg (by simp [hu])]
    obtain ⟨p1, hp1, hwf1⟩ := MFProgram.setMemoryFlowTypeForThis_defined hwf hf
      MFFlowCategory.Escaping
    have hpend := MFProgram.pending_of_setEscaping hfn hu hp1
    simp only [Function.wellFormed, Bool.and_eq_true, decide_eq_true_eq] at hfwf
    obtain ⟨⟨hpv, hast⟩, _⟩ := hfwf
    obtain ⟨a1, ha1, haf, hal, hap⟩ := MFFunctionAnalyser.declareParameters_defined
      fn.parameters 0 ⟨f, List.replicate fn.variableCount defaultVariable, false, 0⟩
      (by simp only [List.length_replicate]; omega)
    have hr1 : MFFunctionAnalyser.Ready ar f fn.variableCount k (p1, a1) := by
      refine ⟨hwf1, by show p1.pending ≤ k; omega, haf, by rw [hal]; simp,
        fn.parameters.length, harity, ?_⟩
      apply hap _ (by omega)
      intro j v hj hv
      have hmem : v ∈ List.replicate fn.variableCount defaultVariable :=
        List.mem_iff_getElem?.mpr ⟨j, hj⟩
      rw [List.eq_of_mem_replicate hmem, hdefault] at hv
      cases hv
    obtain ⟨s2, hs2, hr2⟩ := ASTBlock.analyseBlock_defined ops HS HD fn.ast (p1, a1) hr1 hast
    obtain ⟨p3, hp3, hwf3⟩ := MFProgram.setMemoryFlowTypeForThis_defined hr2.1 hf
      (if s2.2.thisEscapes then MFFlowCategory.Escaping else MFFlowCategory.Borrowing)
    have hpend3 : p3.pending ≤ s2.1.pending :=
      MFProgram.pending_of_setKnown (by split <;> rfl) hp3
    have hr3 : MFFunctionAnalyser.Ready ar f fn.variableCount k (p3, s2.2) :=
      hr2.withProgram hwf3 hpend3
    obtain ⟨s4, hs4, hr4⟩ := MFFunctionAnalyser.popScope_defined ops fn.ast (p3, s2.2) hr3 hast
    obtain ⟨q, hq, hwfq⟩ := MFFunctionAnalyser.checkMFPromises_defined HS HD s4 hr4
    exact ⟨q, by simp only [hp1, Option.some_bind, ha1, hs2, hp3, hs4, hq], hwfq⟩
  · rw [if_pos (by simpa using hu)]
    exact ⟨p, rfl, hwf⟩

/-- On a well-formed compilation, with a default variable that is not a parameter, the
analysis of any of its functions returns whenever its budget is at least the number of
functions not analysed yet; the compilation it returns is well-formed, with the same
arities. -/
theorem MFFunctionAnalyser.analyse_defined (defaultVariable : MFLocalVariable τ)
    (hdefault : defaultVariable.isParam = false) {ar : List Nat} :
    ∀ (fuel : Nat) (p : MFProgram τ) (f : Nat), p.WellFormedFor ar → f < ar.length →
      p.pending ≤ fuel →
      ∃ q, MFFunctionAnalyser.analyse ops defaultVariable fuel p f = some q ∧
        q.WellFormedFor ar
  | 0, p, f, hwf, hf, hk => by
    obtain ⟨fn, hfn, _, _⟩ := hwf.function_below hf
    have hu : fn.memoryFlowTypeForThis.isUnknown = false := by
      cases h : fn.memoryFlowTypeForThis.isUnknown with
      | false => rfl
      | true =>
        have := MFProgram.pending_pos hfn h
        omega
    exact ⟨p, MFFunctionAnalyser.analyse_of_analysed ops defaultVariable 0 p f ⟨fn, hfn, hu⟩, hwf⟩
  | fuel + 1, p, f, hwf, hf, hk => by
    simp only [MFFunctionAnalyser.analyse]
    exact MFFunctionAnalyser.analyseWith_defined ops defaultVariable hdefault
      (fun p1 g q hq => MFFunctionAnalyser.analyse_stays ops defaultVariable fuel p1 g q hq)
      (fun p1 g hwf1 hg hk1 =>
        MFFunctionAnalyser.analyse_defined defaultVariable hdefault fuel p1 g hwf1 hg hk1)
      p f hwf hf hk

end DefinednessOfAnalyses

section DefinednessOfCompilations

variable {τ κ : Type} (ops : TypeOps τ κ)

theorem MFFunctionAnalyser.analyseAll_defined (defaultVariable : MFLocalVariable τ)
    (hdefault : defaultVariable.isParam = false) {ar : List Nat} :
    ∀ (analyses : List (Nat × Nat)) (p : MFProgram τ), p.WellFormedFor ar →
      (∀ x ∈ analyses, p.pending ≤ x.1 ∧ x.2 < ar.length) →
      ∃ q, MFFunctionAnalyser.analyseAll ops defaultVariable analyses p = some q ∧
        q.WellFormedFor ar ∧ q.pending ≤ p.pending
  | [], p, hwf, _ => ⟨p, rfl, hwf, le_refl _⟩
  | (fuel, g) :: rest, p, hwf, h => by
    obtain ⟨hfuel, hg⟩ := h (fuel, g) (List.mem_cons_self _ _)
    obtain ⟨p1, hp1, hwf1⟩ := MFFunctionAnalyser.analyse_defined ops defaultVariable hdefault
      fuel p g hwf hg hfuel
    have hle := MFProgram.pending_le_of_stays
      (MFFunctionAnalyser.analyse_stays ops defaultVariable fuel p g p1 hp1)
    obtain ⟨q, hq, hwfq, hleq⟩ := MFFunctionAnalyser.analyseAll_defined defaultVariable hdefault
      rest p1 hwf1 (fun x hx => ⟨Nat.le_trans hle (h x (List.mem_cons_of_mem _ hx)).1,
        (h x (List.mem_cons_of_mem _ hx)).2⟩)
    exact ⟨q, by simp only [MFFunctionAnalyser.analyseAll, hp1, Option.some_bind, hq], hwfq,
      Nat.le_trans hleq hle⟩

end DefinednessOfCompilations

section TerminationClaims

variable {τ κ : Type} (ops : TypeOps τ κ)

/-- C38: on every well-formed compilation (no function of it names a function, variable or
parameter that is not there), whatever the calls between its functions and with a default
variable that is not a parameter, `MFFunctionAnalyser::analyse` returns for each of its
functions: every budget of at least the number of functions not analysed yet gives a
result, the same for all such budgets, so the recursion through call sites, closures and
overridden functions ends.  The result is a well-formed compilation in which the function
is analysed, with no more functions left to analyse than before and with every function
analysed before exactly as it was; and every sequence of further analyses, each with such
a budget, returns as well.  A body is walked only when the function is still unknown; its
category for this is then set to Escaping, which is not unknown, before the body is
walked, and this takes one from the number of functions not analysed; `analyse` on an
analysed function returns at once and changes nothing.  So no body is walked twice.  The
escape facts recorded on the way only ever change to escaping: `recordThis` never
clears `thisEscapes_` and `recordVariableGet` leaves an escaping variable escaping. -/
theorem analyse_terminates_and_walks_each_body_at_most_once
    (defaultVariable : MFLocalVariable τ) (p : MFProgram τ) (f : Nat)
    (hwf : p.wellFormed = true) (hdefault : defaultVariable.isParam = false)
    (hf : f < p.functions.length) :
    (∀ fuel, p.pending ≤ fuel →
      ∃ q, MFFunctionAnalyser.analyse ops defaultVariable fuel p f = some q ∧
        MFFunctionAnalyser.analyse ops defaultVariable p.pending p f = some q ∧
        q.wellFormed = true ∧ q.functions.length = p.functions.length ∧
        q.analysed f ∧ q.pending ≤ p.pending ∧
        (∀ g, p.analysed g → q.analysed g ∧ q.functions[g]? = p.functions[g]?) ∧
        (∀ fuel2 g, q.analysed g →
          MFFunctionAnalyser.analyse ops defaultVariable fuel2 q g = some q) ∧
        ∀ analyses : List (Nat × Nat),
          (∀ x ∈ analyses, q.pending ≤ x.1 ∧ x.2 < q.functions.length) →
          ∃ r, MFFunctionAnalyser.analyseAll ops defaultVariable analyses q = some r) ∧
    (∀ fn, p.functions[f]? = some fn → fn.memoryFlowTypeForThis.isUnknown = true →
      ∃ p1, p.setMemoryFlowTypeForThis f MFFlowCategory.Escaping = some p1 ∧ p1.analysed f ∧
        p1.pending + 1 = p.pending) ∧
    (∀ fuel q, MFFunctionAnalyser.analyse ops defaultVariable fuel p f = some q →
      q.analysed f ∧ q.pending ≤ p.pending ∧
      (∀ g, p.analysed g → q.analysed g ∧ q.functions[g]? = p.functions[g]?) ∧
      ∀ fuel2 g, q.analysed g →
        MFFunctionAnalyser.analyse ops defaultVariable fuel2 q g = some q) ∧
    (∀ (a : MFFunctionAnalyser τ) (c : MFFlowCategory),
      a.thisEscapes = true → (a.recordThis c).thisEscapes = true) ∧
    (∀ (a b : MFFunctionAnalyser τ) (id : Nat) (c : MFFlowCategory),
      a.recordVariableGet ops id c = some b →
      ∀ (j : Nat) (var : MFLocalVariable τ), a.scope[j]? = some var →
        var.flowCategory.isEscaping = true →
        ∃ var1, b.scope[j]? = some var1 ∧ var1.flowCategory.isEscaping = true) := by
  have hwff := MFProgram.wellFormedFor_of_wellFormed hwf
  have hfar : f < p.arities.length := by rw [← hwff.length_eq]; exact hf
  have hafter : ∀ fuel q, MFFunctionAnalyser.analyse ops defaultVariable fuel p f = some q →
      q.analysed f ∧ q.pending ≤ p.pending ∧
      (∀ g, p.analysed g → q.analysed g ∧ q.functions[g]? = p.functions[g]?) ∧
      ∀ fuel2 g, q.analysed g →
        MFFunctionAnalyser.analyse ops defaultVariable fuel2 q g = some q := by
    intro fuel q h
    obtain ⟨hkeep, hdone⟩ := MFFunctionAnalyser.analyse_keeps ops defaultVariable fuel p f q h
    refine ⟨hdone, MFProgram.pending_le_of_stays
      (MFFunctionAnalyser.analyse_stays ops defaultVariable fuel p f q h), ?_, ?_⟩
    · intro g hg
      exact ⟨MFProgram.analysed_of_eq (hkeep g hg) hg, hkeep g hg⟩
    · intro fuel2 g hg
      exact MFFunctionAnalyser.analyse_of_analysed ops defaultVariable fuel2 q g hg
  refine ⟨?_, ?_, hafter, ?_, ?_⟩
  · intro fuel hfuel
    obtain ⟨q, hq, hwfq⟩ := MFFunctionAnalyser.analyse_defined ops defaultVariable hdefault
      fuel p f hwff hfar hfuel
    have hsame := MFFunctionAnalyser.analyse_budget_irrelevant ops defaultVariable p.pending fuel
      p.pending p f (Nat.le_refl _) hfuel (Nat.le_refl _)
    obtain ⟨h1, h2, h3, h4⟩ := hafter fuel q hq
    refine ⟨q, hq, by rw [← hsame]; exact hq, hwfq.toWellFormed,
      by rw [hwfq.length_eq, hwff.length_eq], h1, h2, h3, h4, ?_⟩
    intro analyses hall
    obtain ⟨r, hr, _⟩ := MFFunctionAnalyser.analyseAll_defined ops defaultVariable hdefault
      analyses q hwfq (fun x hx => ⟨(hall x hx).1, by
        rw [← hwfq.length_eq]; exact (hall x hx).2⟩)
    exact ⟨r, hr⟩
  · intro fn hfn hu
    cases hq : p.setMemoryFlowTypeForThis f MFFlowCategory.Escaping with
    | none => simp [MFProgram.setMemoryFlowTypeForThis, hfn] at hq
    | some p1 =>
      obtain ⟨-, fn1, hfn1, hc1⟩ := MFProgram.setMemoryFlowTypeForThis_keeps hq
      exact ⟨p1, rfl, ⟨fn1, hfn1, by rw [hc1]; rfl⟩, MFProgram.pending_of_setEscaping hfn hu hq⟩
  · intro a c ha
    unfold MFFunctionAnalyser.recordThis
    split
    · rfl
    · exact ha
  · intro a b id c h
    exact MFFunctionAnalyser.recordVariableGet_keeps_escaping ops h

/-- Witness for C38: the sample compilation, whose two methods call each other, is
well-formed; the analysis of method 0 returns with the budget 2, the number of its
functions, and with the budget 5, with the same result, in which method 0 is analysed. -/
theorem analyse_terminates_and_walks_each_body_at_most_once_witness :
    sampleProgram.wellFormed = true ∧ sampleProgram.pending = 2 ∧
    ∃ q, MFFunctionAnalyser.analyse sampleOps sampleVariable 5 sampleProgram 0 = some q ∧
      MFFunctionAnalyser.analyse sampleOps sampleVariable sampleProgram.pending sampleProgram 0
        = some q ∧
      q.analysed 0 :=
  have h := (analyse_terminates_and_walks_each_body_at_most_once sampleOps sampleVariable
    sampleProgram 0 (by decide) rfl (by decide)).1 5 (by decide)
  ⟨by decide, by decide, h.elim fun q hq => ⟨q, hq.1, hq.2.1, hq.2.2.2.2.1⟩⟩

end TerminationClaims

end EmojicodeCompiler
